import Mathlib

/-!
Gravity bridge: Ethereum address, denom codec, ERC20 token value, wire format
of batches and the outgoing transfer pool

A shallow embedding of `module/x/gravity/types/ethereum.go` and of the encoder
of `module/x/gravity/types/batch.pb.go`, a model of the outgoing transfer pool
after the design document, and the properties that the design document states
of them.

Go values are modelled as follows.

* A Go `string` is an immutable sequence of bytes: `GoString := List UInt8`.
  `len(s)` is `List.length`.
* A Go `error` result is `Option Err`, `none` being `nil`.
* A Go pointer that may be `nil` is an `Option`.
* A result pair `(*T, error)` is the pair `Option T × Option Err`.
* `sdk.Int` is an integer of unbounded width (`Int`) whose arithmetic panics
  when a result leaves the permitted range.
* A function that may panic returns `Except Panic _`.
-/

namespace Gravity

/-! ## Go strings -/

/-- A Go string: a sequence of bytes. -/
abbrev GoString := List UInt8

/-- The byte of an ASCII character. -/
def byte (c : Char) : UInt8 := c.toNat.toUInt8

/-- The Go string written as an ASCII literal. -/
def ascii (s : String) : GoString := s.data.map byte

/-- Go `strings.HasPrefix(s, p)`: `len(s) >= len(p) && s[0:len(p)] == p`. -/
def HasPrefix (s p : GoString) : Bool :=
  decide (p.length ≤ s.length) && (s.take p.length == p)

/-- Go `strings.TrimPrefix(s, p)`: `s[len(p):]` when `s` starts with `p`, else `s`. -/
def TrimPrefix (s p : GoString) : GoString :=
  if HasPrefix s p then s.drop p.length else s

/-- Go `bytes.Compare(a, b)`: lexicographic comparison of byte slices, giving
`-1`, `0` or `1`. -/
def bytesCompare : List UInt8 → List UInt8 → Int
  | [], [] => 0
  | [], _ :: _ => -1
  | _ :: _, [] => 1
  | a :: as, b :: bs =>
    if a.toNat < b.toNat then -1
    else if b.toNat < a.toNat then 1
    else bytesCompare as bs

/-! ## Regular expressions

The fragment of Go `regexp` syntax used by the source: the assertions `^` and
`$` (without the multi-line flag: beginning and end of the text), literal
characters, character classes given by ranges, concatenation and the counted
repetition `r{n}`.  The matcher runs in continuation-passing style over the
rest of the input and a flag saying whether the current position is the
beginning of the text.  It steps byte by byte; for patterns that only accept
ASCII characters, as here, this agrees with Go stepping rune by rune, since a
byte `≥ 0x80` is never (part of) an ASCII rune.
-/

/-- Regular expression syntax. -/
inductive Regexp where
  | beginText
  | endText
  | lit (c : UInt8)
  | cls (ranges : List (UInt8 × UInt8))
  | cat (r s : Regexp)
  | rep (r : Regexp) (n : Nat)

/-- A continuation: what remains to be matched, given whether we are still at
the beginning of the text and the rest of the input. -/
abbrev Cont := Bool → GoString → Bool

/-- Membership of a byte in a character class. -/
def inClass (ranges : List (UInt8 × UInt8)) (b : UInt8) : Bool :=
  ranges.any (fun r => decide (r.1.toNat ≤ b.toNat) && decide (b.toNat ≤ r.2.toNat))

/-- Run a matcher `n` times in sequence. -/
def iterate (m : Cont → Cont) : Nat → Cont → Cont
  | 0, k => k
  | n + 1, k => m (iterate m n k)

/-- Match `r` at the current position, then continue with `k`. -/
def Regexp.step : Regexp → Cont → Cont
  | .beginText, k => fun atStart s => atStart && k atStart s
  | .endText, k => fun atStart s => s.isEmpty && k atStart s
  | .lit c, k => fun _ s =>
    match s with
    | [] => false
    | b :: t => (b == c) && k false t
  | .cls ranges, k => fun _ s =>
    match s with
    | [] => false
    | b :: t => inClass ranges b && k false t
  | .cat r s, k => r.step (s.step k)
  | .rep r n, k => iterate r.step n k

/-- Go `re.MatchString(s)`: whether `s` contains a match of `re`, starting at
any position. -/
def MatchString (re : Regexp) (s : GoString) : Bool :=
  (List.range (s.length + 1)).any
    (fun i => re.step (fun _ _ => true) (i == 0) (s.drop i))

/-- The parse of the pattern `^0x[0-9a-fA-F]{40}$`. -/
def ethAddressRegexp : Regexp :=
  .cat .beginText
    (.cat (.lit (byte '0'))
      (.cat (.lit (byte 'x'))
        (.cat (.rep (.cls [(byte '0', byte '9'), (byte 'a', byte 'f'), (byte 'A', byte 'F')]) 40)
          .endText)))

/-! ## Constants -/

/-- Modelled from the spec: the constant `ModuleName` of `types/keys.go`, which
is not among the sources; the design document gives the denom prefix as `gravity`. -/
def ModuleName : GoString := ascii "gravity"

/-- GravityDenomPrefix indicates the prefix for all assets minted by this module. -/
def GravityDenomPrefix : GoString := ModuleName

/-- GravityDenomSeparator is the separator for gravity denoms. -/
def GravityDenomSeparator : GoString := ascii ""

/-- ETHContractAddressLen is the length of contract address strings. -/
def ETHContractAddressLen : Nat := 42

/-- GravityDenomLen is the length of the denoms generated by the gravity module. -/
def GravityDenomLen : Nat :=
  GravityDenomPrefix.length + GravityDenomSeparator.length + ETHContractAddressLen

/-! ## Errors -/

/-- The errors built by `ethereum.go`, one constructor per construction site. -/
inductive Err where
  -- `fmt.Errorf("empty")`
  | empty
  -- `fmt.Errorf("address(%s) doesn't pass regex", ...)`
  | regex (address : GoString)
  -- `fmt.Errorf("address(%s) of the wrong length exp(%d) actual(%d)", ...)`
  | wrongLength (address : GoString) (len : Nat) (expected : Nat)
  -- `sdkerrors.Wrap(err, msg)`
  | wrap (err : Err) (msg : String)
  -- `fmt.Errorf("denom prefix(%s) not equal to expected(%s)", ...)`
  | denomPrefix (denom : GoString) (expected : GoString)
  -- `fmt.Errorf("error(%s) validating ethereum contract address", err)`
  | contractAddress (err : Err)
  -- `fmt.Errorf("len(denom)(%d) not equal to GravityDenomLen(%d)", ...)`
  | denomLen (len : Nat) (expected : Nat)
  -- `fmt.Errorf("nil value")`
  | nilValue
  deriving DecidableEq, Repr

/-! ## EthAddress -/

/-- The message type `EthAddress`: a struct with the single field `Address string`. -/
structure EthAddress where
  Address : GoString
  deriving DecidableEq, Repr

/-- The method `EthAddress.ValidateBasic`. -/
def EthAddress.ValidateBasic (ea : EthAddress) : Option Err :=
  if ea.Address = [] then
    some .empty
  else if !MatchString ethAddressRegexp ea.Address then
    some (.regex ea.Address)
  else if ea.Address.length ≠ ETHContractAddressLen then
    some (.wrongLength ea.Address ea.Address.length ETHContractAddressLen)
  else
    none

/-- The constructor `NewEthAddress`. -/
def NewEthAddress (address : GoString) : Option EthAddress × Option Err :=
  let addr : EthAddress := ⟨address⟩
  match addr.ValidateBasic with
  | some err => (none, some (.wrap err "invalid input address"))
  | none => (some addr, none)

/-- EthAddrLessThan migrates the Ethereum address less than function. -/
def EthAddrLessThan (e o : EthAddress) : Bool :=
  bytesCompare e.Address o.Address == -1

/-! ## Denom codec -/

/-- The function `GravityDenom`: `fmt.Sprintf("%s%s%s", prefix, separator, address)`. -/
def GravityDenom (tokenContract : EthAddress) : GoString :=
  GravityDenomPrefix ++ GravityDenomSeparator ++ tokenContract.Address

/-- The function `GravityDenomToERC20`. -/
def GravityDenomToERC20 (denom : GoString) : Option EthAddress × Option Err :=
  let fullPrefix := GravityDenomPrefix ++ GravityDenomSeparator
  if ! HasPrefix denom fullPrefix then
    (none, some (.denomPrefix denom fullPrefix))
  else
    match NewEthAddress ( TrimPrefix denom fullPrefix) with
    | (_, some err) => (none, some (.contractAddress err))
    | (contract, none) =>
      if denom.length ≠ GravityDenomLen then
        (none, some (.denomLen denom.length GravityDenomLen))
      else
        (contract, none)

/-! ## ERC20Token -/

/-- The ways in which the code can panic. -/
inductive Panic where
  -- dereference of a nil pointer
  | nilDereference
  -- `panic("invalid contract address")`
  | invalidContractAddress
  -- `panic("invalid amount")`
  | invalidAmount
  -- `panic("Int overflow")` inside `sdk.Int`
  | intOverflow
  -- `panic(err)` inside `sdk.NewCoin`, when the coin does not validate
  | invalidCoin
  -- index out of range in a slice expression or an indexed write
  | indexOutOfRange
  deriving DecidableEq, Repr

/-- The widest `sdk.Int` in bits; a result wider than this is an overflow
(the design document: overflow past `2^256 − 1` is an error). -/
def maxBitLen : Nat := 256

/-- The cosmos-sdk `Int.Add`: exact addition, panicking when the bit length of
the result exceeds `maxBitLen`. -/
def sdkIntAdd (a b : Int) : Except Panic Int :=
  if 2 ^ maxBitLen ≤ (a + b).natAbs then .error .intOverflow else .ok (a + b)

/-- Go `big.Int.IsUint64`: whether the value is representable as a `uint64`. -/
def IsUint64 (x : Int) : Bool :=
  decide (0 ≤ x) && decide (x < 2 ^ 64)

/-- Go `big.Int.Uint64`: the low 64 bits of the magnitude. -/
def Uint64 (x : Int) : Nat :=
  x.natAbs % 2 ^ 64

/-- The message type `ERC20Token`: `Amount sdk.Int` and `Contract *EthAddress`. -/
structure ERC20Token where
  Amount : Int
  Contract : Option EthAddress
  deriving DecidableEq, Repr

/-- NewERC20Token returns a new instance of an ERC20; `amount` is a `uint64`. -/
def NewERC20Token (amount : Nat) (contract : EthAddress) : ERC20Token :=
  { Amount := Int.ofNat (amount % 2 ^ 64), Contract := some contract }

/-- The constructor `NewSDKIntERC20Token`. -/
def NewSDKIntERC20Token (amount : Int) (contract : EthAddress) : ERC20Token :=
  { Amount := amount, Contract := some contract }

/-- Add adds one ERC20 to another. -/
def ERC20Token.Add (e o : ERC20Token) : Except Panic ERC20Token :=
  match e.Contract, o.Contract with
  | none, _ => .error .nilDereference
  | some _, none => .error .nilDereference
  | some ec, some oc =>
    if ec.Address ≠ oc.Address then
      .error .invalidContractAddress
    else
      match sdkIntAdd e.Amount o.Amount with
      | .error p => .error p
      | .ok sum =>
        if !IsUint64 sum then
          .error .invalidAmount
        else
          .ok (NewERC20Token (Uint64 sum) ec)

/-! ## Specification-side predicates -/

/-- A hexadecimal digit: one of `0-9`, `a-f`, `A-F`. -/
def IsHexDigit (b : UInt8) : Prop :=
  (48 ≤ b.toNat ∧ b.toNat ≤ 57) ∨ (97 ≤ b.toNat ∧ b.toNat ≤ 102) ∨
    (65 ≤ b.toNat ∧ b.toNat ≤ 70)

instance (b : UInt8) : Decidable (IsHexDigit b) := by
  unfold IsHexDigit; infer_instance

/-- The strings described by `^0x[0-9a-fA-F]{40}$`: the two characters `0x`
followed by exactly 40 hexadecimal digits. -/
def IsEthAddressString (s : GoString) : Prop :=
  ∃ hs : List UInt8, s = byte '0' :: byte 'x' :: hs ∧ hs.length = 40 ∧ ∀ b ∈ hs, IsHexDigit b

/-- The value of a hexadecimal digit, in either letter case. -/
def specHexVal (b : UInt8) : Nat :=
  if 48 ≤ b.toNat ∧ b.toNat ≤ 57 then b.toNat - 48
  else if 97 ≤ b.toNat ∧ b.toNat ≤ 102 then b.toNat - 87
  else if 65 ≤ b.toNat ∧ b.toNat ≤ 70 then b.toNat - 55
  else 0

/-- Bytes from hexadecimal digit values, two digits to the byte, high digit first. -/
def specPairBytes : List Nat → List Nat
  | hi :: lo :: t => (16 * hi + lo) :: specPairBytes t
  | _ => []

/-- The raw bytes denoted by an address string: the hexadecimal decoding of what
follows the two characters `0x`. -/
def specRawBytes (s : GoString) : List Nat :=
  specPairBytes ((s.drop 2).map specHexVal)

/-- Lexicographic order on byte sequences. -/
def specLexLess : List Nat → List Nat → Bool
  | [], [] => false
  | [], _ :: _ => true
  | _ :: _, [] => false
  | a :: as, b :: bs => decide (a < b) || (decide (a = b) && specLexLess as bs)

/-- No upper-case hexadecimal letter `A-F` occurs in the string. -/
def NoUpperHex (s : GoString) : Prop :=
  ∀ b ∈ s, ¬ (65 ≤ b.toNat ∧ b.toNat ≤ 70)

/-- No lower-case hexadecimal letter `a-f` occurs in the string. -/
def NoLowerHex (s : GoString) : Prop :=
  ∀ b ∈ s, ¬ (97 ≤ b.toNat ∧ b.toNat ≤ 102)

instance (s : GoString) : Decidable (NoUpperHex s) := by
  unfold NoUpperHex; infer_instance

instance (s : GoString) : Decidable (NoLowerHex s) := by
  unfold NoLowerHex; infer_instance

/-! ## Sample values -/

/-- ZeroAddress is an EthAddress containing 0x0000000000000000000000000000000000000000. -/
def ZeroAddressString : GoString := ascii "0x0000000000000000000000000000000000000000"

/-- The function `ZeroAddress`. -/
def ZeroAddress : EthAddress := ⟨ZeroAddressString⟩

/-- The token contract of the pool tests. -/
def sampleContract : EthAddress := ⟨ascii "0x429881672B9AE42b8EbA0E26cD9C73711b891Ca5"⟩

/-- An address written with lower-case letters. -/
def lowerAddress : EthAddress := ⟨ascii "0xa000000000000000000000000000000000000000"⟩

/-- The address `lowerAddress` written with upper-case letters. -/
def upperAddress : EthAddress := ⟨ascii "0xA000000000000000000000000000000000000000"⟩

/-- An address written with upper-case letters whose first byte is `0xB0`. -/
def upperAddressB : EthAddress := ⟨ascii "0xB000000000000000000000000000000000000000"⟩

/-- An address written with lower-case letters whose first byte is `0xb0`. -/
def lowerAddressB : EthAddress := ⟨ascii "0xb000000000000000000000000000000000000000"⟩

/-! ## OptionalEthAddress -/

/-- The message type `OptionalEthAddress`: `IsNil bool` and `Optional *EthAddress`. -/
structure OptionalEthAddress where
  IsNil : Bool
  Optional : Option EthAddress
  deriving DecidableEq, Repr

/-- The method `OptionalEthAddress.Unwrap`. -/
def OptionalEthAddress.Unwrap (o : OptionalEthAddress) : Option EthAddress × Option Err :=
  if o.IsNil then
    (none, some .nilValue)
  else
    (o.Optional, none)

/-- The method `OptionalEthAddress.SetEthAddress`; the result is the receiver
after the call. -/
def OptionalEthAddress.SetEthAddress (o : OptionalEthAddress)
    (ethAddress : Option EthAddress) : OptionalEthAddress :=
  match ethAddress with
  | none => { o with IsNil := true, Optional := none }
  | some a => { o with IsNil := false, Optional := some a }

/-- The function `NilEthAddress`. -/
def NilEthAddress : OptionalEthAddress :=
  { IsNil := true, Optional := none }

/-- Creates a new OptionalEthAddress, returns any error from calling NewEthAddress. -/
def NewOptionalEthAddress (address : GoString) : Option OptionalEthAddress × Option Err :=
  match NewEthAddress address with
  | (ethAddress, err) =>
    (some { IsNil := ethAddress.isNone, Optional := ethAddress }, err)

/-! ## Validation of a token and its gravity coin -/

/-- ValidateBasic performs stateless validation. The contract is dereferenced,
so a nil contract panics. -/
def ERC20Token.ValidateBasic (e : ERC20Token) : Except Panic (Option Err) :=
  match e.Contract with
  | none => .error .nilDereference
  | some c =>
    match c.ValidateBasic with
    | some err => .ok (some (.wrap err "ethereum address"))
    | none => .ok none

/-- The cosmos-sdk type `Coin`: a denom and an amount. -/
structure Coin where
  Denom : GoString
  Amount : Int
  deriving DecidableEq, Repr

/-- The characters the cosmos-sdk allows in a denom after the first:
`a-z`, `A-Z`, `0-9` and `/ : . _ -`. -/
def isDenomChar (b : UInt8) : Bool :=
  (decide (97 ≤ b.toNat) && decide (b.toNat ≤ 122)) ||
    (decide (65 ≤ b.toNat) && decide (b.toNat ≤ 90)) ||
    (decide (48 ≤ b.toNat) && decide (b.toNat ≤ 57)) ||
    b.toNat == 47 || b.toNat == 58 || b.toNat == 46 || b.toNat == 95 || b.toNat == 45

/-- The cosmos-sdk `ValidateDenom`: the denom matches
`[a-zA-Z][a-zA-Z0-9/:._-]{2,127}` from beginning to end. -/
def sdkValidateDenom (denom : GoString) : Bool :=
  match denom with
  | [] => false
  | c :: t =>
    ((decide (97 ≤ c.toNat) && decide (c.toNat ≤ 122)) ||
        (decide (65 ≤ c.toNat) && decide (c.toNat ≤ 90))) &&
      decide (2 ≤ t.length) && decide (t.length ≤ 127) && t.all isDenomChar

/-- The cosmos-sdk `NewCoin`: builds the coin and panics when it does not
validate, that is when the denom is invalid or the amount is negative. -/
def sdkNewCoin (denom : GoString) (amount : Int) : Except Panic Coin :=
  if !sdkValidateDenom denom then .error .invalidCoin
  else if amount < 0 then .error .invalidCoin
  else .ok { Denom := denom, Amount := amount }

/-- GravityCoin returns the gravity representation of the ERC20. -/
def ERC20Token.GravityCoin (e : ERC20Token) : Except Panic Coin :=
  match e.Contract with
  | none => .error .nilDereference
  | some c => sdkNewCoin (GravityDenom c) e.Amount

/-! ## Wire format of batches (`batch.pb.go`)

A byte slice is a list of bytes.  The encoder fills a buffer backwards: it keeps
an offset `i`, the end of the part still free, lowers it and writes at it.  A
slice expression `dAtA[:i]` handed to a callee is modelled by handing over the
buffer together with the length `i` of the view.  An offset that would go below
zero makes the Go code panic at the write that follows; the model panics at the
subtraction.  Values of type `uint64` and `int` are natural numbers.
-/

/-- The message type `OutgoingTransferTx`: an individual send from gravity to ETH. -/
structure OutgoingTransferTx where
  Id : Nat
  Sender : GoString
  DestAddress : Option EthAddress
  Erc20Token : Option ERC20Token
  Erc20Fee : Option ERC20Token
  deriving DecidableEq, Repr

/-- The message type `OutgoingTxBatch`: a batch of transactions going from
gravity to ETH. `Transactions` is a slice of pointers, each of which may be nil. -/
structure OutgoingTxBatch where
  BatchNonce : Nat
  BatchTimeout : Nat
  Transactions : List (Option OutgoingTransferTx)
  TokenContract : Option EthAddress
  Block : Nat
  deriving DecidableEq, Repr

/-- The generated codecs of `EthAddress` and `ERC20Token` are in `types.pb.go`,
which is not among the sources, and are parameters here: the bytes that each
message encodes to.  Their `Size()` is the length of these bytes and their
`MarshalToSizedBuffer` writes these bytes at the end of the slice it is given. -/
structure NestedCodec where
  ethAddress : EthAddress → List UInt8
  erc20Token : ERC20Token → List UInt8

/-- The number of bits needed to represent `x`, 0 for 0, counted by halving;
the first argument bounds the recursion. -/
def lenBits : Nat → Nat → Nat
  | 0, _ => 0
  | fuel + 1, x => if x = 0 then 0 else lenBits fuel (x >>> 1) + 1

/-- Go `math/bits.Len64`: the minimum number of bits required to represent `x`;
the result is 0 for `x == 0`. The bound `x` on the recursion is always enough. -/
def Len64 (x : Nat) : Nat :=
  lenBits x x

/-- The function `sovBatch`. -/
def sovBatch (x : Nat) : Nat :=
  (Len64 (x ||| 1) + 6) / 7

/-- A step of an encoder: from the buffer and the offset to the buffer and the
offset after the step, or a panic. -/
abbrev Step := List UInt8 → Nat → Except Panic (List UInt8 × Nat)

/-- Two steps in sequence; a panic in the first ends the run. -/
def andThen (f g : Step) : Step := fun dAtA i =>
  match f dAtA i with
  | .error p => .error p
  | .ok (d, j) => g d j

/-- The guard `if v != 0 { ... }`. -/
def ifNonzero (v : Nat) (s : Step) : Step := fun dAtA i =>
  if v ≠ 0 then s dAtA i else .ok (dAtA, i)

/-- The guard `if p != nil { ... }` on a pointer field. -/
def ifPresent {α : Type} (o : Option α) (s : α → Step) : Step := fun dAtA i =>
  match o with
  | some a => s a dAtA i
  | none => .ok (dAtA, i)

/-- The indexed write `dAtA[i] = b`. -/
def setByte (dAtA : List UInt8) (i : Nat) (b : UInt8) : Except Panic (List UInt8) :=
  if i < dAtA.length then .ok (dAtA.set i b) else .error .indexOutOfRange

/-- The loop of `encodeVarintBatch` and the write after it. The first argument
bounds the number of iterations; `v + 1` is always enough, as `v` shrinks. -/
def encodeVarintLoop : Nat → List UInt8 → Nat → Nat → Except Panic (List UInt8)
  | 0, _, _, _ => .error .indexOutOfRange
  | fuel + 1, dAtA, offset, v =>
    if 1 <<< 7 ≤ v then
      match setByte dAtA offset (UInt8.ofNat (v &&& 0x7f ||| 0x80)) with
      | .error p => .error p
      | .ok d => encodeVarintLoop fuel d (offset + 1) (v >>> 7)
    else
      setByte dAtA offset (UInt8.ofNat v)

/-- The function `encodeVarintBatch`: returns the buffer and the new offset. -/
def encodeVarintBatch (dAtA : List UInt8) (offset : Nat) (v : Nat) :
    Except Panic (List UInt8 × Nat) :=
  if offset < sovBatch v then .error .indexOutOfRange
  else
    let base := offset - sovBatch v
    match encodeVarintLoop (v + 1) dAtA base v with
    | .error p => .error p
    | .ok d => .ok (d, base)

/-- The block `i--; dAtA[i] = tag`. -/
def putTag (tag : UInt8) : Step := fun dAtA i =>
  if i = 0 then .error .indexOutOfRange
  else
    match setByte dAtA (i - 1) tag with
    | .error p => .error p
    | .ok d => .ok (d, i - 1)

/-- The block of a varint field:
`i = encodeVarintBatch(dAtA, i, uint64(v)); i--; dAtA[i] = tag`. -/
def putVarintField (tag : UInt8) (v : Nat) : Step :=
  andThen (fun dAtA i => encodeVarintBatch dAtA i v) (putTag tag)

/-- Go `copy(dAtA[i:], src)`: copies as many bytes as fit; the slice expression
panics when `i` exceeds the length. -/
def copyAt (dAtA : List UInt8) (i : Nat) (src : List UInt8) : Except Panic (List UInt8) :=
  if dAtA.length < i then .error .indexOutOfRange
  else
    let n := min (dAtA.length - i) src.length
    .ok (dAtA.take i ++ src.take n ++ dAtA.drop (i + n))

/-- The `MarshalToSizedBuffer` of a nested message with encoding `enc`, called
on the view `dAtA[:i]`: writes `enc` at the end of the view and returns its
length. -/
def nestedMarshalToSizedBuffer (enc : List UInt8) (dAtA : List UInt8) (i : Nat) :
    Except Panic (List UInt8 × Nat) :=
  if dAtA.length < i then .error .indexOutOfRange
  else if i < enc.length then .error .indexOutOfRange
  else .ok (dAtA.take (i - enc.length) ++ enc ++ dAtA.drop i, enc.length)

/-- The block of a field holding a message, `marshal` being the
`MarshalToSizedBuffer` of that message:
`size, err := marshal(dAtA[:i]); i -= size; i = encodeVarintBatch(dAtA, i, uint64(size));
i--; dAtA[i] = tag`. -/
def putMessageField (tag : UInt8)
    (marshal : List UInt8 → Nat → Except Panic (List UInt8 × Nat)) : Step := fun dAtA i =>
  match marshal dAtA i with
  | .error p => .error p
  | .ok (d, size) =>
    if i < size then .error .indexOutOfRange
    else putVarintField tag size d (i - size)

/-- The block of the field `Sender`:
`i -= len(m.Sender); copy(dAtA[i:], m.Sender);
i = encodeVarintBatch(dAtA, i, uint64(len(m.Sender))); i--; dAtA[i] = 0x12`. -/
def putSender (sender : GoString) : Step := fun dAtA i =>
  if i < sender.length then .error .indexOutOfRange
  else
    match copyAt dAtA (i - sender.length) sender with
    | .error p => .error p
    | .ok d => putVarintField 0x12 sender.length d (i - sender.length)

/-- The method `OutgoingTransferTx.Size`; a nil receiver has size 0. -/
def OutgoingTransferTx.Size (nc : NestedCodec) (m : Option OutgoingTransferTx) : Nat :=
  match m with
  | none => 0
  | some m =>
    (if m.Id ≠ 0 then 1 + sovBatch m.Id else 0) +
    (if m.Sender.length > 0 then 1 + m.Sender.length + sovBatch m.Sender.length else 0) +
    (match m.DestAddress with
      | some a => 1 + (nc.ethAddress a).length + sovBatch (nc.ethAddress a).length
      | none => 0) +
    (match m.Erc20Token with
      | some t => 1 + (nc.erc20Token t).length + sovBatch (nc.erc20Token t).length
      | none => 0) +
    (match m.Erc20Fee with
      | some t => 1 + (nc.erc20Token t).length + sovBatch (nc.erc20Token t).length
      | none => 0)

/-- The body of `OutgoingTransferTx.MarshalToSizedBuffer`: the fields from the
last to the first. -/
def OutgoingTransferTx.marshalFields (nc : NestedCodec) (m : OutgoingTransferTx) : Step :=
  andThen
    (ifPresent m.Erc20Fee fun t =>
      putMessageField 0x2a (nestedMarshalToSizedBuffer (nc.erc20Token t)))
    (andThen
      (ifPresent m.Erc20Token fun t =>
        putMessageField 0x22 (nestedMarshalToSizedBuffer (nc.erc20Token t)))
      (andThen
        (ifPresent m.DestAddress fun a =>
          putMessageField 0x1a (nestedMarshalToSizedBuffer (nc.ethAddress a)))
        (andThen
          (ifNonzero m.Sender.length (putSender m.Sender))
          (ifNonzero m.Id (putVarintField 0x8 m.Id)))))

/-- The method `OutgoingTransferTx.MarshalToSizedBuffer` on the view `dAtA[:len]`:
`i := len(dAtA)`, the fields, `return len(dAtA) - i, nil`. A nil receiver panics
at its first field access. -/
def OutgoingTransferTx.MarshalToSizedBuffer (nc : NestedCodec) (m : Option OutgoingTransferTx)
    (dAtA : List UInt8) (len : Nat) : Except Panic (List UInt8 × Nat) :=
  match m with
  | none => .error .nilDereference
  | some m =>
    match OutgoingTransferTx.marshalFields nc m dAtA len with
    | .error p => .error p
    | .ok (d, i) => .ok (d, len - i)

/-- The method `OutgoingTransferTx.Marshal`. -/
def OutgoingTransferTx.Marshal (nc : NestedCodec) (m : Option OutgoingTransferTx) :
    Except Panic (List UInt8) :=
  let size := OutgoingTransferTx.Size nc m
  let dAtA := List.replicate size (0 : UInt8)
  match OutgoingTransferTx.MarshalToSizedBuffer nc m dAtA size with
  | .error p => .error p
  | .ok (d, n) => if d.length < n then .error .indexOutOfRange else .ok (d.take n)

/-- The loop over `m.Transactions`; the argument is the list in the order in
which the loop visits it, from the last transaction to the first. -/
def marshalTransactions (nc : NestedCodec) : List (Option OutgoingTransferTx) → Step
  | [] => fun dAtA i => .ok (dAtA, i)
  | tx :: rest =>
    andThen (putMessageField 0x1a (OutgoingTransferTx.MarshalToSizedBuffer nc tx))
      (marshalTransactions nc rest)

/-- The method `OutgoingTxBatch.Size`. -/
def OutgoingTxBatch.Size (nc : NestedCodec) (m : OutgoingTxBatch) : Nat :=
  (if m.BatchNonce ≠ 0 then 1 + sovBatch m.BatchNonce else 0) +
  (if m.BatchTimeout ≠ 0 then 1 + sovBatch m.BatchTimeout else 0) +
  (m.Transactions.map fun e =>
    1 + OutgoingTransferTx.Size nc e + sovBatch (OutgoingTransferTx.Size nc e)).sum +
  (match m.TokenContract with
    | some a => 1 + (nc.ethAddress a).length + sovBatch (nc.ethAddress a).length
    | none => 0) +
  (if m.Block ≠ 0 then 1 + sovBatch m.Block else 0)

/-- The body of `OutgoingTxBatch.MarshalToSizedBuffer`: the fields from the last
to the first. -/
def OutgoingTxBatch.marshalFields (nc : NestedCodec) (m : OutgoingTxBatch) : Step :=
  andThen
    (ifNonzero m.Block (putVarintField 0x28 m.Block))
    (andThen
      (ifPresent m.TokenContract fun a =>
        putMessageField 0x22 (nestedMarshalToSizedBuffer (nc.ethAddress a)))
      (andThen
        (marshalTransactions nc m.Transactions.reverse)
        (andThen
          (ifNonzero m.BatchTimeout (putVarintField 0x10 m.BatchTimeout))
          (ifNonzero m.BatchNonce (putVarintField 0x8 m.BatchNonce)))))

/-- The method `OutgoingTxBatch.MarshalToSizedBuffer` on the view `dAtA[:len]`. -/
def OutgoingTxBatch.MarshalToSizedBuffer (nc : NestedCodec) (m : OutgoingTxBatch)
    (dAtA : List UInt8) (len : Nat) : Except Panic (List UInt8 × Nat) :=
  match OutgoingTxBatch.marshalFields nc m dAtA len with
  | .error p => .error p
  | .ok (d, i) => .ok (d, len - i)

/-- The method `OutgoingTxBatch.Marshal`. -/
def OutgoingTxBatch.Marshal (nc : NestedCodec) (m : OutgoingTxBatch) :
    Except Panic (List UInt8) :=
  let size := OutgoingTxBatch.Size nc m
  let dAtA := List.replicate size (0 : UInt8)
  match OutgoingTxBatch.MarshalToSizedBuffer nc m dAtA size with
  | .error p => .error p
  | .ok (d, n) => if d.length < n then .error .indexOutOfRange else .ok (d.take n)

/-! ## Specification-side wire format -/

/-- The digits of `v` in base 128, least significant first, each but the last
with the continuation bit `0x80` set; the first argument bounds the recursion. -/
def specVarintAux : Nat → Nat → List UInt8
  | 0, _ => []
  | fuel + 1, v =>
    if v < 128 then [UInt8.ofNat v]
    else UInt8.ofNat (v % 128 + 128) :: specVarintAux fuel (v / 128)

/-- The varint of `v`. -/
def specVarint (v : Nat) : List UInt8 :=
  specVarintAux (v + 1) v

/-- A varint field: its tag and the varint of the value, omitted when the value
is zero. -/
def specVarintField (tag : UInt8) (v : Nat) : List UInt8 :=
  if v = 0 then [] else tag :: specVarint v

/-- A length-delimited field: its tag, the varint of the length and the payload. -/
def specBytesField (tag : UInt8) (payload : List UInt8) : List UInt8 :=
  tag :: specVarint payload.length ++ payload

/-- A field holding a message, omitted when the message is absent. -/
def specOptionalField {α : Type} (tag : UInt8) (o : Option α) (enc : α → List UInt8) :
    List UInt8 :=
  match o with
  | some a => specBytesField tag (enc a)
  | none => []

/-- The encoding of a transfer in ascending field-number order. -/
def specEncodeTransfer (nc : NestedCodec) (m : OutgoingTransferTx) : List UInt8 :=
  specVarintField 0x08 m.Id ++
  (if m.Sender.length = 0 then [] else specBytesField 0x12 m.Sender) ++
  specOptionalField 0x1a m.DestAddress nc.ethAddress ++
  specOptionalField 0x22 m.Erc20Token nc.erc20Token ++
  specOptionalField 0x2a m.Erc20Fee nc.erc20Token

/-- The field of one transaction of a batch. -/
def specTransactionField (nc : NestedCodec) (tx : OutgoingTransferTx) : List UInt8 :=
  specBytesField 0x1a (specEncodeTransfer nc tx)

/-- The encoding of a batch in ascending field-number order; the transactions
in list order. -/
def specEncodeBatch (nc : NestedCodec) (m : OutgoingTxBatch) : List UInt8 :=
  specVarintField 0x08 m.BatchNonce ++
  specVarintField 0x10 m.BatchTimeout ++
  (m.Transactions.map fun e => specOptionalField 0x1a e (specEncodeTransfer nc)).flatten ++
  specOptionalField 0x22 m.TokenContract nc.ethAddress ++
  specVarintField 0x28 m.Block

/-- A stand-in for the codecs of `types.pb.go`, used to evaluate examples: an
address as field 1 holding its string, a token as field 1 holding its contract. -/
def sampleCodec : NestedCodec where
  ethAddress := fun a => specBytesField 0x0a a.Address
  erc20Token := fun t =>
    match t.Contract with
    | some c => specBytesField 0x0a (specBytesField 0x0a c.Address)
    | none => []

/-- A step of the encoder that writes `bytes` just below the offset it is given
and lowers the offset by their length, whenever that many bytes are free. -/
def Writes (f : Step) (bytes : List UInt8) : Prop :=
  ∀ pre suf : List UInt8, bytes.length ≤ pre.length →
    f (pre ++ suf) pre.length =
      .ok (pre.take (pre.length - bytes.length) ++ bytes ++ suf, pre.length - bytes.length)

/-- A `MarshalToSizedBuffer` that writes `bytes` at the end of the view it is
given and returns their length, whenever that many bytes are free. -/
def WritesSized (f : List UInt8 → Nat → Except Panic (List UInt8 × Nat))
    (bytes : List UInt8) : Prop :=
  ∀ pre suf : List UInt8, bytes.length ≤ pre.length →
    f (pre ++ suf) pre.length =
      .ok (pre.take (pre.length - bytes.length) ++ bytes ++ suf, bytes.length)

/-! ## The outgoing transfer pool

The keeper that holds the pool (`AddToOutgoingPool`,
`GetUnbatchedTransactionsByContract`, `GetAllBatchFees`) is not among the
sources; only its test `pool_test.go` is.  The pool is modelled from the design
document: the data model of its section 3, the escrow adapter of 4.3, the pool
and its two indices of 4.4, the fee view of 4.7 and the key layout of section 6.
The key-value store keeps its keys in ascending byte order; a cursor over the
fee index runs through the keys of one contract in reverse byte order.
-/

/-- Modelled from the spec: the type `ContractID` of the pool, which the absent
keeper uses: a 20-byte Ethereum address. -/
structure ContractID where
  bytes : List UInt8
  size_eq : bytes.length = 20
  deriving DecidableEq

/-- Modelled from the spec: the type `TokenAmount` of the absent keeper, an
unsigned integer of unbounded width paired with a `ContractID`. -/
structure TokenAmount where
  amount : Nat
  contract : ContractID
  deriving DecidableEq

/-- Modelled from the spec: the state of a `TransferEntry` of the absent keeper,
one of Unbatched and InBatch(batch_nonce). -/
inductive EntryState where
  | Unbatched
  | InBatch (batch_nonce : Nat)
  deriving DecidableEq

/-- Modelled from the spec: the type `TransferEntry` of the absent keeper, the
unit held by the pool. -/
structure TransferEntry where
  id : Nat
  sender : GoString
  destination : ContractID
  amount : TokenAmount
  fee : TokenAmount
  state : EntryState
  deriving DecidableEq

/-- Modelled from the spec: the state of a `Batch` of the absent keeper. -/
inductive BatchState where
  | Open
  | Executed
  | Cancelled
  | TimedOut
  deriving DecidableEq

/-- Modelled from the spec: the type `Batch` of the absent keeper, an immutable
snapshot that refers to its entries by id. -/
structure Batch where
  batch_nonce : Nat
  token_contract : ContractID
  transactions : List Nat
  timeout : Nat
  created_block : Nat
  state : BatchState
  deriving DecidableEq

/-- Modelled from the spec: the error kinds of section 7 and of the table of
section 4.6, raised by the absent keeper. -/
inductive PoolErr where
  | InvalidInput
  | ContractMismatch
  | InsufficientFunds
  | ModuleUnderfunded
  | NotFound
  | Unauthorized
  | AlreadyBatched
  | PendingBatchExists
  | NoTransferable
  | OutOfOrderExecution
  | Overflow
  | AlreadyTerminal
  deriving DecidableEq, Repr

/-- Modelled from the spec: the bank collaborator behind the escrow adapter of
the absent keeper: the balance of every account in every token, and what the
module-owned holding account holds of every token. -/
structure Bank where
  balance : GoString → ContractID → Nat
  locked : ContractID → Nat

/-- Modelled from the spec: `lock(sender, coin)` of the escrow adapter, which
moves `coin` from `sender` to the holding account or fails with
InsufficientFunds. -/
def lock (bank : Bank) (sender : GoString) (coin : TokenAmount) : Except PoolErr Bank :=
  if bank.balance sender coin.contract < coin.amount then .error .InsufficientFunds
  else
    .ok
      { balance := fun a c =>
          if a = sender ∧ c = coin.contract then bank.balance a c - coin.amount
          else bank.balance a c
        locked := fun c =>
          if c = coin.contract then bank.locked c + coin.amount else bank.locked c }

/-- Modelled from the spec: `add(a, b)` of the token value of the absent keeper:
fails with ContractMismatch when the contracts differ, and overflow past
`2^256 − 1` is an error; otherwise the sum. -/
def TokenAmount.add (a b : TokenAmount) : Except PoolErr TokenAmount :=
  if a.contract ≠ b.contract then .error .ContractMismatch
  else if 2 ^ 256 - 1 < a.amount + b.amount then .error .Overflow
  else .ok { amount := a.amount + b.amount, contract := a.contract }

/-- The big-endian encoding of `n` in `width` bytes. -/
def be_bytes : Nat → Nat → List UInt8
  | 0, _ => []
  | width + 1, n => UInt8.ofNat (n / 256 ^ width) :: be_bytes width (n % 256 ^ width)

/-- The number that a byte string encodes in big-endian. -/
def be_decode (bs : List UInt8) : Nat :=
  bs.foldl (fun acc b => acc * 256 + b.toNat) 0

/-- Modelled from the spec: the prefix of the fee-index rows of one contract in
the store of the absent keeper, `0x02 | contract20`. -/
def fee_key_stem (contract : ContractID) : List UInt8 :=
  0x02 :: contract.bytes

/-- Modelled from the spec: the fee-index key of the absent keeper,
`0x02 | contract20 | fee_be32 | id_be8`. -/
def fee_key (contract : ContractID) (fee : Nat) (id : Nat) : List UInt8 :=
  fee_key_stem contract ++ be_bytes 32 fee ++ be_bytes 8 id

/-- Modelled from the spec: the id in the last 8 bytes of a fee-index key of the
absent keeper. -/
def fee_key_id (key : List UInt8) : Nat :=
  be_decode (key.drop 53)

/-- Modelled from the spec: the contract in the bytes 1 to 20 of a fee-index key
of the absent keeper. -/
def fee_key_contract (key : List UInt8) : Option ContractID :=
  if h : ((key.drop 1).take 20).length = 20 then some ⟨(key.drop 1).take 20, h⟩ else none

/-- Modelled from the spec: the store of the absent keeper. `entries` is the
primary index `0x01 | id_be8`, `fee_index` the keys of the fee index in
ascending byte order, `batches` the records `0x03 | nonce_be8`, and the two
counters are the keys `0x04` and `0x05`; `bank` is the bank collaborator. -/
structure PoolState where
  entries : List TransferEntry
  fee_index : List (List UInt8)
  batches : List Batch
  next_tx_id : Nat
  next_batch_nonce : Nat
  bank : Bank

/-- Modelled from the spec: the store of the absent keeper before any call:
nothing is stored and `next_tx_id` starts at 1. -/
def PoolState.fresh (bank : Bank) : PoolState :=
  { entries := [], fee_index := [], batches := [], next_tx_id := 1, next_batch_nonce := 0,
    bank := bank }

/-- Modelled from the spec: a write of a fee-index row in the store of the
absent keeper, which keeps its keys in ascending byte order. -/
def index_insert (key : List UInt8) : List (List UInt8) → List (List UInt8)
  | [] => [key]
  | k :: rest =>
    if bytesCompare key k = -1 then key :: k :: rest
    else if bytesCompare key k = 0 then k :: rest
    else k :: index_insert key rest

/-- Modelled from the spec: a read of the primary index of the absent keeper. -/
def primary_get (entries : List TransferEntry) (id : Nat) : Option TransferEntry :=
  entries.find? fun e => e.id == id

/-- Modelled from the spec: a write of the primary index of the absent keeper. -/
def primary_put (entries : List TransferEntry) (entry : TransferEntry) : List TransferEntry :=
  entries.filter (fun e => e.id != entry.id) ++ [entry]

/-- Modelled from the spec: `add_transfer` of the absent keeper
(`AddToOutgoingPool`): checks that amount and fee have the same contract, locks
`amount + fee`, assigns `next_tx_id` and increments it (an unsigned 64-bit
counter), inserts the entry with state Unbatched in both indices and returns the
id. -/
def add_transfer (s : PoolState) (sender : GoString) (destination : ContractID)
    (amount fee : TokenAmount) : Except PoolErr (Nat × PoolState) :=
  if amount.contract ≠ fee.contract then .error .ContractMismatch
  else
    match amount.add fee with
    | .error e => .error e
    | .ok total =>
      match lock s.bank sender total with
      | .error e => .error e
      | .ok bank =>
        let id := s.next_tx_id
        let entry : TransferEntry :=
          { id := id, sender := sender, destination := destination, amount := amount,
            fee := fee, state := .Unbatched }
        .ok (id,
          { s with
            entries := primary_put s.entries entry
            fee_index := index_insert (fee_key amount.contract fee.amount id) s.fee_index
            next_tx_id := (s.next_tx_id + 1) % 2 ^ 64
            bank := bank })

/-- Modelled from the spec: `iterate_unbatched_by_contract` of the absent keeper
(`GetUnbatchedTransactionsByContract`): a cursor over the fee-index rows of the
contract in reverse byte order, each row resolved to its primary record. -/
def iterate_unbatched_by_contract (s : PoolState) (contract : ContractID) :
    List TransferEntry :=
  ((s.fee_index.filter fun key => HasPrefix key (fee_key_stem contract)).reverse).filterMap
    fun key => primary_get s.entries (fee_key_id key)

/-- Modelled from the spec: one row of `top_fees_per_contract` of the absent
keeper. -/
structure FeeSummary where
  contract : ContractID
  total_fees : Nat
  count : Nat
  deriving DecidableEq

/-- Modelled from the spec: the contracts that have a row in the fee index of
the absent keeper, each once, in the order of the index. -/
def index_contracts (s : PoolState) : List ContractID :=
  (s.fee_index.filterMap fee_key_contract).dedup

/-- Modelled from the spec: `top_fees_per_contract(N)` of the absent keeper
(`GetAllBatchFees`): for each contract with a row in the fee index, the sum of
the fees of its first `N` rows in cursor order, and their number. -/
def top_fees_per_contract (s : PoolState) (n : Nat) : List FeeSummary :=
  (index_contracts s).map fun c =>
    let top := (iterate_unbatched_by_contract s c).take n
    { contract := c, total_fees := (top.map fun e => e.fee.amount).sum, count := top.length }

/-- Modelled from the spec: a request to `add_transfer` of the absent keeper. -/
structure AddRequest where
  sender : GoString
  destination : ContractID
  amount : TokenAmount
  fee : TokenAmount

/-- A sequence of calls of `add_transfer`, with the result of each call; a call
that fails leaves the store as it was. -/
def run_adds : PoolState → List AddRequest → PoolState × List (Except PoolErr Nat)
  | s, [] => (s, [])
  | s, r :: rest =>
    match add_transfer s r.sender r.destination r.amount r.fee with
    | .error e =>
      let out := run_adds s rest
      (out.1, .error e :: out.2)
    | .ok (id, s1) =>
      let out := run_adds s1 rest
      (out.1, .ok id :: out.2)

/-- The ids of the calls that succeeded, in order. -/
def success_ids : List (Except PoolErr Nat) → List Nat
  | [] => []
  | .ok id :: rest => id :: success_ids rest
  | .error _ :: rest => success_ids rest

/-! ### The scenarios of the pool tests -/

/-- The token contract `0x429881672B9AE42b8EbA0E26cD9C73711b891Ca5` of the tests. -/
def contractA : ContractID :=
  ⟨[0x42, 0x98, 0x81, 0x67, 0x2B, 0x9A, 0xE4, 0x2b, 0x8E, 0xbA, 0x0E, 0x26, 0xcD, 0x9C, 0x73,
    0x71, 0x1b, 0x89, 0x1C, 0xa5], rfl⟩

/-- The second token contract `0x7D1AfA7B718fb893dB30A3aBc0Cfc608AaCfeBB0` of the tests. -/
def contractB : ContractID :=
  ⟨[0x7D, 0x1A, 0xfA, 0x7B, 0x71, 0x8f, 0xb8, 0x93, 0xdB, 0x30, 0xA3, 0xaB, 0xc0, 0xCf, 0xc6,
    0x08, 0xAa, 0xCf, 0xeB, 0xB0], rfl⟩

/-- The receiver `0xd041c41EA1bf0F006ADBb6d2c9ef9D425dE5eaD7` of the tests. -/
def testReceiver : ContractID :=
  ⟨[0xd0, 0x41, 0xc4, 0x1E, 0xA1, 0xbf, 0x0F, 0x00, 0x6A, 0xDB, 0xb6, 0xd2, 0xc9, 0xef, 0x9D,
    0x42, 0x5d, 0xE5, 0xea, 0xD7], rfl⟩

/-- The sender of the tests. -/
def testSender : GoString := ascii "cosmos1ahx7f8wyertuus9r20284ej0asrs085case3kn"

/-- The bank of the tests: the sender holds 99999 of the first token and
`2^64 − 1` of the second. -/
def testBank : Bank :=
  { balance := fun a c =>
      if a = testSender ∧ c = contractA then 99999
      else if a = testSender ∧ c = contractB then 18446744073709551615
      else 0
    locked := fun _ => 0 }

/-- A request of the tests: `amount` and `fee` of one token, from the sender to
the receiver. -/
def testRequest (c : ContractID) (amount fee : Nat) : AddRequest :=
  { sender := testSender, destination := testReceiver, amount := ⟨amount, c⟩, fee := ⟨fee, c⟩ }

/-- The four requests of scenario S1 (`TestAddToOutgoingPool`). -/
def requestsS1 : List AddRequest :=
  [testRequest contractA 100 2, testRequest contractA 101 3, testRequest contractA 102 2,
    testRequest contractA 103 1]

/-- The requests of scenario S2 (`TestTotalBatchFeeInPool`): those of S1, then
110 on the second token, with amounts 100 to 209 and fee 5. -/
def requestsS2 : List AddRequest :=
  requestsS1 ++ (List.range 110).map fun i => testRequest contractB (i + 100) 5

/-- Modelled from the spec: the consistency of the store of the absent keeper,
"a store-level invariant": the fee index is in ascending byte order, its rows
are exactly the keys of the Unbatched entries, ids are unique and below the
counter, amount and fee of an entry have one contract, and fee and counter fit
their encodings. -/
def PoolState.Consistent (s : PoolState) : Prop :=
  s.fee_index.Pairwise (fun a b => bytesCompare a b = -1) ∧
  (∀ k ∈ s.fee_index, ∃ e ∈ s.entries,
    e.state = .Unbatched ∧ k = fee_key e.amount.contract e.fee.amount e.id) ∧
  (∀ e ∈ s.entries, e.state = .Unbatched →
    fee_key e.amount.contract e.fee.amount e.id ∈ s.fee_index) ∧
  s.entries.Pairwise (fun a b => a.id ≠ b.id) ∧
  (∀ e ∈ s.entries,
    e.id < s.next_tx_id ∧ e.fee.amount < 2 ^ 256 ∧ e.amount.contract = e.fee.contract) ∧
  s.next_tx_id < 2 ^ 64

instance (s : PoolState) : Decidable s.Consistent := by
  unfold PoolState.Consistent; infer_instance

/-- The Unbatched entries of one contract in the primary index. -/
def unbatched_of (s : PoolState) (contract : ContractID) : List TransferEntry :=
  s.entries.filter fun e => e.state = .Unbatched ∧ e.amount.contract = contract

/-- The order of the claim: descending fee, and among equal fees ascending id. -/
def specFeeDescendingIdAscending (l : List TransferEntry) : Prop :=
  l.Pairwise fun a b => b.fee.amount < a.fee.amount ∨ (a.fee.amount = b.fee.amount ∧ a.id < b.id)

/-- The order of a cursor in reverse byte order: descending fee, and among
equal fees descending id. -/
def specFeeDescendingIdDescending (l : List TransferEntry) : Prop :=
  l.Pairwise fun a b => b.fee.amount < a.fee.amount ∨ (a.fee.amount = b.fee.amount ∧ b.id < a.id)

instance (l : List TransferEntry) : Decidable (specFeeDescendingIdAscending l) := by
  unfold specFeeDescendingIdAscending; infer_instance

instance (l : List TransferEntry) : Decidable (specFeeDescendingIdDescending l) := by
  unfold specFeeDescendingIdDescending; infer_instance

/-- The sum of the `n` largest fees among the Unbatched entries of a contract,
all of them when there are fewer than `n`. -/
def specTopFees (s : PoolState) (contract : ContractID) (n : Nat) : Nat :=
  ((((unbatched_of s contract).map fun e => e.fee.amount).insertionSort (· ≥ ·)).take n).sum

/-- The store after scenario S1. -/
def poolS1 : PoolState := (run_adds (PoolState.fresh testBank) requestsS1).1

/-- The store after scenario S2. -/
def poolS2 : PoolState := (run_adds (PoolState.fresh testBank) requestsS2).1

/-! ### Sample messages -/

/-- A transfer with the id 2 and nothing else. -/
def sampleTransfer : OutgoingTransferTx :=
  { Id := 2, Sender := [], DestAddress := none, Erc20Token := none, Erc20Fee := none }

/-- A batch with nonce 1, timeout 300 and the one transaction `sampleTransfer`. -/
def sampleBatch : OutgoingTxBatch :=
  { BatchNonce := 1, BatchTimeout := 300, Transactions := [some sampleTransfer],
    TokenContract := none, Block := 0 }

/-! ## Decoding of batches (`batch.pb.go`)

The decoder reads a byte slice from the front with an index `iNdEx`.  A Go
slice has a length that fits an `int`, so an index that is at most the length
does not overflow when it is incremented: such indices are natural numbers.
Values of type `int` that may have wrapped (a length read from the input, an
index after a length was added to it) are integers reduced into the range of a
64-bit `int`.  An indexing or slicing outside the slice panics.
-/

/-- The errors that the decoder of `batch.pb.go` returns, one constructor per
error value or construction site. -/
inductive WireErr where
  -- `ErrInvalidLengthBatch`
  | ErrInvalidLengthBatch
  -- `ErrIntOverflowBatch`
  | ErrIntOverflowBatch
  -- `ErrUnexpectedEndOfGroupBatch`
  | ErrUnexpectedEndOfGroupBatch
  -- `io.ErrUnexpectedEOF`
  | ErrUnexpectedEOF
  -- `fmt.Errorf("proto: %s: wiretype end group for non-group")`
  | endGroupForNonGroup (message : String)
  -- `fmt.Errorf("proto: %s: illegal tag %d (wire type %d)", fieldNum, wire)`
  | illegalTag (message : String) (fieldNum : Int) (wire : Nat)
  -- `fmt.Errorf("proto: wrong wireType = %d for field %s", wireType)`
  | wrongWireType (wireType : Nat) (field : String)
  -- `fmt.Errorf("proto: illegal wireType %d", wireType)`
  | illegalWireType (wireType : Nat)
  deriving DecidableEq, Repr

/-- The ways in which a call of the decoder can end without a value: it returns
an error, it panics, or the bound on the iterations of a loop of the model is
used up. -/
inductive Fault where
  | err (e : WireErr)
  | panicked (p : Panic)
  | outOfFuel
  deriving DecidableEq, Repr

/-- The value of Go type `int` (64 bits, two's complement) that an integer
wraps to. -/
def wrapInt64 (x : Int) : Int :=
  (x + (2 ^ 63 : Nat)) % (2 ^ 64 : Nat) - (2 ^ 63 : Nat)

/-- The conversion `int32(x)` of a `uint64`: the low 32 bits, two's complement. -/
def toInt32 (x : Nat) : Int :=
  ((x : Int) + (2 ^ 31 : Nat)) % (2 ^ 32 : Nat) - (2 ^ 31 : Nat)

/-- The slice expression `dAtA[lo:hi]`. -/
def sliceOf (dAtA : List UInt8) (lo hi : Nat) : Except Fault (List UInt8) :=
  if lo ≤ hi ∧ hi ≤ dAtA.length then .ok ((dAtA.take hi).drop lo)
  else .error (.panicked .indexOutOfRange)

/-- The loop that reads a varint into a `uint64`:
`for shift := uint(0); ; shift += 7 { if shift >= 64 { return ErrIntOverflowBatch };
if iNdEx >= l { return io.ErrUnexpectedEOF }; b := dAtA[iNdEx]; iNdEx++;
x |= uint64(b&0x7F) << shift; if b < 0x80 { break } }`.
Returns the value and the index after it. The first argument bounds the number
of iterations; 11 is always enough, as `shift` reaches 70 in the eleventh. -/
def decodeVarint : Nat → List UInt8 → Nat → Nat → Nat → Except Fault (Nat × Nat)
  | 0, _, _, _, _ => .error .outOfFuel
  | fuel + 1, dAtA, iNdEx, shift, x =>
    if shift ≥ 64 then .error (.err .ErrIntOverflowBatch)
    else if iNdEx ≥ dAtA.length then .error (.err .ErrUnexpectedEOF)
    else
      match dAtA[iNdEx]? with
      | none => .error (.panicked .indexOutOfRange)
      | some b =>
        let x1 := x ||| ((b.toNat &&& 0x7F) <<< shift) % 2 ^ 64
        if b.toNat < 0x80 then .ok (x1, iNdEx + 1)
        else decodeVarint fuel dAtA (iNdEx + 1) (shift + 7) x1

/-- The varint loop started at `iNdEx` with `shift` 0 and the value 0. -/
def readVarint (dAtA : List UInt8) (iNdEx : Nat) : Except Fault (Nat × Nat) :=
  decodeVarint 11 dAtA iNdEx 0 0

/-- The block that reads the length of a length-delimited field and checks it:
the varint loop on `msglen` (an `int`, or a `uint64` converted by `int(...)`: the
same 64 bits), then `if msglen < 0 { return ErrInvalidLengthBatch };
postIndex := iNdEx + msglen; if postIndex < 0 { return ErrInvalidLengthBatch };
if postIndex > l { return io.ErrUnexpectedEOF }`.
Returns `iNdEx` after the varint and `postIndex`. -/
def readLength (dAtA : List UInt8) (iNdEx : Nat) : Except Fault (Nat × Nat) :=
  match readVarint dAtA iNdEx with
  | .error f => .error f
  | .ok (x, i) =>
    let msglen := wrapInt64 x
    if msglen < 0 then .error (.err .ErrInvalidLengthBatch)
    else
      let postIndex := wrapInt64 (i + msglen)
      if postIndex < 0 then .error (.err .ErrInvalidLengthBatch)
      else if postIndex > dAtA.length then .error (.err .ErrUnexpectedEOF)
      else .ok (i, postIndex.toNat)

/-- The case of a varint field: the check of the wire type and the varint loop
into the field; `set` stores the value. -/
def varintField {μ : Type} (wireType : Nat) (field : String) (dAtA : List UInt8) (iNdEx : Nat)
    (set : Nat → μ) : Except Fault (μ × Nat) :=
  if wireType ≠ 0 then .error (.err (.wrongWireType wireType field))
  else
    match readVarint dAtA iNdEx with
    | .error f => .error f
    | .ok (v, i) => .ok (set v, i)

/-- The case of a length-delimited field: the check of the wire type, the
length, and `decode` applied to `dAtA[iNdEx:postIndex]`; then
`iNdEx = postIndex`. -/
def bytesField {μ : Type} (wireType : Nat) (field : String) (dAtA : List UInt8) (iNdEx : Nat)
    (decode : List UInt8 → Except Fault μ) : Except Fault (μ × Nat) :=
  if wireType ≠ 2 then .error (.err (.wrongWireType wireType field))
  else
    match readLength dAtA iNdEx with
    | .error f => .error f
    | .ok (i, postIndex) =>
      match sliceOf dAtA i postIndex with
      | .error f => .error f
      | .ok bytes =>
        match decode bytes with
        | .error f => .error f
        | .ok m => .ok (m, postIndex)

/-- The loop of `skipBatch` over a varint whose value is not kept:
`for shift := uint(0); ; shift += 7 { if shift >= 64 { return 0, ErrIntOverflowBatch };
if iNdEx >= l { return 0, io.ErrUnexpectedEOF }; iNdEx++;
if dAtA[iNdEx-1] < 0x80 { break } }`. -/
def skipVarint : Nat → List UInt8 → Nat → Nat → Except Fault Nat
  | 0, _, _, _ => .error .outOfFuel
  | fuel + 1, dAtA, iNdEx, shift =>
    if shift ≥ 64 then .error (.err .ErrIntOverflowBatch)
    else if iNdEx ≥ dAtA.length then .error (.err .ErrUnexpectedEOF)
    else
      match dAtA[iNdEx + 1 - 1]? with
      | none => .error (.panicked .indexOutOfRange)
      | some b =>
        if b.toNat < 0x80 then .ok (iNdEx + 1)
        else skipVarint fuel dAtA (iNdEx + 1) (shift + 7)

/-- The `switch wireType` of `skipBatch`: from the index after the tag and the
depth to the index, which may have wrapped, and the depth after the field. -/
def skipValue (dAtA : List UInt8) (iNdEx : Nat) (depth : Nat) (wireType : Nat) :
    Except Fault (Int × Nat) :=
  if wireType = 0 then
    match skipVarint 11 dAtA iNdEx 0 with
    | .error f => .error f
    | .ok i => .ok (i, depth)
  else if wireType = 1 then .ok (wrapInt64 (iNdEx + 8), depth)
  else if wireType = 2 then
    match readVarint dAtA iNdEx with
    | .error f => .error f
    | .ok (x, i) =>
      let length := wrapInt64 x
      if length < 0 then .error (.err .ErrInvalidLengthBatch)
      else .ok (wrapInt64 (i + length), depth)
  else if wireType = 3 then .ok (iNdEx, depth + 1)
  else if wireType = 4 then
    if depth = 0 then .error (.err .ErrUnexpectedEndOfGroupBatch)
    else .ok (iNdEx, depth - 1)
  else if wireType = 5 then .ok (wrapInt64 (iNdEx + 4), depth)
  else .error (.err (.illegalWireType wireType))

/-- The loop `for iNdEx < l { ... }` of `skipBatch` and the return after it. The
first argument bounds the number of iterations; `len(dAtA) + 1` is always
enough, as every iteration moves the index forward. -/
def skipBatchLoop : Nat → List UInt8 → Nat → Nat → Except Fault Int
  | 0, _, _, _ => .error .outOfFuel
  | fuel + 1, dAtA, iNdEx, depth =>
    if iNdEx < dAtA.length then
      match readVarint dAtA iNdEx with
      | .error f => .error f
      | .ok (wire, i) =>
        let wireType := wire &&& 0x7
        match skipValue dAtA i depth wireType with
        | .error f => .error f
        | .ok (i1, depth1) =>
          if i1 < 0 then .error (.err .ErrInvalidLengthBatch)
          else if depth1 = 0 then .ok i1
          else skipBatchLoop fuel dAtA i1.toNat depth1
    else .error (.err .ErrUnexpectedEOF)

/-- The function `skipBatch`: the number of bytes of the first field of `dAtA`. -/
def skipBatch (dAtA : List UInt8) : Except Fault Int :=
  skipBatchLoop (dAtA.length + 1) dAtA 0 0

/-- The `default` case of the `switch fieldNum` of both `Unmarshal` methods:
`iNdEx = preIndex; skippy, err := skipBatch(dAtA[iNdEx:])`, the checks of
`skippy` and `iNdEx += skippy`. Returns the index after the field. -/
def skipUnknown (dAtA : List UInt8) (preIndex : Nat) : Except Fault Nat :=
  match sliceOf dAtA preIndex dAtA.length with
  | .error f => .error f
  | .ok rest =>
    match skipBatch rest with
    | .error f => .error f
    | .ok skippy =>
      if skippy < 0 then .error (.err .ErrInvalidLengthBatch)
      else if wrapInt64 (preIndex + skippy) < 0 then .error (.err .ErrInvalidLengthBatch)
      else if wrapInt64 (preIndex + skippy) > dAtA.length then .error (.err .ErrUnexpectedEOF)
      else .ok (wrapInt64 (preIndex + skippy)).toNat

/-- The generated `Unmarshal` methods of `EthAddress` and `ERC20Token` are in
`types.pb.go`, which is not among the sources, and are parameters here: from the
receiver and the bytes to the receiver after the call, or the way the call ends
without one. -/
structure NestedDecoder where
  ethAddress : EthAddress → List UInt8 → Except Fault EthAddress
  erc20Token : ERC20Token → List UInt8 → Except Fault ERC20Token

/-- The message `EthAddress{}`. -/
def EthAddress.zero : EthAddress := ⟨[]⟩

/-- The message `ERC20Token{}`. -/
def ERC20Token.zero : ERC20Token := ⟨0, none⟩

/-- The message `OutgoingTransferTx{}`. -/
def OutgoingTransferTx.zero : OutgoingTransferTx :=
  { Id := 0, Sender := [], DestAddress := none, Erc20Token := none, Erc20Fee := none }

/-- The message `OutgoingTxBatch{}`. -/
def OutgoingTxBatch.zero : OutgoingTxBatch :=
  { BatchNonce := 0, BatchTimeout := 0, Transactions := [], TokenContract := none, Block := 0 }

/-- The block `if p == nil { p = &T{} }; if err := p.Unmarshal(bytes); err != nil
{ return err }` on a pointer field: `unmarshal` is the method of the nested
message, `zero` its empty value, and `set` stores the pointer. -/
def nestedUnmarshal {α μ : Type} (p : Option α) (zero : α)
    (unmarshal : α → List UInt8 → Except Fault α) (set : Option α → μ) (bytes : List UInt8) :
    Except Fault μ :=
  match unmarshal (p.getD zero) bytes with
  | .error f => .error f
  | .ok a => .ok (set (some a))

/-- One iteration of the loop of `OutgoingTransferTx.Unmarshal`: the tag, the
checks of the wire type and the field number, and the `switch fieldNum`.
Returns the message and the index after the field. When the method returns an
error the receiver is left partly filled; the model does not keep it. -/
def OutgoingTransferTx.unmarshalField (dec : NestedDecoder) (m : OutgoingTransferTx)
    (dAtA : List UInt8) (preIndex : Nat) : Except Fault (OutgoingTransferTx × Nat) :=
  match readVarint dAtA preIndex with
  | .error f => .error f
  | .ok (wire, iNdEx) =>
    let fieldNum := toInt32 (wire >>> 3)
    let wireType := wire &&& 0x7
    if wireType = 4 then .error (.err (.endGroupForNonGroup "OutgoingTransferTx"))
    else if fieldNum ≤ 0 then .error (.err (.illegalTag "OutgoingTransferTx" fieldNum wire))
    else if fieldNum = 1 then
      varintField wireType "Id" dAtA iNdEx fun v => { m with Id := v }
    else if fieldNum = 2 then
      bytesField wireType "Sender" dAtA iNdEx fun bytes => .ok { m with Sender := bytes }
    else if fieldNum = 3 then
      bytesField wireType "DestAddress" dAtA iNdEx
        (nestedUnmarshal m.DestAddress EthAddress.zero dec.ethAddress
          fun p => { m with DestAddress := p })
    else if fieldNum = 4 then
      bytesField wireType "Erc20Token" dAtA iNdEx
        (nestedUnmarshal m.Erc20Token ERC20Token.zero dec.erc20Token
          fun p => { m with Erc20Token := p })
    else if fieldNum = 5 then
      bytesField wireType "Erc20Fee" dAtA iNdEx
        (nestedUnmarshal m.Erc20Fee ERC20Token.zero dec.erc20Token
          fun p => { m with Erc20Fee := p })
    else
      match skipUnknown dAtA preIndex with
      | .error f => .error f
      | .ok i => .ok (m, i)

/-- The loop `for iNdEx < l { ... }` of `OutgoingTransferTx.Unmarshal` and the
check after it. The first argument bounds the number of iterations;
`len(dAtA) + 1` is always enough, as every iteration moves the index forward. -/
def OutgoingTransferTx.unmarshalLoop (dec : NestedDecoder) :
    Nat → OutgoingTransferTx → List UInt8 → Nat → Except Fault OutgoingTransferTx
  | 0, _, _, _ => .error .outOfFuel
  | fuel + 1, m, dAtA, iNdEx =>
    if iNdEx < dAtA.length then
      match OutgoingTransferTx.unmarshalField dec m dAtA iNdEx with
      | .error f => .error f
      | .ok (m1, i) => OutgoingTransferTx.unmarshalLoop dec fuel m1 dAtA i
    else if iNdEx > dAtA.length then .error (.err .ErrUnexpectedEOF)
    else .ok m

/-- The method `OutgoingTransferTx.Unmarshal` on the receiver `m`: the receiver
after the call, or the error. -/
def OutgoingTransferTx.Unmarshal (dec : NestedDecoder) (m : OutgoingTransferTx)
    (dAtA : List UInt8) : Except Fault OutgoingTransferTx :=
  OutgoingTransferTx.unmarshalLoop dec (dAtA.length + 1) m dAtA 0

/-- The case 3 of `OutgoingTxBatch.Unmarshal` after the length:
`m.Transactions = append(m.Transactions, &OutgoingTransferTx{})` and `Unmarshal`
on the new last element. -/
def appendTransaction (dec : NestedDecoder) (m : OutgoingTxBatch) (bytes : List UInt8) :
    Except Fault OutgoingTxBatch :=
  match OutgoingTransferTx.Unmarshal dec OutgoingTransferTx.zero bytes with
  | .error f => .error f
  | .ok tx => .ok { m with Transactions := m.Transactions ++ [some tx] }

/-- One iteration of the loop of `OutgoingTxBatch.Unmarshal`. -/
def OutgoingTxBatch.unmarshalField (dec : NestedDecoder) (m : OutgoingTxBatch)
    (dAtA : List UInt8) (preIndex : Nat) : Except Fault (OutgoingTxBatch × Nat) :=
  match readVarint dAtA preIndex with
  | .error f => .error f
  | .ok (wire, iNdEx) =>
    let fieldNum := toInt32 (wire >>> 3)
    let wireType := wire &&& 0x7
    if wireType = 4 then .error (.err (.endGroupForNonGroup "OutgoingTxBatch"))
    else if fieldNum ≤ 0 then .error (.err (.illegalTag "OutgoingTxBatch" fieldNum wire))
    else if fieldNum = 1 then
      varintField wireType "BatchNonce" dAtA iNdEx fun v => { m with BatchNonce := v }
    else if fieldNum = 2 then
      varintField wireType "BatchTimeout" dAtA iNdEx fun v => { m with BatchTimeout := v }
    else if fieldNum = 3 then
      bytesField wireType "Transactions" dAtA iNdEx (appendTransaction dec m)
    else if fieldNum = 4 then
      bytesField wireType "TokenContract" dAtA iNdEx
        (nestedUnmarshal m.TokenContract EthAddress.zero dec.ethAddress
          fun p => { m with TokenContract := p })
    else if fieldNum = 5 then
      varintField wireType "Block" dAtA iNdEx fun v => { m with Block := v }
    else
      match skipUnknown dAtA preIndex with
      | .error f => .error f
      | .ok i => .ok (m, i)

/-- The loop `for iNdEx < l { ... }` of `OutgoingTxBatch.Unmarshal` and the check
after it; the first argument bounds the number of iterations. -/
def OutgoingTxBatch.unmarshalLoop (dec : NestedDecoder) :
    Nat → OutgoingTxBatch → List UInt8 → Nat → Except Fault OutgoingTxBatch
  | 0, _, _, _ => .error .outOfFuel
  | fuel + 1, m, dAtA, iNdEx =>
    if iNdEx < dAtA.length then
      match OutgoingTxBatch.unmarshalField dec m dAtA iNdEx with
      | .error f => .error f
      | .ok (m1, i) => OutgoingTxBatch.unmarshalLoop dec fuel m1 dAtA i
    else if iNdEx > dAtA.length then .error (.err .ErrUnexpectedEOF)
    else .ok m

/-- The method `OutgoingTxBatch.Unmarshal` on the receiver `m`: the receiver
after the call, or the error. -/
def OutgoingTxBatch.Unmarshal (dec : NestedDecoder) (m : OutgoingTxBatch)
    (dAtA : List UInt8) : Except Fault OutgoingTxBatch :=
  OutgoingTxBatch.unmarshalLoop dec (dAtA.length + 1) m dAtA 0

/-- A call that ends as a Go call ends that neither panics nor runs forever: with
a value or with a returned error. -/
def Returns {α : Type} (r : Except Fault α) : Prop :=
  (∃ a, r = .ok a) ∨ ∃ e, r = .error (.err e)

/-- A call that returns, with a value that satisfies `P` when it returns one. -/
def ReturnsWith {α : Type} (r : Except Fault α) (P : α → Prop) : Prop :=
  (∃ a, r = .ok a ∧ P a) ∨ ∃ e, r = .error (.err e)

/-- A decoder for `sampleCodec`, used to evaluate examples: the address or the
contract is the payload of field 1, read without any check. -/
def sampleDecoder : NestedDecoder where
  ethAddress := fun _ bytes => .ok ⟨bytes.drop 2⟩
  erc20Token := fun t bytes => .ok { t with Contract := some ⟨bytes.drop 4⟩ }

/-- The nested decoders return: they neither panic nor run forever. -/
def NestedDecoder.Total (dec : NestedDecoder) : Prop :=
  (∀ a bytes, Returns (dec.ethAddress a bytes)) ∧ ∀ t bytes, Returns (dec.erc20Token t bytes)

/-- The nested codecs round-trip on the nested messages of a transfer: decoding
into an empty message what the encoder wrote gives the message back. -/
def OutgoingTransferTx.NestedRoundTrip (nc : NestedCodec) (dec : NestedDecoder)
    (m : OutgoingTransferTx) : Prop :=
  (∀ a, m.DestAddress = some a → dec.ethAddress EthAddress.zero (nc.ethAddress a) = .ok a) ∧
  (∀ t, m.Erc20Token = some t → dec.erc20Token ERC20Token.zero (nc.erc20Token t) = .ok t) ∧
  (∀ t, m.Erc20Fee = some t → dec.erc20Token ERC20Token.zero (nc.erc20Token t) = .ok t)

/-- A transfer with every field present: id 7, the sender of the tests, and the
token contract of the tests as destination and as contract of amount and fee. -/
def sampleNestedTransfer : OutgoingTransferTx :=
  { Id := 7, Sender := testSender, DestAddress := some sampleContract,
    Erc20Token := some ⟨0, some sampleContract⟩, Erc20Fee := some ⟨0, some sampleContract⟩ }

/-- A batch with nonce 1, timeout 300, the contract of the tests, block 5 and the
two transactions `sampleNestedTransfer` and `sampleTransfer`, in this order. -/
def sampleNestedBatch : OutgoingTxBatch :=
  { BatchNonce := 1, BatchTimeout := 300,
    Transactions := [some sampleNestedTransfer, some sampleTransfer],
    TokenContract := some sampleContract, Block := 5 }

/-! ### Batches and their life cycle

The batch builder and the life-cycle manager are not among the sources either;
they are modelled from sections 4.3 to 4.6 of the design document.  An
operation that fails returns its error and no state: the host rolls back what
the transaction has written.
-/

/-- Modelled from the spec: `release(receiver, coin)` of the escrow adapter of
the absent keeper, which reverses a prior lock: moves `coin` from the holding
account to `receiver` or fails with ModuleUnderfunded. -/
def release (bank : Bank) (receiver : GoString) (coin : TokenAmount) : Except PoolErr Bank :=
  if bank.locked coin.contract < coin.amount then .error .ModuleUnderfunded
  else
    .ok
      { balance := fun a c =>
          if a = receiver ∧ c = coin.contract then bank.balance a c + coin.amount
          else bank.balance a c
        locked := fun c =>
          if c = coin.contract then bank.locked c - coin.amount else bank.locked c }

/-- Modelled from the spec: `burn(coin)` of the escrow adapter of the absent
keeper, which destroys `coin` from the holding account or fails with
ModuleUnderfunded. -/
def burn (bank : Bank) (coin : TokenAmount) : Except PoolErr Bank :=
  if bank.locked coin.contract < coin.amount then .error .ModuleUnderfunded
  else
    .ok
      { balance := bank.balance
        locked := fun c =>
          if c = coin.contract then bank.locked c - coin.amount else bank.locked c }

/-- Modelled from the spec: `amount + fee` of an entry of the absent keeper, the
coin that the escrow holds for it; amount and fee have one contract. -/
def entry_total (e : TransferEntry) : TokenAmount :=
  { amount := e.amount.amount + e.fee.amount, contract := e.amount.contract }

/-- Modelled from the spec: the fee-index key of an entry of the absent keeper. -/
def entry_key (e : TransferEntry) : List UInt8 :=
  fee_key e.amount.contract e.fee.amount e.id

/-- Modelled from the spec: the removal of a primary record of the absent keeper. -/
def primary_delete (entries : List TransferEntry) (id : Nat) : List TransferEntry :=
  entries.filter fun e => e.id != id

/-- Modelled from the spec: the removal of fee-index rows of the absent keeper. -/
def index_delete (keys : List (List UInt8)) (index : List (List UInt8)) : List (List UInt8) :=
  index.filter fun k => decide (k ∉ keys)

/-- Modelled from the spec: the rewrite of the primary records of the absent
keeper that have one of the given ids, with a new state. -/
def set_state (entries : List TransferEntry) (ids : List Nat) (state : EntryState) :
    List TransferEntry :=
  entries.map fun e => if e.id ∈ ids then { e with state := state } else e

/-- Modelled from the spec: `cancel_transfer(id, sender)` of the absent keeper:
looks up the entry; fails NotFound if absent, Unauthorized if the sender
differs, AlreadyBatched if the state is InBatch; removes the entry from the pool
and calls `release(sender, amount + fee)`. -/
def cancel_transfer (s : PoolState) (id : Nat) (sender : GoString) : Except PoolErr PoolState :=
  match primary_get s.entries id with
  | none => .error .NotFound
  | some e =>
    if e.sender ≠ sender then .error .Unauthorized
    else if e.state ≠ .Unbatched then .error .AlreadyBatched
    else
      match release s.bank sender (entry_total e) with
      | .error err => .error err
      | .ok bank =>
        .ok
          { s with
            entries := primary_delete s.entries id
            fee_index := index_delete [entry_key e] s.fee_index
            bank := bank }

/-- Modelled from the spec: whether the absent keeper holds an Open batch for the
contract. -/
def has_open_batch (s : PoolState) (contract : ContractID) : Bool :=
  s.batches.any fun b => decide (b.token_contract = contract ∧ b.state = .Open)

/-- Modelled from the spec: `build_batch(contract, max_elements, timeout)` of the
absent keeper, `created_block` being the block height of the context: refuses
when an Open batch exists for the contract; collects up to `max_elements` entries
from the cursor over the fee index and fails NoTransferable if there is none;
sets the state of each to InBatch of the new nonce and deletes its fee-index
row; assigns `batch_nonce = ++next_batch_nonce` (an unsigned 64-bit counter) and
stores the batch with state Open. -/
def build_batch (s : PoolState) (contract : ContractID) (max_elements timeout created_block : Nat) :
    Except PoolErr (Batch × PoolState) :=
  if has_open_batch s contract then .error .PendingBatchExists
  else
    let selected := (iterate_unbatched_by_contract s contract).take max_elements
    if selected = [] then .error .NoTransferable
    else
      let nonce := (s.next_batch_nonce + 1) % 2 ^ 64
      let batch : Batch :=
        { batch_nonce := nonce, token_contract := contract,
          transactions := selected.map fun e => e.id, timeout := timeout,
          created_block := created_block, state := .Open }
      .ok (batch,
        { s with
          entries := set_state s.entries (selected.map fun e => e.id) (.InBatch nonce)
          fee_index := index_delete (selected.map entry_key) s.fee_index
          batches := s.batches ++ [batch]
          next_batch_nonce := nonce })

/-- Modelled from the spec: the transition of the Open batches of the absent
keeper that `closing` selects to the terminal state `final`, with the side
effect of Cancelled and TimedOut: for each entry of these batches, set the state
Unbatched and reinsert the fee-index row. -/
def refund_batches (s : PoolState) (closing : Batch → Bool) (final : BatchState) : PoolState :=
  let ids := (s.batches.filter fun b => decide (b.state = .Open) && closing b).flatMap
    fun b => b.transactions
  { s with
    entries := set_state s.entries ids .Unbatched
    fee_index := (s.entries.filter fun e => e.id ∈ ids).foldl
      (fun index e => index_insert (entry_key e) index) s.fee_index
    batches := s.batches.map fun b =>
      if decide (b.state = .Open) && closing b then { b with state := final } else b }

/-- Modelled from the spec: `cancel(nonce)` of the absent keeper: the batch goes
from Open to Cancelled and its entries are refunded; a terminal batch gives
AlreadyTerminal. -/
def cancel (s : PoolState) (nonce : Nat) : Except PoolErr PoolState :=
  match s.batches.find? fun b => b.batch_nonce == nonce with
  | none => .error .NotFound
  | some b =>
    if b.state ≠ .Open then .error .AlreadyTerminal
    else .ok (refund_batches s (fun x => x.batch_nonce == nonce) .Cancelled)

/-- Modelled from the spec: `prune_expired(current_eth_block)` of the absent
keeper: every Open batch whose `timeout < current_eth_block` goes to TimedOut and
its entries are refunded. -/
def prune_expired (s : PoolState) (current_eth_block : Nat) : PoolState :=
  refund_batches s (fun b => decide (b.timeout < current_eth_block)) .TimedOut

/-- Modelled from the spec: `burn(amount + fee)` for each entry, in order; the
first failure ends the run. -/
def burn_all : Bank → List TransferEntry → Except PoolErr Bank
  | bank, [] => .ok bank
  | bank, e :: rest =>
    match burn bank (entry_total e) with
    | .error err => .error err
    | .ok bank1 => burn_all bank1 rest

/-- Modelled from the spec: `observe_execution(nonce)` of the absent keeper: only
for the batch with the smallest Open nonce of its contract, else
OutOfOrderExecution; the batch goes from Open to Executed, and for each entry
`burn(amount + fee)` and the primary record is deleted. -/
def observe_execution (s : PoolState) (nonce : Nat) : Except PoolErr PoolState :=
  match s.batches.find? fun b => b.batch_nonce == nonce with
  | none => .error .NotFound
  | some b =>
    if b.state ≠ .Open then .error .AlreadyTerminal
    else if s.batches.any fun x =>
        decide (x.state = .Open ∧ x.token_contract = b.token_contract ∧ x.batch_nonce < nonce)
      then .error .OutOfOrderExecution
    else
      match burn_all s.bank (s.entries.filter fun e => e.id ∈ b.transactions) with
      | .error err => .error err
      | .ok bank =>
        .ok
          { s with
            entries := s.entries.filter fun e => e.id ∉ b.transactions
            batches := s.batches.map fun x =>
              if x.batch_nonce = nonce then { x with state := .Executed } else x
            bank := bank }

/-- A call of one of the operations of the engine. -/
inductive PoolOp where
  | add_transfer (sender : GoString) (destination : ContractID) (amount fee : TokenAmount)
  | cancel_transfer (id : Nat) (sender : GoString)
  | build_batch (contract : ContractID) (max_elements timeout created_block : Nat)
  | cancel (nonce : Nat)
  | prune_expired (current_eth_block : Nat)
  | observe_execution (nonce : Nat)

/-- The state after a call: that of the operation when it succeeds, and the
state before the call when it fails, as the host rolls the transaction back. -/
def apply_op (s : PoolState) : PoolOp → PoolState
  | .add_transfer sender destination amount fee =>
    match add_transfer s sender destination amount fee with
    | .ok (_, s1) => s1
    | .error _ => s
  | .cancel_transfer id sender =>
    match cancel_transfer s id sender with
    | .ok s1 => s1
    | .error _ => s
  | .build_batch contract max_elements timeout created_block =>
    match build_batch s contract max_elements timeout created_block with
    | .ok (_, s1) => s1
    | .error _ => s
  | .cancel nonce =>
    match cancel s nonce with
    | .ok s1 => s1
    | .error _ => s
  | .prune_expired current_eth_block => prune_expired s current_eth_block
  | .observe_execution nonce =>
    match observe_execution s nonce with
    | .ok s1 => s1
    | .error _ => s

/-- The state after a sequence of calls. -/
def run_ops (s : PoolState) (ops : List PoolOp) : PoolState :=
  ops.foldl apply_op s

/-- An entry whose batch is Open: its state names the nonce of a batch that is
Open. -/
def in_open_batch (s : PoolState) (e : TransferEntry) : Prop :=
  ∃ b ∈ s.batches, b.state = .Open ∧ e.state = .InBatch b.batch_nonce

instance (s : PoolState) (e : TransferEntry) : Decidable (in_open_batch s e) := by
  unfold in_open_batch; infer_instance

/-- The sum of `amount + fee` over the entries of one contract that satisfy `p`. -/
def sum_totals (entries : List TransferEntry) (contract : ContractID)
    (p : TransferEntry → Prop) [DecidablePred p] : Nat :=
  ((entries.filter fun e => decide (e.amount.contract = contract ∧ p e)).map
    fun e => (entry_total e).amount).sum

/-- The right-hand side of the conservation property for one token: the sum of
`amount + fee` over every Unbatched entry plus the sum of `amount + fee` over
every entry whose batch is Open. -/
def specLocked (s : PoolState) (contract : ContractID) : Nat :=
  sum_totals s.entries contract (fun e => e.state = .Unbatched) +
    sum_totals s.entries contract (fun e => in_open_batch s e)

/-- Modelled from the spec: the invariants of the store of the absent keeper with
its batches: the indices are consistent; an entry in a batch is in a batch that
is Open, of its contract, and that lists it; the ids that an Open batch lists are
those of entries in that batch; nonces are unique and at most the counter; there
is at most one Open batch per contract; an Open batch is not empty; and the
holding account holds `amount + fee` of every entry. -/
def PoolState.Sound (s : PoolState) : Prop :=
  s.Consistent ∧
  (∀ e ∈ s.entries, ∀ n, e.state = .InBatch n →
    ∃ b ∈ s.batches, b.batch_nonce = n ∧ b.state = .Open ∧ e.id ∈ b.transactions ∧
      b.token_contract = e.amount.contract) ∧
  (∀ b ∈ s.batches, b.state = .Open → ∀ id ∈ b.transactions,
    ∃ e ∈ s.entries, e.id = id ∧ e.state = .InBatch b.batch_nonce ∧
      e.amount.contract = b.token_contract) ∧
  s.batches.Pairwise (fun a b => a.batch_nonce ≠ b.batch_nonce) ∧
  (∀ b ∈ s.batches, b.batch_nonce ≤ s.next_batch_nonce) ∧
  s.batches.Pairwise (fun a b =>
    ¬ (a.state = .Open ∧ b.state = .Open ∧ a.token_contract = b.token_contract)) ∧
  (∀ b ∈ s.batches, b.state = .Open → b.transactions ≠ []) ∧
  (∀ c, s.bank.locked c = sum_totals s.entries c fun _ => True)

/-- The calls of scenario S1: four times `add_transfer`. -/
def opsS1 : List PoolOp :=
  requestsS1.map fun r => PoolOp.add_transfer r.sender r.destination r.amount r.fee

/-- The calls of scenario S1 followed by `build_batch(A, 100, 9999999)`. -/
def opsS3 : List PoolOp :=
  opsS1 ++ [PoolOp.build_batch contractA 100 9999999 1]

/-- The store of scenario S3 after the batch is built. -/
def poolS3 : PoolState := run_ops (PoolState.fresh testBank) opsS3

/-! ### Fields that a message does not know

The wire format of a field that is not a group: the tag, a varint of
`field_number << 3 | wire_type`, and the value, whose form the wire type gives.
-/

/-- The value of a field on the wire that is not a group, by wire type: the bytes
of a varint (wire type 0), eight bytes (wire type 1), a payload that is written
after its length (wire type 2), or four bytes (wire type 5). -/
inductive UnknownValue where
  | varint (bytes : List UInt8)
  | fixed64 (bytes : List UInt8)
  | lengthDelimited (payload : List UInt8)
  | fixed32 (bytes : List UInt8)
  deriving DecidableEq, Repr

/-- The wire type of a value. -/
def UnknownValue.wireType : UnknownValue → Nat
  | .varint _ => 0
  | .fixed64 _ => 1
  | .lengthDelimited _ => 2
  | .fixed32 _ => 5

/-- The bytes of one varint: every byte but the last has the continuation bit
`0x80`, and the last has not. -/
def isVarintBytes : List UInt8 → Bool
  | [] => false
  | b :: rest => if b.toNat < 0x80 then rest.isEmpty else isVarintBytes rest

/-- A value that is well formed: a varint of at most ten bytes, exactly eight
bytes, any payload, or exactly four bytes. -/
def UnknownValue.wellFormed : UnknownValue → Bool
  | .varint bytes => isVarintBytes bytes && decide (bytes.length ≤ 10)
  | .fixed64 bytes => decide (bytes.length = 8)
  | .lengthDelimited _ => true
  | .fixed32 bytes => decide (bytes.length = 4)

/-- The bytes of a value on the wire. -/
def UnknownValue.encode : UnknownValue → List UInt8
  | .varint bytes => bytes
  | .fixed64 bytes => bytes
  | .lengthDelimited payload => specVarint payload.length ++ payload
  | .fixed32 bytes => bytes

/-- The bytes of a field on the wire: the varint of `field_number << 3 | wire_type`
and the value. -/
def specUnknownField (fieldNum : Nat) (value : UnknownValue) : List UInt8 :=
  specVarint (fieldNum * 8 + value.wireType) ++ value.encode

/-! ## The address pattern -/

theorem byte_toNat_0 : (byte '0').toNat = 48 := by decide
theorem byte_toNat_9 : (byte '9').toNat = 57 := by decide
theorem byte_toNat_a : (byte 'a').toNat = 97 := by decide
theorem byte_toNat_f : (byte 'f').toNat = 102 := by decide
theorem byte_toNat_A : (byte 'A').toNat = 65 := by decide
theorem byte_toNat_F : (byte 'F').toNat = 70 := by decide

theorem step_beginText (k : Cont) (a : Bool) (s : GoString) :
    Regexp.beginText.step k a s = (a && k a s) := rfl
theorem step_endText (k : Cont) (a : Bool) (s : GoString) :
    Regexp.endText.step k a s = (s.isEmpty && k a s) := rfl
theorem step_lit_nil (c : UInt8) (k : Cont) (a : Bool) :
    (Regexp.lit c).step k a [] = false := rfl
theorem step_lit_cons (c : UInt8) (k : Cont) (a : Bool) (b : UInt8) (t : GoString) :
    (Regexp.lit c).step k a (b :: t) = ((b == c) && k false t) := rfl
theorem step_cls_nil (rs : List (UInt8 × UInt8)) (k : Cont) (a : Bool) :
    (Regexp.cls rs).step k a [] = false := rfl
theorem step_cls_cons (rs : List (UInt8 × UInt8)) (k : Cont) (a : Bool) (b : UInt8)
    (t : GoString) : (Regexp.cls rs).step k a (b :: t) = (inClass rs b && k false t) := rfl
theorem step_cat (r s : Regexp) (k : Cont) : (Regexp.cat r s).step k = r.step (s.step k) := rfl
theorem step_rep (r : Regexp) (n : Nat) (k : Cont) :
    (Regexp.rep r n).step k = iterate r.step n k := rfl

theorem inClass_hex (b : UInt8) :
    inClass [(byte '0', byte '9'), (byte 'a', byte 'f'), (byte 'A', byte 'F')] b = true
      ↔ IsHexDigit b := by
  simp [inClass, IsHexDigit, byte_toNat_0, byte_toNat_9, byte_toNat_a, byte_toNat_f,
    byte_toNat_A, byte_toNat_F]

theorem iterate_cls (rs : List (UInt8 × UInt8)) (k : Cont) :
    ∀ (n : Nat) (a : Bool) (s : GoString),
      iterate (Regexp.step (.cls rs)) n k a s = true ↔
        ∃ hs t, s = hs ++ t ∧ hs.length = n ∧ (∀ b ∈ hs, inClass rs b = true) ∧
          k (a && decide (n = 0)) t = true := by
  intro n
  induction n with
  | zero =>
    intro a s
    constructor
    · intro h
      exact ⟨[], s, rfl, rfl, by simp, by simpa [iterate] using h⟩
    · rintro ⟨hs, t, rfl, hlen, -, hk⟩
      obtain rfl := List.length_eq_zero.mp hlen
      simpa [iterate] using hk
  | succ n ih =>
    intro a s
    cases s with
    | nil => simp [iterate, step_cls_nil]
    | cons b t =>
      simp only [iterate, step_cls_cons, Bool.and_eq_true, ih]
      constructor
      · rintro ⟨hb, hs, t', rfl, hlen, hall, hk⟩
        refine ⟨b :: hs, t', rfl, by simp [hlen], ?_, by simpa using hk⟩
        intro c hc
        rcases List.mem_cons.mp hc with rfl | hc
        · exact hb
        · exact hall c hc
      · rintro ⟨hs, t', heq, hlen, hall, hk⟩
        cases hs with
        | nil => simp at hlen
        | cons c hs =>
          simp only [List.cons_append, List.cons.injEq] at heq
          obtain ⟨rfl, rfl⟩ := heq
          refine ⟨hall b (List.mem_cons_self _ _), hs, t', rfl, by simpa using hlen, ?_,
            by simpa using hk⟩
          intro d hd
          exact hall d (List.mem_cons_of_mem _ hd)

theorem matchString_ethAddressRegexp (s : GoString) :
    MatchString ethAddressRegexp s = true ↔ IsEthAddressString s := by
  unfold MatchString IsEthAddressString
  rw [List.any_eq_true]
  constructor
  · rintro ⟨i, -, h⟩
    simp only [ethAddressRegexp, step_cat, step_beginText, Bool.and_eq_true, beq_iff_eq] at h
    obtain ⟨rfl, h⟩ := h
    rw [List.drop_zero] at h
    cases s with
    | nil => simp [step_lit_nil] at h
    | cons b0 t =>
      cases t with
      | nil => simp [step_lit_nil, step_lit_cons] at h
      | cons b1 t =>
        simp only [step_lit_cons, step_rep, Bool.and_eq_true, beq_iff_eq] at h
        obtain ⟨rfl, rfl, h⟩ := h
        rw [iterate_cls] at h
        obtain ⟨hs, t', rfl, hlen, hall, hk⟩ := h
        simp only [step_endText, Bool.and_eq_true, List.isEmpty_iff] at hk
        obtain ⟨rfl, -⟩ := hk
        refine ⟨hs, by simp, hlen, fun b hb => (inClass_hex b).mp (hall b hb)⟩
  · rintro ⟨hs, rfl, hlen, hall⟩
    refine ⟨0, by simp, ?_⟩
    simp only [ethAddressRegexp, step_cat, step_beginText, step_lit_cons, step_rep,
      List.drop_zero, beq_self_eq_true, Bool.true_and]
    rw [iterate_cls]
    exact ⟨hs, [], by simp, hlen, fun b hb => (inClass_hex b).mpr (hall b hb), by simp [step_endText]⟩

/-! ## Validation and the denom codec -/

theorem IsEthAddressString.length_eq {s : GoString} (h : IsEthAddressString s) :
    s.length = 42 := by
  obtain ⟨hs, rfl, hlen, -⟩ := h
  simp [hlen]

theorem validateBasic_eq_none_iff (c : EthAddress) :
    c.ValidateBasic = none ↔ IsEthAddressString c.Address := by
  unfold EthAddress.ValidateBasic
  constructor
  · intro h
    split_ifs at h with h1 h2 h3
    simp only [Bool.not_eq_true', Bool.not_eq_false] at h2
    exact (matchString_ethAddressRegexp _).mp h2
  · intro h
    have hm := (matchString_ethAddressRegexp _).mpr h
    have hl := h.length_eq
    have hne : c.Address ≠ [] := by
      intro h0
      rw [h0] at hl
      simp at hl
    simp [hne, hm, hl, ETHContractAddressLen]

theorem newEthAddress_of_valid {s : GoString} (h : IsEthAddressString s) :
    NewEthAddress s = (some ⟨s⟩, none) := by
  have hv : (EthAddress.mk s).ValidateBasic = none := (validateBasic_eq_none_iff ⟨s⟩).mpr h
  simp [NewEthAddress, hv]

theorem newEthAddress_of_invalid {s : GoString} (h : ¬ IsEthAddressString s) :
    ∃ err, NewEthAddress s = (none, some (.wrap err "invalid input address")) ∧
      (EthAddress.mk s).ValidateBasic = some err := by
  have hv : (EthAddress.mk s).ValidateBasic ≠ none :=
    fun h0 => h ((validateBasic_eq_none_iff ⟨s⟩).mp h0)
  obtain ⟨err, herr⟩ := Option.ne_none_iff_exists'.mp hv
  exact ⟨err, by simp [NewEthAddress, herr], herr⟩

theorem hasPrefix_iff (s p : GoString) : HasPrefix s p = true ↔ ∃ t, s = p ++ t := by
  unfold HasPrefix
  simp only [Bool.and_eq_true, decide_eq_true_eq, beq_iff_eq]
  constructor
  · rintro ⟨-, h⟩
    exact ⟨s.drop p.length, by conv_lhs => rw [← List.take_append_drop p.length s, h]⟩
  · rintro ⟨t, rfl⟩
    simp

theorem trimPrefix_append (p t : GoString) : TrimPrefix (p ++ t) p = t := by
  have h : HasPrefix (p ++ t) p = true := (hasPrefix_iff _ _).mpr ⟨t, rfl⟩
  simp [TrimPrefix, h]

theorem fullPrefix_eq : GravityDenomPrefix ++ GravityDenomSeparator = ascii "gravity" := by
  decide

theorem gravityDenomLen_eq : GravityDenomLen = 49 := by decide

theorem gravityDenom_eq (c : EthAddress) : GravityDenom c = ascii "gravity" ++ c.Address := by
  unfold GravityDenom
  rw [fullPrefix_eq]

theorem ascii_gravity_length : (ascii "gravity").length = 7 := by decide

/-- What `GravityDenomToERC20` returns on a denom that starts with the prefix. -/
theorem gravityDenomToERC20_append (t : GoString) :
    GravityDenomToERC20 (ascii "gravity" ++ t) =
      match (EthAddress.mk t).ValidateBasic with
      | some err => (none, some (.contractAddress (.wrap err "invalid input address")))
      | none => (some ⟨t⟩, none) := by
  have hp : HasPrefix (ascii "gravity" ++ t) (ascii "gravity") = true :=
    (hasPrefix_iff _ _).mpr ⟨t, rfl⟩
  unfold GravityDenomToERC20
  simp only [fullPrefix_eq, hp, trimPrefix_append, Bool.not_true, Bool.false_eq_true, if_false]
  cases hv : (EthAddress.mk t).ValidateBasic with
  | some err => simp [NewEthAddress, hv]
  | none =>
    have hl := ((validateBasic_eq_none_iff ⟨t⟩).mp hv).length_eq
    simp [NewEthAddress, hv, gravityDenomLen_eq, ascii_gravity_length, hl]

/-- What `GravityDenomToERC20` returns on a denom that does not start with the prefix. -/
theorem gravityDenomToERC20_unprefixed (d : GoString) (h : ¬ ∃ t, d = ascii "gravity" ++ t) :
    GravityDenomToERC20 d = (none, some (.denomPrefix d (ascii "gravity"))) := by
  have hp : HasPrefix d (ascii "gravity") = false := by
    rw [← Bool.not_eq_true, hasPrefix_iff]
    exact h
  unfold GravityDenomToERC20
  simp [fullPrefix_eq, hp]

/-! ## Token addition -/

theorem uint64_of_isUint64 (x : Int) (h0 : 0 ≤ x) (h1 : x < 2 ^ 64) :
    Int.ofNat (Uint64 x % 2 ^ 64) = x := by
  unfold Uint64
  have h2 : x.natAbs < 2 ^ 64 := by omega
  rw [Nat.mod_mod, Nat.mod_eq_of_lt h2]
  simp only [Int.ofNat_eq_coe]
  omega

theorem isUint64_iff (x : Int) : IsUint64 x = true ↔ 0 ≤ x ∧ x < 2 ^ 64 := by
  unfold IsUint64
  rw [Bool.and_eq_true, decide_eq_true_eq, decide_eq_true_eq]

/-- What `Add` computes on two tokens whose contracts are not nil. -/
theorem add_eq (e o : ERC20Token) (ec oc : EthAddress) (he : e.Contract = some ec)
    (ho : o.Contract = some oc) :
    e.Add o =
      if ec.Address ≠ oc.Address then .error .invalidContractAddress
      else if 2 ^ 256 ≤ (e.Amount + o.Amount).natAbs then .error .intOverflow
      else if ¬ (0 ≤ e.Amount + o.Amount ∧ e.Amount + o.Amount < 2 ^ 64) then
        .error .invalidAmount
      else .ok ⟨e.Amount + o.Amount, some ec⟩ := by
  unfold ERC20Token.Add
  rw [he, ho]
  by_cases h1 : ec.Address ≠ oc.Address
  · simp only [if_pos h1]
  · by_cases h2 : 2 ^ 256 ≤ (e.Amount + o.Amount).natAbs
    · simp only [if_neg h1, sdkIntAdd, maxBitLen, if_pos h2]
    · by_cases h3 : 0 ≤ e.Amount + o.Amount ∧ e.Amount + o.Amount < 2 ^ 64
      · have hu : IsUint64 (e.Amount + o.Amount) = true := (isUint64_iff _).mpr h3
        simp only [if_neg h1, sdkIntAdd, maxBitLen, if_neg h2, hu, Bool.not_true,
          Bool.false_eq_true, if_false, if_neg (not_not.mpr h3), NewERC20Token,
          uint64_of_isUint64 _ h3.1 h3.2]
      · have hu : IsUint64 (e.Amount + o.Amount) = false := by
          rw [← Bool.not_eq_true, isUint64_iff]
          exact h3
        simp only [if_neg h1, sdkIntAdd, maxBitLen, if_neg h2, hu, Bool.not_false, if_true,
          if_pos h3]

/-! ## Comparison of addresses -/

/-- The comparison of byte strings of equal length through a map that preserves
and reflects the order of their bytes is the lexicographic order of the images. -/
theorem bytesCompare_map (f : UInt8 → Nat) :
    ∀ (xs ys : List UInt8), xs.length = ys.length →
      (∀ x ∈ xs, ∀ y ∈ ys, (x.toNat < y.toNat ↔ f x < f y) ∧ (y.toNat < x.toNat ↔ f y < f x)) →
      (bytesCompare xs ys = -1 ↔ specLexLess (xs.map f) (ys.map f) = true) := by
  intro xs
  induction xs with
  | nil =>
    intro ys hlen _
    cases ys with
    | nil => simp [bytesCompare, specLexLess]
    | cons y ys => simp at hlen
  | cons x xs ih =>
    intro ys hlen hf
    cases ys with
    | nil => simp at hlen
    | cons y ys =>
      have hxy := hf x (List.mem_cons_self _ _) y (List.mem_cons_self _ _)
      have hrec := ih ys (by simpa using hlen)
        (fun a ha b hb => hf a (List.mem_cons_of_mem _ ha) b (List.mem_cons_of_mem _ hb))
      simp only [bytesCompare, List.map_cons, specLexLess, Bool.or_eq_true, Bool.and_eq_true,
        decide_eq_true_eq]
      by_cases h1 : x.toNat < y.toNat
      · have h2 : f x < f y := hxy.1.mp h1
        simp [h1, h2]
      · by_cases h2 : y.toNat < x.toNat
        · have h3 : f y < f x := hxy.2.mp h2
          have h4 : ¬ f x < f y := by omega
          have h5 : ¬ f x = f y := by omega
          simp [h1, h2, h4, h5]
        · have h3 : x = y := UInt8.ext (by omega)
          subst h3
          simp [h1, hrec]

/-- Pairing digits into bytes preserves the lexicographic order. -/
theorem specLexLess_pairBytes :
    ∀ (k : Nat) (ns ms : List Nat), ns.length = 2 * k → ms.length = 2 * k →
      (∀ n ∈ ns, n < 16) → (∀ m ∈ ms, m < 16) →
      specLexLess (specPairBytes ns) (specPairBytes ms) = specLexLess ns ms := by
  intro k
  induction k with
  | zero =>
    intro ns ms hn hm _ _
    obtain rfl := List.length_eq_zero.mp hn
    obtain rfl := List.length_eq_zero.mp hm
    rfl
  | succ k ih =>
    intro ns ms hn hm hns hms
    match ns, ms, hn, hm, hns, hms with
    | h1 :: l1 :: t, h2 :: l2 :: t', hn, hm, hns, hms =>
      have e1 : h1 < 16 := hns h1 (by simp)
      have e2 : l1 < 16 := hns l1 (by simp)
      have e3 : h2 < 16 := hms h2 (by simp)
      have e4 : l2 < 16 := hms l2 (by simp)
      have hrec := ih t t' (by simp at hn; omega) (by simp at hm; omega)
        (fun n hn' => hns n (by simp [hn'])) (fun m hm' => hms m (by simp [hm']))
      simp only [specPairBytes, specLexLess, hrec]
      rw [Bool.eq_iff_iff]
      simp only [Bool.or_eq_true, Bool.and_eq_true, decide_eq_true_eq]
      constructor
      · rintro (h | ⟨h, hr⟩)
        · by_cases hh : h1 < h2
          · exact Or.inl hh
          · exact Or.inr ⟨by omega, Or.inl (by omega)⟩
        · exact Or.inr ⟨by omega, Or.inr ⟨by omega, hr⟩⟩
      · rintro (h | ⟨h, h' | ⟨h', hr⟩⟩)
        · exact Or.inl (by omega)
        · exact Or.inl (by omega)
        · exact Or.inr ⟨by omega, hr⟩
    | [], _, hn, _, _, _ => simp at hn
    | [_], _, hn, _, _, _ => simp at hn; omega
    | _ :: _ :: _, [], _, hm, _, _ => simp at hm
    | _ :: _ :: _, [_], _, hm, _, _ => simp at hm; omega

theorem specHexVal_lt (b : UInt8) : specHexVal b < 16 := by
  unfold specHexVal
  split_ifs <;> omega

/-- On hexadecimal digits without upper-case letters the digit value preserves
and reflects the order of the character codes. -/
theorem specHexVal_mono_lower (x y : UInt8) (hx : IsHexDigit x) (hy : IsHexDigit y)
    (hxu : ¬ (65 ≤ x.toNat ∧ x.toNat ≤ 70)) (hyu : ¬ (65 ≤ y.toNat ∧ y.toNat ≤ 70)) :
    x.toNat < y.toNat ↔ specHexVal x < specHexVal y := by
  unfold IsHexDigit at hx hy
  unfold specHexVal
  split_ifs <;> omega

/-- On hexadecimal digits without lower-case letters the digit value preserves
and reflects the order of the character codes. -/
theorem specHexVal_mono_upper (x y : UInt8) (hx : IsHexDigit x) (hy : IsHexDigit y)
    (hxl : ¬ (97 ≤ x.toNat ∧ x.toNat ≤ 102)) (hyl : ¬ (97 ≤ y.toNat ∧ y.toNat ≤ 102)) :
    x.toNat < y.toNat ↔ specHexVal x < specHexVal y := by
  unfold IsHexDigit at hx hy
  unfold specHexVal
  split_ifs <;> omega

theorem bytesCompare_0x (xs ys : List UInt8) :
    bytesCompare (byte '0' :: byte 'x' :: xs) (byte '0' :: byte 'x' :: ys) = bytesCompare xs ys := by
  simp [bytesCompare]

/-! ## Round trip of the denom codec -/

/-- C1: decode after encode. For every `EthAddress` `c` for which
`c.ValidateBasic()` returns nil, `GravityDenomToERC20(GravityDenom(c))` returns
no error and the address whose string is `c.Address`. -/
theorem denom_decode_encode (c : EthAddress) (h : c.ValidateBasic = none) :
    GravityDenomToERC20 (GravityDenom c) = (some ⟨c.Address⟩, none) := by
  rw [gravityDenom_eq, gravityDenomToERC20_append]
  have hv : (EthAddress.mk c.Address).ValidateBasic = none := h
  simp [hv]

/-- The zero address is valid and its denom decodes to it. -/
theorem denom_decode_encode_witness :
    ZeroAddress.ValidateBasic = none ∧
      GravityDenomToERC20 (GravityDenom ZeroAddress) = (some ⟨ZeroAddress.Address⟩, none) :=
  ⟨by decide, denom_decode_encode ZeroAddress (by decide)⟩

/-- C2: encode after decode. Whenever `GravityDenomToERC20(d)` returns a nil
error, it returns a non-nil contract `c` and `GravityDenom(c)` is `d`, byte for
byte. -/
theorem denom_encode_decode (d : GoString) (h : (GravityDenomToERC20 d).2 = none) :
    ∃ c, (GravityDenomToERC20 d).1 = some c ∧ GravityDenom c = d := by
  by_cases hp : ∃ t, d = ascii "gravity" ++ t
  · obtain ⟨t, rfl⟩ := hp
    rw [gravityDenomToERC20_append] at h ⊢
    cases hv : (EthAddress.mk t).ValidateBasic with
    | some err => simp [hv] at h
    | none => exact ⟨⟨t⟩, by simp, gravityDenom_eq _⟩
  · rw [gravityDenomToERC20_unprefixed d hp] at h
    simp at h

/-- The denom of the zero address decodes without error and encodes back to itself. -/
theorem denom_encode_decode_witness :
    (GravityDenomToERC20 (GravityDenom ZeroAddress)).2 = none ∧
      ∃ c, (GravityDenomToERC20 (GravityDenom ZeroAddress)).1 = some c ∧
        GravityDenom c = GravityDenom ZeroAddress :=
  ⟨by decide, denom_encode_decode (GravityDenom ZeroAddress) (by decide)⟩

/-- C3: `GravityDenomToERC20(d)` returns an error exactly when `d` does not
start with `gravity`, or the remainder after that prefix fails `EthAddress`
validation, or `len(d)` differs from 49; it returns no error exactly when `d` is
`gravity` followed by a string of the form `0x` plus 40 hexadecimal digits, and
then the contract returned is that remainder. -/
theorem gravityDenomToERC20_fails_iff (d : GoString) :
    ((GravityDenomToERC20 d).2 ≠ none ↔
        ((¬ ∃ t, d = ascii "gravity" ++ t) ∨
          (∃ t, d = ascii "gravity" ++ t ∧ (EthAddress.mk t).ValidateBasic ≠ none) ∨
          d.length ≠ 49)) ∧
      ((GravityDenomToERC20 d).2 = none ↔
        ∃ s, d = ascii "gravity" ++ s ∧ IsEthAddressString s) ∧
      (∀ s, d = ascii "gravity" ++ s → IsEthAddressString s →
        GravityDenomToERC20 d = (some ⟨s⟩, none)) := by
  have key : (GravityDenomToERC20 d).2 = none ↔
      ∃ s, d = ascii "gravity" ++ s ∧ IsEthAddressString s := by
    constructor
    · intro h
      by_cases hp : ∃ t, d = ascii "gravity" ++ t
      · obtain ⟨t, rfl⟩ := hp
        rw [gravityDenomToERC20_append] at h
        cases hv : (EthAddress.mk t).ValidateBasic with
        | some err => simp [hv] at h
        | none => exact ⟨t, rfl, (validateBasic_eq_none_iff ⟨t⟩).mp hv⟩
      · rw [gravityDenomToERC20_unprefixed d hp] at h
        simp at h
    · rintro ⟨s, rfl, hs⟩
      rw [gravityDenomToERC20_append, (validateBasic_eq_none_iff ⟨s⟩).mpr hs]
  refine ⟨?_, key, ?_⟩
  · rw [Ne, key]
    constructor
    · intro h
      by_cases hp : ∃ t, d = ascii "gravity" ++ t
      · obtain ⟨t, rfl⟩ := hp
        refine Or.inr (Or.inl ⟨t, rfl, fun hv => h ⟨t, rfl, ?_⟩⟩)
        exact (validateBasic_eq_none_iff ⟨t⟩).mp hv
      · exact Or.inl hp
    · rintro (h | ⟨t, rfl, hv⟩ | h) ⟨s, hd, hs⟩
      · exact h ⟨s, hd⟩
      · obtain rfl := List.append_cancel_left hd
        exact hv ((validateBasic_eq_none_iff ⟨t⟩).mpr hs)
      · apply h
        rw [hd, List.length_append, hs.length_eq, ascii_gravity_length]
  · rintro s rfl hs
    rw [gravityDenomToERC20_append, (validateBasic_eq_none_iff ⟨s⟩).mpr hs]

/-! ## Address validation -/

/-- C4: `EthAddress.ValidateBasic` returns nil, and `NewEthAddress(s)` returns
the address holding exactly `s` with no error, if and only if `s` is `0x`
followed by exactly 40 characters each in `0-9`, `a-f` or `A-F`; every other
string is rejected with an error, among them the empty string and a valid
address followed by a newline. -/
theorem validateBasic_accepts_iff (s : GoString) :
    ((EthAddress.mk s).ValidateBasic = none ↔ IsEthAddressString s) ∧
      (NewEthAddress s = (some ⟨s⟩, none) ↔ IsEthAddressString s) ∧
      (¬ IsEthAddressString s →
        (EthAddress.mk s).ValidateBasic ≠ none ∧
          (NewEthAddress s).1 = none ∧ (NewEthAddress s).2 ≠ none) ∧
      (EthAddress.mk (ascii "")).ValidateBasic = some .empty ∧
      (NewEthAddress (ascii "")).2 ≠ none ∧
      (EthAddress.mk (ZeroAddressString ++ [10])).ValidateBasic ≠ none ∧
      (NewEthAddress (ZeroAddressString ++ [10])).2 ≠ none := by
  refine ⟨validateBasic_eq_none_iff ⟨s⟩, ⟨?_, newEthAddress_of_valid⟩, ?_,
    by decide, by decide, by decide, by decide⟩
  · intro h
    by_contra hs
    obtain ⟨err, he, -⟩ := newEthAddress_of_invalid hs
    rw [he] at h
    simp at h
  · intro hs
    obtain ⟨err, he, hv⟩ := newEthAddress_of_invalid hs
    simp [he, hv]

/-! ## Shape of a denom -/

/-- C9: for every valid `EthAddress` `c`, `GravityDenom(c)` is the string
`gravity` immediately followed by `c.Address`, and its length is exactly 49
bytes, the value of the constant `GravityDenomLen`. -/
theorem gravityDenom_shape (c : EthAddress) (h : c.ValidateBasic = none) :
    GravityDenom c = ascii "gravity" ++ c.Address ∧
      (GravityDenom c).length = 49 ∧ GravityDenomLen = 49 := by
  have hl := ((validateBasic_eq_none_iff c).mp h).length_eq
  refine ⟨gravityDenom_eq c, ?_, gravityDenomLen_eq⟩
  rw [gravityDenom_eq, List.length_append, hl, ascii_gravity_length]

/-- The denom of the token contract of the pool tests. -/
theorem gravityDenom_shape_witness :
    sampleContract.ValidateBasic = none ∧
      GravityDenom sampleContract = ascii "gravity" ++ sampleContract.Address ∧
      (GravityDenom sampleContract).length = 49 ∧ GravityDenomLen = 49 :=
  ⟨by decide, gravityDenom_shape sampleContract (by decide)⟩

/-- C10: `GravityDenom` is injective on valid contracts: for valid `a` and `b`,
`GravityDenom(a) = GravityDenom(b)` implies `a.Address = b.Address`. -/
theorem gravityDenom_injective (a b : EthAddress) (_ha : a.ValidateBasic = none)
    (_hb : b.ValidateBasic = none) (h : GravityDenom a = GravityDenom b) :
    a.Address = b.Address := by
  rw [gravityDenom_eq, gravityDenom_eq] at h
  exact List.append_cancel_left h

/-- Two valid addresses with the same denom, checked on the zero address. -/
theorem gravityDenom_injective_witness :
    ZeroAddress.ValidateBasic = none ∧ (⟨ZeroAddressString⟩ : EthAddress).ValidateBasic = none ∧
      GravityDenom ZeroAddress = GravityDenom ⟨ZeroAddressString⟩ ∧
      ZeroAddress.Address = (⟨ZeroAddressString⟩ : EthAddress).Address :=
  ⟨by decide, by decide, rfl,
    gravityDenom_injective ZeroAddress ⟨ZeroAddressString⟩ (by decide) (by decide) rfl⟩

/-! ## Token addition: when it panics and what it returns -/

/-- C5: on two tokens with contracts, `ERC20Token.Add(e, o)` panics if and only
if the two contract address strings differ or the exact integer sum
`e.Amount + o.Amount` is not representable as an unsigned 64-bit integer; in
every other case it returns the token whose contract is the contract of `e` and
whose amount is exactly `e.Amount + o.Amount`. -/
theorem add_panics_iff (e o : ERC20Token) (ec oc : EthAddress)
    (he : e.Contract = some ec) (ho : o.Contract = some oc) :
    ((∃ p, e.Add o = .error p) ↔
        (ec.Address ≠ oc.Address ∨
          ¬ (0 ≤ e.Amount + o.Amount ∧ e.Amount + o.Amount < 2 ^ 64))) ∧
      (¬ (ec.Address ≠ oc.Address ∨
          ¬ (0 ≤ e.Amount + o.Amount ∧ e.Amount + o.Amount < 2 ^ 64)) →
        e.Add o = .ok ⟨e.Amount + o.Amount, some ec⟩) := by
  rw [add_eq e o ec oc he ho]
  by_cases h1 : ec.Address ≠ oc.Address
  · rw [if_pos h1]
    exact ⟨⟨fun _ => Or.inl h1, fun _ => ⟨_, rfl⟩⟩, fun h => absurd (Or.inl h1) h⟩
  · by_cases h3 : 0 ≤ e.Amount + o.Amount ∧ e.Amount + o.Amount < 2 ^ 64
    · have h2 : ¬ 2 ^ 256 ≤ (e.Amount + o.Amount).natAbs := by omega
      rw [if_neg h1, if_neg h2, if_neg (not_not.mpr h3)]
      refine ⟨⟨?_, ?_⟩, fun _ => rfl⟩
      · rintro ⟨p, hp⟩
        cases hp
      · rintro (h | h)
        · exact absurd h h1
        · exact absurd h3 h
    · by_cases h2 : 2 ^ 256 ≤ (e.Amount + o.Amount).natAbs
      · rw [if_neg h1, if_pos h2]
        exact ⟨⟨fun _ => Or.inr h3, fun _ => ⟨_, rfl⟩⟩, fun h => absurd (Or.inr h3) h⟩
      · rw [if_neg h1, if_neg h2, if_pos h3]
        exact ⟨⟨fun _ => Or.inr h3, fun _ => ⟨_, rfl⟩⟩, fun h => absurd (Or.inr h3) h⟩

/-- The sum of 100 and 2 units of the token of the pool tests. -/
theorem add_panics_iff_witness :
    (NewERC20Token 100 sampleContract).Contract = some sampleContract ∧
      (NewERC20Token 2 sampleContract).Contract = some sampleContract ∧
      (NewERC20Token 100 sampleContract).Add (NewERC20Token 2 sampleContract) =
        .ok ⟨102, some sampleContract⟩ :=
  ⟨rfl, rfl,
    (add_panics_iff (NewERC20Token 100 sampleContract) (NewERC20Token 2 sampleContract)
      sampleContract sampleContract rfl rfl).2 (by decide)⟩

/-- C6, as stated, fails: two tokens of the same contract with amounts
`2^64 − 1` and `1` have the exact sum `2^64`, which is at most `2^256 − 1`, and
`Add` panics with "invalid amount". -/
theorem add_beyond_uint64_counterexample :
    (NewERC20Token (2 ^ 64 - 1) ZeroAddress).Contract = (NewERC20Token 1 ZeroAddress).Contract ∧
      (NewERC20Token (2 ^ 64 - 1) ZeroAddress).Amount + (NewERC20Token 1 ZeroAddress).Amount
        = 2 ^ 64 ∧
      (2 : Int) ^ 64 ≤ 2 ^ 256 - 1 ∧
      (NewERC20Token (2 ^ 64 - 1) ZeroAddress).Add (NewERC20Token 1 ZeroAddress)
        = .error .invalidAmount :=
  ⟨rfl, by simp [NewERC20Token], by norm_num, rfl⟩

/-- C6, amended: for every two tokens `a` and `b` with the same contract and
non-negative amounts, `Add(a, b)` succeeds with amount `a.Amount + b.Amount`
when the exact sum is at most `2^64 − 1`, and panics when the exact sum exceeds
`2^64 − 1`: addition beyond 64 bits is refused. -/
theorem add_within_uint64 (a b : ERC20Token) (c : EthAddress)
    (ha : a.Contract = some c) (hb : b.Contract = some c)
    (hna : 0 ≤ a.Amount) (hnb : 0 ≤ b.Amount) :
    (a.Amount + b.Amount ≤ 2 ^ 64 - 1 → a.Add b = .ok ⟨a.Amount + b.Amount, some c⟩) ∧
      (2 ^ 64 - 1 < a.Amount + b.Amount →
        a.Add b = .error .invalidAmount ∨ a.Add b = .error .intOverflow) := by
  rw [add_eq a b c c ha hb]
  constructor
  · intro h
    have h2 : ¬ 2 ^ 256 ≤ (a.Amount + b.Amount).natAbs := by omega
    have h3 : 0 ≤ a.Amount + b.Amount ∧ a.Amount + b.Amount < 2 ^ 64 := by omega
    simp only [ne_eq, not_true_eq_false, if_false, if_neg h2, if_neg (not_not.mpr h3)]
  · intro h
    have h3 : ¬ (0 ≤ a.Amount + b.Amount ∧ a.Amount + b.Amount < 2 ^ 64) := by omega
    by_cases h2 : 2 ^ 256 ≤ (a.Amount + b.Amount).natAbs
    · right
      simp only [ne_eq, not_true_eq_false, if_false, if_pos h2]
    · left
      simp only [ne_eq, not_true_eq_false, if_false, if_neg h2, if_pos h3]

/-- The largest sum that `Add` accepts, and the smallest that it refuses. -/
theorem add_within_uint64_witness :
    (NewERC20Token (2 ^ 64 - 2) ZeroAddress).Add (NewERC20Token 1 ZeroAddress)
        = .ok ⟨2 ^ 64 - 1, some ZeroAddress⟩ ∧
      ((NewERC20Token (2 ^ 64 - 1) ZeroAddress).Add (NewERC20Token 1 ZeroAddress)
          = .error .invalidAmount ∨
        (NewERC20Token (2 ^ 64 - 1) ZeroAddress).Add (NewERC20Token 1 ZeroAddress)
          = .error .intOverflow) :=
  ⟨(add_within_uint64 (NewERC20Token (2 ^ 64 - 2) ZeroAddress) (NewERC20Token 1 ZeroAddress)
      ZeroAddress rfl rfl (by decide) (by decide)).1 (by decide),
    (add_within_uint64 (NewERC20Token (2 ^ 64 - 1) ZeroAddress) (NewERC20Token 1 ZeroAddress)
      ZeroAddress rfl rfl (by decide) (by decide)).2 (by decide)⟩

/-- C8, as stated, fails: the two valid contract strings `0xa0…0` and `0xA0…0`
denote the same 20 raw bytes and the amounts 1 and 2 sum to 3, yet `Add` panics
with "invalid contract address". -/
theorem add_letter_case_counterexample :
    lowerAddress.ValidateBasic = none ∧ upperAddress.ValidateBasic = none ∧
      specRawBytes lowerAddress.Address = specRawBytes upperAddress.Address ∧
      (NewERC20Token 1 lowerAddress).Amount + (NewERC20Token 2 upperAddress).Amount
        ≤ 2 ^ 64 - 1 ∧
      (NewERC20Token 1 lowerAddress).Add (NewERC20Token 2 upperAddress)
        = .error .invalidContractAddress :=
  ⟨by decide, by decide, by decide, by decide, rfl⟩

/-- C8, amended: contract equality is equality of the address strings, byte for
byte. For every two tokens with valid contracts and non-negative amounts that
sum to at most `2^64 − 1`, `Add` returns their sum when the two contract strings
are identical, and fails with a contract mismatch when the strings differ. -/
theorem add_same_contract_string (e o : ERC20Token) (ec oc : EthAddress)
    (he : e.Contract = some ec) (ho : o.Contract = some oc)
    (_hve : ec.ValidateBasic = none) (_hvo : oc.ValidateBasic = none)
    (hne : 0 ≤ e.Amount) (hno : 0 ≤ o.Amount) (hsum : e.Amount + o.Amount ≤ 2 ^ 64 - 1) :
    (ec.Address = oc.Address → e.Add o = .ok ⟨e.Amount + o.Amount, some ec⟩) ∧
      (ec.Address ≠ oc.Address → e.Add o = .error .invalidContractAddress) := by
  rw [add_eq e o ec oc he ho]
  constructor
  · intro h
    have h2 : ¬ 2 ^ 256 ≤ (e.Amount + o.Amount).natAbs := by omega
    have h3 : 0 ≤ e.Amount + o.Amount ∧ e.Amount + o.Amount < 2 ^ 64 := by omega
    simp only [ne_eq, h, not_true_eq_false, if_false, if_neg h2, if_neg (not_not.mpr h3)]
  · intro h
    simp only [if_pos h]

/-- The sum of 101 and 3 units of the token of the pool tests. -/
theorem add_same_contract_string_witness :
    sampleContract.ValidateBasic = none ∧
      (NewERC20Token 101 sampleContract).Add (NewERC20Token 3 sampleContract)
        = .ok ⟨104, some sampleContract⟩ :=
  ⟨by decide,
    (add_same_contract_string (NewERC20Token 101 sampleContract) (NewERC20Token 3 sampleContract)
      sampleContract sampleContract rfl rfl (by decide) (by decide) (by decide) (by decide)
      (by decide)).1 rfl⟩

/-! ## Order of addresses -/

/-- C7, as stated, fails: for the valid addresses `0xa0…0` and `0xB0…0` the raw
bytes of the first are lexicographically smaller than those of the second, but
`EthAddrLessThan` is false; and `EthAddrLessThan` holds between `0xA0…0` and
`0xa0…0`, which denote the same 20 bytes. -/
theorem ethAddrLessThan_counterexample :
    lowerAddress.ValidateBasic = none ∧ upperAddressB.ValidateBasic = none ∧
      upperAddress.ValidateBasic = none ∧
      specLexLess (specRawBytes lowerAddress.Address) (specRawBytes upperAddressB.Address) = true ∧
      EthAddrLessThan lowerAddress upperAddressB = false ∧
      specRawBytes upperAddress.Address = specRawBytes lowerAddress.Address ∧
      EthAddrLessThan upperAddress lowerAddress = true := by
  decide

/-- C7, amended: for every two valid addresses `a` and `b` written in the same
letter case (neither has an upper-case hexadecimal letter, or neither has a
lower-case one), `EthAddrLessThan(a, b)` is true exactly when the 20 raw bytes
denoted by `a` are lexicographically smaller than the 20 raw bytes denoted by
`b`. -/
theorem ethAddrLessThan_same_case (a b : EthAddress)
    (ha : a.ValidateBasic = none) (hb : b.ValidateBasic = none)
    (hcase : (NoUpperHex a.Address ∧ NoUpperHex b.Address) ∨
      (NoLowerHex a.Address ∧ NoLowerHex b.Address)) :
    EthAddrLessThan a b = true ↔
      specLexLess (specRawBytes a.Address) (specRawBytes b.Address) = true := by
  obtain ⟨xs, hxs, hxl, hxh⟩ := (validateBasic_eq_none_iff a).mp ha
  obtain ⟨ys, hys, hyl, hyh⟩ := (validateBasic_eq_none_iff b).mp hb
  have hmono : ∀ x ∈ xs, ∀ y ∈ ys,
      (x.toNat < y.toNat ↔ specHexVal x < specHexVal y) ∧
        (y.toNat < x.toNat ↔ specHexVal y < specHexVal x) := by
    intro x hx y hy
    have hxa : x ∈ a.Address := by rw [hxs]; simp [hx]
    have hyb : y ∈ b.Address := by rw [hys]; simp [hy]
    rcases hcase with ⟨hua, hub⟩ | ⟨hla, hlb⟩
    · exact ⟨specHexVal_mono_lower x y (hxh x hx) (hyh y hy) (hua x hxa) (hub y hyb),
        specHexVal_mono_lower y x (hyh y hy) (hxh x hx) (hub y hyb) (hua x hxa)⟩
    · exact ⟨specHexVal_mono_upper x y (hxh x hx) (hyh y hy) (hla x hxa) (hlb y hyb),
        specHexVal_mono_upper y x (hyh y hy) (hxh x hx) (hlb y hyb) (hla x hxa)⟩
  unfold EthAddrLessThan specRawBytes
  rw [hxs, hys, bytesCompare_0x, beq_iff_eq,
    bytesCompare_map specHexVal xs ys (by rw [hxl, hyl]) hmono]
  simp only [List.drop_succ_cons, List.drop_zero]
  rw [specLexLess_pairBytes 20 (xs.map specHexVal) (ys.map specHexVal) (by simp [hxl])
    (by simp [hyl])]
  · intro n hn
    obtain ⟨x, -, rfl⟩ := List.mem_map.mp hn
    exact specHexVal_lt x
  · intro n hn
    obtain ⟨x, -, rfl⟩ := List.mem_map.mp hn
    exact specHexVal_lt x

/-- Two lower-case addresses: `0xa0…0` is below `0xb0…0`, as are their bytes. -/
theorem ethAddrLessThan_same_case_witness :
    lowerAddress.ValidateBasic = none ∧ lowerAddressB.ValidateBasic = none ∧
      NoUpperHex lowerAddress.Address ∧ NoUpperHex lowerAddressB.Address ∧
      EthAddrLessThan lowerAddress lowerAddressB = true ∧
      (EthAddrLessThan lowerAddress lowerAddressB = true ↔
        specLexLess (specRawBytes lowerAddress.Address) (specRawBytes lowerAddressB.Address)
          = true) :=
  ⟨by decide, by decide, by decide, by decide, by decide,
    ethAddrLessThan_same_case lowerAddress lowerAddressB (by decide) (by decide)
      (Or.inl ⟨by decide, by decide⟩)⟩

/-! ## The gravity coin -/

theorem isDenomChar_of_isHexDigit {b : UInt8} (h : IsHexDigit b) : isDenomChar b = true := by
  unfold IsHexDigit at h
  unfold isDenomChar
  simp only [Bool.or_eq_true, Bool.and_eq_true, decide_eq_true_eq, beq_iff_eq]
  omega

/-- The denom of a valid contract is a valid cosmos-sdk denom. -/
theorem sdkValidateDenom_gravityDenom (c : EthAddress) (h : c.ValidateBasic = none) :
    sdkValidateDenom (GravityDenom c) = true := by
  obtain ⟨hs, hc, hlen, hall⟩ := (validateBasic_eq_none_iff c).mp h
  rw [gravityDenom_eq, hc]
  have h0 : isDenomChar (byte '0') = true := by decide
  have hx : isDenomChar (byte 'x') = true := by decide
  have hrest : hs.all isDenomChar = true := by
    rw [List.all_eq_true]
    exact fun b hb => isDenomChar_of_isHexDigit (hall b hb)
  have hg : ascii "gravity" = [103, 114, 97, 118, 105, 116, 121] := by decide
  rw [hg]
  simp only [sdkValidateDenom, List.cons_append, List.nil_append, List.length_cons, hlen,
    List.all_cons, h0, hx, hrest]
  decide

/-! ## Varints -/

theorem lenBits_le_iff : ∀ (fuel x n : Nat), x < 2 ^ fuel → (lenBits fuel x ≤ n ↔ x < 2 ^ n) := by
  intro fuel
  induction fuel with
  | zero =>
    intro x n hx
    have h0 : x = 0 := by simpa using hx
    subst h0
    simp [lenBits]
  | succ fuel ih =>
    intro x n hx
    unfold lenBits
    by_cases h0 : x = 0
    · subst h0
      simp
    · rw [if_neg h0, Nat.shiftRight_eq_div_pow, Nat.pow_one]
      have hhalf : x / 2 < 2 ^ fuel := by
        rw [Nat.div_lt_iff_lt_mul (by decide)]
        rw [Nat.pow_succ] at hx
        exact hx
      cases n with
      | zero =>
        constructor
        · intro h
          omega
        · intro h
          simp at h
          omega
      | succ n =>
        rw [Nat.add_le_add_iff_right, ih (x / 2) n hhalf, Nat.div_lt_iff_lt_mul (by decide),
          Nat.pow_succ]

theorem len64_le_iff (x n : Nat) : Len64 x ≤ n ↔ x < 2 ^ n :=
  lenBits_le_iff x x n (Nat.lt_two_pow x)

theorem or_one_eq (v : Nat) : v ||| 1 = 2 * (v / 2) + 1 := by
  have h1 : (v ||| 1) / 2 = v / 2 := by
    rw [Nat.or_div_two]
    simp
  have h2 : (v ||| 1) % 2 = 1 := by
    rw [Nat.or_mod_two_eq_one]
    right
    rfl
  have h3 := Nat.div_add_mod (v ||| 1) 2
  omega

theorem eq_of_forall_le_iff {a b : Nat} (h : ∀ n, a ≤ n ↔ b ≤ n) : a = b :=
  Nat.le_antisymm ((h b).mpr (Nat.le_refl b)) ((h a).mp (Nat.le_refl a))

/-- The bit length of `v | 1`: one for `v < 2`, and seven more than that of
`v / 128` from 128 on. -/
theorem len64_or_one_step (v : Nat) (h : 128 ≤ v) :
    Len64 (v ||| 1) = Len64 (v / 128 ||| 1) + 7 := by
  apply eq_of_forall_le_iff
  intro n
  rw [len64_le_iff, or_one_eq, or_one_eq]
  by_cases hn : 7 ≤ n
  · obtain ⟨m, rfl⟩ := Nat.exists_eq_add_of_le hn
    rw [Nat.add_comm 7 m, Nat.add_le_add_iff_right, len64_le_iff, Nat.pow_add]
    have h128 : (2 : Nat) ^ 7 = 128 := by decide
    rw [h128]
    cases m with
    | zero =>
      rw [Nat.pow_zero]
      omega
    | succ m =>
      rw [Nat.pow_succ]
      omega
  · constructor
    · intro h1
      have h2 : (2 : Nat) ^ n ≤ 2 ^ 6 := Nat.pow_le_pow_right (by decide) (by omega)
      have h64 : (2 : Nat) ^ 6 = 64 := by decide
      omega
    · intro h1
      omega

theorem sovBatch_small (v : Nat) (h : v < 128) : sovBatch v = 1 := by
  unfold sovBatch
  have h1 : Len64 (v ||| 1) ≤ 7 := by
    rw [len64_le_iff, or_one_eq]
    have : (2 : Nat) ^ 7 = 128 := by decide
    omega
  have h2 : ¬ Len64 (v ||| 1) ≤ 0 := by
    rw [len64_le_iff, or_one_eq]
    simp
  omega

theorem sovBatch_step (v : Nat) (h : 128 ≤ v) : sovBatch v = sovBatch (v / 128) + 1 := by
  unfold sovBatch
  rw [len64_or_one_step v h]
  omega

/-- The function `sovBatch` gives the length of the varint. -/
theorem sovBatch_eq_length : ∀ (fuel v : Nat), v < fuel →
    sovBatch v = (specVarintAux fuel v).length := by
  intro fuel
  induction fuel with
  | zero => intro v h; omega
  | succ fuel ih =>
    intro v h
    unfold specVarintAux
    by_cases hv : v < 128
    · rw [if_pos hv, sovBatch_small v hv]
      rfl
    · rw [if_neg hv, sovBatch_step v (by omega), List.length_cons, ih (v / 128) (by omega)]

theorem sovBatch_eq (v : Nat) : sovBatch v = (specVarint v).length :=
  sovBatch_eq_length (v + 1) v (Nat.lt_succ_self v)

theorem or_128_eq : ∀ x < 128, x ||| 128 = x + 128 := by decide

theorem varint_byte_eq (v : Nat) : v &&& 0x7f ||| 0x80 = v % 128 + 128 := by
  have h : v &&& 0x7f = v % 128 := Nat.and_pow_two_sub_one_eq_mod v 7
  rw [h]
  exact or_128_eq _ (Nat.mod_lt _ (by decide))

/-! ## Writing into the buffer -/

theorem writes_id : Writes (fun d i => .ok (d, i)) [] := by
  intro pre suf _
  simp

theorem writes_andThen {f g : Step} {b1 b2 : List UInt8} (hf : Writes f b1)
    (hg : Writes g b2) : Writes (andThen f g) (b2 ++ b1) := by
  intro pre suf hlen
  rw [List.length_append] at hlen
  have h1 := hf pre suf (by omega)
  have hl : (pre.take (pre.length - b1.length)).length = pre.length - b1.length := by
    rw [List.length_take]; omega
  have h2 := hg (pre.take (pre.length - b1.length)) (b1 ++ suf) (by rw [hl]; omega)
  rw [hl] at h2
  unfold andThen
  simp only [h1]
  rw [List.append_assoc, h2]
  simp only [List.take_take, List.length_append, List.append_assoc]
  have e1 : pre.length - b1.length - b2.length = pre.length - (b2.length + b1.length) := by
    omega
  have e2 : min (pre.length - (b2.length + b1.length)) (pre.length - b1.length)
      = pre.length - (b2.length + b1.length) := by omega
  rw [e1, e2]

theorem writes_ifPresent {α : Type} (tag : UInt8) (o : Option α) (s : α → Step)
    (enc : α → List UInt8) (h : ∀ a, Writes (s a) (specBytesField tag (enc a))) :
    Writes (ifPresent o s) (specOptionalField tag o enc) := by
  cases o with
  | none => exact writes_id
  | some a => exact h a

theorem writes_ifNonzero (tag : UInt8) (v : Nat) (s : Step)
    (h : Writes s (tag :: specVarint v)) : Writes (ifNonzero v s) (specVarintField tag v) := by
  unfold ifNonzero specVarintField
  by_cases hv : v = 0
  · simpa [hv] using writes_id
  · simpa [hv] using h

theorem setByte_append (p s : List UInt8) (b c : UInt8) :
    setByte (p ++ b :: s) p.length c = .ok (p ++ c :: s) := by
  unfold setByte
  rw [if_pos (by simp)]
  congr 1
  induction p with
  | nil => rfl
  | cons a p ih => simp [ih]

theorem uint8_ofNat_varint (v : Nat) :
    UInt8.ofNat (v &&& 0x7f ||| 0x80) = UInt8.ofNat (v % 128 + 128) := by
  rw [varint_byte_eq]

theorem encodeVarintLoop_eq : ∀ (fuel v : Nat) (p mid s : List UInt8), v < fuel →
    mid.length = (specVarintAux fuel v).length →
    encodeVarintLoop fuel (p ++ mid ++ s) p.length v = .ok (p ++ specVarintAux fuel v ++ s) := by
  intro fuel
  induction fuel with
  | zero => intro v p mid s h; omega
  | succ fuel ih =>
    intro v p mid s hv hmid
    unfold encodeVarintLoop specVarintAux
    unfold specVarintAux at hmid
    rw [Nat.one_shiftLeft]
    by_cases h : v < 128
    · rw [if_neg (by simpa using h), if_pos h]
      rw [if_pos h] at hmid
      match mid, hmid with
      | [b], _ => simp [setByte_append p s b (UInt8.ofNat v)]
    · rw [if_pos (by simpa using h), if_neg h]
      rw [if_neg h, List.length_cons] at hmid
      match mid, hmid with
      | b :: mid', hmid =>
        have hs := setByte_append p (mid' ++ s) b (UInt8.ofNat (v &&& 0x7f ||| 0x80))
        rw [List.append_assoc, List.cons_append, hs]
        simp only
        have hrec := ih (v / 128) (p ++ [UInt8.ofNat (v &&& 0x7f ||| 0x80)]) mid' s
          (by omega) (by simpa using hmid)
        rw [Nat.shiftRight_eq_div_pow]
        simp only [List.length_append, List.length_singleton, List.append_assoc,
          List.singleton_append, List.cons_append, List.nil_append] at hrec
        rw [show (2 : Nat) ^ 7 = 128 by decide, hrec, uint8_ofNat_varint]
        simp

theorem writes_encodeVarintBatch (v : Nat) :
    Writes (fun d i => encodeVarintBatch d i v) (specVarint v) := by
  intro pre suf hlen
  rw [← sovBatch_eq] at hlen ⊢
  show encodeVarintBatch (pre ++ suf) pre.length v = _
  unfold encodeVarintBatch
  rw [if_neg (by omega)]
  have hsplit : pre = pre.take (pre.length - sovBatch v) ++ pre.drop (pre.length - sovBatch v) :=
    (List.take_append_drop _ _).symm
  have hl : (pre.take (pre.length - sovBatch v)).length = pre.length - sovBatch v := by
    rw [List.length_take]; omega
  have hloop := encodeVarintLoop_eq (v + 1) v (pre.take (pre.length - sovBatch v))
    (pre.drop (pre.length - sovBatch v)) suf (Nat.lt_succ_self v)
    (by rw [List.length_drop, ← specVarint, ← sovBatch_eq]; omega)
  rw [hl, ← hsplit] at hloop
  simp only [hloop]
  rfl

theorem writes_putTag (tag : UInt8) : Writes (putTag tag) [tag] := by
  intro pre suf hlen
  simp only [List.length_singleton] at hlen ⊢
  unfold putTag
  rw [if_neg (by omega)]
  have hsplit : pre = pre.take (pre.length - 1) ++ pre.drop (pre.length - 1) :=
    (List.take_append_drop _ _).symm
  have hd : (pre.drop (pre.length - 1)).length = 1 := by
    rw [List.length_drop]; omega
  match hq : pre.drop (pre.length - 1), hd with
  | [b], _ =>
    rw [hq] at hsplit
    have hl : (pre.take (pre.length - 1)).length = pre.length - 1 := by
      rw [List.length_take]; omega
    have hs := setByte_append (pre.take (pre.length - 1)) suf b tag
    rw [hl] at hs
    have e : pre ++ suf = pre.take (pre.length - 1) ++ b :: suf := by
      conv_lhs => rw [hsplit]
      simp
    rw [e, hs]
    simp

theorem writes_putVarintField (tag : UInt8) (v : Nat) :
    Writes (putVarintField tag v) (tag :: specVarint v) :=
  writes_andThen (writes_encodeVarintBatch v) (writes_putTag tag)

theorem writesSized_nested (enc : List UInt8) :
    WritesSized (nestedMarshalToSizedBuffer enc) enc := by
  intro pre suf hlen
  unfold nestedMarshalToSizedBuffer
  rw [if_neg (by simp), if_neg (by omega)]
  simp

/-- A field holding a message: the callee writes the payload, then the length
and the tag are put in front of it. -/
theorem writes_putMessageField {g : List UInt8 → Nat → Except Panic (List UInt8 × Nat)}
    {enc : List UInt8} (hg : WritesSized g enc) (tag : UInt8) :
    Writes (putMessageField tag g) (specBytesField tag enc) := by
  intro pre suf hlen
  simp only [specBytesField, List.length_cons, List.length_append] at hlen
  have h1 := hg pre suf (by omega)
  unfold putMessageField
  simp only [h1]
  rw [if_neg (by omega)]
  have hl : (pre.take (pre.length - enc.length)).length = pre.length - enc.length := by
    rw [List.length_take]; omega
  have h2 := writes_putVarintField tag enc.length (pre.take (pre.length - enc.length))
    (enc ++ suf) (by rw [hl, List.length_cons]; omega)
  rw [hl] at h2
  rw [List.append_assoc, h2]
  simp only [specBytesField, List.take_take, List.length_cons, List.length_append,
    List.append_assoc, List.cons_append]
  have e1 : pre.length - enc.length - ((specVarint enc.length).length + 1)
      = pre.length - ((specVarint enc.length).length + enc.length + 1) := by omega
  have e2 : min (pre.length - ((specVarint enc.length).length + enc.length + 1))
      (pre.length - enc.length)
      = pre.length - ((specVarint enc.length).length + enc.length + 1) := by omega
  rw [e1, e2]

theorem copyAt_eq (pre suf src : List UInt8) (h : src.length ≤ pre.length) :
    copyAt (pre ++ suf) (pre.length - src.length) src
      = .ok (pre.take (pre.length - src.length) ++ src ++ suf) := by
  unfold copyAt
  rw [if_neg (by simp; omega)]
  have hn : min ((pre ++ suf).length - (pre.length - src.length)) src.length = src.length := by
    rw [List.length_append]; omega
  simp only [hn, List.take_length]
  have e : pre.length - src.length + src.length = pre.length := by omega
  rw [e, List.drop_left, List.take_append_of_le_length (by omega)]

theorem writes_putSender (sender : List UInt8) :
    Writes (putSender sender) (specBytesField 0x12 sender) := by
  have hg : WritesSized (fun d i =>
      if i < sender.length then .error .indexOutOfRange
      else
        match copyAt d (i - sender.length) sender with
        | .error p => .error p
        | .ok d1 => .ok (d1, sender.length)) sender := by
    intro pre suf hlen
    simp only [if_neg (Nat.not_lt.mpr hlen), copyAt_eq pre suf sender hlen]
  intro pre suf hlen
  have h := writes_putMessageField hg 0x12 pre suf hlen
  rw [← h]
  simp only [specBytesField, List.length_cons, List.length_append] at hlen
  unfold putSender putMessageField
  simp only [if_neg (show ¬ pre.length < sender.length by omega),
    copyAt_eq pre suf sender (by omega)]

theorem writes_transfer_fields (nc : NestedCodec) (m : OutgoingTransferTx) :
    Writes (OutgoingTransferTx.marshalFields nc m) (specEncodeTransfer nc m) := by
  have hsender : Writes (ifNonzero m.Sender.length (putSender m.Sender))
      (if m.Sender.length = 0 then [] else specBytesField 0x12 m.Sender) := by
    unfold ifNonzero
    by_cases hv : m.Sender.length = 0
    · simpa [hv] using writes_id
    · simpa [hv] using writes_putSender m.Sender
  have hall := writes_andThen
    (writes_ifPresent 0x2a m.Erc20Fee
      (fun t => putMessageField 0x2a (nestedMarshalToSizedBuffer (nc.erc20Token t)))
      nc.erc20Token (fun t => writes_putMessageField (writesSized_nested _) _))
    (writes_andThen
      (writes_ifPresent 0x22 m.Erc20Token
        (fun t => putMessageField 0x22 (nestedMarshalToSizedBuffer (nc.erc20Token t)))
        nc.erc20Token (fun t => writes_putMessageField (writesSized_nested _) _))
      (writes_andThen
        (writes_ifPresent 0x1a m.DestAddress
          (fun a => putMessageField 0x1a (nestedMarshalToSizedBuffer (nc.ethAddress a)))
          nc.ethAddress (fun a => writes_putMessageField (writesSized_nested _) _))
        (writes_andThen hsender
          (writes_ifNonzero 0x8 m.Id _ (writes_putVarintField 0x8 m.Id)))))
  unfold specEncodeTransfer OutgoingTransferTx.marshalFields
  exact hall

theorem writesSized_transfer (nc : NestedCodec) (m : OutgoingTransferTx) :
    WritesSized (OutgoingTransferTx.MarshalToSizedBuffer nc (some m))
      (specEncodeTransfer nc m) := by
  intro pre suf hlen
  have h := writes_transfer_fields nc m pre suf hlen
  unfold OutgoingTransferTx.MarshalToSizedBuffer
  simp only [h, Prod.mk.injEq, Except.ok.injEq, true_and]
  omega

theorem writes_marshalTransactions (nc : NestedCodec) :
    ∀ l : List (Option OutgoingTransferTx), (∀ e ∈ l, e ≠ none) →
      Writes (marshalTransactions nc l)
        (l.reverse.map fun e => specOptionalField 0x1a e (specEncodeTransfer nc)).flatten := by
  intro l
  induction l with
  | nil =>
    intro _
    exact writes_id
  | cons e rest ih =>
    intro h
    have hrest := ih (fun x hx => h x (List.mem_cons_of_mem _ hx))
    cases e with
    | none => exact absurd rfl (h none (List.mem_cons_self _ _))
    | some tx =>
      have htx := writes_putMessageField (writesSized_transfer nc tx) 0x1a
      have hall := writes_andThen htx hrest
      unfold marshalTransactions
      simpa [specOptionalField] using hall

theorem writes_batch_fields (nc : NestedCodec) (m : OutgoingTxBatch)
    (h : ∀ e ∈ m.Transactions, e ≠ none) :
    Writes (OutgoingTxBatch.marshalFields nc m) (specEncodeBatch nc m) := by
  have htxs := writes_marshalTransactions nc m.Transactions.reverse
    (fun e he => h e (List.mem_reverse.mp he))
  rw [List.reverse_reverse] at htxs
  have hall := writes_andThen
    (writes_ifNonzero 0x28 m.Block _ (writes_putVarintField 0x28 m.Block))
    (writes_andThen
      (writes_ifPresent 0x22 m.TokenContract
        (fun a => putMessageField 0x22 (nestedMarshalToSizedBuffer (nc.ethAddress a)))
        nc.ethAddress (fun a => writes_putMessageField (writesSized_nested _) _))
      (writes_andThen htxs
        (writes_andThen
          (writes_ifNonzero 0x10 m.BatchTimeout _ (writes_putVarintField 0x10 m.BatchTimeout))
          (writes_ifNonzero 0x8 m.BatchNonce _ (writes_putVarintField 0x8 m.BatchNonce)))))
  unfold specEncodeBatch OutgoingTxBatch.marshalFields
  exact hall

theorem writesSized_batch (nc : NestedCodec) (m : OutgoingTxBatch)
    (h : ∀ e ∈ m.Transactions, e ≠ none) :
    WritesSized (OutgoingTxBatch.MarshalToSizedBuffer nc m) (specEncodeBatch nc m) := by
  intro pre suf hlen
  have h1 := writes_batch_fields nc m h pre suf hlen
  unfold OutgoingTxBatch.MarshalToSizedBuffer
  simp only [h1, Prod.mk.injEq, Except.ok.injEq, true_and]
  omega

/-! ## Sizes -/

theorem specVarintField_length (tag : UInt8) (v : Nat) :
    (specVarintField tag v).length = if v ≠ 0 then 1 + sovBatch v else 0 := by
  unfold specVarintField
  by_cases h : v = 0
  · simp [h]
  · simp [h, sovBatch_eq, Nat.add_comm]

theorem specBytesField_length (tag : UInt8) (b : List UInt8) :
    (specBytesField tag b).length = 1 + b.length + sovBatch b.length := by
  simp only [specBytesField, List.length_cons, List.length_append, sovBatch_eq]
  omega

theorem transfer_size_eq (nc : NestedCodec) (m : OutgoingTransferTx) :
    OutgoingTransferTx.Size nc (some m) = (specEncodeTransfer nc m).length := by
  unfold OutgoingTransferTx.Size specEncodeTransfer
  simp only [List.length_append, specVarintField_length]
  congr 1
  · congr 1
    · congr 1
      · congr 1
        by_cases hs : m.Sender.length = 0
        · simp [hs]
        · rw [if_pos (by omega), if_neg hs, specBytesField_length]
      · cases m.DestAddress <;> simp [specOptionalField, specBytesField_length]
    · cases m.Erc20Token <;> simp [specOptionalField, specBytesField_length]
  · cases m.Erc20Fee <;> simp [specOptionalField, specBytesField_length]

theorem transactions_size_eq (nc : NestedCodec) :
    ∀ l : List (Option OutgoingTransferTx), (∀ e ∈ l, e ≠ none) →
      (l.map fun e =>
        1 + OutgoingTransferTx.Size nc e + sovBatch (OutgoingTransferTx.Size nc e)).sum
      = (l.map fun e => specOptionalField 0x1a e (specEncodeTransfer nc)).flatten.length := by
  intro l
  induction l with
  | nil => intro _; rfl
  | cons e rest ih =>
    intro h
    have hrest := ih (fun x hx => h x (List.mem_cons_of_mem _ hx))
    cases e with
    | none => exact absurd rfl (h none (List.mem_cons_self _ _))
    | some tx =>
      simp only [List.map_cons, List.sum_cons, List.flatten_cons, List.length_append, hrest,
        specOptionalField, specBytesField_length, transfer_size_eq]

theorem batch_size_eq (nc : NestedCodec) (m : OutgoingTxBatch)
    (h : ∀ e ∈ m.Transactions, e ≠ none) :
    OutgoingTxBatch.Size nc m = (specEncodeBatch nc m).length := by
  unfold OutgoingTxBatch.Size specEncodeBatch
  simp only [List.length_append, specVarintField_length, transactions_size_eq nc _ h]
  congr 2
  cases m.TokenContract <;> simp [specOptionalField, specBytesField_length]

/-- A `MarshalToSizedBuffer` that fills a fresh buffer of exactly its size
returns the bytes it writes. -/
theorem marshal_of_writesSized {f : List UInt8 → Nat → Except Panic (List UInt8 × Nat)}
    {bytes : List UInt8} (hf : WritesSized f bytes) (size : Nat) (hsize : size = bytes.length) :
    (match f (List.replicate size (0 : UInt8)) size with
      | .error p => .error p
      | .ok (d, n) => if d.length < n then .error .indexOutOfRange else .ok (d.take n))
      = (.ok bytes : Except Panic (List UInt8)) := by
  have h := hf (List.replicate size (0 : UInt8)) [] (by simp [hsize])
  simp only [List.append_nil, List.length_replicate] at h
  rw [h, hsize]
  simp

theorem transfer_marshal_eq (nc : NestedCodec) (m : OutgoingTransferTx) :
    OutgoingTransferTx.Marshal nc (some m) = .ok (specEncodeTransfer nc m) := by
  unfold OutgoingTransferTx.Marshal
  exact marshal_of_writesSized (writesSized_transfer nc m) _ (transfer_size_eq nc m)

theorem batch_marshal_eq (nc : NestedCodec) (m : OutgoingTxBatch)
    (h : ∀ e ∈ m.Transactions, e ≠ none) :
    OutgoingTxBatch.Marshal nc m = .ok (specEncodeBatch nc m) := by
  unfold OutgoingTxBatch.Marshal
  exact marshal_of_writesSized (writesSized_batch nc m h) _ (batch_size_eq nc m h)

/-! ## Byte order and big-endian numbers -/

theorem bytesCompare_values (a b : List UInt8) :
    bytesCompare a b = -1 ∨ bytesCompare a b = 0 ∨ bytesCompare a b = 1 := by
  induction a generalizing b with
  | nil => cases b <;> simp [bytesCompare]
  | cons x xs ih =>
    cases b with
    | nil => simp [bytesCompare]
    | cons y ys =>
      unfold bytesCompare
      split_ifs
      · simp
      · simp
      · exact ih ys

theorem bytesCompare_eq_zero_iff (a b : List UInt8) : bytesCompare a b = 0 ↔ a = b := by
  induction a generalizing b with
  | nil => cases b <;> simp [bytesCompare]
  | cons x xs ih =>
    cases b with
    | nil => simp [bytesCompare]
    | cons y ys =>
      unfold bytesCompare
      by_cases h1 : x.toNat < y.toNat
      · have hne : x ≠ y := by rintro rfl; omega
        simp [h1, hne]
      · by_cases h2 : y.toNat < x.toNat
        · have hne : x ≠ y := by rintro rfl; omega
          simp [h1, h2, hne]
        · have he : x = y := UInt8.ext (by omega)
          simp [h1, h2, he, ih]

theorem bytesCompare_swap (a b : List UInt8) : bytesCompare b a = - bytesCompare a b := by
  induction a generalizing b with
  | nil => cases b <;> simp [bytesCompare]
  | cons x xs ih =>
    cases b with
    | nil => simp [bytesCompare]
    | cons y ys =>
      unfold bytesCompare
      by_cases h1 : x.toNat < y.toNat
      · have h2 : ¬ y.toNat < x.toNat := by omega
        simp [h1, h2]
      · by_cases h2 : y.toNat < x.toNat
        · simp [h1, h2]
        · simp [h1, h2, ih]

theorem bytesCompare_trans (a b c : List UInt8) (h1 : bytesCompare a b = -1)
    (h2 : bytesCompare b c = -1) : bytesCompare a c = -1 := by
  induction a generalizing b c with
  | nil =>
    cases b with
    | nil => simp [bytesCompare] at h1
    | cons y ys =>
      cases c with
      | nil => simp [bytesCompare] at h2
      | cons z zs => simp [bytesCompare]
  | cons x xs ih =>
    cases b with
    | nil => simp [bytesCompare] at h1
    | cons y ys =>
      cases c with
      | nil => simp [bytesCompare] at h2
      | cons z zs =>
        unfold bytesCompare at h1 h2 ⊢
        by_cases hxy : x.toNat < y.toNat
        · by_cases hyz : y.toNat < z.toNat
          · rw [if_pos (by omega)]
          · by_cases hzy : z.toNat < y.toNat
            · simp [hyz, hzy] at h2
            · rw [if_pos (by omega)]
        · by_cases hyx : y.toNat < x.toNat
          · simp [hxy, hyx] at h1
          · rw [if_neg hxy, if_neg hyx] at h1
            by_cases hyz : y.toNat < z.toNat
            · rw [if_pos (by omega)]
            · by_cases hzy : z.toNat < y.toNat
              · simp [hyz, hzy] at h2
              · rw [if_neg hyz, if_neg hzy] at h2
                rw [if_neg (by omega), if_neg (by omega)]
                exact ih ys zs h1 h2

theorem bytesCompare_self (a : List UInt8) : bytesCompare a a ≠ -1 := by
  have h := (bytesCompare_eq_zero_iff a a).mpr rfl
  rw [h]
  decide

/-- Comparison of two strings that start with parts of the same length. -/
theorem bytesCompare_append (a1 a2 b1 b2 : List UInt8) (h : a1.length = a2.length) :
    bytesCompare (a1 ++ b1) (a2 ++ b2) = -1 ↔
      bytesCompare a1 a2 = -1 ∨ (a1 = a2 ∧ bytesCompare b1 b2 = -1) := by
  induction a1 generalizing a2 with
  | nil =>
    cases a2 with
    | nil =>
      have h0 : bytesCompare ([] : List UInt8) [] ≠ -1 := bytesCompare_self []
      simp [h0]
    | cons y ys => simp at h
  | cons x xs ih =>
    cases a2 with
    | nil => simp at h
    | cons y ys =>
      have hlen : xs.length = ys.length := by simpa using h
      simp only [List.cons_append, bytesCompare, List.cons.injEq]
      by_cases h1 : x.toNat < y.toNat
      · simp [h1]
      · by_cases h2 : y.toNat < x.toNat
        · have hne : x ≠ y := by rintro rfl; omega
          simp [h1, h2, hne]
        · have he : x = y := UInt8.ext (by omega)
          simp [h1, h2, he, ih ys hlen]

theorem be_bytes_length : ∀ (w n : Nat), (be_bytes w n).length = w := by
  intro w
  induction w with
  | zero => intro n; rfl
  | succ w ih => intro n; simp [be_bytes, ih]

theorem uint8_ofNat_toNat (q : Nat) (h : q < 256) : (UInt8.ofNat q).toNat = q := by
  show q % 256 = q
  exact Nat.mod_eq_of_lt h

theorem div_pow_lt (w n : Nat) (h : n < 256 ^ (w + 1)) : n / 256 ^ w < 256 := by
  rw [Nat.div_lt_iff_lt_mul (Nat.pow_pos (by decide))]
  rw [Nat.pow_succ, Nat.mul_comm] at h
  exact h

/-- Byte order of big-endian encodings of one width is numeric order. -/
theorem bytesCompare_be_bytes : ∀ (w x y : Nat), x < 256 ^ w → y < 256 ^ w →
    (bytesCompare (be_bytes w x) (be_bytes w y) = -1 ↔ x < y) := by
  intro w
  induction w with
  | zero =>
    intro x y hx hy
    have h0 : bytesCompare ([] : List UInt8) [] ≠ -1 := bytesCompare_self []
    simp only [be_bytes]
    simp at hx hy
    simp [h0, hx, hy]
  | succ w ih =>
    intro x y hx hy
    have hp : 0 < 256 ^ w := Nat.pow_pos (by decide)
    have hqx := div_pow_lt w x hx
    have hqy := div_pow_lt w y hy
    have hrx : x % 256 ^ w < 256 ^ w := Nat.mod_lt _ hp
    have hry : y % 256 ^ w < 256 ^ w := Nat.mod_lt _ hp
    have ex := Nat.div_add_mod x (256 ^ w)
    have ey := Nat.div_add_mod y (256 ^ w)
    simp only [be_bytes, bytesCompare, uint8_ofNat_toNat _ hqx, uint8_ofNat_toNat _ hqy]
    by_cases h1 : x / 256 ^ w < y / 256 ^ w
    · rw [if_pos h1]
      have h3 : 256 ^ w * (x / 256 ^ w + 1) ≤ 256 ^ w * (y / 256 ^ w) :=
        Nat.mul_le_mul_left _ h1
      rw [Nat.mul_add, Nat.mul_one] at h3
      constructor
      · intro _; omega
      · intro _; trivial
    · by_cases h2 : y / 256 ^ w < x / 256 ^ w
      · rw [if_neg h1, if_pos h2]
        have h3 : 256 ^ w * (y / 256 ^ w + 1) ≤ 256 ^ w * (x / 256 ^ w) :=
          Nat.mul_le_mul_left _ h2
        rw [Nat.mul_add, Nat.mul_one] at h3
        constructor
        · intro h; exact absurd h (by decide)
        · intro h; omega
      · rw [if_neg h1, if_neg h2, ih _ _ hrx hry]
        have he : x / 256 ^ w = y / 256 ^ w := by omega
        rw [he] at ex
        omega

theorem be_bytes_injective (w x y : Nat) (hx : x < 256 ^ w) (hy : y < 256 ^ w)
    (h : be_bytes w x = be_bytes w y) : x = y := by
  have h1 : ¬ x < y := by
    rw [← bytesCompare_be_bytes w x y hx hy, h]
    exact bytesCompare_self _
  have h2 : ¬ y < x := by
    rw [← bytesCompare_be_bytes w y x hy hx, h]
    exact bytesCompare_self _
  omega

theorem be_decode_be_bytes : ∀ (w n acc : Nat), n < 256 ^ w →
    (be_bytes w n).foldl (fun a b => a * 256 + b.toNat) acc = acc * 256 ^ w + n := by
  intro w
  induction w with
  | zero =>
    intro n acc h
    simp at h
    simp [be_bytes, h]
  | succ w ih =>
    intro n acc h
    have hp : 0 < 256 ^ w := Nat.pow_pos (by decide)
    have hq := div_pow_lt w n h
    have hr : n % 256 ^ w < 256 ^ w := Nat.mod_lt _ hp
    simp only [be_bytes, List.foldl_cons, uint8_ofNat_toNat _ hq]
    rw [ih _ _ hr, Nat.pow_succ]
    have e := Nat.div_add_mod n (256 ^ w)
    have e2 : (acc * 256 + n / 256 ^ w) * 256 ^ w
        = acc * (256 ^ w * 256) + 256 ^ w * (n / 256 ^ w) := by ring
    omega

theorem be_decode_eq (w n : Nat) (h : n < 256 ^ w) : be_decode (be_bytes w n) = n := by
  unfold be_decode
  rw [be_decode_be_bytes w n 0 h]
  simp

/-! ## Keys of the fee index -/

theorem pow_256_32 : (256 : Nat) ^ 32 = 2 ^ 256 := by norm_num
theorem pow_256_8 : (256 : Nat) ^ 8 = 2 ^ 64 := by norm_num

theorem fee_key_eq (c : ContractID) (f i : Nat) :
    fee_key c f i = (0x02 :: c.bytes ++ be_bytes 32 f) ++ be_bytes 8 i := rfl

theorem fee_key_head_length (c : ContractID) (f : Nat) :
    (0x02 :: c.bytes ++ be_bytes 32 f).length = 53 := by
  simp [be_bytes_length, c.size_eq]

theorem fee_key_id_eq (c : ContractID) (f i : Nat) (hi : i < 2 ^ 64) :
    fee_key_id (fee_key c f i) = i := by
  unfold fee_key_id
  rw [fee_key_eq, ← fee_key_head_length c f, List.drop_left]
  exact be_decode_eq 8 i (by rw [pow_256_8]; exact hi)

theorem fee_key_take (c : ContractID) (f i : Nat) :
    ((fee_key c f i).drop 1).take 20 = c.bytes := by
  have h : (fee_key c f i).drop 1 = c.bytes ++ (be_bytes 32 f ++ be_bytes 8 i) := by
    simp [fee_key, fee_key_stem]
  rw [h, ← c.size_eq, List.take_left]

theorem fee_key_contract_eq (c : ContractID) (f i : Nat) :
    fee_key_contract (fee_key c f i) = some c := by
  unfold fee_key_contract
  have h := fee_key_take c f i
  have hl : (((fee_key c f i).drop 1).take 20).length = 20 := by rw [h]; exact c.size_eq
  rw [dif_pos hl]
  congr 1
  cases c
  simpa using h

theorem hasPrefix_fee_key (c1 c : ContractID) (f i : Nat) :
    HasPrefix (fee_key c1 f i) (fee_key_stem c) = true ↔ c1 = c := by
  rw [hasPrefix_iff]
  constructor
  · rintro ⟨t, ht⟩
    have h1 := fee_key_take c1 f i
    rw [ht] at h1
    have h2 : ((fee_key_stem c ++ t).drop 1).take 20 = c.bytes := by
      have : (fee_key_stem c ++ t).drop 1 = c.bytes ++ t := by simp [fee_key_stem]
      rw [this, ← c.size_eq, List.take_left]
    rw [h2] at h1
    cases c1
    cases c
    simpa using h1.symm
  · rintro rfl
    exact ⟨be_bytes 32 f ++ be_bytes 8 i, by simp [fee_key]⟩

/-- Byte order of the keys of one contract is the order of the pairs of fee and
id. -/
theorem bytesCompare_fee_key (c : ContractID) (f1 f2 i1 i2 : Nat) (hf1 : f1 < 2 ^ 256)
    (hf2 : f2 < 2 ^ 256) (hi1 : i1 < 2 ^ 64) (hi2 : i2 < 2 ^ 64) :
    bytesCompare (fee_key c f1 i1) (fee_key c f2 i2) = -1 ↔ f1 < f2 ∨ (f1 = f2 ∧ i1 < i2) := by
  have e1 : fee_key c f1 i1 = fee_key_stem c ++ (be_bytes 32 f1 ++ be_bytes 8 i1) := by
    simp [fee_key]
  have e2 : fee_key c f2 i2 = fee_key_stem c ++ (be_bytes 32 f2 ++ be_bytes 8 i2) := by
    simp [fee_key]
  rw [← pow_256_32] at hf1 hf2
  rw [← pow_256_8] at hi1 hi2
  rw [e1, e2, bytesCompare_append _ _ _ _ rfl, bytesCompare_append _ _ _ _
    (by rw [be_bytes_length, be_bytes_length]), bytesCompare_be_bytes 32 _ _ hf1 hf2,
    bytesCompare_be_bytes 8 _ _ hi1 hi2]
  have h0 := bytesCompare_self (fee_key_stem c)
  constructor
  · rintro (h | ⟨-, h | ⟨h, h'⟩⟩)
    · exact absurd h h0
    · exact Or.inl h
    · exact Or.inr ⟨be_bytes_injective 32 _ _ hf1 hf2 h, h'⟩
  · rintro (h | ⟨h, h'⟩)
    · exact Or.inr ⟨rfl, Or.inl h⟩
    · exact Or.inr ⟨rfl, Or.inr ⟨by rw [h], h'⟩⟩

/-! ## The two indices -/

theorem mem_index_insert (key x : List UInt8) (l : List (List UInt8)) :
    x ∈ index_insert key l ↔ x = key ∨ x ∈ l := by
  induction l with
  | nil => simp [index_insert]
  | cons k rest ih =>
    unfold index_insert
    by_cases h1 : bytesCompare key k = -1
    · simp [h1]
    · by_cases h2 : bytesCompare key k = 0
      · have he : key = k := (bytesCompare_eq_zero_iff key k).mp h2
        rw [if_neg h1, if_pos h2]
        subst he
        simp
      · rw [if_neg h1, if_neg h2]
        simp only [List.mem_cons, ih]
        tauto

theorem index_insert_sorted (key : List UInt8) (l : List (List UInt8))
    (h : l.Pairwise fun a b => bytesCompare a b = -1) :
    (index_insert key l).Pairwise fun a b => bytesCompare a b = -1 := by
  induction l with
  | nil => simp [index_insert]
  | cons k rest ih =>
    rw [List.pairwise_cons] at h
    unfold index_insert
    by_cases h1 : bytesCompare key k = -1
    · rw [if_pos h1]
      refine List.pairwise_cons.mpr ⟨?_, List.pairwise_cons.mpr h⟩
      intro a ha
      rcases List.mem_cons.mp ha with rfl | ha
      · exact h1
      · exact bytesCompare_trans _ _ _ h1 (h.1 a ha)
    · by_cases h2 : bytesCompare key k = 0
      · rw [if_neg h1, if_pos h2]
        exact List.pairwise_cons.mpr h
      · rw [if_neg h1, if_neg h2]
        refine List.pairwise_cons.mpr ⟨?_, ih h.2⟩
        intro a ha
        rcases (mem_index_insert key a rest).mp ha with rfl | ha
        · have hv := bytesCompare_values a k
          have hs := bytesCompare_swap a k
          omega
        · exact h.1 a ha

theorem mem_primary_put (l : List TransferEntry) (x e : TransferEntry) :
    e ∈ primary_put l x ↔ (e ∈ l ∧ e.id ≠ x.id) ∨ e = x := by
  simp [primary_put]

theorem primary_get_some {l : List TransferEntry} {i : Nat} {e : TransferEntry}
    (h : primary_get l i = some e) : e ∈ l ∧ e.id = i := by
  unfold primary_get at h
  exact ⟨List.mem_of_find?_eq_some h, by simpa using List.find?_some h⟩

theorem primary_get_of_mem {l : List TransferEntry} (hd : l.Pairwise fun a b => a.id ≠ b.id)
    {e : TransferEntry} (he : e ∈ l) : primary_get l e.id = some e := by
  induction l with
  | nil => simp at he
  | cons x xs ih =>
    rw [List.pairwise_cons] at hd
    unfold primary_get
    rcases List.mem_cons.mp he with rfl | he'
    · simp
    · have hne : x.id ≠ e.id := hd.1 e he'
      rw [List.find?_cons_of_neg _ (by simpa using hne)]
      exact ih hd.2 he'

/-! ## Adding transfers -/

/-- What a successful `add_transfer` returns. -/
theorem add_transfer_ok {s s1 : PoolState} {sender : GoString} {destination : ContractID}
    {amount fee : TokenAmount} {id : Nat}
    (h : add_transfer s sender destination amount fee = .ok (id, s1)) :
    amount.contract = fee.contract ∧ amount.amount + fee.amount ≤ 2 ^ 256 - 1 ∧
      id = s.next_tx_id ∧
      s1.entries = primary_put s.entries
        { id := s.next_tx_id, sender := sender, destination := destination, amount := amount,
          fee := fee, state := .Unbatched } ∧
      s1.fee_index = index_insert (fee_key amount.contract fee.amount s.next_tx_id) s.fee_index ∧
      s1.next_tx_id = (s.next_tx_id + 1) % 2 ^ 64 := by
  unfold add_transfer at h
  by_cases hc : amount.contract ≠ fee.contract
  · rw [if_pos hc] at h
    cases h
  · rw [if_neg hc] at h
    unfold TokenAmount.add at h
    rw [if_neg hc] at h
    by_cases ho : 2 ^ 256 - 1 < amount.amount + fee.amount
    · rw [if_pos ho] at h
      cases h
    · rw [if_neg ho] at h
      unfold lock at h
      simp only at h
      split_ifs at h
      simp only [Except.ok.injEq, Prod.mk.injEq] at h
      obtain ⟨rfl, rfl⟩ := h
      exact ⟨not_not.mp hc, by omega, rfl, rfl, rfl, rfl⟩

theorem consistent_fresh (bank : Bank) : (PoolState.fresh bank).Consistent := by
  unfold PoolState.Consistent PoolState.fresh
  simp

/-- A successful `add_transfer` keeps the store consistent, as long as the
counter does not wrap. -/
theorem consistent_add_transfer {s s1 : PoolState} {sender : GoString}
    {destination : ContractID} {amount fee : TokenAmount} {id : Nat} (hs : s.Consistent)
    (hn : s.next_tx_id + 1 < 2 ^ 64)
    (h : add_transfer s sender destination amount fee = .ok (id, s1)) : s1.Consistent := by
  obtain ⟨hc, hsum, -, he, hi, hnext⟩ := add_transfer_ok h
  obtain ⟨h1, h2, h3, h4, h5, h6⟩ := hs
  have hmod : (s.next_tx_id + 1) % 2 ^ 64 = s.next_tx_id + 1 := Nat.mod_eq_of_lt hn
  unfold PoolState.Consistent
  rw [he, hi, hnext, hmod]
  refine ⟨index_insert_sorted _ _ h1, ?_, ?_, ?_, ?_, hn⟩
  · intro k hk
    rcases (mem_index_insert _ _ _).mp hk with rfl | hk
    · exact ⟨_, (mem_primary_put _ _ _).mpr (Or.inr rfl), rfl, rfl⟩
    · obtain ⟨e, hem, hest, hek⟩ := h2 k hk
      refine ⟨e, (mem_primary_put _ _ _).mpr (Or.inl ⟨hem, ?_⟩), hest, hek⟩
      have := (h5 e hem).1
      simp only
      omega
  · intro e hem hest
    rcases (mem_primary_put _ _ _).mp hem with ⟨hem, -⟩ | rfl
    · exact (mem_index_insert _ _ _).mpr (Or.inr (h3 e hem hest))
    · exact (mem_index_insert _ _ _).mpr (Or.inl rfl)
  · unfold primary_put
    rw [List.pairwise_append]
    refine ⟨h4.filter _, by simp, ?_⟩
    intro a ha b hb
    rw [List.mem_singleton] at hb
    subst hb
    have := (h5 a (List.mem_of_mem_filter ha)).1
    simp only
    omega
  · intro e hem
    rcases (mem_primary_put _ _ _).mp hem with ⟨hem, -⟩ | rfl
    · obtain ⟨ha, hb, hc'⟩ := h5 e hem
      exact ⟨by omega, hb, hc'⟩
    · exact ⟨by simp, by simp only; omega, hc⟩

/-- The entries after a successful `add_transfer` on a consistent store: the
new entry comes last. -/
theorem entries_add_transfer {s s1 : PoolState} {sender : GoString}
    {destination : ContractID} {amount fee : TokenAmount} {id : Nat} (hs : s.Consistent)
    (h : add_transfer s sender destination amount fee = .ok (id, s1)) :
    s1.entries = s.entries ++
      [{ id := s.next_tx_id, sender := sender, destination := destination, amount := amount,
          fee := fee, state := .Unbatched }] := by
  obtain ⟨-, -, -, he, -, -⟩ := add_transfer_ok h
  rw [he]
  unfold primary_put
  congr 1
  rw [List.filter_eq_self]
  intro e hem
  have := (hs.2.2.2.2.1 e hem).1
  simp only [bne_iff_ne, ne_eq]
  omega

theorem run_adds_cons_ok {s s1 : PoolState} {r : AddRequest} {rest : List AddRequest}
    {id : Nat} (h : add_transfer s r.sender r.destination r.amount r.fee = .ok (id, s1)) :
    run_adds s (r :: rest) = ((run_adds s1 rest).1, .ok id :: (run_adds s1 rest).2) := by
  simp only [run_adds, h]

theorem run_adds_cons_error {s : PoolState} {r : AddRequest} {rest : List AddRequest}
    {e : PoolErr} (h : add_transfer s r.sender r.destination r.amount r.fee = .error e) :
    run_adds s (r :: rest) = ((run_adds s rest).1, .error e :: (run_adds s rest).2) := by
  simp only [run_adds, h]

/-- A run of `add_transfer` keeps the store consistent, as long as the counter
does not wrap. -/
theorem consistent_run_adds : ∀ (reqs : List AddRequest) (s : PoolState), s.Consistent →
    s.next_tx_id + reqs.length < 2 ^ 64 → (run_adds s reqs).1.Consistent := by
  intro reqs
  induction reqs with
  | nil => intro s hs _; exact hs
  | cons r rest ih =>
    intro s hs hn
    rw [List.length_cons] at hn
    cases h : add_transfer s r.sender r.destination r.amount r.fee with
    | error e =>
      rw [run_adds_cons_error h]
      exact ih s hs (by omega)
    | ok p =>
      obtain ⟨id, s1⟩ := p
      rw [run_adds_cons_ok h]
      have hs1 := consistent_add_transfer hs (by omega) h
      have hnext := (add_transfer_ok h).2.2.2.2.2
      rw [Nat.mod_eq_of_lt (by omega)] at hnext
      exact ih s1 hs1 (by omega)

/-- The ids of a run are consecutive, from the counter on. -/
theorem success_ids_run_adds : ∀ (reqs : List AddRequest) (s : PoolState),
    s.next_tx_id + reqs.length < 2 ^ 64 →
    success_ids (run_adds s reqs).2
      = List.range' s.next_tx_id (success_ids (run_adds s reqs).2).length := by
  intro reqs
  induction reqs with
  | nil => intro s _; rfl
  | cons r rest ih =>
    intro s hn
    rw [List.length_cons] at hn
    cases h : add_transfer s r.sender r.destination r.amount r.fee with
    | error e =>
      rw [run_adds_cons_error h]
      exact ih s (by omega)
    | ok p =>
      obtain ⟨id, s1⟩ := p
      rw [run_adds_cons_ok h]
      obtain ⟨-, -, hid, -, -, hnext⟩ := add_transfer_ok h
      rw [Nat.mod_eq_of_lt (by omega)] at hnext
      have hrec := ih s1 (by omega)
      simp only [success_ids, List.length_cons, List.range'_succ]
      rw [hid, ← hnext, ← hrec]

/-- The Unbatched entries of a contract after a run of requests on that
contract: one more for each call that succeeded. -/
theorem unbatched_of_run_adds (c : ContractID) : ∀ (reqs : List AddRequest) (s : PoolState),
    s.Consistent → s.next_tx_id + reqs.length < 2 ^ 64 →
    (∀ r ∈ reqs, r.amount.contract = c) →
    (unbatched_of (run_adds s reqs).1 c).length
      = (unbatched_of s c).length + (success_ids (run_adds s reqs).2).length := by
  intro reqs
  induction reqs with
  | nil => intro s _ _ _; rfl
  | cons r rest ih =>
    intro s hs hn hc
    rw [List.length_cons] at hn
    have hrest : ∀ x ∈ rest, x.amount.contract = c :=
      fun x hx => hc x (List.mem_cons_of_mem _ hx)
    cases h : add_transfer s r.sender r.destination r.amount r.fee with
    | error e =>
      rw [run_adds_cons_error h]
      exact ih s hs (by omega) hrest
    | ok p =>
      obtain ⟨id, s1⟩ := p
      rw [run_adds_cons_ok h]
      have hs1 := consistent_add_transfer hs (by omega) h
      have hnext := (add_transfer_ok h).2.2.2.2.2
      rw [Nat.mod_eq_of_lt (by omega)] at hnext
      have hrec := ih s1 hs1 (by omega) hrest
      have hent := entries_add_transfer hs h
      have hcount : (unbatched_of s1 c).length = (unbatched_of s c).length + 1 := by
        unfold unbatched_of
        rw [hent, List.filter_append]
        simp [hc r (List.mem_cons_self _ _)]
      simp only [success_ids, List.length_cons]
      rw [hrec, hcount]
      omega

/-! ## The cursor over the fee index -/

/-- In a consistent store every row of the fee index resolves to the Unbatched
entry it is the key of. -/
theorem resolve_row {s : PoolState} (hs : s.Consistent) {k : List UInt8}
    (hk : k ∈ s.fee_index) :
    ∃ e, e ∈ s.entries ∧ e.state = .Unbatched ∧
      k = fee_key e.amount.contract e.fee.amount e.id ∧
      primary_get s.entries (fee_key_id k) = some e := by
  obtain ⟨-, h2, -, h4, h5, h6⟩ := hs
  obtain ⟨e, hem, hest, hek⟩ := h2 k hk
  refine ⟨e, hem, hest, hek, ?_⟩
  have hid : e.id < 2 ^ 64 := by
    have := (h5 e hem).1
    omega
  rw [hek, fee_key_id_eq _ _ _ hid]
  exact primary_get_of_mem h4 hem

theorem mem_iterate_iff {s : PoolState} (hs : s.Consistent) (c : ContractID)
    (e : TransferEntry) :
    e ∈ iterate_unbatched_by_contract s c ↔ e ∈ unbatched_of s c := by
  unfold iterate_unbatched_by_contract unbatched_of
  rw [List.mem_filterMap, List.mem_filter]
  constructor
  · rintro ⟨k, hk, hg⟩
    rw [List.mem_reverse, List.mem_filter] at hk
    obtain ⟨e1, hem, hest, hek, hget⟩ := resolve_row hs hk.1
    rw [hget] at hg
    cases hg
    have hp := hk.2
    rw [hek, hasPrefix_fee_key] at hp
    exact ⟨hem, by simp [hest, hp]⟩
  · rintro ⟨hem, hp⟩
    simp only [decide_eq_true_eq] at hp
    obtain ⟨hest, hc⟩ := hp
    have hk := hs.2.2.1 e hem hest
    refine ⟨fee_key e.amount.contract e.fee.amount e.id, ?_, ?_⟩
    · rw [List.mem_reverse, List.mem_filter]
      exact ⟨hk, by rw [hasPrefix_fee_key]; exact hc⟩
    · have hid : e.id < 2 ^ 64 := by
        have := (hs.2.2.2.2.1 e hem).1
        have := hs.2.2.2.2.2
        omega
      rw [fee_key_id_eq _ _ _ hid]
      exact primary_get_of_mem hs.2.2.2.1 hem

/-- In a consistent store the cursor yields the entries by descending fee, and
among equal fees by descending id. -/
theorem iterate_ordered {s : PoolState} (hs : s.Consistent) (c : ContractID) :
    specFeeDescendingIdDescending (iterate_unbatched_by_contract s c) := by
  unfold specFeeDescendingIdDescending iterate_unbatched_by_contract
  rw [List.pairwise_filterMap, List.pairwise_reverse]
  have hsorted := hs.1.filter (fun key => HasPrefix key (fee_key_stem c))
  refine hsorted.imp_of_mem ?_
  intro a b ha hb hab eb hgb ea hga
  rw [List.mem_filter] at ha hb
  obtain ⟨e1, hem1, -, hek1, hget1⟩ := resolve_row hs ha.1
  obtain ⟨e2, hem2, -, hek2, hget2⟩ := resolve_row hs hb.1
  rw [hget1] at hga
  rw [hget2] at hgb
  cases hga
  cases hgb
  have hp1 := ha.2
  have hp2 := hb.2
  rw [hek1, hasPrefix_fee_key] at hp1
  rw [hek2, hasPrefix_fee_key] at hp2
  have hb1 := hs.2.2.2.2.1 _ hem1
  have hb2 := hs.2.2.2.2.1 _ hem2
  have hn := hs.2.2.2.2.2
  rw [hek1, hek2, hp1, hp2] at hab
  have := (bytesCompare_fee_key c _ _ _ _ hb1.2.1 hb2.2.1 (by omega) (by omega)).mp hab
  rcases this with h | ⟨h, h'⟩
  · exact Or.inl h
  · exact Or.inr ⟨h.symm, h'⟩

theorem iterate_nodup {s : PoolState} (hs : s.Consistent) (c : ContractID) :
    (iterate_unbatched_by_contract s c).Nodup := by
  have h := iterate_ordered hs c
  unfold specFeeDescendingIdDescending at h
  refine h.imp ?_
  intro a b hab hne
  subst hne
  omega

theorem entries_nodup {s : PoolState} (hs : s.Consistent) : s.entries.Nodup := by
  refine hs.2.2.2.1.imp ?_
  intro a b hab hne
  exact hab (by rw [hne])

/-- In a consistent store the cursor yields exactly the Unbatched entries of
the contract, each once. -/
theorem iterate_perm {s : PoolState} (hs : s.Consistent) (c : ContractID) :
    (iterate_unbatched_by_contract s c).Perm (unbatched_of s c) := by
  have hn : (unbatched_of s c).Nodup := (entries_nodup hs).filter _
  rw [List.perm_ext_iff_of_nodup (iterate_nodup hs c) hn]
  exact mem_iterate_iff hs c

/-- The fees in cursor order are the fees of the Unbatched entries of the
contract, sorted from the largest to the smallest. -/
theorem iterate_fees_eq {s : PoolState} (hs : s.Consistent) (c : ContractID) :
    (iterate_unbatched_by_contract s c).map (fun e => e.fee.amount)
      = ((unbatched_of s c).map fun e => e.fee.amount).insertionSort (· ≥ ·) := by
  have hperm : ((iterate_unbatched_by_contract s c).map fun e => e.fee.amount).Perm
      (((unbatched_of s c).map fun e => e.fee.amount).insertionSort (· ≥ ·)) :=
    ((iterate_perm hs c).map _).trans (List.perm_insertionSort _ _).symm
  have hsorted : ((iterate_unbatched_by_contract s c).map fun e => e.fee.amount).Sorted
      (· ≥ ·) := by
    have h := iterate_ordered hs c
    unfold specFeeDescendingIdDescending at h
    rw [List.Sorted, List.pairwise_map]
    refine h.imp ?_
    intro a b hab
    show b.fee.amount ≤ a.fee.amount
    omega
  exact List.eq_of_perm_of_sorted hperm hsorted (List.sorted_insertionSort _ _)

/-- In a consistent store the contracts of the fee index are those with an
Unbatched entry. -/
theorem mem_index_contracts {s : PoolState} (hs : s.Consistent) (c : ContractID) :
    c ∈ index_contracts s ↔ unbatched_of s c ≠ [] := by
  unfold index_contracts
  rw [List.mem_dedup, List.mem_filterMap]
  constructor
  · rintro ⟨k, hk, hc⟩
    obtain ⟨e, hem, hest, hek, -⟩ := resolve_row hs hk
    rw [hek, fee_key_contract_eq] at hc
    cases hc
    intro hnil
    have : e ∈ unbatched_of s e.amount.contract := by
      unfold unbatched_of
      rw [List.mem_filter]
      exact ⟨hem, by simp [hest]⟩
    rw [hnil] at this
    simp at this
  · intro hne
    obtain ⟨e, he⟩ := List.exists_mem_of_ne_nil _ hne
    unfold unbatched_of at he
    rw [List.mem_filter] at he
    obtain ⟨hem, hp⟩ := he
    simp only [decide_eq_true_eq] at hp
    refine ⟨fee_key e.amount.contract e.fee.amount e.id, hs.2.2.1 e hem hp.1, ?_⟩
    rw [fee_key_contract_eq, hp.2]

/-- What a row of `top_fees_per_contract` reports in a consistent store. -/
theorem top_fees_row {s : PoolState} (hs : s.Consistent) (n : Nat) (c : ContractID) :
    (((iterate_unbatched_by_contract s c).take n).map fun e => e.fee.amount).sum
        = specTopFees s c n ∧
      ((iterate_unbatched_by_contract s c).take n).length
        = min n (unbatched_of s c).length := by
  constructor
  · unfold specTopFees
    rw [← iterate_fees_eq hs c, List.map_take]
  · rw [List.length_take, (iterate_perm hs c).length_eq]

/-! ## The scenarios -/

theorem consistent_poolS1 : poolS1.Consistent :=
  consistent_run_adds requestsS1 _ (consistent_fresh testBank) (by decide)

theorem requestsS2_length : requestsS2.length = 114 := by
  simp [requestsS2, requestsS1]

theorem consistent_poolS2 : poolS2.Consistent :=
  consistent_run_adds requestsS2 _ (consistent_fresh testBank)
    (by rw [requestsS2_length]; decide)

set_option maxRecDepth 100000 in
set_option maxHeartbeats 4000000 in
/-- The entries of scenario S2, reduced to their state, contract and fee. -/
theorem poolS2_entries :
    poolS2.entries.map (fun e => (e.state, e.amount.contract, e.fee.amount))
      = [(.Unbatched, contractA, 2), (.Unbatched, contractA, 3), (.Unbatched, contractA, 2),
          (.Unbatched, contractA, 1)] ++ List.replicate 110 (.Unbatched, contractB, 5) := by
  decide

theorem unbatched_of_fees (s : PoolState) (c : ContractID) :
    (unbatched_of s c).map (fun e => e.fee.amount)
      = ((s.entries.map fun e => (e.state, e.amount.contract, e.fee.amount)).filter
          fun t => t.1 = .Unbatched ∧ t.2.1 = c).map fun t => t.2.2 := by
  unfold unbatched_of
  rw [List.filter_map, List.map_map]
  rfl

set_option maxRecDepth 100000 in
theorem poolS2_fees :
    (unbatched_of poolS2 contractA).map (fun e => e.fee.amount) = [2, 3, 2, 1] ∧
      (unbatched_of poolS2 contractB).map (fun e => e.fee.amount) = List.replicate 110 5 := by
  rw [unbatched_of_fees, unbatched_of_fees, poolS2_entries]
  decide

theorem row_mem_top_fees {s : PoolState} (hs : s.Consistent) (n : Nat) (c : ContractID)
    (hne : unbatched_of s c ≠ []) :
    ({ contract := c, total_fees := specTopFees s c n,
        count := min n (unbatched_of s c).length } : FeeSummary)
      ∈ top_fees_per_contract s n := by
  unfold top_fees_per_contract
  rw [List.mem_map]
  refine ⟨c, (mem_index_contracts hs c).mpr hne, ?_⟩
  obtain ⟨h1, h2⟩ := top_fees_row hs n c
  simp only [h1, h2]

set_option maxRecDepth 100000 in
/-- The rows of scenario S2. -/
theorem poolS2_rows :
    ({ contract := contractA, total_fees := 8, count := 4 } : FeeSummary)
        ∈ top_fees_per_contract poolS2 100 ∧
      ({ contract := contractB, total_fees := 500, count := 100 } : FeeSummary)
        ∈ top_fees_per_contract poolS2 100 := by
  obtain ⟨hA, hB⟩ := poolS2_fees
  have lA : (unbatched_of poolS2 contractA).length = 4 := by
    have := congrArg List.length hA
    simpa using this
  have lB : (unbatched_of poolS2 contractB).length = 110 := by
    have := congrArg List.length hB
    simpa using this
  have neA : unbatched_of poolS2 contractA ≠ [] := by
    intro h; rw [h] at lA; simp at lA
  have neB : unbatched_of poolS2 contractB ≠ [] := by
    intro h; rw [h] at lB; simp at lB
  have rA := row_mem_top_fees consistent_poolS2 100 contractA neA
  have rB := row_mem_top_fees consistent_poolS2 100 contractB neB
  have tA : specTopFees poolS2 contractA 100 = 8 := by
    unfold specTopFees
    rw [hA]
    decide
  have tB : specTopFees poolS2 contractB 100 = 500 := by
    unfold specTopFees
    rw [hB]
    decide
  rw [tA, lA] at rA
  rw [tB, lB] at rB
  exact ⟨rA, rB⟩

/-! ## The optional address -/

/-- C16: `OptionalEthAddress` behaves as the variant present or absent: the
value of `NilEthAddress`, the value returned by `NewOptionalEthAddress` for any
string, and the value left by `SetEthAddress` for any argument, nil or not, all
have `IsNil = true` if and only if `Optional` is nil. -/
theorem optionalEthAddress_isNil_iff :
    (NilEthAddress.IsNil = true ↔ NilEthAddress.Optional = none) ∧
      (∀ s : GoString, ∃ o, (NewOptionalEthAddress s).1 = some o ∧
        (o.IsNil = true ↔ o.Optional = none)) ∧
      (∀ (o : OptionalEthAddress) (a : Option EthAddress),
        (o.SetEthAddress a).IsNil = true ↔ (o.SetEthAddress a).Optional = none) := by
  refine ⟨by simp [NilEthAddress], ?_, ?_⟩
  · intro s
    refine ⟨_, rfl, ?_⟩
    simp [Option.isNone_iff_eq_none]
  · intro o a
    cases a <;> simp [OptionalEthAddress.SetEthAddress]

/-- C17: `NewOptionalEthAddress(s)` returns the very error of `NewEthAddress(s)`,
so it fails exactly when `NewEthAddress(s)` does; when `s` is a valid address the
value returned has `IsNil = false` and `Unwrap` on it returns the address holding
`s` with no error; when `s` is invalid the value returned is still not nil and is
the absent variant, with `IsNil = true`. -/
theorem newOptionalEthAddress_spec (s : GoString) :
    (NewOptionalEthAddress s).2 = (NewEthAddress s).2 ∧
      (IsEthAddressString s →
        ∃ o, NewOptionalEthAddress s = (some o, none) ∧ o.IsNil = false ∧
          o.Unwrap = (some ⟨s⟩, none)) ∧
      (¬ IsEthAddressString s →
        ∃ o, (NewOptionalEthAddress s).1 = some o ∧ o.IsNil = true ∧ o.Optional = none ∧
          (NewOptionalEthAddress s).2 ≠ none) := by
  refine ⟨rfl, ?_, ?_⟩
  · intro h
    refine ⟨⟨false, some ⟨s⟩⟩, ?_, rfl, rfl⟩
    simp [NewOptionalEthAddress, newEthAddress_of_valid h]
  · intro h
    obtain ⟨err, he, -⟩ := newEthAddress_of_invalid h
    refine ⟨⟨true, none⟩, ?_, rfl, rfl, ?_⟩ <;> simp [NewOptionalEthAddress, he]

/-! ## Validation of a token -/

/-- C18: `ERC20Token.ValidateBasic` checks the embedded contract and nothing
else: for every token with a non-nil contract it returns nil if and only if
`EthAddress.ValidateBasic` of the contract returns nil, and the amount, negative
or not, has no influence on the result. -/
theorem erc20_validateBasic_iff (e : ERC20Token) (c : EthAddress) (h : e.Contract = some c) :
    (e.ValidateBasic = .ok none ↔ c.ValidateBasic = none) ∧
      (∀ amount : Int, ({ e with Amount := amount } : ERC20Token).ValidateBasic
        = e.ValidateBasic) := by
  constructor
  · unfold ERC20Token.ValidateBasic
    rw [h]
    cases hv : c.ValidateBasic <;> simp [hv]
  · intro amount
    rfl

/-- A token with a valid contract and a negative amount passes validation. -/
theorem erc20_validateBasic_iff_witness :
    (NewSDKIntERC20Token (-5) sampleContract).Contract = some sampleContract ∧
      (NewSDKIntERC20Token (-5) sampleContract).ValidateBasic = .ok none ∧
      sampleContract.ValidateBasic = none :=
  ⟨rfl,
    (erc20_validateBasic_iff (NewSDKIntERC20Token (-5) sampleContract) sampleContract rfl).1.mpr
      (by decide),
    by decide⟩

/-- C20: `GravityCoin` returns the gravity representation of the token. For
every 64-bit `amount` and valid contract `c`, the coin of
`NewERC20Token(amount, c)` has denom `GravityDenom(c)` and amount exactly
`amount`, and `GravityDenomToERC20` applied to the denom of that coin returns `c`. -/
theorem gravityCoin_spec (amount : Nat) (c : EthAddress) (ha : amount < 2 ^ 64)
    (hc : c.ValidateBasic = none) :
    ∃ coin, (NewERC20Token amount c).GravityCoin = .ok coin ∧
      coin.Denom = GravityDenom c ∧ coin.Amount = (amount : Int) ∧
      GravityDenomToERC20 coin.Denom = (some c, none) := by
  refine ⟨⟨GravityDenom c, (amount : Int)⟩, ?_, rfl, rfl, ?_⟩
  · have hm : amount % 2 ^ 64 = amount := Nat.mod_eq_of_lt ha
    have hneg : ¬ ((amount : Int) < 0) := by omega
    simp only [ERC20Token.GravityCoin, NewERC20Token, sdkNewCoin,
      sdkValidateDenom_gravityDenom c hc, hm, Bool.not_true, Bool.false_eq_true, if_false,
      Int.ofNat_eq_coe, if_neg hneg]
  · show GravityDenomToERC20 (GravityDenom c) = (some c, none)
    rw [gravityDenom_eq, gravityDenomToERC20_append]
    have hv : (EthAddress.mk c.Address).ValidateBasic = none := hc
    rw [hv]

/-- The coin minted in the fee test: the largest 64-bit amount of the token of
the pool tests. -/
theorem gravityCoin_spec_witness :
    (18446744073709551615 : Nat) < 2 ^ 64 ∧ sampleContract.ValidateBasic = none ∧
      ∃ coin, (NewERC20Token 18446744073709551615 sampleContract).GravityCoin = .ok coin ∧
        coin.Denom = GravityDenom sampleContract ∧
        coin.Amount = ((18446744073709551615 : Nat) : Int) ∧
        GravityDenomToERC20 coin.Denom = (some sampleContract, none) :=
  ⟨by decide, by decide,
    gravityCoin_spec 18446744073709551615 sampleContract (by decide) (by decide)⟩

/-! ## Wire format of a batch -/

/-- C19: `OutgoingTxBatch.Marshal` of a batch without a nil transaction returns
the encoding in ascending field-number order: tag `0x08` and the varint of
`BatchNonce` if it is not zero, tag `0x10` and the varint of `BatchTimeout` if it
is not zero, then for each transaction in list order tag `0x1a`, the varint of
the length and the encoding of the transaction (which is what
`OutgoingTransferTx.Marshal` returns for it), tag `0x22`, the varint of the
length and the encoding of `TokenContract` if it is present, tag `0x28` and the
varint of `Block` if it is not zero; a batch with every field at its default
encodes to the empty byte string. -/
theorem batch_marshal_wire_format (nc : NestedCodec) (m : OutgoingTxBatch)
    (h : ∀ e ∈ m.Transactions, e ≠ none) :
    OutgoingTxBatch.Marshal nc m = .ok
        ((if m.BatchNonce = 0 then [] else 0x08 :: specVarint m.BatchNonce) ++
          (if m.BatchTimeout = 0 then [] else 0x10 :: specVarint m.BatchTimeout) ++
          (m.Transactions.map fun e =>
            match e with
            | some tx =>
              0x1a :: specVarint (specEncodeTransfer nc tx).length ++ specEncodeTransfer nc tx
            | none => []).flatten ++
          (match m.TokenContract with
            | some a => 0x22 :: specVarint (nc.ethAddress a).length ++ nc.ethAddress a
            | none => []) ++
          (if m.Block = 0 then [] else 0x28 :: specVarint m.Block)) ∧
      (∀ tx : OutgoingTransferTx,
        OutgoingTransferTx.Marshal nc (some tx) = .ok (specEncodeTransfer nc tx)) ∧
      OutgoingTxBatch.Marshal nc
        { BatchNonce := 0, BatchTimeout := 0, Transactions := [], TokenContract := none,
          Block := 0 } = .ok [] := by
  refine ⟨?_, transfer_marshal_eq nc, ?_⟩
  · rw [batch_marshal_eq nc m h]
    congr 1
    unfold specEncodeBatch specVarintField
    congr 2
    · congr 1
      congr 1
      apply List.map_congr_left
      intro e _
      cases e <;> rfl
    · cases m.TokenContract <;> rfl
  · rw [batch_marshal_eq nc _ (by simp)]
    rfl

/-- The bytes of a batch with nonce 1, timeout 300 and one transaction of id 2. -/
theorem batch_marshal_wire_format_witness :
    (∀ e ∈ sampleBatch.Transactions, e ≠ none) ∧
      OutgoingTxBatch.Marshal sampleCodec sampleBatch
        = .ok [0x08, 1, 0x10, 172, 2, 0x1a, 2, 0x08, 2] :=
  ⟨by decide,
    (batch_marshal_wire_format sampleCodec sampleBatch (by decide)).1.trans
      (congrArg Except.ok (by decide))⟩

/-! ## Order of the pool -/

/-- C11, as stated, fails: after scenario S1 the transfers returned for the
contract have the ids 2, 3, 1, 4; the entries 3 and 1 have the same fee 2 and
the larger id comes first, so the result is not by ascending id among equal
fees. -/
theorem pool_order_counterexample :
    poolS1.Consistent ∧
      (iterate_unbatched_by_contract poolS1 contractA).map (fun e => (e.id, e.fee.amount))
        = [(2, 3), (3, 2), (1, 2), (4, 1)] ∧
      ¬ specFeeDescendingIdAscending (iterate_unbatched_by_contract poolS1 contractA) := by
  decide

/-- C11, amended: for every consistent pool state and every contract, the
transfers returned for that contract are its Unbatched entries, ordered by
descending fee and, among entries with equal fee, by descending id; so is every
initial part of them, which is what a batch takes. -/
theorem pool_order (s : PoolState) (c : ContractID) (h : s.Consistent) :
    specFeeDescendingIdDescending (iterate_unbatched_by_contract s c) ∧
      (∀ n, specFeeDescendingIdDescending ((iterate_unbatched_by_contract s c).take n)) ∧
      (∀ e ∈ iterate_unbatched_by_contract s c,
        e.state = .Unbatched ∧ e.amount.contract = c) := by
  have ho := iterate_ordered h c
  refine ⟨ho, ?_, ?_⟩
  · intro n
    unfold specFeeDescendingIdDescending at ho ⊢
    exact ho.sublist (List.take_sublist _ _)
  · intro e he
    have := (mem_iterate_iff h c e).mp he
    unfold unbatched_of at this
    rw [List.mem_filter] at this
    simpa using this.2

/-- The order of scenario S1. -/
theorem pool_order_witness :
    poolS1.Consistent ∧
      specFeeDescendingIdDescending (iterate_unbatched_by_contract poolS1 contractA) :=
  ⟨by decide, (pool_order poolS1 contractA (by decide)).1⟩

/-- C12: scenario S1. After adding to an empty pool, in this order, four
transfers on one contract with amount and fee (100, 2), (101, 3), (102, 2),
(103, 1), all four calls succeed with the ids 1 to 4, and the transfers returned
for the contract have the ids 2, 3, 1, 4 in this order, each with the sender,
destination, amount and fee it was added with. -/
theorem scenario_S1 :
    success_ids (run_adds (PoolState.fresh testBank) requestsS1).2 = [1, 2, 3, 4] ∧
      iterate_unbatched_by_contract (run_adds (PoolState.fresh testBank) requestsS1).1 contractA
        = [{ id := 2, sender := testSender, destination := testReceiver,
              amount := ⟨101, contractA⟩, fee := ⟨3, contractA⟩, state := .Unbatched },
            { id := 3, sender := testSender, destination := testReceiver,
              amount := ⟨102, contractA⟩, fee := ⟨2, contractA⟩, state := .Unbatched },
            { id := 1, sender := testSender, destination := testReceiver,
              amount := ⟨100, contractA⟩, fee := ⟨2, contractA⟩, state := .Unbatched },
            { id := 4, sender := testSender, destination := testReceiver,
              amount := ⟨103, contractA⟩, fee := ⟨1, contractA⟩, state := .Unbatched }] := by
  decide

/-! ## Ids of the pool -/

/-- C13: transfer ids are assigned one after the other from 1 on. On a fresh
store the calls of `add_transfer` that succeed receive, in order, the ids
1, 2, 3, ...: the k-th of them receives id k, a later one a larger id than an
earlier one, and id 0 is never assigned. -/
theorem ids_sequential (bank : Bank) (reqs : List AddRequest) (h : reqs.length + 1 < 2 ^ 64) :
    success_ids (run_adds (PoolState.fresh bank) reqs).2
        = List.range' 1 (success_ids (run_adds (PoolState.fresh bank) reqs).2).length ∧
      (∀ k, k < (success_ids (run_adds (PoolState.fresh bank) reqs).2).length →
        (success_ids (run_adds (PoolState.fresh bank) reqs).2)[k]? = some (k + 1)) ∧
      (success_ids (run_adds (PoolState.fresh bank) reqs).2).Pairwise (· < ·) ∧
      0 ∉ success_ids (run_adds (PoolState.fresh bank) reqs).2 := by
  have hrun := success_ids_run_adds reqs (PoolState.fresh bank)
    (by show 1 + reqs.length < 2 ^ 64; omega)
  have h1 : (PoolState.fresh bank).next_tx_id = 1 := rfl
  rw [h1] at hrun
  refine ⟨hrun, ?_, ?_, ?_⟩
  · intro k hk
    rw [hrun, List.getElem?_range' 1 1 hk]
    simp [Nat.add_comm]
  · rw [hrun]
    exact List.pairwise_lt_range' 1 _
  · rw [hrun]
    simp

/-- The ids of scenario S1. -/
theorem ids_sequential_witness :
    requestsS1.length + 1 < 2 ^ 64 ∧
      success_ids (run_adds (PoolState.fresh testBank) requestsS1).2 = [1, 2, 3, 4] ∧
      success_ids (run_adds (PoolState.fresh testBank) requestsS1).2
        = List.range' 1 (success_ids (run_adds (PoolState.fresh testBank) requestsS1).2).length :=
  ⟨by decide, by decide, (ids_sequential testBank requestsS1 (by decide)).1⟩

/-! ## Fee totals of the pool -/

/-- C14: for every consistent pool state and every `N`,
`top_fees_per_contract(N)` has a row exactly for the contracts with at least one
Unbatched entry; the row of a contract reports as `total_fees` the sum of the
`N` largest fees among the Unbatched entries of the contract, all of them when
there are fewer than `N`, and as `count` the minimum of `N` and the number of
these entries. In scenario S2, with the fees 2, 3, 2, 1 on contract A and 110
entries of fee 5 on contract B and `N = 100`, the totals are 8 and 500, with the
counts 4 and 100. -/
theorem top_fees_per_contract_spec (s : PoolState) (n : Nat) (h : s.Consistent) :
    (∀ row ∈ top_fees_per_contract s n,
        unbatched_of s row.contract ≠ [] ∧
          row.total_fees = specTopFees s row.contract n ∧
          row.count = min n (unbatched_of s row.contract).length) ∧
      (∀ c, unbatched_of s c ≠ [] → ∃ row ∈ top_fees_per_contract s n, row.contract = c) ∧
      ((unbatched_of poolS2 contractA).map (fun e => e.fee.amount) = [2, 3, 2, 1] ∧
        (unbatched_of poolS2 contractB).map (fun e => e.fee.amount) = List.replicate 110 5 ∧
        ({ contract := contractA, total_fees := 8, count := 4 } : FeeSummary)
          ∈ top_fees_per_contract poolS2 100 ∧
        ({ contract := contractB, total_fees := 500, count := 100 } : FeeSummary)
          ∈ top_fees_per_contract poolS2 100) := by
  refine ⟨?_, ?_, poolS2_fees.1, poolS2_fees.2, poolS2_rows.1, poolS2_rows.2⟩
  · intro row hrow
    unfold top_fees_per_contract at hrow
    rw [List.mem_map] at hrow
    obtain ⟨c, hc, rfl⟩ := hrow
    obtain ⟨h1, h2⟩ := top_fees_row h n c
    exact ⟨(mem_index_contracts h c).mp hc, h1, h2⟩
  · intro c hc
    exact ⟨_, row_mem_top_fees h n c hc, rfl⟩

/-- The rows of scenario S1 for `N = 2`: the two largest fees, 3 and 2. -/
theorem top_fees_per_contract_spec_witness :
    poolS1.Consistent ∧
      top_fees_per_contract poolS1 2 = [{ contract := contractA, total_fees := 5, count := 2 }] ∧
      ∀ row ∈ top_fees_per_contract poolS1 2,
        unbatched_of poolS1 row.contract ≠ [] ∧
          row.total_fees = specTopFees poolS1 row.contract 2 ∧
          row.count = min 2 (unbatched_of poolS1 row.contract).length :=
  ⟨by decide, by decide, (top_fees_per_contract_spec poolS1 2 (by decide)).1⟩

/-! ## Visibility of added transfers -/

/-- C15: every transfer that was added is visible in the pool. After a run of
calls of `add_transfer` on one contract, starting from an empty pool, the
transfers returned for that contract are exactly as many as the calls that
succeeded. -/
theorem added_transfers_visible (bank : Bank) (c : ContractID) (reqs : List AddRequest)
    (hlen : reqs.length + 1 < 2 ^ 64) (hc : ∀ r ∈ reqs, r.amount.contract = c) :
    (iterate_unbatched_by_contract (run_adds (PoolState.fresh bank) reqs).1 c).length
      = (success_ids (run_adds (PoolState.fresh bank) reqs).2).length := by
  have hn : (PoolState.fresh bank).next_tx_id + reqs.length < 2 ^ 64 := by
    show 1 + reqs.length < 2 ^ 64
    omega
  have hs := consistent_run_adds reqs _ (consistent_fresh bank) hn
  rw [(iterate_perm hs c).length_eq,
    unbatched_of_run_adds c reqs _ (consistent_fresh bank) hn hc]
  simp [unbatched_of, PoolState.fresh]

/-- The four transfers of scenario S1 are all returned. -/
theorem added_transfers_visible_witness :
    requestsS1.length + 1 < 2 ^ 64 ∧ (∀ r ∈ requestsS1, r.amount.contract = contractA) ∧
      (success_ids (run_adds (PoolState.fresh testBank) requestsS1).2).length = 4 ∧
      (iterate_unbatched_by_contract (run_adds (PoolState.fresh testBank) requestsS1).1
        contractA).length
        = (success_ids (run_adds (PoolState.fresh testBank) requestsS1).2).length :=
  ⟨by decide, by decide, by decide,
    added_transfers_visible testBank contractA requestsS1 (by decide) (by decide)⟩

/-! ## Reading varints -/

theorem wrapInt64_of_lt (x : Nat) (h : x < 2 ^ 63) : wrapInt64 x = x := by
  unfold wrapInt64
  omega

theorem wrapInt64_add_of_lt (i : Nat) (n : Int) (h0 : 0 ≤ n) (h : i + n < 2 ^ 63) :
    wrapInt64 (i + n) = i + n := by
  unfold wrapInt64
  omega

theorem wrapInt64_neg_of_ge (x : Nat) (h1 : 2 ^ 63 ≤ x) (h2 : x < 2 ^ 64) : wrapInt64 x < 0 := by
  unfold wrapInt64
  omega

theorem returnsWith_err {α : Type} {e : WireErr} {P : α → Prop} :
    ReturnsWith (.error (.err e) : Except Fault α) P :=
  Or.inr ⟨e, rfl⟩

theorem returnsWith_ok_intro {α : Type} {a : α} {P : α → Prop} (h : P a) :
    ReturnsWith (.ok a : Except Fault α) P :=
  Or.inl ⟨a, rfl, h⟩

theorem returnsWith_ok {α : Type} {a : α} {P : α → Prop}
    (h : ReturnsWith (.ok a : Except Fault α) P) : P a := by
  rcases h with ⟨b, hb, hP⟩ | ⟨e, he⟩
  · cases hb
    exact hP
  · cases he

theorem returnsWith_error {α β : Type} {f : Fault} {P : α → Prop} {Q : β → Prop}
    (h : ReturnsWith (.error f : Except Fault α) P) :
    ReturnsWith (.error f : Except Fault β) Q := by
  rcases h with ⟨b, hb, _⟩ | ⟨e, he⟩
  · cases hb
  · cases he
    exact returnsWith_err

theorem returnsWith_returns {α : Type} {r : Except Fault α} {P : α → Prop}
    (h : ReturnsWith r P) : Returns r := by
  rcases h with ⟨b, hb, _⟩ | ⟨e, he⟩
  · exact Or.inl ⟨b, hb⟩
  · exact Or.inr ⟨e, he⟩

theorem returnsWith_mono {α : Type} {r : Except Fault α} {P Q : α → Prop}
    (h : ReturnsWith r P) (hPQ : ∀ a, P a → Q a) : ReturnsWith r Q := by
  rcases h with ⟨b, hb, hP⟩ | ⟨e, he⟩
  · exact Or.inl ⟨b, hb, hPQ b hP⟩
  · exact Or.inr ⟨e, he⟩

theorem returnsWith_of_returns {α : Type} {r : Except Fault α} (h : Returns r) :
    ReturnsWith r fun _ => True := by
  rcases h with ⟨b, hb⟩ | ⟨e, he⟩
  · exact Or.inl ⟨b, hb, trivial⟩
  · exact Or.inr ⟨e, he⟩

theorem returns_ok {α : Type} {a : α} : Returns (.ok a : Except Fault α) :=
  Or.inl ⟨a, rfl⟩

theorem returns_err {α : Type} {e : WireErr} : Returns (.error (.err e) : Except Fault α) :=
  Or.inr ⟨e, rfl⟩

theorem returns_error {α β : Type} {f : Fault}
    (h : Returns (.error f : Except Fault α)) : Returns (.error f : Except Fault β) := by
  rcases h with ⟨b, hb⟩ | ⟨e, he⟩
  · cases hb
  · cases he
    exact returns_err

/-- The varint loop returns within its bound, reads inside the slice and moves
the index forward. -/
theorem decodeVarint_returns : ∀ (fuel : Nat) (dAtA : List UInt8) (iNdEx shift x : Nat),
    64 ≤ shift + 7 * fuel → x < 2 ^ 64 →
    ReturnsWith (decodeVarint (fuel + 1) dAtA iNdEx shift x)
      fun r => iNdEx < r.2 ∧ r.2 ≤ dAtA.length ∧ r.1 < 2 ^ 64 := by
  intro fuel
  induction fuel with
  | zero =>
    intro dAtA iNdEx shift x h hx
    unfold decodeVarint
    rw [if_pos (by omega)]
    exact returnsWith_err
  | succ fuel ih =>
    intro dAtA iNdEx shift x h hx
    unfold decodeVarint
    by_cases hs : shift ≥ 64
    · rw [if_pos hs]
      exact returnsWith_err
    · rw [if_neg hs]
      by_cases hi : iNdEx ≥ dAtA.length
      · rw [if_pos hi]
        exact returnsWith_err
      · rw [if_neg hi]
        have hlt : iNdEx < dAtA.length := by omega
        rw [List.getElem?_eq_getElem hlt]
        have hx1 : x ||| (dAtA[iNdEx].toNat &&& 0x7F) <<< shift % 2 ^ 64 < 2 ^ 64 :=
          Nat.or_lt_two_pow hx (Nat.mod_lt _ (Nat.pow_pos (by decide)))
        show ReturnsWith (if dAtA[iNdEx].toNat < 0x80 then _ else _) _
        by_cases hb : dAtA[iNdEx].toNat < 0x80
        · rw [if_pos hb]
          exact returnsWith_ok_intro ⟨Nat.lt_succ_self _, hlt, hx1⟩
        · rw [if_neg hb]
          refine returnsWith_mono (ih dAtA (iNdEx + 1) (shift + 7) _ (by omega) hx1) ?_
          intro r hr
          exact ⟨by omega, hr.2.1, hr.2.2⟩

theorem readVarint_returns (dAtA : List UInt8) (iNdEx : Nat) :
    ReturnsWith (readVarint dAtA iNdEx)
      fun r => iNdEx < r.2 ∧ r.2 ≤ dAtA.length ∧ r.1 < 2 ^ 64 :=
  decodeVarint_returns 10 dAtA iNdEx 0 0 (by decide) (by decide)

/-- The loop that skips a varint returns within its bound and moves the index
forward inside the slice. -/
theorem skipVarint_returns : ∀ (fuel : Nat) (dAtA : List UInt8) (iNdEx shift : Nat),
    64 ≤ shift + 7 * fuel →
    ReturnsWith (skipVarint (fuel + 1) dAtA iNdEx shift)
      fun r => iNdEx < r ∧ r ≤ dAtA.length := by
  intro fuel
  induction fuel with
  | zero =>
    intro dAtA iNdEx shift h
    unfold skipVarint
    rw [if_pos (by omega)]
    exact returnsWith_err
  | succ fuel ih =>
    intro dAtA iNdEx shift h
    unfold skipVarint
    by_cases hs : shift ≥ 64
    · rw [if_pos hs]
      exact returnsWith_err
    · rw [if_neg hs]
      by_cases hi : iNdEx ≥ dAtA.length
      · rw [if_pos hi]
        exact returnsWith_err
      · rw [if_neg hi]
        have hlt : iNdEx < dAtA.length := by omega
        rw [Nat.add_sub_cancel, List.getElem?_eq_getElem hlt]
        show ReturnsWith (if dAtA[iNdEx].toNat < 0x80 then _ else _) _
        by_cases hb : dAtA[iNdEx].toNat < 0x80
        · rw [if_pos hb]
          exact returnsWith_ok_intro ⟨Nat.lt_succ_self _, hlt⟩
        · rw [if_neg hb]
          refine returnsWith_mono (ih dAtA (iNdEx + 1) (shift + 7) (by omega)) ?_
          intro r hr
          exact ⟨by omega, hr.2⟩

theorem or_shift_eq (x v shift : Nat) (hx : x < 2 ^ shift) :
    x ||| v * 2 ^ shift = x + v * 2 ^ shift := by
  rw [Nat.mul_comm v, Nat.or_comm, ← Nat.mul_add_lt_is_or hx, Nat.add_comm]

/-- The varint loop reads back the digits of a varint. -/
theorem decodeVarint_specVarintAux : ∀ (k fuel v shift x : Nat) (pre suf : List UInt8),
    v < k → shift < 64 → 64 ≤ shift + 7 * fuel → v * 2 ^ shift < 2 ^ 64 → x < 2 ^ shift →
    decodeVarint fuel (pre ++ specVarintAux k v ++ suf) pre.length shift x =
      .ok (x + v * 2 ^ shift, pre.length + (specVarintAux k v).length) := by
  intro k
  induction k with
  | zero => intro fuel v shift x pre suf h; omega
  | succ k ih =>
    intro fuel v shift x pre suf hk hs hf hv hx
    obtain ⟨fuel, rfl⟩ : ∃ f, fuel = f + 1 := ⟨fuel - 1, by omega⟩
    unfold decodeVarint
    rw [if_neg (by omega)]
    unfold specVarintAux
    by_cases hv128 : v < 128
    · rw [if_pos hv128]
      have hlen : ¬ pre.length ≥ (pre ++ [UInt8.ofNat v] ++ suf).length := by
        simp
      rw [if_neg hlen]
      have hget : (pre ++ [UInt8.ofNat v] ++ suf)[pre.length]? = some (UInt8.ofNat v) := by
        rw [List.append_assoc, List.getElem?_append_right (Nat.le_refl _)]
        simp
      rw [hget]
      have hb : (UInt8.ofNat v).toNat = v := by
        rw [uint8_ofNat_toNat]
        omega
      show (if (UInt8.ofNat v).toNat < 0x80 then _ else _) = _
      rw [hb, if_pos hv128]
      have hand : v &&& 0x7F = v := by
        rw [show (0x7F : Nat) = 2 ^ 7 - 1 from rfl, Nat.and_pow_two_sub_one_eq_mod]
        exact Nat.mod_eq_of_lt hv128
      rw [hand, Nat.shiftLeft_eq, Nat.mod_eq_of_lt hv, or_shift_eq x v shift hx]
      rfl
    · rw [if_neg hv128]
      have hlen : ¬ pre.length ≥
          (pre ++ UInt8.ofNat (v % 128 + 128) :: specVarintAux k (v / 128) ++ suf).length := by
        simp
      rw [if_neg hlen]
      have hget : (pre ++ UInt8.ofNat (v % 128 + 128) :: specVarintAux k (v / 128) ++ suf)[
          pre.length]? = some (UInt8.ofNat (v % 128 + 128)) := by
        rw [List.append_assoc, List.getElem?_append_right (Nat.le_refl _)]
        simp
      rw [hget]
      have hb : (UInt8.ofNat (v % 128 + 128)).toNat = v % 128 + 128 := by
        rw [uint8_ofNat_toNat]
        omega
      show (if (UInt8.ofNat (v % 128 + 128)).toNat < 0x80 then _ else _) = _
      rw [hb, if_neg (by omega)]
      have hand : (v % 128 + 128) &&& 0x7F = v % 128 := by
        rw [show (0x7F : Nat) = 2 ^ 7 - 1 from rfl, Nat.and_pow_two_sub_one_eq_mod]
        omega
      have hpow : 2 ^ (shift + 7) = 2 ^ shift * 128 := by
        rw [Nat.pow_add]
      have hdm := Nat.div_add_mod v 128
      have hle : v % 128 * 2 ^ shift ≤ v * 2 ^ shift :=
        Nat.mul_le_mul_right _ (Nat.mod_le _ _)
      have hpos : 0 < 2 ^ shift := Nat.pow_pos (by decide)
      have hv2 : 128 * 2 ^ shift ≤ v * 2 ^ shift := Nat.mul_le_mul_right _ (by omega)
      have hs7 : shift + 7 < 64 := by
        by_contra hc
        have h1 : 2 ^ 64 ≤ 2 ^ (shift + 7) := Nat.pow_le_pow_right (by decide) (by omega)
        rw [hpow] at h1
        omega
      have hx1 : x + v % 128 * 2 ^ shift < 2 ^ (shift + 7) := by
        rw [hpow]
        have : v % 128 < 128 := Nat.mod_lt _ (by decide)
        nlinarith
      have hmul : v / 128 * 2 ^ (shift + 7) = v / 128 * 128 * 2 ^ shift := by
        rw [hpow]
        ring
      have hv1 : v / 128 * 2 ^ (shift + 7) < 2 ^ 64 := by
        rw [hmul]
        have : v / 128 * 128 ≤ v := Nat.div_mul_le_self v 128
        calc v / 128 * 128 * 2 ^ shift ≤ v * 2 ^ shift := Nat.mul_le_mul_right _ this
          _ < 2 ^ 64 := hv
      rw [hand, Nat.shiftLeft_eq, Nat.mod_eq_of_lt (Nat.lt_of_le_of_lt hle hv),
        or_shift_eq x (v % 128) shift hx]
      have happ : pre ++ UInt8.ofNat (v % 128 + 128) :: specVarintAux k (v / 128) ++ suf =
          (pre ++ [UInt8.ofNat (v % 128 + 128)]) ++ specVarintAux k (v / 128) ++ suf := by
        simp
      have hpl : pre.length + 1 = (pre ++ [UInt8.ofNat (v % 128 + 128)]).length := by
        simp
      rw [happ, hpl, ih fuel (v / 128) (shift + 7) _ _ suf (by omega) hs7 (by omega) hv1 hx1]
      congr 2
      · rw [hmul]
        have : v = v / 128 * 128 + v % 128 := by omega
        nlinarith
      · simp
        omega

/-- The varint loop reads back a varint. -/
theorem readVarint_specVarint (v : Nat) (hv : v < 2 ^ 64) (pre suf : List UInt8) :
    readVarint (pre ++ specVarint v ++ suf) pre.length =
      .ok (v, pre.length + (specVarint v).length) := by
  unfold readVarint specVarint
  rw [decodeVarint_specVarintAux (v + 1) 11 v 0 0 pre suf (Nat.lt_succ_self v) (by decide)
    (by decide) (by simpa using hv) (by decide)]
  simp

/-- The varint loop reads back a tag of one byte. -/
theorem readVarint_tag (tag : UInt8) (htag : tag.toNat < 128) (pre suf : List UInt8) :
    readVarint (pre ++ tag :: suf) pre.length = .ok (tag.toNat, pre.length + 1) := by
  have h := readVarint_specVarint tag.toNat (by omega) pre suf
  have hs : specVarint tag.toNat = [tag] := by
    unfold specVarint specVarintAux
    rw [if_pos htag]
    congr 1
    apply UInt8.ext
    rw [uint8_ofNat_toNat]
    have := tag.toNat_lt
    omega
  rw [hs] at h
  simpa using h

/-! ## The decoder returns -/

theorem readLength_returns (dAtA : List UInt8) (iNdEx : Nat) (hl : dAtA.length < 2 ^ 63) :
    ReturnsWith (readLength dAtA iNdEx)
      fun r => iNdEx < r.1 ∧ r.1 ≤ r.2 ∧ r.2 ≤ dAtA.length := by
  have h := readVarint_returns dAtA iNdEx
  unfold readLength
  cases hr : readVarint dAtA iNdEx with
  | error f =>
    rw [hr] at h
    exact returnsWith_error h
  | ok r =>
    obtain ⟨x, i⟩ := r
    rw [hr] at h
    obtain ⟨h1, h2, h3⟩ := returnsWith_ok h
    dsimp only at h1 h2 h3 ⊢
    by_cases hneg : wrapInt64 x < 0
    · rw [if_pos hneg]
      exact returnsWith_err
    · rw [if_neg hneg]
      by_cases hpost : wrapInt64 (i + wrapInt64 x) < 0
      · rw [if_pos hpost]
        exact returnsWith_err
      · rw [if_neg hpost]
        by_cases hend : wrapInt64 (i + wrapInt64 x) > dAtA.length
        · rw [if_pos hend]
          exact returnsWith_err
        · rw [if_neg hend]
          apply returnsWith_ok_intro
          dsimp only
          unfold wrapInt64 at hneg hpost hend ⊢
          omega

theorem sliceOf_eq (dAtA : List UInt8) (lo hi : Nat) (h1 : lo ≤ hi) (h2 : hi ≤ dAtA.length) :
    sliceOf dAtA lo hi = .ok ((dAtA.take hi).drop lo) := by
  unfold sliceOf
  rw [if_pos ⟨h1, h2⟩]

theorem sliceOf_length (dAtA : List UInt8) (lo hi : Nat) :
    ((dAtA.take hi).drop lo).length ≤ dAtA.length := by
  simp

theorem varintField_returns {μ : Type} (wireType : Nat) (field : String) (dAtA : List UInt8)
    (iNdEx : Nat) (set : Nat → μ) :
    ReturnsWith (varintField wireType field dAtA iNdEx set)
      fun r => iNdEx < r.2 ∧ r.2 ≤ dAtA.length := by
  have h := readVarint_returns dAtA iNdEx
  unfold varintField
  by_cases hw : wireType ≠ 0
  · rw [if_pos hw]
    exact returnsWith_err
  · rw [if_neg hw]
    cases hr : readVarint dAtA iNdEx with
    | error f =>
      rw [hr] at h
      exact returnsWith_error h
    | ok r =>
      obtain ⟨x, i⟩ := r
      rw [hr] at h
      obtain ⟨h1, h2, _⟩ := returnsWith_ok h
      exact returnsWith_ok_intro ⟨h1, h2⟩

theorem bytesField_returns {μ : Type} (wireType : Nat) (field : String) (dAtA : List UInt8)
    (iNdEx : Nat) (decode : List UInt8 → Except Fault μ) (hl : dAtA.length < 2 ^ 63)
    (hd : ∀ bytes : List UInt8, bytes.length ≤ dAtA.length → Returns (decode bytes)) :
    ReturnsWith (bytesField wireType field dAtA iNdEx decode)
      fun r => iNdEx < r.2 ∧ r.2 ≤ dAtA.length := by
  have h := readLength_returns dAtA iNdEx hl
  unfold bytesField
  by_cases hw : wireType ≠ 2
  · rw [if_pos hw]
    exact returnsWith_err
  · rw [if_neg hw]
    cases hr : readLength dAtA iNdEx with
    | error f =>
      rw [hr] at h
      exact returnsWith_error h
    | ok r =>
      obtain ⟨i, postIndex⟩ := r
      rw [hr] at h
      obtain ⟨h1, h2, h3⟩ := returnsWith_ok h
      dsimp only at h1 h2 h3 ⊢
      rw [sliceOf_eq dAtA i postIndex h2 h3]
      dsimp only
      have hdec := hd ((dAtA.take postIndex).drop i) (sliceOf_length dAtA i postIndex)
      cases hm : decode ((dAtA.take postIndex).drop i) with
      | error f =>
        rw [hm] at hdec
        exact returnsWith_error (returnsWith_of_returns hdec)
      | ok m =>
        exact returnsWith_ok_intro ⟨by omega, h3⟩

theorem nestedUnmarshal_returns {α μ : Type} (p : Option α) (zero : α)
    (unmarshal : α → List UInt8 → Except Fault α) (set : Option α → μ) (bytes : List UInt8)
    (h : Returns (unmarshal (p.getD zero) bytes)) :
    Returns (nestedUnmarshal p zero unmarshal set bytes) := by
  unfold nestedUnmarshal
  cases hm : unmarshal (p.getD zero) bytes with
  | error f =>
    rw [hm] at h
    exact returns_error h
  | ok a => exact returns_ok

theorem skipValue_returns (dAtA : List UInt8) (iNdEx depth wireType : Nat)
    (hl : dAtA.length < 2 ^ 63) (hi : iNdEx < 2 ^ 63) :
    ReturnsWith (skipValue dAtA iNdEx depth wireType)
      fun r => (r.1 < 0 ∨ (iNdEx : Int) ≤ r.1) ∧ r.1 < (2 ^ 63 : Nat) := by
  unfold skipValue
  by_cases h0 : wireType = 0
  · rw [if_pos h0]
    have h := skipVarint_returns 10 dAtA iNdEx 0 (by decide)
    cases hr : skipVarint 11 dAtA iNdEx 0 with
    | error f =>
      rw [hr] at h
      exact returnsWith_error h
    | ok i =>
      rw [hr] at h
      obtain ⟨ha, hb⟩ := returnsWith_ok h
      apply returnsWith_ok_intro
      show ((i : Int) < 0 ∨ (iNdEx : Int) ≤ (i : Int)) ∧ (i : Int) < (2 ^ 63 : Nat)
      omega
  · rw [if_neg h0]
    by_cases h1 : wireType = 1
    · rw [if_pos h1]
      apply returnsWith_ok_intro
      show (wrapInt64 _ < 0 ∨ (iNdEx : Int) ≤ wrapInt64 _) ∧ wrapInt64 _ < (2 ^ 63 : Nat)
      unfold wrapInt64
      omega
    · rw [if_neg h1]
      by_cases h2 : wireType = 2
      · rw [if_pos h2]
        have h := readVarint_returns dAtA iNdEx
        cases hr : readVarint dAtA iNdEx with
        | error f =>
          rw [hr] at h
          exact returnsWith_error h
        | ok r =>
          obtain ⟨x, i⟩ := r
          rw [hr] at h
          obtain ⟨ha, hb, hc⟩ := returnsWith_ok h
          dsimp only at ha hb hc ⊢
          by_cases hneg : wrapInt64 x < 0
          · rw [if_pos hneg]
            exact returnsWith_err
          · rw [if_neg hneg]
            apply returnsWith_ok_intro
            show (wrapInt64 _ < 0 ∨ (iNdEx : Int) ≤ wrapInt64 _) ∧ wrapInt64 _ < (2 ^ 63 : Nat)
            unfold wrapInt64 at hneg ⊢
            omega
      · rw [if_neg h2]
        by_cases h3 : wireType = 3
        · rw [if_pos h3]
          apply returnsWith_ok_intro
          show ((iNdEx : Int) < 0 ∨ (iNdEx : Int) ≤ (iNdEx : Int)) ∧ (iNdEx : Int) < (2 ^ 63 : Nat)
          omega
        · rw [if_neg h3]
          by_cases h4 : wireType = 4
          · rw [if_pos h4]
            by_cases hd : depth = 0
            · rw [if_pos hd]
              exact returnsWith_err
            · rw [if_neg hd]
              apply returnsWith_ok_intro
              show ((iNdEx : Int) < 0 ∨ (iNdEx : Int) ≤ (iNdEx : Int)) ∧
                (iNdEx : Int) < (2 ^ 63 : Nat)
              omega
          · rw [if_neg h4]
            by_cases h5 : wireType = 5
            · rw [if_pos h5]
              apply returnsWith_ok_intro
              show (wrapInt64 _ < 0 ∨ (iNdEx : Int) ≤ wrapInt64 _) ∧ wrapInt64 _ < (2 ^ 63 : Nat)
              unfold wrapInt64
              omega
            · rw [if_neg h5]
              exact returnsWith_err

/-- The loop of `skipBatch` returns within its bound, and what it returns is
larger than the index it started at. -/
theorem skipBatchLoop_returns : ∀ (fuel : Nat) (dAtA : List UInt8) (iNdEx depth : Nat),
    dAtA.length < 2 ^ 63 → dAtA.length ≤ fuel + iNdEx →
    ReturnsWith (skipBatchLoop (fuel + 1) dAtA iNdEx depth)
      fun n => (iNdEx : Int) < n ∧ n < (2 ^ 63 : Nat) := by
  intro fuel
  induction fuel with
  | zero =>
    intro dAtA iNdEx depth hl h
    unfold skipBatchLoop
    rw [if_neg (by omega)]
    exact returnsWith_err
  | succ fuel ih =>
    intro dAtA iNdEx depth hl h
    unfold skipBatchLoop
    by_cases hi : iNdEx < dAtA.length
    · rw [if_pos hi]
      have hv := readVarint_returns dAtA iNdEx
      cases hr : readVarint dAtA iNdEx with
      | error f =>
        rw [hr] at hv
        exact returnsWith_error hv
      | ok r =>
        obtain ⟨wire, i⟩ := r
        rw [hr] at hv
        obtain ⟨ha, hb, hc⟩ := returnsWith_ok hv
        dsimp only at ha hb hc ⊢
        have hs := skipValue_returns dAtA i depth (wire &&& 0x7) hl (by omega)
        cases hk : skipValue dAtA i depth (wire &&& 0x7) with
        | error f =>
          rw [hk] at hs
          exact returnsWith_error hs
        | ok r =>
          obtain ⟨i1, depth1⟩ := r
          rw [hk] at hs
          obtain ⟨hs1, hs2⟩ := returnsWith_ok hs
          dsimp only at hs1 hs2 ⊢
          by_cases hneg : i1 < 0
          · rw [if_pos hneg]
            exact returnsWith_err
          · rw [if_neg hneg]
            by_cases hd : depth1 = 0
            · rw [if_pos hd]
              apply returnsWith_ok_intro
              omega
            · rw [if_neg hd]
              refine returnsWith_mono (ih dAtA i1.toNat depth1 hl (by omega)) ?_
              intro n hn
              omega
    · rw [if_neg hi]
      exact returnsWith_err

theorem skipBatch_returns (dAtA : List UInt8) (hl : dAtA.length < 2 ^ 63) :
    ReturnsWith (skipBatch dAtA) fun n => 0 < n ∧ n < (2 ^ 63 : Nat) := by
  have h := skipBatchLoop_returns dAtA.length dAtA 0 0 hl (Nat.le_refl _)
  exact returnsWith_mono h fun n hn => ⟨by omega, hn.2⟩

theorem skipUnknown_returns (dAtA : List UInt8) (preIndex : Nat) (hl : dAtA.length < 2 ^ 63)
    (hp : preIndex ≤ dAtA.length) :
    ReturnsWith (skipUnknown dAtA preIndex) fun r => preIndex < r ∧ r ≤ dAtA.length := by
  unfold skipUnknown
  rw [sliceOf_eq dAtA preIndex dAtA.length hp (Nat.le_refl _)]
  dsimp only
  have h := skipBatch_returns ((dAtA.take dAtA.length).drop preIndex)
    (Nat.lt_of_le_of_lt (sliceOf_length dAtA preIndex dAtA.length) hl)
  cases hr : skipBatch ((dAtA.take dAtA.length).drop preIndex) with
  | error f =>
    rw [hr] at h
    exact returnsWith_error h
  | ok skippy =>
    rw [hr] at h
    obtain ⟨h1, h2⟩ := returnsWith_ok h
    dsimp only
    rw [if_neg (by omega)]
    by_cases h3 : wrapInt64 (preIndex + skippy) < 0
    · rw [if_pos h3]
      exact returnsWith_err
    · rw [if_neg h3]
      by_cases h4 : wrapInt64 (preIndex + skippy) > dAtA.length
      · rw [if_pos h4]
        exact returnsWith_err
      · rw [if_neg h4]
        apply returnsWith_ok_intro
        unfold wrapInt64 at h3 h4 ⊢
        omega

/-! ## The methods `Unmarshal` return -/

theorem skipField_returns {μ : Type} (m : μ) (dAtA : List UInt8) (preIndex : Nat)
    (hl : dAtA.length < 2 ^ 63) (hp : preIndex ≤ dAtA.length) :
    ReturnsWith
      (match skipUnknown dAtA preIndex with
        | .error f => (.error f : Except Fault (μ × Nat))
        | .ok i => .ok (m, i))
      fun r => preIndex < r.2 ∧ r.2 ≤ dAtA.length := by
  have h := skipUnknown_returns dAtA preIndex hl hp
  cases hr : skipUnknown dAtA preIndex with
  | error f =>
    rw [hr] at h
    exact returnsWith_error h
  | ok i =>
    rw [hr] at h
    have h' := returnsWith_ok h
    exact returnsWith_ok_intro (P := fun r : μ × Nat => preIndex < r.2 ∧ r.2 ≤ dAtA.length) h'

theorem transfer_unmarshalField_returns (dec : NestedDecoder) (hdec : dec.Total)
    (m : OutgoingTransferTx) (dAtA : List UInt8) (preIndex : Nat) (hl : dAtA.length < 2 ^ 63)
    (hp : preIndex ≤ dAtA.length) :
    ReturnsWith (OutgoingTransferTx.unmarshalField dec m dAtA preIndex)
      fun r => preIndex < r.2 ∧ r.2 ≤ dAtA.length := by
  have h := readVarint_returns dAtA preIndex
  unfold OutgoingTransferTx.unmarshalField
  cases hr : readVarint dAtA preIndex with
  | error f =>
    rw [hr] at h
    exact returnsWith_error h
  | ok r =>
    obtain ⟨wire, iNdEx⟩ := r
    rw [hr] at h
    obtain ⟨h1, h2, _⟩ := returnsWith_ok h
    dsimp only at h1 h2 ⊢
    have hlt : ∀ {μ : Type} {r : Except Fault (μ × Nat)},
        ReturnsWith r (fun r => iNdEx < r.2 ∧ r.2 ≤ dAtA.length) →
        ReturnsWith r (fun r => preIndex < r.2 ∧ r.2 ≤ dAtA.length) :=
      fun h => returnsWith_mono h fun a ha => ⟨by omega, ha.2⟩
    split_ifs
    · exact returnsWith_err
    · exact returnsWith_err
    · exact hlt (varintField_returns _ _ _ _ _)
    · exact hlt (bytesField_returns _ _ _ _ _ hl fun _ _ => returns_ok)
    · exact hlt (bytesField_returns _ _ _ _ _ hl fun bytes _ =>
        nestedUnmarshal_returns _ _ _ _ _ (hdec.1 _ _))
    · exact hlt (bytesField_returns _ _ _ _ _ hl fun bytes _ =>
        nestedUnmarshal_returns _ _ _ _ _ (hdec.2 _ _))
    · exact hlt (bytesField_returns _ _ _ _ _ hl fun bytes _ =>
        nestedUnmarshal_returns _ _ _ _ _ (hdec.2 _ _))
    · exact skipField_returns m dAtA preIndex hl hp

theorem transfer_unmarshalLoop_returns (dec : NestedDecoder) (hdec : dec.Total) :
    ∀ (fuel : Nat) (m : OutgoingTransferTx) (dAtA : List UInt8) (iNdEx : Nat),
    dAtA.length < 2 ^ 63 → dAtA.length ≤ fuel + iNdEx →
    Returns (OutgoingTransferTx.unmarshalLoop dec (fuel + 1) m dAtA iNdEx) := by
  intro fuel
  induction fuel with
  | zero =>
    intro m dAtA iNdEx hl h
    unfold OutgoingTransferTx.unmarshalLoop
    rw [if_neg (by omega)]
    split_ifs
    · exact returns_err
    · exact returns_ok
  | succ fuel ih =>
    intro m dAtA iNdEx hl h
    unfold OutgoingTransferTx.unmarshalLoop
    by_cases hi : iNdEx < dAtA.length
    · rw [if_pos hi]
      have hf := transfer_unmarshalField_returns dec hdec m dAtA iNdEx hl (by omega)
      cases hr : OutgoingTransferTx.unmarshalField dec m dAtA iNdEx with
      | error f =>
        rw [hr] at hf
        exact returns_error (returnsWith_returns hf)
      | ok r =>
        obtain ⟨m1, i⟩ := r
        rw [hr] at hf
        obtain ⟨h1, h2⟩ := returnsWith_ok hf
        dsimp only at h1 h2 ⊢
        exact ih m1 dAtA i hl (by omega)
    · rw [if_neg hi]
      split_ifs
      · exact returns_err
      · exact returns_ok

/-- The method `OutgoingTransferTx.Unmarshal` returns on every slice. -/
theorem transfer_unmarshal_returns (dec : NestedDecoder) (hdec : dec.Total)
    (m : OutgoingTransferTx) (dAtA : List UInt8) (hl : dAtA.length < 2 ^ 63) :
    Returns (OutgoingTransferTx.Unmarshal dec m dAtA) :=
  transfer_unmarshalLoop_returns dec hdec dAtA.length m dAtA 0 hl (Nat.le_refl _)

theorem appendTransaction_returns (dec : NestedDecoder) (hdec : dec.Total)
    (m : OutgoingTxBatch) (bytes : List UInt8) (hl : bytes.length < 2 ^ 63) :
    Returns (appendTransaction dec m bytes) := by
  have h := transfer_unmarshal_returns dec hdec OutgoingTransferTx.zero bytes hl
  unfold appendTransaction
  cases hr : OutgoingTransferTx.Unmarshal dec OutgoingTransferTx.zero bytes with
  | error f =>
    rw [hr] at h
    exact returns_error h
  | ok tx => exact returns_ok

theorem batch_unmarshalField_returns (dec : NestedDecoder) (hdec : dec.Total)
    (m : OutgoingTxBatch) (dAtA : List UInt8) (preIndex : Nat) (hl : dAtA.length < 2 ^ 63)
    (hp : preIndex ≤ dAtA.length) :
    ReturnsWith (OutgoingTxBatch.unmarshalField dec m dAtA preIndex)
      fun r => preIndex < r.2 ∧ r.2 ≤ dAtA.length := by
  have h := readVarint_returns dAtA preIndex
  unfold OutgoingTxBatch.unmarshalField
  cases hr : readVarint dAtA preIndex with
  | error f =>
    rw [hr] at h
    exact returnsWith_error h
  | ok r =>
    obtain ⟨wire, iNdEx⟩ := r
    rw [hr] at h
    obtain ⟨h1, h2, _⟩ := returnsWith_ok h
    dsimp only at h1 h2 ⊢
    have hlt : ∀ {μ : Type} {r : Except Fault (μ × Nat)},
        ReturnsWith r (fun r => iNdEx < r.2 ∧ r.2 ≤ dAtA.length) →
        ReturnsWith r (fun r => preIndex < r.2 ∧ r.2 ≤ dAtA.length) :=
      fun h => returnsWith_mono h fun a ha => ⟨by omega, ha.2⟩
    split_ifs
    · exact returnsWith_err
    · exact returnsWith_err
    · exact hlt (varintField_returns _ _ _ _ _)
    · exact hlt (varintField_returns _ _ _ _ _)
    · exact hlt (bytesField_returns _ _ _ _ _ hl fun bytes hb =>
        appendTransaction_returns dec hdec m bytes (by omega))
    · exact hlt (bytesField_returns _ _ _ _ _ hl fun bytes _ =>
        nestedUnmarshal_returns _ _ _ _ _ (hdec.1 _ _))
    · exact hlt (varintField_returns _ _ _ _ _)
    · exact skipField_returns m dAtA preIndex hl hp

theorem batch_unmarshalLoop_returns (dec : NestedDecoder) (hdec : dec.Total) :
    ∀ (fuel : Nat) (m : OutgoingTxBatch) (dAtA : List UInt8) (iNdEx : Nat),
    dAtA.length < 2 ^ 63 → dAtA.length ≤ fuel + iNdEx →
    Returns (OutgoingTxBatch.unmarshalLoop dec (fuel + 1) m dAtA iNdEx) := by
  intro fuel
  induction fuel with
  | zero =>
    intro m dAtA iNdEx hl h
    unfold OutgoingTxBatch.unmarshalLoop
    rw [if_neg (by omega)]
    split_ifs
    · exact returns_err
    · exact returns_ok
  | succ fuel ih =>
    intro m dAtA iNdEx hl h
    unfold OutgoingTxBatch.unmarshalLoop
    by_cases hi : iNdEx < dAtA.length
    · rw [if_pos hi]
      have hf := batch_unmarshalField_returns dec hdec m dAtA iNdEx hl (by omega)
      cases hr : OutgoingTxBatch.unmarshalField dec m dAtA iNdEx with
      | error f =>
        rw [hr] at hf
        exact returns_error (returnsWith_returns hf)
      | ok r =>
        obtain ⟨m1, i⟩ := r
        rw [hr] at hf
        obtain ⟨h1, h2⟩ := returnsWith_ok hf
        dsimp only at h1 h2 ⊢
        exact ih m1 dAtA i hl (by omega)
    · rw [if_neg hi]
      split_ifs
      · exact returns_err
      · exact returns_ok

/-- The method `OutgoingTxBatch.Unmarshal` returns on every slice. -/
theorem batch_unmarshal_returns (dec : NestedDecoder) (hdec : dec.Total)
    (m : OutgoingTxBatch) (dAtA : List UInt8) (hl : dAtA.length < 2 ^ 63) :
    Returns (OutgoingTxBatch.Unmarshal dec m dAtA) :=
  batch_unmarshalLoop_returns dec hdec dAtA.length m dAtA 0 hl (Nat.le_refl _)

/-! ## Reading back what the encoder wrote -/

theorem readVarint_at (v : Nat) (hv : v < 2 ^ 64) (dAtA pre suf : List UInt8)
    (hd : dAtA = pre ++ specVarint v ++ suf) :
    readVarint dAtA pre.length = .ok (v, pre.length + (specVarint v).length) := by
  rw [hd]
  exact readVarint_specVarint v hv pre suf

theorem readVarint_tag_at (tag : UInt8) (htag : tag.toNat < 128) (dAtA pre suf : List UInt8)
    (hd : dAtA = pre ++ tag :: suf) :
    readVarint dAtA pre.length = .ok (tag.toNat, pre.length + 1) := by
  rw [hd]
  exact readVarint_tag tag htag pre suf

theorem take_drop_middle (pre mid suf : List UInt8) :
    ((pre ++ mid ++ suf).take (pre.length + mid.length)).drop pre.length = mid := by
  rw [List.append_assoc, List.take_append_eq_append_take, List.drop_append_eq_append_drop]
  simp

/-- The length block reads back a length and finds the payload inside the slice. -/
theorem readLength_at (payload dAtA pre suf : List UInt8)
    (hd : dAtA = pre ++ specVarint payload.length ++ payload ++ suf)
    (hl : dAtA.length < 2 ^ 63) :
    readLength dAtA pre.length =
      .ok (pre.length + (specVarint payload.length).length,
        pre.length + (specVarint payload.length).length + payload.length) := by
  have hlen : dAtA.length =
      pre.length + (specVarint payload.length).length + payload.length + suf.length := by
    rw [hd]
    simp only [List.length_append]
  unfold readLength
  rw [readVarint_at payload.length (by omega) dAtA pre (payload ++ suf)
    (by rw [hd, List.append_assoc])]
  dsimp only
  have h1 : wrapInt64 (payload.length : Nat) = payload.length :=
    wrapInt64_of_lt _ (by omega)
  rw [h1]
  have h2 : wrapInt64 ((pre.length + (specVarint payload.length).length : Nat) +
      (payload.length : Int)) =
      ((pre.length + (specVarint payload.length).length + payload.length : Nat) : Int) := by
    rw [wrapInt64_add_of_lt _ _ (by omega) (by omega)]
    omega
  rw [h2, if_neg (by omega), if_neg (by omega), if_neg (by omega)]
  rfl

theorem varintField_at {μ : Type} (field : String) (v : Nat) (hv : v < 2 ^ 64)
    (dAtA pre suf : List UInt8) (hd : dAtA = pre ++ specVarint v ++ suf) (set : Nat → μ) :
    varintField 0 field dAtA pre.length set =
      .ok (set v, pre.length + (specVarint v).length) := by
  unfold varintField
  rw [if_neg (by simp), readVarint_at v hv dAtA pre suf hd]

theorem bytesField_at {μ : Type} (field : String) (payload dAtA pre suf : List UInt8)
    (hd : dAtA = pre ++ specVarint payload.length ++ payload ++ suf)
    (hl : dAtA.length < 2 ^ 63) (decode : List UInt8 → Except Fault μ) (m : μ)
    (hm : decode payload = .ok m) :
    bytesField 2 field dAtA pre.length decode =
      .ok (m, pre.length + (specVarint payload.length).length + payload.length) := by
  have hlen : dAtA.length =
      pre.length + (specVarint payload.length).length + payload.length + suf.length := by
    rw [hd]
    simp only [List.length_append]
  unfold bytesField
  rw [if_neg (by simp), readLength_at payload dAtA pre suf hd hl]
  dsimp only
  rw [sliceOf_eq _ _ _ (by omega) (by omega)]
  dsimp only
  have hs : (dAtA.take (pre.length + (specVarint payload.length).length + payload.length)).drop
      (pre.length + (specVarint payload.length).length) = payload := by
    rw [hd]
    have := take_drop_middle (pre ++ specVarint payload.length) payload suf
    simpa using this
  rw [hs, hm]

theorem nestedUnmarshal_none {α μ : Type} (zero a : α)
    (unmarshal : α → List UInt8 → Except Fault α) (set : Option α → μ) (bytes : List UInt8)
    (h : unmarshal zero bytes = .ok a) :
    nestedUnmarshal none zero unmarshal set bytes = .ok (set (some a)) := by
  unfold nestedUnmarshal
  rw [Option.getD_none, h]

/-! ## Fields of a transfer -/

theorem transfer_field_id (dec : NestedDecoder) (m : OutgoingTransferTx) (v : Nat)
    (hv : v < 2 ^ 64) (dAtA pre suf : List UInt8)
    (hd : dAtA = pre ++ (0x08 :: specVarint v) ++ suf) :
    OutgoingTransferTx.unmarshalField dec m dAtA pre.length =
      .ok ({ m with Id := v }, pre.length + (0x08 :: specVarint v).length) := by
  unfold OutgoingTransferTx.unmarshalField
  rw [readVarint_tag_at 0x08 (by decide) dAtA pre (specVarint v ++ suf) (by rw [hd]; simp)]
  dsimp only
  rw [if_neg (by decide), if_neg (by decide), if_pos (by decide)]
  have hp : pre.length + 1 = (pre ++ [0x08]).length := by simp
  rw [hp]
  have h := varintField_at "Id" v hv dAtA (pre ++ [0x08]) suf (by rw [hd]; simp)
    (fun v => { m with Id := v })
  rw [show (0x08 : UInt8).toNat &&& 0x7 = 0 from by decide, h]
  simp
  omega

theorem transfer_field_sender (dec : NestedDecoder) (m : OutgoingTransferTx)
    (sender dAtA pre suf : List UInt8) (hd : dAtA = pre ++ specBytesField 0x12 sender ++ suf)
    (hl : dAtA.length < 2 ^ 63) :
    OutgoingTransferTx.unmarshalField dec m dAtA pre.length =
      .ok ({ m with Sender := sender }, pre.length + (specBytesField 0x12 sender).length) := by
  unfold specBytesField at hd ⊢
  unfold OutgoingTransferTx.unmarshalField
  rw [readVarint_tag_at 0x12 (by decide) dAtA pre (specVarint sender.length ++ sender ++ suf)
    (by rw [hd]; simp)]
  dsimp only
  rw [if_neg (by decide), if_neg (by decide), if_neg (by decide), if_pos (by decide)]
  have hp : pre.length + 1 = (pre ++ [0x12]).length := by simp
  rw [hp]
  have h := bytesField_at "Sender" sender dAtA (pre ++ [0x12]) suf (by rw [hd]; simp) hl
    (fun bytes => .ok { m with Sender := bytes }) _ rfl
  rw [show (0x12 : UInt8).toNat &&& 0x7 = 2 from by decide, h]
  simp
  omega

theorem transfer_field_dest (dec : NestedDecoder) (m : OutgoingTransferTx)
    (a : EthAddress) (payload dAtA pre suf : List UInt8)
    (hd : dAtA = pre ++ specBytesField 0x1a payload ++ suf) (hl : dAtA.length < 2 ^ 63)
    (hm : m.DestAddress = none) (ha : dec.ethAddress EthAddress.zero payload = .ok a) :
    OutgoingTransferTx.unmarshalField dec m dAtA pre.length =
      .ok ({ m with DestAddress := some a }, pre.length + (specBytesField 0x1a payload).length) := by
  unfold specBytesField at hd ⊢
  unfold OutgoingTransferTx.unmarshalField
  rw [readVarint_tag_at 0x1a (by decide) dAtA pre (specVarint payload.length ++ payload ++ suf)
    (by rw [hd]; simp)]
  dsimp only
  rw [if_neg (by decide), if_neg (by decide), if_neg (by decide), if_neg (by decide),
    if_pos (by decide)]
  have hp : pre.length + 1 = (pre ++ [0x1a]).length := by simp
  rw [hp, hm]
  have h := bytesField_at "DestAddress" payload dAtA (pre ++ [0x1a]) suf (by rw [hd]; simp) hl
    (nestedUnmarshal none EthAddress.zero dec.ethAddress fun p => { m with DestAddress := p }) _
    (nestedUnmarshal_none _ _ _ _ _ ha)
  rw [show (0x1a : UInt8).toNat &&& 0x7 = 2 from by decide, h]
  simp
  omega

theorem transfer_field_token (dec : NestedDecoder) (m : OutgoingTransferTx)
    (t : ERC20Token) (payload dAtA pre suf : List UInt8)
    (hd : dAtA = pre ++ specBytesField 0x22 payload ++ suf) (hl : dAtA.length < 2 ^ 63)
    (hm : m.Erc20Token = none) (ht : dec.erc20Token ERC20Token.zero payload = .ok t) :
    OutgoingTransferTx.unmarshalField dec m dAtA pre.length =
      .ok ({ m with Erc20Token := some t }, pre.length + (specBytesField 0x22 payload).length) := by
  unfold specBytesField at hd ⊢
  unfold OutgoingTransferTx.unmarshalField
  rw [readVarint_tag_at 0x22 (by decide) dAtA pre (specVarint payload.length ++ payload ++ suf)
    (by rw [hd]; simp)]
  dsimp only
  rw [if_neg (by decide), if_neg (by decide), if_neg (by decide), if_neg (by decide),
    if_neg (by decide), if_pos (by decide)]
  have hp : pre.length + 1 = (pre ++ [0x22]).length := by simp
  rw [hp, hm]
  have h := bytesField_at "Erc20Token" payload dAtA (pre ++ [0x22]) suf (by rw [hd]; simp) hl
    (nestedUnmarshal none ERC20Token.zero dec.erc20Token fun p => { m with Erc20Token := p }) _
    (nestedUnmarshal_none _ _ _ _ _ ht)
  rw [show (0x22 : UInt8).toNat &&& 0x7 = 2 from by decide, h]
  simp
  omega

theorem transfer_field_fee (dec : NestedDecoder) (m : OutgoingTransferTx)
    (t : ERC20Token) (payload dAtA pre suf : List UInt8)
    (hd : dAtA = pre ++ specBytesField 0x2a payload ++ suf) (hl : dAtA.length < 2 ^ 63)
    (hm : m.Erc20Fee = none) (ht : dec.erc20Token ERC20Token.zero payload = .ok t) :
    OutgoingTransferTx.unmarshalField dec m dAtA pre.length =
      .ok ({ m with Erc20Fee := some t }, pre.length + (specBytesField 0x2a payload).length) := by
  unfold specBytesField at hd ⊢
  unfold OutgoingTransferTx.unmarshalField
  rw [readVarint_tag_at 0x2a (by decide) dAtA pre (specVarint payload.length ++ payload ++ suf)
    (by rw [hd]; simp)]
  dsimp only
  rw [if_neg (by decide), if_neg (by decide), if_neg (by decide), if_neg (by decide),
    if_neg (by decide), if_neg (by decide), if_pos (by decide)]
  have hp : pre.length + 1 = (pre ++ [0x2a]).length := by simp
  rw [hp, hm]
  have h := bytesField_at "Erc20Fee" payload dAtA (pre ++ [0x2a]) suf (by rw [hd]; simp) hl
    (nestedUnmarshal none ERC20Token.zero dec.erc20Token fun p => { m with Erc20Fee := p }) _
    (nestedUnmarshal_none _ _ _ _ _ ht)
  rw [show (0x2a : UInt8).toNat &&& 0x7 = 2 from by decide, h]
  simp
  omega

/-! ## Round trip of a transfer -/

theorem transfer_loop_succ (dec : NestedDecoder) :
    ∀ (fuel : Nat) (m : OutgoingTransferTx) (dAtA : List UInt8) (i : Nat)
      (r : OutgoingTransferTx),
    OutgoingTransferTx.unmarshalLoop dec fuel m dAtA i = .ok r →
    OutgoingTransferTx.unmarshalLoop dec (fuel + 1) m dAtA i = .ok r := by
  intro fuel
  induction fuel with
  | zero =>
    intro m dAtA i r h
    unfold OutgoingTransferTx.unmarshalLoop at h
    cases h
  | succ fuel ih =>
    intro m dAtA i r h
    unfold OutgoingTransferTx.unmarshalLoop at h ⊢
    by_cases hi : i < dAtA.length
    · rw [if_pos hi] at h ⊢
      cases hf : OutgoingTransferTx.unmarshalField dec m dAtA i with
      | error f =>
        rw [hf] at h
        cases h
      | ok p =>
        obtain ⟨m1, j⟩ := p
        rw [hf] at h
        exact ih m1 dAtA j r h
    · rw [if_neg hi] at h ⊢
      exact h

theorem transfer_loop_add (dec : NestedDecoder) (fuel k : Nat) (m : OutgoingTransferTx)
    (dAtA : List UInt8) (i : Nat) (r : OutgoingTransferTx)
    (h : OutgoingTransferTx.unmarshalLoop dec fuel m dAtA i = .ok r) :
    OutgoingTransferTx.unmarshalLoop dec (fuel + k) m dAtA i = .ok r := by
  induction k with
  | zero => exact h
  | succ k ih => exact transfer_loop_succ dec (fuel + k) m dAtA i r ih

/-- One piece of the encoding, empty or one field, taken off the front by the
loop. -/
theorem transfer_loop_piece (dec : NestedDecoder) (m m1 : OutgoingTransferTx)
    (piece dAtA pre suf : List UInt8) (hd : dAtA = pre ++ piece ++ suf)
    (hstep : (piece = [] ∧ m1 = m) ∨ (piece ≠ [] ∧
      OutgoingTransferTx.unmarshalField dec m dAtA pre.length =
        .ok (m1, pre.length + piece.length)))
    (fuel : Nat) (r : OutgoingTransferTx)
    (h : OutgoingTransferTx.unmarshalLoop dec fuel m1 dAtA (pre.length + piece.length) = .ok r) :
    OutgoingTransferTx.unmarshalLoop dec (fuel + piece.length) m dAtA pre.length = .ok r := by
  rcases hstep with ⟨hp, hm⟩ | ⟨hp, hf⟩
  · subst hp
    subst hm
    simpa using h
  · have hlen : 0 < piece.length := List.length_pos.mpr hp
    obtain ⟨k, hk⟩ : ∃ k, piece.length = k + 1 := ⟨piece.length - 1, by omega⟩
    have h1 := transfer_loop_add dec fuel k m1 dAtA _ r h
    rw [hk, ← Nat.add_assoc]
    unfold OutgoingTransferTx.unmarshalLoop
    have hi : pre.length < dAtA.length := by
      rw [hd]
      simp only [List.length_append]
      omega
    rw [if_pos hi, hf]
    dsimp only
    rw [hk] at h1
    rw [hk]
    exact h1

theorem transfer_loop_end (dec : NestedDecoder) (m : OutgoingTransferTx) (dAtA : List UInt8) :
    OutgoingTransferTx.unmarshalLoop dec 1 m dAtA dAtA.length = .ok m := by
  unfold OutgoingTransferTx.unmarshalLoop
  rw [if_neg (Nat.lt_irrefl _), if_neg (Nat.lt_irrefl _)]

theorem specVarint_ne_nil (v : Nat) : specVarint v ≠ [] := by
  unfold specVarint specVarintAux
  split <;> simp

/-- Decoding into an empty transfer what the encoder wrote gives the transfer. -/
theorem transfer_unmarshal_encode (nc : NestedCodec) (dec : NestedDecoder)
    (m : OutgoingTransferTx) (hid : m.Id < 2 ^ 64)
    (hl : (specEncodeTransfer nc m).length < 2 ^ 63)
    (hn : OutgoingTransferTx.NestedRoundTrip nc dec m) :
    OutgoingTransferTx.Unmarshal dec OutgoingTransferTx.zero (specEncodeTransfer nc m) =
      .ok m := by
  obtain ⟨Id, Sender, Dest, Token, Fee⟩ := m
  obtain ⟨hdest, htok, hfee⟩ := hn
  dsimp only at hid hdest htok hfee
  unfold OutgoingTransferTx.Unmarshal
  generalize hd : specEncodeTransfer nc ⟨Id, Sender, Dest, Token, Fee⟩ = dAtA at hl ⊢
  unfold specEncodeTransfer at hd
  dsimp only at hd
  generalize hP1 : specVarintField 0x08 Id = P1 at hd
  generalize hP2 : (if Sender.length = 0 then [] else specBytesField 0x12 Sender) = P2 at hd
  generalize hP3 : specOptionalField 0x1a Dest nc.ethAddress = P3 at hd
  generalize hP4 : specOptionalField 0x22 Token nc.erc20Token = P4 at hd
  generalize hP5 : specOptionalField 0x2a Fee nc.erc20Token = P5 at hd
  have hlen : dAtA.length = P1.length + P2.length + P3.length + P4.length + P5.length := by
    rw [← hd]
    simp only [List.length_append]
  -- the fifth piece
  have h5 := transfer_loop_end dec ⟨Id, Sender, Dest, Token, Fee⟩ dAtA
  have e5 : dAtA.length = (P1 ++ P2 ++ P3 ++ P4).length + P5.length := by
    rw [hlen]
    simp only [List.length_append]
  rw [e5] at h5
  have h4 := transfer_loop_piece dec ⟨Id, Sender, Dest, Token, none⟩ _ P5 dAtA
    (P1 ++ P2 ++ P3 ++ P4) [] (by rw [← hd]; simp) (by
      cases Fee with
      | none =>
        left
        exact ⟨by rw [← hP5]; rfl, rfl⟩
      | some t =>
        right
        refine ⟨by rw [← hP5]; simp [specOptionalField, specBytesField], ?_⟩
        rw [← hP5]
        exact transfer_field_fee dec _ t (nc.erc20Token t) dAtA _ []
          (by rw [← hd, ← hP5]; simp [specOptionalField]) hl rfl (hfee t rfl)) 1 _ h5
  have e4 : (P1 ++ P2 ++ P3 ++ P4).length = (P1 ++ P2 ++ P3).length + P4.length := by
    simp only [List.length_append]
  rw [e4] at h4
  have h3 := transfer_loop_piece dec ⟨Id, Sender, Dest, none, none⟩ _ P4 dAtA
    (P1 ++ P2 ++ P3) P5 (by rw [← hd]) (by
      cases Token with
      | none =>
        left
        exact ⟨by rw [← hP4]; rfl, rfl⟩
      | some t =>
        right
        refine ⟨by rw [← hP4]; simp [specOptionalField, specBytesField], ?_⟩
        rw [← hP4]
        exact transfer_field_token dec _ t (nc.erc20Token t) dAtA _ P5
          (by rw [← hd, ← hP4]; simp [specOptionalField]) hl rfl (htok t rfl)) _ _ h4
  have e3 : (P1 ++ P2 ++ P3).length = (P1 ++ P2).length + P3.length := by
    simp only [List.length_append]
  rw [e3] at h3
  have h2 := transfer_loop_piece dec ⟨Id, Sender, none, none, none⟩ _ P3 dAtA
    (P1 ++ P2) (P4 ++ P5) (by rw [← hd]; simp) (by
      cases Dest with
      | none =>
        left
        exact ⟨by rw [← hP3]; rfl, rfl⟩
      | some a =>
        right
        refine ⟨by rw [← hP3]; simp [specOptionalField, specBytesField], ?_⟩
        rw [← hP3]
        exact transfer_field_dest dec _ a (nc.ethAddress a) dAtA _ (P4 ++ P5)
          (by rw [← hd, ← hP3]; simp [specOptionalField]) hl rfl (hdest a rfl)) _ _ h3
  have e2 : (P1 ++ P2).length = P1.length + P2.length := by
    simp only [List.length_append]
  rw [e2] at h2
  have h1 := transfer_loop_piece dec ⟨Id, [], none, none, none⟩ _ P2 dAtA
    P1 (P3 ++ P4 ++ P5) (by rw [← hd]; simp) (by
      by_cases hs : Sender.length = 0
      · left
        have hnil : Sender = [] := List.length_eq_zero.mp hs
        exact ⟨by rw [← hP2, if_pos hs], by rw [hnil]⟩
      · right
        rw [if_neg hs] at hP2
        refine ⟨by rw [← hP2]; simp [specBytesField], ?_⟩
        rw [← hP2]
        exact transfer_field_sender dec _ Sender dAtA _ (P3 ++ P4 ++ P5)
          (by rw [← hd, ← hP2]; simp) hl) _ _ h2
  have h0 := transfer_loop_piece dec OutgoingTransferTx.zero ⟨Id, [], none, none, none⟩ P1 dAtA
    [] (P2 ++ P3 ++ P4 ++ P5) (by rw [← hd]; simp) (by
      by_cases hz : Id = 0
      · left
        exact ⟨by rw [← hP1, hz]; rfl, by rw [hz]; rfl⟩
      · right
        have hP1' : P1 = 0x08 :: specVarint Id := by
          rw [← hP1]
          unfold specVarintField
          rw [if_neg hz]
        refine ⟨by rw [hP1']; simp, ?_⟩
        rw [hP1']
        exact transfer_field_id dec _ Id hid dAtA [] (P2 ++ P3 ++ P4 ++ P5)
          (by rw [← hd, hP1']; simp)) _ _ (by simpa using h1)
  have hfuel : dAtA.length + 1 = 1 + P5.length + P4.length + P3.length + P2.length + P1.length := by
    omega
  rw [hfuel]
  simpa using h0

/-! ## Round trip of a batch -/

theorem batch_field_varint (dec : NestedDecoder) (m : OutgoingTxBatch) (tag : UInt8)
    (field : String) (set : Nat → OutgoingTxBatch)
    (hdisp : ∀ (dAtA : List UInt8) (pre0 : Nat),
      readVarint dAtA pre0 = .ok (tag.toNat, pre0 + 1) →
      OutgoingTxBatch.unmarshalField dec m dAtA pre0 =
        varintField 0 field dAtA (pre0 + 1) set)
    (htag : tag.toNat < 128)
    (v : Nat) (hv : v < 2 ^ 64) (dAtA pre suf : List UInt8)
    (hd : dAtA = pre ++ (tag :: specVarint v) ++ suf) :
    OutgoingTxBatch.unmarshalField dec m dAtA pre.length =
      .ok (set v, pre.length + (tag :: specVarint v).length) := by
  rw [hdisp dAtA pre.length
    (readVarint_tag_at tag htag dAtA pre (specVarint v ++ suf) (by rw [hd]; simp))]
  have hp : pre.length + 1 = (pre ++ [tag]).length := by simp
  rw [hp, varintField_at field v hv dAtA (pre ++ [tag]) suf (by rw [hd]; simp) set]
  simp
  omega

theorem batch_field_nonce (dec : NestedDecoder) (m : OutgoingTxBatch) (v : Nat)
    (hv : v < 2 ^ 64) (dAtA pre suf : List UInt8)
    (hd : dAtA = pre ++ (0x08 :: specVarint v) ++ suf) :
    OutgoingTxBatch.unmarshalField dec m dAtA pre.length =
      .ok ({ m with BatchNonce := v }, pre.length + (0x08 :: specVarint v).length) := by
  refine batch_field_varint dec m 0x08 "BatchNonce" (fun v => { m with BatchNonce := v }) ?_
    (by decide) v hv dAtA pre suf hd
  intro dAtA pre0 h
  unfold OutgoingTxBatch.unmarshalField
  rw [h]
  dsimp only
  rw [if_neg (by decide), if_neg (by decide), if_pos (by decide)]
  rfl

theorem batch_field_timeout (dec : NestedDecoder) (m : OutgoingTxBatch) (v : Nat)
    (hv : v < 2 ^ 64) (dAtA pre suf : List UInt8)
    (hd : dAtA = pre ++ (0x10 :: specVarint v) ++ suf) :
    OutgoingTxBatch.unmarshalField dec m dAtA pre.length =
      .ok ({ m with BatchTimeout := v }, pre.length + (0x10 :: specVarint v).length) := by
  refine batch_field_varint dec m 0x10 "BatchTimeout" (fun v => { m with BatchTimeout := v }) ?_
    (by decide) v hv dAtA pre suf hd
  intro dAtA pre0 h
  unfold OutgoingTxBatch.unmarshalField
  rw [h]
  dsimp only
  rw [if_neg (by decide), if_neg (by decide), if_neg (by decide), if_pos (by decide)]
  rfl

theorem batch_field_block (dec : NestedDecoder) (m : OutgoingTxBatch) (v : Nat)
    (hv : v < 2 ^ 64) (dAtA pre suf : List UInt8)
    (hd : dAtA = pre ++ (0x28 :: specVarint v) ++ suf) :
    OutgoingTxBatch.unmarshalField dec m dAtA pre.length =
      .ok ({ m with Block := v }, pre.length + (0x28 :: specVarint v).length) := by
  refine batch_field_varint dec m 0x28 "Block" (fun v => { m with Block := v }) ?_
    (by decide) v hv dAtA pre suf hd
  intro dAtA pre0 h
  unfold OutgoingTxBatch.unmarshalField
  rw [h]
  dsimp only
  rw [if_neg (by decide), if_neg (by decide), if_neg (by decide), if_neg (by decide),
    if_neg (by decide), if_neg (by decide), if_pos (by decide)]
  rfl

theorem batch_field_transaction (dec : NestedDecoder) (m : OutgoingTxBatch)
    (tx : OutgoingTransferTx) (payload dAtA pre suf : List UInt8)
    (hd : dAtA = pre ++ specBytesField 0x1a payload ++ suf) (hl : dAtA.length < 2 ^ 63)
    (htx : OutgoingTransferTx.Unmarshal dec OutgoingTransferTx.zero payload = .ok tx) :
    OutgoingTxBatch.unmarshalField dec m dAtA pre.length =
      .ok ({ m with Transactions := m.Transactions ++ [some tx] },
        pre.length + (specBytesField 0x1a payload).length) := by
  unfold specBytesField at hd ⊢
  unfold OutgoingTxBatch.unmarshalField
  rw [readVarint_tag_at 0x1a (by decide) dAtA pre (specVarint payload.length ++ payload ++ suf)
    (by rw [hd]; simp)]
  dsimp only
  rw [if_neg (by decide), if_neg (by decide), if_neg (by decide), if_neg (by decide),
    if_pos (by decide)]
  have hp : pre.length + 1 = (pre ++ [0x1a]).length := by simp
  rw [hp]
  have h := bytesField_at "Transactions" payload dAtA (pre ++ [0x1a]) suf (by rw [hd]; simp) hl
    (appendTransaction dec m) { m with Transactions := m.Transactions ++ [some tx] } (by
      unfold appendTransaction
      rw [htx])
  rw [show (0x1a : UInt8).toNat &&& 0x7 = 2 from by decide, h]
  simp
  omega

theorem batch_field_contract (dec : NestedDecoder) (m : OutgoingTxBatch)
    (a : EthAddress) (payload dAtA pre suf : List UInt8)
    (hd : dAtA = pre ++ specBytesField 0x22 payload ++ suf) (hl : dAtA.length < 2 ^ 63)
    (hm : m.TokenContract = none) (ha : dec.ethAddress EthAddress.zero payload = .ok a) :
    OutgoingTxBatch.unmarshalField dec m dAtA pre.length =
      .ok ({ m with TokenContract := some a },
        pre.length + (specBytesField 0x22 payload).length) := by
  unfold specBytesField at hd ⊢
  unfold OutgoingTxBatch.unmarshalField
  rw [readVarint_tag_at 0x22 (by decide) dAtA pre (specVarint payload.length ++ payload ++ suf)
    (by rw [hd]; simp)]
  dsimp only
  rw [if_neg (by decide), if_neg (by decide), if_neg (by decide), if_neg (by decide),
    if_neg (by decide), if_pos (by decide)]
  have hp : pre.length + 1 = (pre ++ [0x22]).length := by simp
  rw [hp, hm]
  have h := bytesField_at "TokenContract" payload dAtA (pre ++ [0x22]) suf (by rw [hd]; simp) hl
    (nestedUnmarshal none EthAddress.zero dec.ethAddress fun p => { m with TokenContract := p }) _
    (nestedUnmarshal_none _ _ _ _ _ ha)
  rw [show (0x22 : UInt8).toNat &&& 0x7 = 2 from by decide, h]
  simp
  omega

theorem batch_loop_succ (dec : NestedDecoder) :
    ∀ (fuel : Nat) (m : OutgoingTxBatch) (dAtA : List UInt8) (i : Nat) (r : OutgoingTxBatch),
    OutgoingTxBatch.unmarshalLoop dec fuel m dAtA i = .ok r →
    OutgoingTxBatch.unmarshalLoop dec (fuel + 1) m dAtA i = .ok r := by
  intro fuel
  induction fuel with
  | zero =>
    intro m dAtA i r h
    unfold OutgoingTxBatch.unmarshalLoop at h
    cases h
  | succ fuel ih =>
    intro m dAtA i r h
    unfold OutgoingTxBatch.unmarshalLoop at h ⊢
    by_cases hi : i < dAtA.length
    · rw [if_pos hi] at h ⊢
      cases hf : OutgoingTxBatch.unmarshalField dec m dAtA i with
      | error f =>
        rw [hf] at h
        cases h
      | ok p =>
        obtain ⟨m1, j⟩ := p
        rw [hf] at h
        exact ih m1 dAtA j r h
    · rw [if_neg hi] at h ⊢
      exact h

theorem batch_loop_add (dec : NestedDecoder) (fuel k : Nat) (m : OutgoingTxBatch)
    (dAtA : List UInt8) (i : Nat) (r : OutgoingTxBatch)
    (h : OutgoingTxBatch.unmarshalLoop dec fuel m dAtA i = .ok r) :
    OutgoingTxBatch.unmarshalLoop dec (fuel + k) m dAtA i = .ok r := by
  induction k with
  | zero => exact h
  | succ k ih => exact batch_loop_succ dec (fuel + k) m dAtA i r ih

/-- One piece of the encoding, empty or one field, taken off the front by the
loop. -/
theorem batch_loop_piece (dec : NestedDecoder) (m m1 : OutgoingTxBatch)
    (piece dAtA pre suf : List UInt8) (hd : dAtA = pre ++ piece ++ suf)
    (hstep : (piece = [] ∧ m1 = m) ∨ (piece ≠ [] ∧
      OutgoingTxBatch.unmarshalField dec m dAtA pre.length =
        .ok (m1, pre.length + piece.length)))
    (fuel : Nat) (r : OutgoingTxBatch)
    (h : OutgoingTxBatch.unmarshalLoop dec fuel m1 dAtA (pre.length + piece.length) = .ok r) :
    OutgoingTxBatch.unmarshalLoop dec (fuel + piece.length) m dAtA pre.length = .ok r := by
  rcases hstep with ⟨hp, hm⟩ | ⟨hp, hf⟩
  · subst hp
    subst hm
    simpa using h
  · have hlen : 0 < piece.length := List.length_pos.mpr hp
    obtain ⟨k, hk⟩ : ∃ k, piece.length = k + 1 := ⟨piece.length - 1, by omega⟩
    have h1 := batch_loop_add dec fuel k m1 dAtA _ r h
    rw [hk, ← Nat.add_assoc]
    unfold OutgoingTxBatch.unmarshalLoop
    have hi : pre.length < dAtA.length := by
      rw [hd]
      simp only [List.length_append]
      omega
    rw [if_pos hi, hf]
    dsimp only
    rw [hk] at h1
    rw [hk]
    exact h1

theorem batch_loop_end (dec : NestedDecoder) (m : OutgoingTxBatch) (dAtA : List UInt8) :
    OutgoingTxBatch.unmarshalLoop dec 1 m dAtA dAtA.length = .ok m := by
  unfold OutgoingTxBatch.unmarshalLoop
  rw [if_neg (Nat.lt_irrefl _), if_neg (Nat.lt_irrefl _)]

theorem specBytesField_ne_nil (tag : UInt8) (payload : List UInt8) :
    specBytesField tag payload ≠ [] := by
  simp [specBytesField]

/-- The fields of the transactions, taken off the front by the loop one after
the other and appended in that order. -/
theorem batch_loop_transactions (nc : NestedCodec) (dec : NestedDecoder) :
    ∀ (txs : List (Option OutgoingTransferTx)) (m : OutgoingTxBatch)
      (dAtA pre suf : List UInt8) (fuel : Nat) (r : OutgoingTxBatch),
    (∀ e ∈ txs, ∃ tx, e = some tx ∧ tx.Id < 2 ^ 64 ∧
      OutgoingTransferTx.NestedRoundTrip nc dec tx) →
    dAtA = pre ++ (txs.map fun e => specOptionalField 0x1a e (specEncodeTransfer nc)).flatten ++
      suf →
    dAtA.length < 2 ^ 63 →
    OutgoingTxBatch.unmarshalLoop dec fuel { m with Transactions := m.Transactions ++ txs } dAtA
      (pre.length +
        (txs.map fun e => specOptionalField 0x1a e (specEncodeTransfer nc)).flatten.length) =
      .ok r →
    OutgoingTxBatch.unmarshalLoop dec
      (fuel + (txs.map fun e => specOptionalField 0x1a e (specEncodeTransfer nc)).flatten.length)
      m dAtA pre.length = .ok r := by
  intro txs
  induction txs with
  | nil =>
    intro m dAtA pre suf fuel r _ _ _ h
    simpa using h
  | cons e rest ih =>
    intro m dAtA pre suf fuel r hall hd hl h
    obtain ⟨tx, rfl, hid, hn⟩ := hall e (List.mem_cons_self _ _)
    have hrest : ∀ e ∈ rest, ∃ tx, e = some tx ∧ tx.Id < 2 ^ 64 ∧
        OutgoingTransferTx.NestedRoundTrip nc dec tx :=
      fun e he => hall e (List.mem_cons_of_mem _ he)
    simp only [List.map_cons, List.flatten_cons, List.length_append] at hd h ⊢
    have hpiece : specOptionalField 0x1a (some tx) (specEncodeTransfer nc) =
        specBytesField 0x1a (specEncodeTransfer nc tx) := rfl
    rw [hpiece] at hd h ⊢
    have hlen : dAtA.length = pre.length + (specBytesField 0x1a (specEncodeTransfer nc tx)).length +
        (rest.map fun e => specOptionalField 0x1a e (specEncodeTransfer nc)).flatten.length +
        suf.length := by
      rw [hd]
      simp only [List.length_append]
      omega
    have hpay : (specEncodeTransfer nc tx).length < 2 ^ 63 := by
      have := specBytesField_length 0x1a (specEncodeTransfer nc tx)
      omega
    have h1 := ih { m with Transactions := m.Transactions ++ [some tx] } dAtA
      (pre ++ specBytesField 0x1a (specEncodeTransfer nc tx)) suf fuel r hrest
      (by rw [hd]; simp) hl (by
        simp only [List.length_append, List.append_assoc, List.singleton_append]
        rw [← Nat.add_assoc] at h
        exact h)
    have h2 := batch_loop_piece dec m { m with Transactions := m.Transactions ++ [some tx] }
      (specBytesField 0x1a (specEncodeTransfer nc tx)) dAtA pre
      ((rest.map fun e => specOptionalField 0x1a e (specEncodeTransfer nc)).flatten ++ suf)
      (by rw [hd]; simp)
      (Or.inr ⟨specBytesField_ne_nil _ _,
        batch_field_transaction dec m tx (specEncodeTransfer nc tx) dAtA pre
          ((rest.map fun e => specOptionalField 0x1a e (specEncodeTransfer nc)).flatten ++ suf)
          (by rw [hd]; simp) hl (transfer_unmarshal_encode nc dec tx hid hpay hn)⟩) _ r
      (by simpa only [List.length_append] using h1)
    have hf : fuel + ((specBytesField 0x1a (specEncodeTransfer nc tx)).length +
        (rest.map fun e => specOptionalField 0x1a e (specEncodeTransfer nc)).flatten.length) =
        fuel + (rest.map fun e => specOptionalField 0x1a e (specEncodeTransfer nc)).flatten.length +
          (specBytesField 0x1a (specEncodeTransfer nc tx)).length := by
      omega
    rw [hf]
    exact h2

/-- Decoding into an empty batch what the encoder wrote gives the batch. -/
theorem batch_unmarshal_encode (nc : NestedCodec) (dec : NestedDecoder) (m : OutgoingTxBatch)
    (hnonce : m.BatchNonce < 2 ^ 64) (htimeout : m.BatchTimeout < 2 ^ 64)
    (hblock : m.Block < 2 ^ 64) (hl : (specEncodeBatch nc m).length < 2 ^ 63)
    (htxs : ∀ e ∈ m.Transactions, ∃ tx, e = some tx ∧ tx.Id < 2 ^ 64 ∧
      OutgoingTransferTx.NestedRoundTrip nc dec tx)
    (hc : ∀ a, m.TokenContract = some a →
      dec.ethAddress EthAddress.zero (nc.ethAddress a) = .ok a) :
    OutgoingTxBatch.Unmarshal dec OutgoingTxBatch.zero (specEncodeBatch nc m) = .ok m := by
  obtain ⟨Nonce, Timeout, Txs, Contract, Block⟩ := m
  dsimp only at hnonce htimeout hblock htxs hc
  unfold OutgoingTxBatch.Unmarshal
  generalize hd : specEncodeBatch nc ⟨Nonce, Timeout, Txs, Contract, Block⟩ = dAtA at hl ⊢
  unfold specEncodeBatch at hd
  dsimp only at hd
  generalize hP1 : specVarintField 0x08 Nonce = P1 at hd
  generalize hP2 : specVarintField 0x10 Timeout = P2 at hd
  generalize hP3 :
    (Txs.map fun e => specOptionalField 0x1a e (specEncodeTransfer nc)).flatten = P3 at hd
  generalize hP4 : specOptionalField 0x22 Contract nc.ethAddress = P4 at hd
  generalize hP5 : specVarintField 0x28 Block = P5 at hd
  have hlen : dAtA.length = P1.length + P2.length + P3.length + P4.length + P5.length := by
    rw [← hd]
    simp only [List.length_append]
  have h5 := batch_loop_end dec ⟨Nonce, Timeout, Txs, Contract, Block⟩ dAtA
  have e5 : dAtA.length = (P1 ++ P2 ++ P3 ++ P4).length + P5.length := by
    rw [hlen]
    simp only [List.length_append]
  rw [e5] at h5
  have h4 := batch_loop_piece dec ⟨Nonce, Timeout, Txs, Contract, 0⟩
    ⟨Nonce, Timeout, Txs, Contract, Block⟩ P5 dAtA
    (P1 ++ P2 ++ P3 ++ P4) [] (by rw [← hd]; simp) (by
      by_cases hz : Block = 0
      · left
        exact ⟨by rw [← hP5, hz]; rfl, by rw [hz]⟩
      · right
        have hP5' : P5 = 0x28 :: specVarint Block := by
          rw [← hP5]
          unfold specVarintField
          rw [if_neg hz]
        refine ⟨by rw [hP5']; simp, ?_⟩
        rw [hP5']
        exact batch_field_block dec _ Block hblock dAtA _ []
          (by rw [← hd, hP5']; simp)) 1 _ h5
  have e4 : (P1 ++ P2 ++ P3 ++ P4).length = (P1 ++ P2 ++ P3).length + P4.length := by
    simp only [List.length_append]
  rw [e4] at h4
  have h3 := batch_loop_piece dec ⟨Nonce, Timeout, Txs, none, 0⟩ _ P4 dAtA
    (P1 ++ P2 ++ P3) P5 (by rw [← hd]) (by
      cases Contract with
      | none =>
        left
        exact ⟨by rw [← hP4]; rfl, rfl⟩
      | some a =>
        right
        refine ⟨by rw [← hP4]; simp [specOptionalField, specBytesField], ?_⟩
        rw [← hP4]
        exact batch_field_contract dec _ a (nc.ethAddress a) dAtA _ P5
          (by rw [← hd, ← hP4]; simp [specOptionalField]) hl rfl (hc a rfl)) _ _ h4
  have e3 : (P1 ++ P2 ++ P3).length = (P1 ++ P2).length + P3.length := by
    simp only [List.length_append]
  rw [e3, ← hP3] at h3
  have h2 := batch_loop_transactions nc dec Txs ⟨Nonce, Timeout, [], none, 0⟩ dAtA
    (P1 ++ P2) (P4 ++ P5) _ _ htxs (by rw [← hd, hP3]; simp) hl (by simpa using h3)
  rw [hP3] at h2
  have e2 : (P1 ++ P2).length = P1.length + P2.length := by
    simp only [List.length_append]
  rw [e2] at h2
  have h1 := batch_loop_piece dec ⟨Nonce, 0, [], none, 0⟩ ⟨Nonce, Timeout, [], none, 0⟩ P2 dAtA
    P1 (P3 ++ P4 ++ P5) (by rw [← hd]; simp) (by
      by_cases hz : Timeout = 0
      · left
        exact ⟨by rw [← hP2, hz]; rfl, by rw [hz]⟩
      · right
        have hP2' : P2 = 0x10 :: specVarint Timeout := by
          rw [← hP2]
          unfold specVarintField
          rw [if_neg hz]
        refine ⟨by rw [hP2']; simp, ?_⟩
        rw [hP2']
        exact batch_field_timeout dec _ Timeout htimeout dAtA _ (P3 ++ P4 ++ P5)
          (by rw [← hd, hP2']; simp)) _ _ h2
  have h0 := batch_loop_piece dec OutgoingTxBatch.zero ⟨Nonce, 0, [], none, 0⟩ P1 dAtA
    [] (P2 ++ P3 ++ P4 ++ P5) (by rw [← hd]; simp) (by
      by_cases hz : Nonce = 0
      · left
        exact ⟨by rw [← hP1, hz]; rfl, by rw [hz]; rfl⟩
      · right
        have hP1' : P1 = 0x08 :: specVarint Nonce := by
          rw [← hP1]
          unfold specVarintField
          rw [if_neg hz]
        refine ⟨by rw [hP1']; simp, ?_⟩
        rw [hP1']
        exact batch_field_nonce dec _ Nonce hnonce dAtA [] (P2 ++ P3 ++ P4 ++ P5)
          (by rw [← hd, hP1']; simp)) _ _ (by simpa using h1)
  have hfuel : dAtA.length + 1 = 1 + P5.length + P4.length + P3.length + P2.length + P1.length := by
    omega
  rw [hfuel]
  simpa using h0

/-! ## Round trip on the wire -/

/-- C26: wire round trip of a transfer entry. For every `OutgoingTransferTx` `m`
(its `Id` a `uint64`, its size that of a Go slice) on whose nested messages the
codecs of `EthAddress` and `ERC20Token` round-trip, `Marshal(m)` succeeds and
`Unmarshal` of those bytes into an empty `OutgoingTransferTx` succeeds and yields
`m`: the same `Id`, `Sender`, `DestAddress`, `Erc20Token` and `Erc20Fee`. -/
theorem transfer_wire_round_trip (nc : NestedCodec) (dec : NestedDecoder)
    (m : OutgoingTransferTx) (hid : m.Id < 2 ^ 64)
    (hsize : OutgoingTransferTx.Size nc (some m) < 2 ^ 63)
    (hnested : OutgoingTransferTx.NestedRoundTrip nc dec m) :
    ∃ bytes, OutgoingTransferTx.Marshal nc (some m) = .ok bytes ∧
      ∃ r, OutgoingTransferTx.Unmarshal dec OutgoingTransferTx.zero bytes = .ok r ∧
        r.Id = m.Id ∧ r.Sender = m.Sender ∧ r.DestAddress = m.DestAddress ∧
        r.Erc20Token = m.Erc20Token ∧ r.Erc20Fee = m.Erc20Fee := by
  rw [transfer_size_eq] at hsize
  exact ⟨_, transfer_marshal_eq nc m, m, transfer_unmarshal_encode nc dec m hid hsize hnested,
    rfl, rfl, rfl, rfl, rfl⟩

/-- The round trip of a transfer with every field present. -/
theorem transfer_wire_round_trip_witness :
    sampleNestedTransfer.Id < 2 ^ 64 ∧
      OutgoingTransferTx.Size sampleCodec (some sampleNestedTransfer) < 2 ^ 63 ∧
      OutgoingTransferTx.NestedRoundTrip sampleCodec sampleDecoder sampleNestedTransfer ∧
      ∃ bytes, OutgoingTransferTx.Marshal sampleCodec (some sampleNestedTransfer) = .ok bytes ∧
        ∃ r, OutgoingTransferTx.Unmarshal sampleDecoder OutgoingTransferTx.zero bytes = .ok r ∧
          r.Id = sampleNestedTransfer.Id ∧ r.Sender = sampleNestedTransfer.Sender ∧
          r.DestAddress = sampleNestedTransfer.DestAddress ∧
          r.Erc20Token = sampleNestedTransfer.Erc20Token ∧
          r.Erc20Fee = sampleNestedTransfer.Erc20Fee :=
  have hn : OutgoingTransferTx.NestedRoundTrip sampleCodec sampleDecoder sampleNestedTransfer :=
    ⟨fun a h => by cases h; rfl, fun t h => by cases h; rfl, fun t h => by cases h; rfl⟩
  ⟨by decide, by decide, hn,
    transfer_wire_round_trip sampleCodec sampleDecoder sampleNestedTransfer (by decide)
      (by decide) hn⟩

/-- C27: wire round trip of a batch preserves order. For every `OutgoingTxBatch`
`m` with no nil transaction (its numbers `uint64`, its size that of a Go slice) on
whose nested messages the codecs of `EthAddress` and `ERC20Token` round-trip,
`Unmarshal` of `Marshal(m)` into an empty `OutgoingTxBatch` yields the same
`BatchNonce`, `BatchTimeout`, `TokenContract` and `Block` and the same
`Transactions` list, with the same length and the same order. -/
theorem batch_wire_round_trip (nc : NestedCodec) (dec : NestedDecoder) (m : OutgoingTxBatch)
    (hnonce : m.BatchNonce < 2 ^ 64) (htimeout : m.BatchTimeout < 2 ^ 64)
    (hblock : m.Block < 2 ^ 64) (hsize : OutgoingTxBatch.Size nc m < 2 ^ 63)
    (htxs : ∀ e ∈ m.Transactions, ∃ tx, e = some tx ∧ tx.Id < 2 ^ 64 ∧
      OutgoingTransferTx.NestedRoundTrip nc dec tx)
    (hcontract : ∀ a, m.TokenContract = some a →
      dec.ethAddress EthAddress.zero (nc.ethAddress a) = .ok a) :
    ∃ bytes, OutgoingTxBatch.Marshal nc m = .ok bytes ∧
      ∃ r, OutgoingTxBatch.Unmarshal dec OutgoingTxBatch.zero bytes = .ok r ∧
        r.BatchNonce = m.BatchNonce ∧ r.BatchTimeout = m.BatchTimeout ∧
        r.TokenContract = m.TokenContract ∧ r.Block = m.Block ∧
        r.Transactions = m.Transactions ∧ r.Transactions.length = m.Transactions.length ∧
        ∀ i : Nat, r.Transactions[i]? = m.Transactions[i]? := by
  have hsome : ∀ e ∈ m.Transactions, e ≠ none := by
    intro e he
    obtain ⟨tx, rfl, _⟩ := htxs e he
    simp
  rw [batch_size_eq nc m hsome] at hsize
  exact ⟨_, batch_marshal_eq nc m hsome, m,
    batch_unmarshal_encode nc dec m hnonce htimeout hblock hsize htxs hcontract,
    rfl, rfl, rfl, rfl, rfl, rfl, fun _ => rfl⟩

/-- The round trip of a batch of two transactions. -/
theorem batch_wire_round_trip_witness :
    ∃ bytes, OutgoingTxBatch.Marshal sampleCodec sampleNestedBatch = .ok bytes ∧
      ∃ r, OutgoingTxBatch.Unmarshal sampleDecoder OutgoingTxBatch.zero bytes = .ok r ∧
        r.BatchNonce = 1 ∧ r.BatchTimeout = 300 ∧
        r.TokenContract = some sampleContract ∧ r.Block = 5 ∧
        r.Transactions = [some sampleNestedTransfer, some sampleTransfer] ∧
        r.Transactions.length = 2 ∧
        ∀ i : Nat, r.Transactions[i]? = [some sampleNestedTransfer, some sampleTransfer][i]? :=
  batch_wire_round_trip sampleCodec sampleDecoder sampleNestedBatch (by decide) (by decide)
    (by decide) (by decide)
    (fun e he => by
      have h2 : e = some sampleNestedTransfer ∨ e = some sampleTransfer := by
        simpa [sampleNestedBatch] using he
      have hn1 : OutgoingTransferTx.NestedRoundTrip sampleCodec sampleDecoder
          sampleNestedTransfer :=
        ⟨fun a h => by cases h; rfl, fun t h => by cases h; rfl, fun t h => by cases h; rfl⟩
      have hn2 : OutgoingTransferTx.NestedRoundTrip sampleCodec sampleDecoder sampleTransfer :=
        ⟨fun a h => (by cases h), fun t h => (by cases h), fun t h => (by cases h)⟩
      rcases h2 with rfl | rfl
      · exact ⟨_, rfl, by decide, hn1⟩
      · exact ⟨_, rfl, by decide, hn2⟩)
    (fun a h => by cases h; rfl)

/-! ## Decoding is total -/

/-- C28: decoding is total and never reads out of bounds. For every byte slice
(a Go slice, so shorter than `2^63`) and nested decoders that return,
`OutgoingTxBatch.Unmarshal`, `OutgoingTransferTx.Unmarshal` (on every receiver)
and `skipBatch` return within the bound of their loops, with a value or with an
error, and never panic: every index into the input lies within the input. A
truncated input gives `ErrUnexpectedEOF`, a varint of more than 10 bytes
`ErrIntOverflowBatch`, a negative length `ErrInvalidLengthBatch`, and a wrong
wire type or tag its own error. -/
theorem decoding_total (dec : NestedDecoder) (hdec : dec.Total) (dAtA : List UInt8)
    (hlen : dAtA.length < 2 ^ 63) :
    (∀ m, Returns (OutgoingTxBatch.Unmarshal dec m dAtA)) ∧
      (∀ m, Returns (OutgoingTransferTx.Unmarshal dec m dAtA)) ∧
      Returns (skipBatch dAtA) ∧
      OutgoingTransferTx.Unmarshal dec .zero [0x08] = .error (.err .ErrUnexpectedEOF) ∧
      OutgoingTransferTx.Unmarshal dec .zero
          [0x08, 0x80, 0x80, 0x80, 0x80, 0x80, 0x80, 0x80, 0x80, 0x80, 0x80, 0x01] =
        .error (.err .ErrIntOverflowBatch) ∧
      OutgoingTransferTx.Unmarshal dec .zero
          [0x12, 0xff, 0xff, 0xff, 0xff, 0xff, 0xff, 0xff, 0xff, 0xff, 0x01] =
        .error (.err .ErrInvalidLengthBatch) ∧
      OutgoingTransferTx.Unmarshal dec .zero [0x09] = .error (.err (.wrongWireType 1 "Id")) ∧
      OutgoingTxBatch.Unmarshal dec .zero [0x00] =
        .error (.err (.illegalTag "OutgoingTxBatch" 0 0)) ∧
      skipBatch [0x0f] = .error (.err (.illegalWireType 7)) :=
  ⟨fun m => batch_unmarshal_returns dec hdec m dAtA hlen,
    fun m => transfer_unmarshal_returns dec hdec m dAtA hlen,
    returnsWith_returns (skipBatch_returns dAtA hlen), rfl, rfl, rfl, rfl, rfl, rfl⟩

/-- The decoders return on a slice that ends inside a field. -/
theorem decoding_total_witness :
    sampleDecoder.Total ∧ ([0x08, 0x02, 0x1a, 0x05, 0x08] : List UInt8).length < 2 ^ 63 ∧
      (∀ m, Returns (OutgoingTxBatch.Unmarshal sampleDecoder m [0x08, 0x02, 0x1a, 0x05, 0x08])) ∧
      (∀ m,
        Returns (OutgoingTransferTx.Unmarshal sampleDecoder m [0x08, 0x02, 0x1a, 0x05, 0x08])) ∧
      Returns (skipBatch [0x08, 0x02, 0x1a, 0x05, 0x08]) :=
  have hdec : sampleDecoder.Total := ⟨fun _ _ => Or.inl ⟨_, rfl⟩, fun _ _ => Or.inl ⟨_, rfl⟩⟩
  have h := decoding_total sampleDecoder hdec [0x08, 0x02, 0x1a, 0x05, 0x08] (by decide)
  ⟨hdec, by decide, h.1, h.2.1, h.2.2.1⟩

/-! ## Size and encoder -/

/-- C29: `Size` agrees with the encoder. For every `OutgoingTransferTx`, and for
every `OutgoingTxBatch` without a nil transaction, `Marshal` returns no error
and a byte string whose length is exactly `Size()`: the encoder, which fills the
buffer of that size backwards, never writes outside it. -/
theorem marshal_length_eq_size (nc : NestedCodec) :
    (∀ m : OutgoingTransferTx, ∃ bytes,
        OutgoingTransferTx.Marshal nc (some m) = .ok bytes ∧
          bytes.length = OutgoingTransferTx.Size nc (some m)) ∧
      (∀ m : OutgoingTxBatch, (∀ e ∈ m.Transactions, e ≠ none) → ∃ bytes,
        OutgoingTxBatch.Marshal nc m = .ok bytes ∧
          bytes.length = OutgoingTxBatch.Size nc m) :=
  ⟨fun m => ⟨_, transfer_marshal_eq nc m, (transfer_size_eq nc m).symm⟩,
    fun m h => ⟨_, batch_marshal_eq nc m h, (batch_size_eq nc m h).symm⟩⟩

/-! ## The length checks -/

/-- C30: the explicit length checks are redundant with the regular expression.
Every string that matches `^0x[0-9a-fA-F]{40}$` has length exactly 42, so
`EthAddress.ValidateBasic` never returns its wrong-length error and
`GravityDenomToERC20` never returns its `len(denom) != GravityDenomLen` error, and
no address shorter or longer than 42 characters is accepted. -/
theorem length_checks_redundant :
    (∀ s : GoString, MatchString ethAddressRegexp s = true → s.length = 42) ∧
      (∀ (ea : EthAddress) (a : GoString) (n e : Nat),
        ea.ValidateBasic ≠ some (.wrongLength a n e)) ∧
      (∀ (d : GoString) (n e : Nat), (GravityDenomToERC20 d).2 ≠ some (.denomLen n e)) ∧
      (∀ ea : EthAddress, ea.Address.length ≠ 42 → ea.ValidateBasic ≠ none) := by
  refine ⟨?_, ?_, ?_, ?_⟩
  · intro s h
    exact ((matchString_ethAddressRegexp s).mp h).length_eq
  · intro ea a n e h
    unfold EthAddress.ValidateBasic at h
    by_cases h1 : ea.Address = []
    · rw [if_pos h1] at h
      cases h
    · rw [if_neg h1] at h
      cases hm : MatchString ethAddressRegexp ea.Address with
      | false =>
        rw [hm] at h
        simp at h
      | true =>
        have hl := ((matchString_ethAddressRegexp _).mp hm).length_eq
        rw [hm] at h
        simp [hl, ETHContractAddressLen] at h
  · intro d n e h
    by_cases hp : ∃ t, d = ascii "gravity" ++ t
    · obtain ⟨t, rfl⟩ := hp
      rw [gravityDenomToERC20_append] at h
      cases hv : (EthAddress.mk t).ValidateBasic with
      | some err => simp [hv] at h
      | none => simp [hv] at h
    · rw [gravityDenomToERC20_unprefixed d hp] at h
      simp at h
  · intro ea hl hv
    exact hl ((validateBasic_eq_none_iff ea).mp hv).length_eq

/-! ## Pruning twice -/

theorem set_state_nil (entries : List TransferEntry) (state : EntryState) :
    set_state entries [] state = entries := by
  unfold set_state
  simp

/-- Closing no batch changes nothing. -/
theorem refund_batches_of_none (s : PoolState) (closing : Batch → Bool) (final : BatchState)
    (h : ∀ b ∈ s.batches, (decide (b.state = .Open) && closing b) = false) :
    refund_batches s closing final = s := by
  have hf : (s.batches.filter fun b => decide (b.state = .Open) && closing b) = [] := by
    rw [List.filter_eq_nil_iff]
    intro b hb
    rw [h b hb]
    simp
  have hm : (s.batches.map fun b =>
      if decide (b.state = .Open) && closing b then { b with state := final } else b) =
      s.batches := by
    have : ∀ b ∈ s.batches,
        (if (decide (b.state = .Open) && closing b) = true then { b with state := final } else b)
          = id b := by
      intro b hb
      rw [h b hb]
      rfl
    rw [List.map_congr_left this, List.map_id]
  unfold refund_batches
  simp only [hf, hm, List.flatMap_nil, set_state_nil, List.not_mem_nil, decide_False,
    List.filter_false, List.foldl_nil]

theorem refund_batches_closed (s : PoolState) (closing : Batch → Bool) (final : BatchState)
    (hfinal : final ≠ .Open) :
    ∀ b ∈ (refund_batches s closing final).batches,
      (decide (b.state = .Open) && closing b) = false := by
  intro b hb
  unfold refund_batches at hb
  simp only [List.mem_map] at hb
  obtain ⟨b0, _, rfl⟩ := hb
  by_cases h0 : (decide (b0.state = .Open) && closing b0) = true
  · rw [if_pos h0]
    simp [hfinal]
  · rw [if_neg h0]
    simpa using h0

/-! ## Basic facts on the indices -/

theorem eq_of_pairwise_ne {α β : Type} (f : α → β) :
    ∀ {l : List α}, (l.Pairwise fun a b => f a ≠ f b) → ∀ {x y : α}, x ∈ l → y ∈ l →
      f x = f y → x = y := by
  intro l
  induction l with
  | nil => intro _ x y hx; cases hx
  | cons a l ih =>
    intro h x y hx hy hf
    rw [List.pairwise_cons] at h
    rcases List.mem_cons.mp hx with hxa | hx1
    · rcases List.mem_cons.mp hy with hya | hy1
      · rw [hxa, hya]
      · rw [hxa] at hf
        exact absurd hf (h.1 y hy1)
    · rcases List.mem_cons.mp hy with hya | hy1
      · rw [hya] at hf
        exact absurd hf.symm (h.1 x hx1)
      · exact ih h.2 hx1 hy1 hf

theorem entry_id_inj {s : PoolState} (hs : s.Consistent) {e1 e2 : TransferEntry}
    (h1 : e1 ∈ s.entries) (h2 : e2 ∈ s.entries) (hid : e1.id = e2.id) : e1 = e2 :=
  eq_of_pairwise_ne (fun e : TransferEntry => e.id) hs.2.2.2.1 h1 h2 hid

theorem entry_key_inj {e1 e2 : TransferEntry} (h1 : e1.id < 2 ^ 64) (h2 : e2.id < 2 ^ 64)
    (h : entry_key e1 = entry_key e2) : e1.id = e2.id := by
  unfold entry_key at h
  have := congrArg fee_key_id h
  rwa [fee_key_id_eq _ _ _ h1, fee_key_id_eq _ _ _ h2] at this

theorem entry_id_lt {s : PoolState} (hs : s.Consistent) {e : TransferEntry}
    (he : e ∈ s.entries) : e.id < 2 ^ 64 :=
  Nat.lt_trans (hs.2.2.2.2.1 e he).1 hs.2.2.2.2.2

theorem mem_set_state {entries : List TransferEntry} {ids : List Nat} {state : EntryState}
    {e1 : TransferEntry} :
    e1 ∈ set_state entries ids state ↔
      ∃ e ∈ entries, (if e.id ∈ ids then { e with state := state } else e) = e1 := by
  unfold set_state
  exact List.mem_map

theorem mem_index_delete {keys index : List (List UInt8)} {k : List UInt8} :
    k ∈ index_delete keys index ↔ k ∈ index ∧ k ∉ keys := by
  unfold index_delete
  simp [List.mem_filter]

theorem index_delete_sorted {keys index : List (List UInt8)}
    (h : index.Pairwise fun a b => bytesCompare a b = -1) :
    (index_delete keys index).Pairwise fun a b => bytesCompare a b = -1 :=
  List.Pairwise.filter _ h

theorem mem_foldl_insert (members : List TransferEntry) :
    ∀ (index : List (List UInt8)) (k : List UInt8),
    k ∈ members.foldl (fun index e => index_insert (entry_key e) index) index ↔
      k ∈ index ∨ ∃ e ∈ members, k = entry_key e := by
  induction members with
  | nil => intro index k; simp
  | cons m rest ih =>
    intro index k
    rw [List.foldl_cons, ih, mem_index_insert]
    constructor
    · rintro ((h | h) | ⟨e, he, h⟩)
      · exact Or.inr ⟨m, List.mem_cons_self _ _, h⟩
      · exact Or.inl h
      · exact Or.inr ⟨e, List.mem_cons_of_mem _ he, h⟩
    · rintro (h | ⟨e, he, h⟩)
      · exact Or.inl (Or.inr h)
      · rcases List.mem_cons.mp he with rfl | he
        · exact Or.inl (Or.inl h)
        · exact Or.inr ⟨e, he, h⟩

theorem foldl_insert_sorted (members : List TransferEntry) :
    ∀ (index : List (List UInt8)), (index.Pairwise fun a b => bytesCompare a b = -1) →
    (members.foldl (fun index e => index_insert (entry_key e) index) index).Pairwise
      fun a b => bytesCompare a b = -1 := by
  induction members with
  | nil => intro index h; exact h
  | cons m rest ih =>
    intro index h
    rw [List.foldl_cons]
    exact ih _ (index_insert_sorted _ _ h)

/-! ## Sums of what the escrow holds -/

/-- The sum over the entries of a contract, entry by entry. -/
theorem sum_totals_eq (entries : List TransferEntry) (c : ContractID)
    (p : TransferEntry → Prop) [DecidablePred p] :
    sum_totals entries c p =
      (entries.map fun e =>
        if e.amount.contract = c ∧ p e then (entry_total e).amount else 0).sum := by
  unfold sum_totals
  induction entries with
  | nil => rfl
  | cons e rest ih =>
    by_cases h : e.amount.contract = c ∧ p e
    · rw [List.filter_cons_of_pos (by simpa using h), List.map_cons, List.sum_cons, ih,
        List.map_cons, List.sum_cons, if_pos h]
    · rw [List.filter_cons_of_neg (by simpa using h), ih, List.map_cons, List.sum_cons,
        if_neg h, Nat.zero_add]

theorem sum_totals_congr (entries : List TransferEntry) (c : ContractID)
    (p q : TransferEntry → Prop) [DecidablePred p] [DecidablePred q]
    (h : ∀ e ∈ entries, e.amount.contract = c → (p e ↔ q e)) :
    sum_totals entries c p = sum_totals entries c q := by
  rw [sum_totals_eq, sum_totals_eq]
  congr 1
  apply List.map_congr_left
  intro e he
  by_cases hc : e.amount.contract = c
  · by_cases hp : p e
    · rw [if_pos ⟨hc, hp⟩, if_pos ⟨hc, (h e he hc).mp hp⟩]
    · rw [if_neg (fun x => hp x.2), if_neg (fun x => hp ((h e he hc).mpr x.2))]
  · rw [if_neg (fun x => hc x.1), if_neg (fun x => hc x.1)]

/-- A disjoint split of a sum. -/
theorem sum_totals_split (entries : List TransferEntry) (c : ContractID)
    (p q : TransferEntry → Prop) [DecidablePred p] [DecidablePred q]
    (h : ∀ e ∈ entries, ¬ (p e ∧ q e)) :
    sum_totals entries c (fun e => p e ∨ q e) = sum_totals entries c p + sum_totals entries c q := by
  rw [sum_totals_eq, sum_totals_eq, sum_totals_eq]
  induction entries with
  | nil => rfl
  | cons e rest ih =>
    have ih1 := ih fun x hx => h x (List.mem_cons_of_mem _ hx)
    have he := h e (List.mem_cons_self _ _)
    simp only [List.map_cons, List.sum_cons]
    rw [ih1]
    by_cases hc : e.amount.contract = c
    · by_cases hp : p e
      · have hq : ¬ q e := fun hq => he ⟨hp, hq⟩
        rw [if_pos ⟨hc, Or.inl hp⟩, if_pos ⟨hc, hp⟩, if_neg (fun x => hq x.2)]
        omega
      · by_cases hq : q e
        · rw [if_pos ⟨hc, Or.inr hq⟩, if_neg (fun x => hp x.2), if_pos ⟨hc, hq⟩]
          omega
        · rw [if_neg (fun x => x.2.elim hp hq), if_neg (fun x => hp x.2),
            if_neg (fun x => hq x.2)]
          omega
    · rw [if_neg (fun x => hc x.1), if_neg (fun x => hc x.1), if_neg (fun x => hc x.1)]
      omega

theorem sum_totals_set_state (entries : List TransferEntry) (ids : List Nat)
    (state : EntryState) (c : ContractID) :
    sum_totals (set_state entries ids state) c (fun _ => True) =
      sum_totals entries c fun _ => True := by
  rw [sum_totals_eq, sum_totals_eq]
  unfold set_state
  rw [List.map_map]
  congr 1
  apply List.map_congr_left
  intro e _
  show (if _ then _ else _) = _
  by_cases h : e.id ∈ ids
  · simp only [Function.comp, if_pos h]
    rfl
  · simp only [Function.comp, if_neg h]

theorem sum_totals_append (l1 l2 : List TransferEntry) (c : ContractID)
    (p : TransferEntry → Prop) [DecidablePred p] :
    sum_totals (l1 ++ l2) c p = sum_totals l1 c p + sum_totals l2 c p := by
  rw [sum_totals_eq, sum_totals_eq, sum_totals_eq, List.map_append, List.sum_append]

/-- The sum over the entries that a filter keeps and the sum over those that it
drops. -/
theorem sum_totals_filter (entries : List TransferEntry) (c : ContractID)
    (keep : TransferEntry → Bool) :
    sum_totals (entries.filter keep) c (fun _ => True) +
      sum_totals (entries.filter fun e => !keep e) c (fun _ => True) =
      sum_totals entries c fun _ => True := by
  rw [sum_totals_eq, sum_totals_eq, sum_totals_eq]
  induction entries with
  | nil => rfl
  | cons e rest ih =>
    cases hk : keep e
    · rw [List.filter_cons_of_neg (by simp [hk]), List.filter_cons_of_pos (by simp [hk])]
      simp only [List.map_cons, List.sum_cons]
      omega
    · rw [List.filter_cons_of_pos (by simp [hk]), List.filter_cons_of_neg (by simp [hk])]
      simp only [List.map_cons, List.sum_cons]
      omega

/-! ## The invariants: the fresh store, `add_transfer` and `cancel_transfer` -/

theorem sound_fresh (bank : Bank) (hbank : ∀ c, bank.locked c = 0) :
    (PoolState.fresh bank).Sound := by
  refine ⟨consistent_fresh bank, ?_, ?_, ?_, ?_, ?_, ?_, ?_⟩
  · intro e he
    cases he
  · intro b hb
    cases hb
  · exact List.Pairwise.nil
  · intro b hb
    cases hb
  · exact List.Pairwise.nil
  · intro b hb
    cases hb
  · intro c
    exact hbank c

/-- What a successful `add_transfer` leaves as it was, and what it locks. -/
theorem add_transfer_rest {s s1 : PoolState} {sender : GoString} {destination : ContractID}
    {amount fee : TokenAmount} {id : Nat}
    (h : add_transfer s sender destination amount fee = .ok (id, s1)) :
    s1.batches = s.batches ∧ s1.next_batch_nonce = s.next_batch_nonce ∧
      ∀ c, s1.bank.locked c =
        if c = amount.contract then s.bank.locked c + (amount.amount + fee.amount)
        else s.bank.locked c := by
  unfold add_transfer at h
  by_cases hc : amount.contract ≠ fee.contract
  · rw [if_pos hc] at h
    cases h
  · rw [if_neg hc] at h
    unfold TokenAmount.add at h
    rw [if_neg hc] at h
    by_cases ho : 2 ^ 256 - 1 < amount.amount + fee.amount
    · rw [if_pos ho] at h
      cases h
    · rw [if_neg ho] at h
      unfold lock at h
      simp only at h
      split_ifs at h
      simp only [Except.ok.injEq, Prod.mk.injEq] at h
      obtain ⟨rfl, rfl⟩ := h
      exact ⟨rfl, rfl, fun c => rfl⟩

theorem sum_totals_singleton (e : TransferEntry) (c : ContractID) :
    sum_totals [e] c (fun _ => True) =
      if e.amount.contract = c then e.amount.amount + e.fee.amount else 0 := by
  rw [sum_totals_eq]
  by_cases h : e.amount.contract = c
  · simp [h, entry_total]
  · simp [h]

theorem sound_add_transfer {s s1 : PoolState} {sender : GoString}
    {destination : ContractID} {amount fee : TokenAmount} {id : Nat} (hs : s.Sound)
    (hn : s.next_tx_id + 1 < 2 ^ 64)
    (h : add_transfer s sender destination amount fee = .ok (id, s1)) : s1.Sound := by
  obtain ⟨hc, hJ1, hJ2, hN, hNle, hOne, hNE, hLock⟩ := hs
  have hc1 := consistent_add_transfer hc hn h
  have hent := entries_add_transfer hc h
  obtain ⟨hb, hnb, hl⟩ := add_transfer_rest h
  refine ⟨hc1, ?_, ?_, ?_, ?_, ?_, ?_, ?_⟩
  · intro e he n hst
    rw [hent] at he
    rw [hb]
    rcases List.mem_append.mp he with he | he
    · exact hJ1 e he n hst
    · rw [List.mem_singleton] at he
      subst he
      cases hst
  · intro b hbm hopen i hi
    rw [hb] at hbm
    obtain ⟨e, he, h1, h2, h3⟩ := hJ2 b hbm hopen i hi
    exact ⟨e, by rw [hent]; exact List.mem_append_left _ he, h1, h2, h3⟩
  · rw [hb]
    exact hN
  · rw [hb, hnb]
    exact hNle
  · rw [hb]
    exact hOne
  · rw [hb]
    exact hNE
  · intro c
    rw [hl c, hent, sum_totals_append, sum_totals_singleton, hLock c]
    by_cases hcc : c = amount.contract
    · rw [if_pos hcc, if_pos hcc.symm]
    · rw [if_neg hcc, if_neg (fun x => hcc x.symm)]
      rfl

/-- What a successful `cancel_transfer` does. -/
theorem cancel_transfer_ok {s s1 : PoolState} {id : Nat} {sender : GoString}
    (h : cancel_transfer s id sender = .ok s1) :
    ∃ e, primary_get s.entries id = some e ∧ e.sender = sender ∧ e.state = .Unbatched ∧
      e.amount.amount + e.fee.amount ≤ s.bank.locked e.amount.contract ∧
      s1.entries = primary_delete s.entries id ∧
      s1.fee_index = index_delete [entry_key e] s.fee_index ∧
      s1.batches = s.batches ∧ s1.next_tx_id = s.next_tx_id ∧
      s1.next_batch_nonce = s.next_batch_nonce ∧
      (∀ c, s1.bank.locked c =
        if c = e.amount.contract then s.bank.locked c - (e.amount.amount + e.fee.amount)
        else s.bank.locked c) ∧
      (∀ a c, s1.bank.balance a c =
        if a = sender ∧ c = e.amount.contract then
          s.bank.balance a c + (e.amount.amount + e.fee.amount)
        else s.bank.balance a c) := by
  unfold cancel_transfer at h
  cases hg : primary_get s.entries id with
  | none =>
    rw [hg] at h
    cases h
  | some e =>
    rw [hg] at h
    dsimp only at h
    by_cases hsn : e.sender ≠ sender
    · rw [if_pos hsn] at h
      cases h
    · rw [if_neg hsn] at h
      by_cases hst : e.state ≠ .Unbatched
      · rw [if_pos hst] at h
        cases h
      · rw [if_neg hst] at h
        unfold release at h
        by_cases hl : s.bank.locked (entry_total e).contract < (entry_total e).amount
        · rw [if_pos hl] at h
          cases h
        · rw [if_neg hl] at h
          simp only [Except.ok.injEq] at h
          subst h
          refine ⟨e, rfl, not_not.mp hsn, not_not.mp hst, ?_, rfl, rfl, rfl, rfl, rfl,
            fun c => rfl, fun a c => rfl⟩
          exact Nat.le_of_not_lt hl

theorem mem_primary_delete {entries : List TransferEntry} {id : Nat} {e : TransferEntry} :
    e ∈ primary_delete entries id ↔ e ∈ entries ∧ e.id ≠ id := by
  unfold primary_delete
  simp [List.mem_filter]

theorem filter_id_eq {entries : List TransferEntry}
    (hd : entries.Pairwise fun a b => a.id ≠ b.id) {e : TransferEntry} (he : e ∈ entries) :
    (entries.filter fun x => !(x.id != e.id)) = [e] := by
  induction entries with
  | nil => cases he
  | cons a l ih =>
    rw [List.pairwise_cons] at hd
    rcases List.mem_cons.mp he with hea | hel
    · subst hea
      rw [List.filter_cons_of_pos (by simp)]
      congr 1
      rw [List.filter_eq_nil_iff]
      intro x hx
      have := hd.1 x hx
      simp
      exact fun hxe => this hxe.symm
    · have hne : a.id ≠ e.id := hd.1 e hel
      rw [List.filter_cons_of_neg (by simpa using hne)]
      exact ih hd.2 hel

theorem sum_totals_primary_delete {entries : List TransferEntry}
    (hd : entries.Pairwise fun a b => a.id ≠ b.id) {e : TransferEntry} (he : e ∈ entries)
    (c : ContractID) :
    sum_totals (primary_delete entries e.id) c (fun _ => True) +
      (if e.amount.contract = c then e.amount.amount + e.fee.amount else 0) =
      sum_totals entries c fun _ => True := by
  have h := sum_totals_filter entries c fun x => x.id != e.id
  rw [filter_id_eq hd he, sum_totals_singleton] at h
  exact h

theorem sound_cancel_transfer {s s1 : PoolState} {id : Nat} {sender : GoString} (hs : s.Sound)
    (h : cancel_transfer s id sender = .ok s1) : s1.Sound := by
  obtain ⟨hc, hJ1, hJ2, hN, hNle, hOne, hNE, hLock⟩ := hs
  obtain ⟨e, hg, -, hst, hle, hent, hidx, hb, hnt, hnb, hl, -⟩ := cancel_transfer_ok h
  obtain ⟨hem, hid⟩ := primary_get_some hg
  subst hid
  have hc0 := hc
  obtain ⟨hsorted, hrows, hunb, hids, hbounds, hnext⟩ := hc
  have hcons : s1.Consistent := by
    unfold PoolState.Consistent
    rw [hent, hidx, hnt]
    refine ⟨index_delete_sorted hsorted, ?_, ?_, ?_, ?_, hnext⟩
    · intro k hk
      obtain ⟨hk1, hk2⟩ := mem_index_delete.mp hk
      obtain ⟨e1, he1, hs1, hk1e⟩ := hrows k hk1
      refine ⟨e1, mem_primary_delete.mpr ⟨he1, ?_⟩, hs1, hk1e⟩
      intro hid
      have : e1 = e := entry_id_inj hc0 he1 hem hid
      subst this
      exact hk2 (by rw [hk1e]; exact List.mem_singleton.mpr rfl)
    · intro e1 he1 hs1
      obtain ⟨he1m, hne⟩ := mem_primary_delete.mp he1
      refine mem_index_delete.mpr ⟨hunb e1 he1m hs1, ?_⟩
      intro hk
      rw [List.mem_singleton] at hk
      exact hne (entry_key_inj (entry_id_lt hc0 he1m) (entry_id_lt hc0 hem) hk)
    · exact List.Pairwise.filter _ hids
    · intro e1 he1
      exact hbounds e1 (mem_primary_delete.mp he1).1
  refine ⟨hcons, ?_, ?_, ?_, ?_, ?_, ?_, ?_⟩
  · intro e1 he1 n hn
    rw [hent] at he1
    rw [hb]
    exact hJ1 e1 (mem_primary_delete.mp he1).1 n hn
  · intro b hbm hopen i hi
    rw [hb] at hbm
    obtain ⟨e1, he1, h1, h2, h3⟩ := hJ2 b hbm hopen i hi
    refine ⟨e1, ?_, h1, h2, h3⟩
    rw [hent]
    refine mem_primary_delete.mpr ⟨he1, ?_⟩
    intro hid
    have : e1 = e := entry_id_inj hc0 he1 hem hid
    subst this
    rw [hst] at h2
    cases h2
  · rw [hb]
    exact hN
  · rw [hb, hnb]
    exact hNle
  · rw [hb]
    exact hOne
  · rw [hb]
    exact hNE
  · intro c
    have hsum := sum_totals_primary_delete hids hem c
    have hLe := hLock e.amount.contract
    rw [hl c, hent, hLock c]
    by_cases hcc : c = e.amount.contract
    · rw [if_pos hcc]
      rw [if_pos hcc.symm] at hsum
      subst hcc
      omega
    · rw [if_neg hcc]
      rw [if_neg (fun x => hcc x.symm)] at hsum
      omega

/-! ## The invariants: `build_batch` -/

theorem has_open_batch_false {s : PoolState} {c : ContractID}
    (h : has_open_batch s c = false) :
    ∀ b ∈ s.batches, ¬ (b.token_contract = c ∧ b.state = .Open) := by
  unfold has_open_batch at h
  rw [List.any_eq_false] at h
  intro b hb
  simpa using h b hb

theorem has_open_batch_true {s : PoolState} {c : ContractID} {b : Batch} (hb : b ∈ s.batches)
    (hc : b.token_contract = c) (ho : b.state = .Open) : has_open_batch s c = true := by
  unfold has_open_batch
  rw [List.any_eq_true]
  exact ⟨b, hb, by simp [hc, ho]⟩

/-- What a successful `build_batch` does. -/
theorem build_batch_ok {s s1 : PoolState} {c : ContractID} {n t blk : Nat} {b : Batch}
    (h : build_batch s c n t blk = .ok (b, s1)) :
    has_open_batch s c = false ∧
      (iterate_unbatched_by_contract s c).take n ≠ [] ∧
      b = { batch_nonce := (s.next_batch_nonce + 1) % 2 ^ 64, token_contract := c,
            transactions := ((iterate_unbatched_by_contract s c).take n).map fun e => e.id,
            timeout := t, created_block := blk, state := .Open } ∧
      s1.entries = set_state s.entries
        (((iterate_unbatched_by_contract s c).take n).map fun e => e.id)
        (.InBatch ((s.next_batch_nonce + 1) % 2 ^ 64)) ∧
      s1.fee_index =
        index_delete (((iterate_unbatched_by_contract s c).take n).map entry_key) s.fee_index ∧
      s1.batches = s.batches ++ [b] ∧
      s1.next_batch_nonce = (s.next_batch_nonce + 1) % 2 ^ 64 ∧
      s1.next_tx_id = s.next_tx_id ∧ s1.bank = s.bank := by
  unfold build_batch at h
  cases ho : has_open_batch s c with
  | true =>
    rw [ho] at h
    simp at h
  | false =>
    rw [ho] at h
    simp only [Bool.false_eq_true, if_false] at h
    by_cases hsel : (iterate_unbatched_by_contract s c).take n = []
    · rw [if_pos hsel] at h
      cases h
    · rw [if_neg hsel] at h
      simp only [Except.ok.injEq, Prod.mk.injEq] at h
      obtain ⟨rfl, rfl⟩ := h
      exact ⟨rfl, hsel, rfl, rfl, rfl, rfl, rfl, rfl, rfl⟩

theorem mem_selected {s : PoolState} (hc : s.Consistent) {c : ContractID} {n : Nat}
    {e : TransferEntry} (he : e ∈ (iterate_unbatched_by_contract s c).take n) :
    e ∈ s.entries ∧ e.state = .Unbatched ∧ e.amount.contract = c := by
  have h1 := (mem_iterate_iff hc c e).mp (List.mem_of_mem_take he)
  unfold unbatched_of at h1
  rw [List.mem_filter] at h1
  obtain ⟨h2, h3⟩ := h1
  have h4 : e.state = .Unbatched ∧ e.amount.contract = c := by simpa using h3
  exact ⟨h2, h4.1, h4.2⟩

theorem set_state_id (e : TransferEntry) (ids : List Nat) (state : EntryState) :
    (if e.id ∈ ids then { e with state := state } else e).id = e.id := by
  split <;> rfl

theorem set_state_amount (e : TransferEntry) (ids : List Nat) (state : EntryState) :
    (if e.id ∈ ids then { e with state := state } else e).amount = e.amount := by
  split <;> rfl

theorem set_state_fee (e : TransferEntry) (ids : List Nat) (state : EntryState) :
    (if e.id ∈ ids then { e with state := state } else e).fee = e.fee := by
  split <;> rfl

theorem set_state_key (e : TransferEntry) (ids : List Nat) (state : EntryState) :
    entry_key (if e.id ∈ ids then { e with state := state } else e) = entry_key e := by
  split <;> rfl

theorem set_state_pairwise {entries : List TransferEntry}
    (h : entries.Pairwise fun a b => a.id ≠ b.id) (ids : List Nat) (state : EntryState) :
    (set_state entries ids state).Pairwise fun a b => a.id ≠ b.id := by
  unfold set_state
  rw [List.pairwise_map]
  refine h.imp ?_
  intro a b hab
  rw [set_state_id, set_state_id]
  exact hab

theorem set_state_bounds {entries : List TransferEntry} {next : Nat}
    (h : ∀ e ∈ entries,
      e.id < next ∧ e.fee.amount < 2 ^ 256 ∧ e.amount.contract = e.fee.contract)
    (ids : List Nat) (state : EntryState) :
    ∀ e ∈ set_state entries ids state,
      e.id < next ∧ e.fee.amount < 2 ^ 256 ∧ e.amount.contract = e.fee.contract := by
  intro e1 he1
  obtain ⟨e, he, rfl⟩ := mem_set_state.mp he1
  rw [set_state_id, set_state_amount, set_state_fee]
  exact h e he

theorem sound_build_batch {s s1 : PoolState} {c : ContractID} {n t blk : Nat} {b : Batch}
    (hs : s.Sound) (hn : s.next_batch_nonce + 1 < 2 ^ 64)
    (h : build_batch s c n t blk = .ok (b, s1)) : s1.Sound := by
  obtain ⟨hc, hJ1, hJ2, hN, hNle, hOne, hNE, hLock⟩ := hs
  obtain ⟨hopen, hne, hb, hent, hidx, hbat, hnb, hnt, hbank⟩ := build_batch_ok h
  have hmod : (s.next_batch_nonce + 1) % 2 ^ 64 = s.next_batch_nonce + 1 := Nat.mod_eq_of_lt hn
  rw [hmod] at hb hent hnb
  generalize hselected : (iterate_unbatched_by_contract s c).take n = selected at *
  have hsel : ∀ e ∈ selected, e ∈ s.entries ∧ e.state = .Unbatched ∧ e.amount.contract = c := by
    intro e he
    rw [← hselected] at he
    exact mem_selected hc he
  have hidsel : ∀ e ∈ s.entries, e.id ∈ selected.map (fun e => e.id) → e ∈ selected := by
    intro e he hid
    obtain ⟨e2, he2, hid2⟩ := List.mem_map.mp hid
    have : e2 = e := entry_id_inj hc (hsel e2 he2).1 he hid2
    rw [← this]
    exact he2
  have hbn : b.batch_nonce = s.next_batch_nonce + 1 := by rw [hb]
  have hbo : b.state = .Open := by rw [hb]
  have hbc : b.token_contract = c := by rw [hb]
  have hbt : b.transactions = selected.map fun e => e.id := by rw [hb]
  have hc0 := hc
  obtain ⟨hsorted, hrows, hunb, hids, hbounds, hnext⟩ := hc
  have hcons : s1.Consistent := by
    unfold PoolState.Consistent
    rw [hent, hidx, hnt]
    refine ⟨index_delete_sorted hsorted, ?_, ?_, set_state_pairwise hids _ _,
      set_state_bounds hbounds _ _, hnext⟩
    · intro k hk
      obtain ⟨hk1, hk2⟩ := mem_index_delete.mp hk
      obtain ⟨e, he, hst, hke⟩ := hrows k hk1
      have hnot : e.id ∉ selected.map (fun e => e.id) := by
        intro hid
        exact hk2 (List.mem_map.mpr ⟨e, hidsel e he hid, hke.symm⟩)
      exact ⟨e, mem_set_state.mpr ⟨e, he, if_neg hnot⟩, hst, hke⟩
    · intro e1 he1 hst1
      obtain ⟨e, he, hf⟩ := mem_set_state.mp he1
      by_cases hid : e.id ∈ selected.map (fun e => e.id)
      · rw [if_pos hid] at hf
        rw [← hf] at hst1
        cases hst1
      · rw [if_neg hid] at hf
        subst hf
        refine mem_index_delete.mpr ⟨hunb e he hst1, ?_⟩
        intro hk
        obtain ⟨e2, he2, hk2⟩ := List.mem_map.mp hk
        have hid2 : e2.id = e.id :=
          entry_key_inj (entry_id_lt hc0 (hsel e2 he2).1) (entry_id_lt hc0 he) hk2
        exact hid (List.mem_map.mpr ⟨e2, he2, hid2⟩)
  refine ⟨hcons, ?_, ?_, ?_, ?_, ?_, ?_, ?_⟩
  · intro e1 he1 m hm
    rw [hent] at he1
    obtain ⟨e, he, hf⟩ := mem_set_state.mp he1
    rw [hbat]
    by_cases hid : e.id ∈ selected.map (fun e => e.id)
    · rw [if_pos hid] at hf
      subst hf
      simp only [EntryState.InBatch.injEq] at hm
      refine ⟨b, List.mem_append_right _ (List.mem_singleton.mpr rfl), by rw [hbn, hm], hbo, ?_,
        ?_⟩
      · rw [hbt]
        exact hid
      · rw [hbc]
        exact (hsel e (hidsel e he hid)).2.2.symm
    · rw [if_neg hid] at hf
      subst hf
      obtain ⟨b0, hb0, h1, h2, h3, h4⟩ := hJ1 e he m hm
      exact ⟨b0, List.mem_append_left _ hb0, h1, h2, h3, h4⟩
  · intro b1 hb1 hopen1 i hi
    rw [hbat] at hb1
    rw [hent]
    rcases List.mem_append.mp hb1 with hb1 | hb1
    · obtain ⟨e, he, h1, h2, h3⟩ := hJ2 b1 hb1 hopen1 i hi
      have hnot : e.id ∉ selected.map (fun e => e.id) := by
        intro hid
        have := (hsel e (hidsel e he hid)).2.1
        rw [this] at h2
        cases h2
      exact ⟨e, mem_set_state.mpr ⟨e, he, if_neg hnot⟩, h1, h2, h3⟩
    · rw [List.mem_singleton] at hb1
      subst hb1
      rw [hbt] at hi
      obtain ⟨e, he, hid⟩ := List.mem_map.mp hi
      have hin : e.id ∈ selected.map (fun e => e.id) := List.mem_map.mpr ⟨e, he, rfl⟩
      refine ⟨_, mem_set_state.mpr ⟨e, (hsel e he).1, if_pos hin⟩, hid, by rw [hbn], ?_⟩
      rw [hbc]
      exact (hsel e he).2.2
  · rw [hbat, List.pairwise_append]
    refine ⟨hN, List.pairwise_singleton _ _, ?_⟩
    intro a ha x hx
    rw [List.mem_singleton] at hx
    subst hx
    have := hNle a ha
    omega
  · intro b1 hb1
    rw [hbat] at hb1
    rw [hnb]
    rcases List.mem_append.mp hb1 with hb1 | hb1
    · have := hNle b1 hb1
      omega
    · rw [List.mem_singleton] at hb1
      subst hb1
      omega
  · rw [hbat, List.pairwise_append]
    refine ⟨hOne, List.pairwise_singleton _ _, ?_⟩
    intro a ha x hx
    rw [List.mem_singleton] at hx
    subst hx
    intro hcontra
    exact has_open_batch_false hopen a ha ⟨by rw [hcontra.2.2, hbc], hcontra.1⟩
  · intro b1 hb1 hopen1
    rw [hbat] at hb1
    rcases List.mem_append.mp hb1 with hb1 | hb1
    · exact hNE b1 hb1 hopen1
    · rw [List.mem_singleton] at hb1
      subst hb1
      rw [hbt]
      intro hnil
      exact hne (List.map_eq_nil_iff.mp hnil)
  · intro c1
    rw [hbank, hent, sum_totals_set_state]
    exact hLock c1

/-! ## The invariants: `cancel` and `prune_expired` -/

theorem mem_closing_ids {s : PoolState} {closing : Batch → Bool} {i : Nat} :
    i ∈ ((s.batches.filter fun b => decide (b.state = .Open) && closing b).flatMap
        fun b => b.transactions) ↔
      ∃ b ∈ s.batches, b.state = .Open ∧ closing b = true ∧ i ∈ b.transactions := by
  rw [List.mem_flatMap]
  constructor
  · rintro ⟨b, hb, hi⟩
    rw [List.mem_filter] at hb
    have h2 : b.state = .Open ∧ closing b = true := by simpa using hb.2
    exact ⟨b, hb.1, h2.1, h2.2, hi⟩
  · rintro ⟨b, hb, ho, hcl, hi⟩
    exact ⟨b, List.mem_filter.mpr ⟨hb, by simp [ho, hcl]⟩, hi⟩

theorem close_nonce (b : Batch) (closing : Batch → Bool) (final : BatchState) :
    (if (decide (b.state = .Open) && closing b) = true then { b with state := final }
      else b).batch_nonce = b.batch_nonce := by
  split <;> rfl

theorem close_contract (b : Batch) (closing : Batch → Bool) (final : BatchState) :
    (if (decide (b.state = .Open) && closing b) = true then { b with state := final }
      else b).token_contract = b.token_contract := by
  split <;> rfl

theorem close_open {b : Batch} {closing : Batch → Bool} {final : BatchState}
    (hfinal : final ≠ .Open)
    (h : (if (decide (b.state = .Open) && closing b) = true then { b with state := final }
      else b).state = .Open) :
    (if (decide (b.state = .Open) && closing b) = true then { b with state := final }
      else b) = b ∧ b.state = .Open ∧ closing b = false := by
  by_cases hcl : (decide (b.state = .Open) && closing b) = true
  · rw [if_pos hcl] at h
    exact absurd h hfinal
  · rw [if_neg hcl] at h ⊢
    refine ⟨rfl, h, ?_⟩
    simpa [h] using hcl

/-- The entry with an id that a batch which is being closed lists is in that
batch. -/
theorem closing_entry_state {s : PoolState} (hs : s.Sound) {closing : Batch → Bool}
    {e : TransferEntry} (he : e ∈ s.entries)
    (hid : e.id ∈ ((s.batches.filter fun b => decide (b.state = .Open) && closing b).flatMap
        fun b => b.transactions)) :
    ∃ b ∈ s.batches, b.state = .Open ∧ closing b = true ∧ e.id ∈ b.transactions ∧
      e.state = .InBatch b.batch_nonce ∧ e.amount.contract = b.token_contract := by
  obtain ⟨b, hb, ho, hcl, hi⟩ := mem_closing_ids.mp hid
  obtain ⟨e2, he2, hid2, hst2, hc2⟩ := hs.2.2.1 b hb ho e.id hi
  have : e2 = e := entry_id_inj hs.1 he2 he hid2
  subst this
  exact ⟨b, hb, ho, hcl, hi, hst2, hc2⟩

theorem sound_refund_batches {s : PoolState} (hs : s.Sound) (closing : Batch → Bool)
    (final : BatchState) (hfinal : final ≠ .Open) : (refund_batches s closing final).Sound := by
  have hs0 := hs
  obtain ⟨hc, hJ1, hJ2, hN, hNle, hOne, hNE, hLock⟩ := hs
  have hc0 := hc
  obtain ⟨hsorted, hrows, hunb, hids, hbounds, hnext⟩ := hc
  unfold refund_batches
  generalize hI : ((s.batches.filter fun b => decide (b.state = .Open) && closing b).flatMap
    fun b => b.transactions) = ids
  have hcons : PoolState.Consistent
      { s with
        entries := set_state s.entries ids .Unbatched
        fee_index := (s.entries.filter fun e => e.id ∈ ids).foldl
          (fun index e => index_insert (entry_key e) index) s.fee_index
        batches := s.batches.map fun b =>
          if decide (b.state = .Open) && closing b then { b with state := final } else b } := by
    unfold PoolState.Consistent
    refine ⟨foldl_insert_sorted _ _ hsorted, ?_, ?_, set_state_pairwise hids _ _,
      set_state_bounds hbounds _ _, hnext⟩
    · intro k hk
      rcases (mem_foldl_insert _ _ _).mp hk with hk | ⟨m, hm, hk⟩
      · obtain ⟨e, he, hst, hke⟩ := hrows k hk
        refine ⟨_, mem_set_state.mpr ⟨e, he, rfl⟩, ?_, ?_⟩
        · by_cases hid : e.id ∈ ids
          · rw [if_pos hid]
          · rw [if_neg hid]
            exact hst
        · rw [hke]
          exact (set_state_key e ids .Unbatched).symm
      · rw [List.mem_filter] at hm
        have hid : m.id ∈ ids := by simpa using hm.2
        refine ⟨_, mem_set_state.mpr ⟨m, hm.1, rfl⟩, ?_, ?_⟩
        · rw [if_pos hid]
        · rw [hk]
          exact (set_state_key m ids .Unbatched).symm
    · intro e1 he1 hst1
      obtain ⟨e, he, hf⟩ := mem_set_state.mp he1
      have hkey : entry_key e1 = entry_key e := by
        rw [← hf]
        exact set_state_key e ids .Unbatched
      show entry_key e1 ∈ _
      rw [hkey]
      by_cases hid : e.id ∈ ids
      · exact (mem_foldl_insert _ _ _).mpr
          (Or.inr ⟨e, List.mem_filter.mpr ⟨he, by simpa using hid⟩, rfl⟩)
      · rw [if_neg hid] at hf
        subst hf
        exact (mem_foldl_insert _ _ _).mpr (Or.inl (hunb e he hst1))
  refine ⟨hcons, ?_, ?_, ?_, ?_, ?_, ?_, ?_⟩
  · intro e1 he1 m hm
    obtain ⟨e, he, hf⟩ := mem_set_state.mp he1
    by_cases hid : e.id ∈ ids
    · rw [if_pos hid] at hf
      subst hf
      cases hm
    · rw [if_neg hid] at hf
      subst hf
      obtain ⟨b0, hb0, h1, h2, h3, h4⟩ := hJ1 e he m hm
      have hcl : ¬ (decide (b0.state = .Open) && closing b0) = true := by
        intro hcl
        apply hid
        rw [← hI]
        exact mem_closing_ids.mpr ⟨b0, hb0, h2, by simpa [h2] using hcl, h3⟩
      refine ⟨b0, List.mem_map.mpr ⟨b0, hb0, if_neg hcl⟩, h1, h2, h3, h4⟩
  · intro b1 hb1 hopen1 i hi
    obtain ⟨b0, hb0, hg⟩ := List.mem_map.mp hb1
    rw [← hg] at hopen1
    obtain ⟨hgb, ho0, hcl0⟩ := close_open hfinal hopen1
    rw [hgb] at hg
    subst hg
    obtain ⟨e, he, h1, h2, h3⟩ := hJ2 b0 hb0 ho0 i hi
    have hnot : e.id ∉ ids := by
      intro hid
      rw [← hI] at hid
      obtain ⟨b2, hb2, ho2, hcl2, -, hst2, -⟩ := closing_entry_state hs0 he hid
      rw [h2] at hst2
      simp only [EntryState.InBatch.injEq] at hst2
      have : b0 = b2 := eq_of_pairwise_ne (fun b : Batch => b.batch_nonce) hN hb0 hb2 hst2
      rw [this, hcl2] at hcl0
      cases hcl0
    exact ⟨e, mem_set_state.mpr ⟨e, he, if_neg hnot⟩, h1, h2, h3⟩
  · show (List.map _ _).Pairwise _
    rw [List.pairwise_map]
    refine hN.imp ?_
    intro a b hab
    rw [close_nonce, close_nonce]
    exact hab
  · intro b1 hb1
    obtain ⟨b0, hb0, hg⟩ := List.mem_map.mp hb1
    rw [← hg, close_nonce]
    exact hNle b0 hb0
  · show (List.map _ _).Pairwise _
    rw [List.pairwise_map]
    refine hOne.imp ?_
    intro a b hab hcontra
    obtain ⟨h1, h2, h3⟩ := hcontra
    rw [close_contract, close_contract] at h3
    exact hab ⟨(close_open hfinal h1).2.1, (close_open hfinal h2).2.1, h3⟩
  · intro b1 hb1 hopen1
    obtain ⟨b0, hb0, hg⟩ := List.mem_map.mp hb1
    rw [← hg] at hopen1
    obtain ⟨hgb, ho0, -⟩ := close_open hfinal hopen1
    rw [hgb] at hg
    subst hg
    exact hNE b0 hb0 ho0
  · intro c1
    show s.bank.locked c1 = sum_totals (set_state s.entries ids .Unbatched) c1 fun _ => True
    rw [sum_totals_set_state]
    exact hLock c1

theorem find_nonce {batches : List Batch} {nonce : Nat} {b : Batch}
    (h : (batches.find? fun b => b.batch_nonce == nonce) = some b) :
    b ∈ batches ∧ b.batch_nonce = nonce := by
  refine ⟨List.mem_of_find?_eq_some h, ?_⟩
  have := List.find?_some h
  simpa using this

/-- What a successful `cancel` does. -/
theorem cancel_ok {s s1 : PoolState} {nonce : Nat} (h : cancel s nonce = .ok s1) :
    (∃ b ∈ s.batches, b.batch_nonce = nonce ∧ b.state = .Open) ∧
      s1 = refund_batches s (fun x => x.batch_nonce == nonce) .Cancelled := by
  unfold cancel at h
  cases hf : (s.batches.find? fun b => b.batch_nonce == nonce) with
  | none =>
    rw [hf] at h
    cases h
  | some b =>
    rw [hf] at h
    dsimp only at h
    by_cases ho : b.state ≠ .Open
    · rw [if_pos ho] at h
      cases h
    · rw [if_neg ho] at h
      simp only [Except.ok.injEq] at h
      obtain ⟨hb, hn⟩ := find_nonce hf
      exact ⟨⟨b, hb, hn, not_not.mp ho⟩, h.symm⟩

/-- The first batch with a nonce, when nonces are unique, is the batch with that
nonce. -/
theorem find_nonce_of_mem {batches : List Batch}
    (hN : batches.Pairwise fun a b => a.batch_nonce ≠ b.batch_nonce) {b : Batch}
    (hb : b ∈ batches) :
    (batches.find? fun x => x.batch_nonce == b.batch_nonce) = some b := by
  cases hf : (batches.find? fun x => x.batch_nonce == b.batch_nonce) with
  | none =>
    rw [List.find?_eq_none] at hf
    have := hf b hb
    simp at this
  | some b2 =>
    obtain ⟨hb2, hn2⟩ := find_nonce hf
    rw [eq_of_pairwise_ne (fun b : Batch => b.batch_nonce) hN hb2 hb hn2]

/-- A batch that is Open can be cancelled. -/
theorem cancel_of_open {s : PoolState} (hs : s.Sound) {b : Batch} (hb : b ∈ s.batches)
    (ho : b.state = .Open) :
    cancel s b.batch_nonce =
      .ok (refund_batches s (fun x => x.batch_nonce == b.batch_nonce) .Cancelled) := by
  unfold cancel
  rw [find_nonce_of_mem hs.2.2.2.1 hb]
  dsimp only
  rw [if_neg (by simp [ho])]

theorem sound_cancel {s s1 : PoolState} {nonce : Nat} (hs : s.Sound)
    (h : cancel s nonce = .ok s1) : s1.Sound := by
  rw [(cancel_ok h).2]
  exact sound_refund_batches hs _ _ (by decide)

theorem sound_prune_expired {s : PoolState} (hs : s.Sound) (height : Nat) :
    (prune_expired s height).Sound :=
  sound_refund_batches hs _ _ (by decide)

/-! ## The invariants: `observe_execution` -/

/-- What `burn_all` takes from the holding account. -/
theorem burn_all_locked : ∀ (l : List TransferEntry) (bank bank1 : Bank),
    burn_all bank l = .ok bank1 →
    ∀ c, bank1.locked c + sum_totals l c (fun _ => True) = bank.locked c := by
  intro l
  induction l with
  | nil =>
    intro bank bank1 h c
    unfold burn_all at h
    cases h
    rfl
  | cons e rest ih =>
    intro bank bank1 h c
    unfold burn_all at h
    unfold burn at h
    by_cases hl : bank.locked (entry_total e).contract < (entry_total e).amount
    · rw [if_pos hl] at h
      cases h
    · rw [if_neg hl] at h
      dsimp only at h
      have h1 := ih _ bank1 h c
      have happ : sum_totals (e :: rest) c (fun _ => True) =
          sum_totals [e] c (fun _ => True) + sum_totals rest c (fun _ => True) :=
        sum_totals_append [e] rest c _
      rw [happ, sum_totals_singleton]
      dsimp only at h1
      by_cases hc : c = (entry_total e).contract
      · rw [if_pos hc] at h1
        have hc2 : e.amount.contract = c := hc.symm
        rw [if_pos hc2]
        have hle : (entry_total e).amount ≤ bank.locked c := by
          rw [hc]
          exact Nat.le_of_not_lt hl
        have hamt : (entry_total e).amount = e.amount.amount + e.fee.amount := rfl
        omega
      · rw [if_neg hc] at h1
        have hc2 : ¬ e.amount.contract = c := fun x => hc x.symm
        rw [if_neg hc2]
        omega

/-- What a successful `observe_execution` does. -/
theorem observe_execution_ok {s s1 : PoolState} {nonce : Nat}
    (h : observe_execution s nonce = .ok s1) :
    ∃ b, b ∈ s.batches ∧ b.batch_nonce = nonce ∧ b.state = .Open ∧
      burn_all s.bank (s.entries.filter fun e => e.id ∈ b.transactions) = .ok s1.bank ∧
      s1.entries = (s.entries.filter fun e => e.id ∉ b.transactions) ∧
      s1.fee_index = s.fee_index ∧
      s1.batches = (s.batches.map fun x =>
        if x.batch_nonce = nonce then { x with state := .Executed } else x) ∧
      s1.next_tx_id = s.next_tx_id ∧ s1.next_batch_nonce = s.next_batch_nonce := by
  unfold observe_execution at h
  cases hf : (s.batches.find? fun b => b.batch_nonce == nonce) with
  | none =>
    rw [hf] at h
    cases h
  | some b =>
    rw [hf] at h
    dsimp only at h
    obtain ⟨hb, hn⟩ := find_nonce hf
    by_cases ho : b.state ≠ .Open
    · rw [if_pos ho] at h
      cases h
    · rw [if_neg ho] at h
      split_ifs at h
      cases hburn : burn_all s.bank (s.entries.filter fun e => e.id ∈ b.transactions) with
      | error err =>
        rw [hburn] at h
        cases h
      | ok bank =>
        rw [hburn] at h
        simp only [Except.ok.injEq] at h
        subst h
        exact ⟨b, hb, hn, not_not.mp ho, hburn, rfl, rfl, rfl, rfl, rfl⟩

theorem execute_nonce (x : Batch) (nonce : Nat) :
    (if x.batch_nonce = nonce then { x with state := .Executed } else x).batch_nonce =
      x.batch_nonce := by
  split <;> rfl

theorem execute_contract (x : Batch) (nonce : Nat) :
    (if x.batch_nonce = nonce then { x with state := .Executed } else x).token_contract =
      x.token_contract := by
  split <;> rfl

theorem execute_open {x : Batch} {nonce : Nat}
    (h : (if x.batch_nonce = nonce then { x with state := .Executed } else x).state = .Open) :
    (if x.batch_nonce = nonce then { x with state := .Executed } else x) = x ∧
      x.state = .Open ∧ x.batch_nonce ≠ nonce := by
  by_cases hn : x.batch_nonce = nonce
  · rw [if_pos hn] at h
    cases h
  · rw [if_neg hn] at h ⊢
    exact ⟨rfl, h, hn⟩

theorem sound_observe_execution {s s1 : PoolState} {nonce : Nat} (hs : s.Sound)
    (h : observe_execution s nonce = .ok s1) : s1.Sound := by
  obtain ⟨hc, hJ1, hJ2, hN, hNle, hOne, hNE, hLock⟩ := hs
  obtain ⟨b, hb, hbn, hbo, hburn, hent, hidx, hbat, hnt, hnb⟩ := observe_execution_ok h
  have hc0 := hc
  obtain ⟨hsorted, hrows, hunb, hids, hbounds, hnext⟩ := hc
  have hmem : ∀ e, e ∈ s1.entries ↔ e ∈ s.entries ∧ e.id ∉ b.transactions := by
    intro e
    rw [hent, List.mem_filter]
    simp
  have hin : ∀ e ∈ s.entries, e.id ∈ b.transactions → e.state = .InBatch b.batch_nonce := by
    intro e he hid
    obtain ⟨e2, he2, hid2, hst2, -⟩ := hJ2 b hb hbo e.id hid
    rw [← entry_id_inj hc0 he2 he hid2]
    exact hst2
  have hcons : s1.Consistent := by
    unfold PoolState.Consistent
    rw [hidx, hnt]
    refine ⟨hsorted, ?_, ?_, ?_, ?_, hnext⟩
    · intro k hk
      obtain ⟨e, he, hst, hke⟩ := hrows k hk
      refine ⟨e, (hmem e).mpr ⟨he, ?_⟩, hst, hke⟩
      intro hid
      have := hin e he hid
      rw [hst] at this
      cases this
    · intro e he hst
      exact hunb e ((hmem e).mp he).1 hst
    · rw [hent]
      exact List.Pairwise.filter _ hids
    · intro e he
      exact hbounds e ((hmem e).mp he).1
  refine ⟨hcons, ?_, ?_, ?_, ?_, ?_, ?_, ?_⟩
  · intro e he m hm
    obtain ⟨he0, hnot⟩ := (hmem e).mp he
    obtain ⟨b0, hb0, h1, h2, h3, h4⟩ := hJ1 e he0 m hm
    have hne : b0.batch_nonce ≠ nonce := by
      intro heq
      have : b0 = b := eq_of_pairwise_ne (fun b : Batch => b.batch_nonce) hN hb0 hb
        (heq.trans hbn.symm)
      rw [this] at h3
      exact hnot h3
    rw [hbat]
    exact ⟨b0, List.mem_map.mpr ⟨b0, hb0, if_neg hne⟩, h1, h2, h3, h4⟩
  · intro b1 hb1 hopen1 i hi
    rw [hbat] at hb1
    obtain ⟨b0, hb0, hg⟩ := List.mem_map.mp hb1
    rw [← hg] at hopen1
    obtain ⟨hgb, ho0, hn0⟩ := execute_open hopen1
    rw [hgb] at hg
    subst hg
    obtain ⟨e, he, h1, h2, h3⟩ := hJ2 b0 hb0 ho0 i hi
    refine ⟨e, (hmem e).mpr ⟨he, ?_⟩, h1, h2, h3⟩
    intro hid
    have := hin e he hid
    rw [h2] at this
    simp only [EntryState.InBatch.injEq] at this
    exact hn0 (this.trans hbn)
  · rw [hbat, List.pairwise_map]
    refine hN.imp ?_
    intro a x hax
    rw [execute_nonce, execute_nonce]
    exact hax
  · intro b1 hb1
    rw [hbat] at hb1
    obtain ⟨b0, hb0, hg⟩ := List.mem_map.mp hb1
    rw [← hg, execute_nonce, hnb]
    exact hNle b0 hb0
  · rw [hbat, List.pairwise_map]
    refine hOne.imp ?_
    intro a x hax hcontra
    obtain ⟨h1, h2, h3⟩ := hcontra
    rw [execute_contract, execute_contract] at h3
    exact hax ⟨(execute_open h1).2.1, (execute_open h2).2.1, h3⟩
  · intro b1 hb1 hopen1
    rw [hbat] at hb1
    obtain ⟨b0, hb0, hg⟩ := List.mem_map.mp hb1
    rw [← hg] at hopen1
    obtain ⟨hgb, ho0, -⟩ := execute_open hopen1
    rw [hgb] at hg
    subst hg
    exact hNE b0 hb0 ho0
  · intro c
    have h1 := burn_all_locked _ _ _ hburn c
    have h2 := sum_totals_filter s.entries c fun e => decide (e.id ∉ b.transactions)
    have h3 : (s.entries.filter fun e => !decide (e.id ∉ b.transactions)) =
        s.entries.filter fun e => e.id ∈ b.transactions := by
      apply List.filter_congr
      intro e _
      simp
    rw [h3] at h2
    rw [hent]
    have h4 := hLock c
    omega

/-! ## The invariants in every reachable state -/

theorem apply_op_add_ok {s s1 : PoolState} {sender : GoString} {destination : ContractID}
    {amount fee : TokenAmount} {id : Nat}
    (h : add_transfer s sender destination amount fee = .ok (id, s1)) :
    apply_op s (.add_transfer sender destination amount fee) = s1 := by
  simp only [apply_op, h]

theorem apply_op_add_error {s : PoolState} {sender : GoString} {destination : ContractID}
    {amount fee : TokenAmount} {e : PoolErr}
    (h : add_transfer s sender destination amount fee = .error e) :
    apply_op s (.add_transfer sender destination amount fee) = s := by
  simp only [apply_op, h]

theorem apply_op_cancel_transfer_ok {s s1 : PoolState} {id : Nat} {sender : GoString}
    (h : cancel_transfer s id sender = .ok s1) :
    apply_op s (.cancel_transfer id sender) = s1 := by
  simp only [apply_op, h]

theorem apply_op_cancel_transfer_error {s : PoolState} {id : Nat} {sender : GoString}
    {e : PoolErr} (h : cancel_transfer s id sender = .error e) :
    apply_op s (.cancel_transfer id sender) = s := by
  simp only [apply_op, h]

theorem apply_op_build_ok {s s1 : PoolState} {c : ContractID} {n t blk : Nat} {b : Batch}
    (h : build_batch s c n t blk = .ok (b, s1)) :
    apply_op s (.build_batch c n t blk) = s1 := by
  simp only [apply_op, h]

theorem apply_op_build_error {s : PoolState} {c : ContractID} {n t blk : Nat} {e : PoolErr}
    (h : build_batch s c n t blk = .error e) :
    apply_op s (.build_batch c n t blk) = s := by
  simp only [apply_op, h]

theorem apply_op_cancel_ok {s s1 : PoolState} {nonce : Nat} (h : cancel s nonce = .ok s1) :
    apply_op s (.cancel nonce) = s1 := by
  simp only [apply_op, h]

theorem apply_op_cancel_error {s : PoolState} {nonce : Nat} {e : PoolErr}
    (h : cancel s nonce = .error e) : apply_op s (.cancel nonce) = s := by
  simp only [apply_op, h]

theorem apply_op_observe_ok {s s1 : PoolState} {nonce : Nat}
    (h : observe_execution s nonce = .ok s1) : apply_op s (.observe_execution nonce) = s1 := by
  simp only [apply_op, h]

theorem apply_op_observe_error {s : PoolState} {nonce : Nat} {e : PoolErr}
    (h : observe_execution s nonce = .error e) :
    apply_op s (.observe_execution nonce) = s := by
  simp only [apply_op, h]

theorem sound_apply_op {s : PoolState} (hs : s.Sound) (h1 : s.next_tx_id + 1 < 2 ^ 64)
    (h2 : s.next_batch_nonce + 1 < 2 ^ 64) (op : PoolOp) : (apply_op s op).Sound := by
  cases op with
  | add_transfer sender destination amount fee =>
    cases h : add_transfer s sender destination amount fee with
    | error e =>
      rw [apply_op_add_error h]
      exact hs
    | ok r =>
      obtain ⟨id, s1⟩ := r
      rw [apply_op_add_ok h]
      exact sound_add_transfer hs h1 h
  | cancel_transfer id sender =>
    cases h : cancel_transfer s id sender with
    | error e =>
      rw [apply_op_cancel_transfer_error h]
      exact hs
    | ok s1 =>
      rw [apply_op_cancel_transfer_ok h]
      exact sound_cancel_transfer hs h
  | build_batch contract max_elements timeout created_block =>
    cases h : build_batch s contract max_elements timeout created_block with
    | error e =>
      rw [apply_op_build_error h]
      exact hs
    | ok r =>
      obtain ⟨b, s1⟩ := r
      rw [apply_op_build_ok h]
      exact sound_build_batch hs h2 h
  | cancel nonce =>
    cases h : cancel s nonce with
    | error e =>
      rw [apply_op_cancel_error h]
      exact hs
    | ok s1 =>
      rw [apply_op_cancel_ok h]
      exact sound_cancel hs h
  | prune_expired height => exact sound_prune_expired hs height
  | observe_execution nonce =>
    cases h : observe_execution s nonce with
    | error e =>
      rw [apply_op_observe_error h]
      exact hs
    | ok s1 =>
      rw [apply_op_observe_ok h]
      exact sound_observe_execution hs h

/-- A call moves each of the two counters by at most one. -/
theorem counters_apply_op (s : PoolState) (op : PoolOp) :
    (apply_op s op).next_tx_id ≤ s.next_tx_id + 1 ∧
      (apply_op s op).next_batch_nonce ≤ s.next_batch_nonce + 1 := by
  cases op with
  | add_transfer sender destination amount fee =>
    cases h : add_transfer s sender destination amount fee with
    | error e =>
      rw [apply_op_add_error h]
      exact ⟨Nat.le_succ _, Nat.le_succ _⟩
    | ok r =>
      obtain ⟨id, s1⟩ := r
      rw [apply_op_add_ok h]
      obtain ⟨-, -, -, -, -, hn⟩ := add_transfer_ok h
      obtain ⟨-, hb, -⟩ := add_transfer_rest h
      rw [hn, hb]
      exact ⟨Nat.mod_le _ _, Nat.le_succ _⟩
  | cancel_transfer id sender =>
    cases h : cancel_transfer s id sender with
    | error e =>
      rw [apply_op_cancel_transfer_error h]
      exact ⟨Nat.le_succ _, Nat.le_succ _⟩
    | ok s1 =>
      rw [apply_op_cancel_transfer_ok h]
      obtain ⟨e, -, -, -, -, -, -, -, hn, hb, -, -⟩ := cancel_transfer_ok h
      rw [hn, hb]
      exact ⟨Nat.le_succ _, Nat.le_succ _⟩
  | build_batch contract max_elements timeout created_block =>
    cases h : build_batch s contract max_elements timeout created_block with
    | error e =>
      rw [apply_op_build_error h]
      exact ⟨Nat.le_succ _, Nat.le_succ _⟩
    | ok r =>
      obtain ⟨b, s1⟩ := r
      rw [apply_op_build_ok h]
      obtain ⟨-, -, -, -, -, -, hb, hn, -⟩ := build_batch_ok h
      rw [hn, hb]
      exact ⟨Nat.le_succ _, Nat.mod_le _ _⟩
  | cancel nonce =>
    cases h : cancel s nonce with
    | error e =>
      rw [apply_op_cancel_error h]
      exact ⟨Nat.le_succ _, Nat.le_succ _⟩
    | ok s1 =>
      rw [apply_op_cancel_ok h, (cancel_ok h).2]
      exact ⟨Nat.le_succ _, Nat.le_succ _⟩
  | prune_expired height => exact ⟨Nat.le_succ _, Nat.le_succ _⟩
  | observe_execution nonce =>
    cases h : observe_execution s nonce with
    | error e =>
      rw [apply_op_observe_error h]
      exact ⟨Nat.le_succ _, Nat.le_succ _⟩
    | ok s1 =>
      rw [apply_op_observe_ok h]
      obtain ⟨b, -, -, -, -, -, -, -, hn, hb⟩ := observe_execution_ok h
      rw [hn, hb]
      exact ⟨Nat.le_succ _, Nat.le_succ _⟩

theorem sound_run_ops : ∀ (ops : List PoolOp) (s : PoolState), s.Sound →
    s.next_tx_id + ops.length < 2 ^ 64 → s.next_batch_nonce + ops.length < 2 ^ 64 →
    (run_ops s ops).Sound ∧ (run_ops s ops).next_tx_id ≤ s.next_tx_id + ops.length ∧
      (run_ops s ops).next_batch_nonce ≤ s.next_batch_nonce + ops.length := by
  intro ops
  induction ops with
  | nil =>
    intro s hs _ _
    exact ⟨hs, Nat.le_refl _, Nat.le_refl _⟩
  | cons op rest ih =>
    intro s hs h1 h2
    rw [List.length_cons] at h1 h2
    have hc := counters_apply_op s op
    have hs1 := sound_apply_op hs (by omega) (by omega) op
    obtain ⟨ha, hb, hd⟩ := ih (apply_op s op) hs1 (by omega) (by omega)
    have hrun : run_ops s (op :: rest) = run_ops (apply_op s op) rest := rfl
    rw [hrun, List.length_cons]
    exact ⟨ha, by omega, by omega⟩

/-- The invariants hold in every state that the six operations reach from an
empty store with an empty holding account. -/
theorem sound_reachable (bank : Bank) (hbank : ∀ c, bank.locked c = 0) (ops : List PoolOp)
    (hops : ops.length + 1 < 2 ^ 64) :
    (run_ops (PoolState.fresh bank) ops).Sound ∧
      (run_ops (PoolState.fresh bank) ops).next_batch_nonce ≤ ops.length := by
  have h := sound_run_ops ops (PoolState.fresh bank) (sound_fresh bank hbank)
    (by show 1 + ops.length < 2 ^ 64; omega) (by show 0 + ops.length < 2 ^ 64; omega)
  refine ⟨h.1, ?_⟩
  have := h.2.2
  have h0 : (PoolState.fresh bank).next_batch_nonce = 0 := rfl
  omega

/-- Conservation in a state that satisfies the invariants. -/
theorem locked_eq_specLocked {s : PoolState} (hs : s.Sound) (c : ContractID) :
    s.bank.locked c = specLocked s c := by
  obtain ⟨-, hJ1, -, -, -, -, -, hLock⟩ := hs
  unfold specLocked
  rw [hLock c, ← sum_totals_split]
  · apply sum_totals_congr
    intro e he _
    constructor
    · intro _
      cases hst : e.state with
      | Unbatched => exact Or.inl rfl
      | InBatch n =>
        obtain ⟨b, hb, hbn, hbo, -, -⟩ := hJ1 e he n hst
        exact Or.inr ⟨b, hb, hbo, by rw [hbn]; exact hst⟩
    · intro _
      trivial
  · intro e _ hboth
    obtain ⟨h1, b, -, -, h2⟩ := hboth
    rw [h1] at h2
    cases h2

/-! ## Open batches and refunds -/

theorem open_filter_length {batches : List Batch}
    (h : batches.Pairwise fun a b =>
      ¬ (a.state = .Open ∧ b.state = .Open ∧ a.token_contract = b.token_contract))
    (c : ContractID) :
    (batches.filter fun b => decide (b.token_contract = c ∧ b.state = .Open)).length ≤ 1 := by
  have hp := h.filter fun b => decide (b.token_contract = c ∧ b.state = .Open)
  have hm : ∀ x ∈ batches.filter (fun b => decide (b.token_contract = c ∧ b.state = .Open)),
      x.token_contract = c ∧ x.state = .Open := by
    intro x hx
    simpa using (List.mem_filter.mp hx).2
  generalize batches.filter (fun b => decide (b.token_contract = c ∧ b.state = .Open)) = l at hp hm
  match l, hp, hm with
  | [], _, _ => exact Nat.zero_le _
  | [_], _, _ => exact Nat.le_refl _
  | a :: b :: rest, hp, hm =>
    exfalso
    rw [List.pairwise_cons] at hp
    have ha := hm a (List.mem_cons_self _ _)
    have hb := hm b (List.mem_cons_of_mem _ (List.mem_cons_self _ _))
    exact hp.1 b (List.mem_cons_self _ _) ⟨ha.2, hb.2, ha.1.trans hb.1.symm⟩

/-- Two Open batches of one contract are one batch. -/
theorem open_batch_unique {s : PoolState} (hs : s.Sound) {a b : Batch} (ha : a ∈ s.batches)
    (hb : b ∈ s.batches) (hao : a.state = .Open) (hbo : b.state = .Open)
    (hc : a.token_contract = b.token_contract) : a = b := by
  by_contra hne
  have hsymm : Symmetric fun a b : Batch =>
      ¬ (a.state = .Open ∧ b.state = .Open ∧ a.token_contract = b.token_contract) := by
    intro x y hxy hyx
    exact hxy ⟨hyx.2.1, hyx.1, hyx.2.2.symm⟩
  exact List.Pairwise.forall hsymm hs.2.2.2.2.2.1 ha hb hne ⟨hao, hbo, hc⟩

/-- After the Open batch of a contract is closed the contract has no Open batch. -/
theorem refund_no_open {s : PoolState} (hs : s.Sound) (closing : Batch → Bool)
    (final : BatchState) (hfinal : final ≠ .Open) {b : Batch} (hb : b ∈ s.batches)
    (ho : b.state = .Open) (hcl : closing b = true) :
    has_open_batch (refund_batches s closing final) b.token_contract = false := by
  cases hh : has_open_batch (refund_batches s closing final) b.token_contract with
  | false => rfl
  | true =>
    exfalso
    unfold has_open_batch at hh
    rw [List.any_eq_true] at hh
    obtain ⟨b1, hb1, hp⟩ := hh
    have hp2 : b1.token_contract = b.token_contract ∧ b1.state = .Open := by simpa using hp
    unfold refund_batches at hb1
    obtain ⟨b0, hb0, hg⟩ := List.mem_map.mp hb1
    rw [← hg] at hp2
    obtain ⟨hgb, ho0, hcl0⟩ := close_open hfinal hp2.2
    rw [hgb] at hp2
    have : b0 = b := open_batch_unique hs hb0 hb ho0 ho hp2.1
    rw [this, hcl] at hcl0
    cases hcl0

/-- The entries of a batch that is closed are Unbatched again, with their ids. -/
theorem refund_entry {s : PoolState} (hs : s.Sound) (closing : Batch → Bool)
    (final : BatchState) {b : Batch} (hb : b ∈ s.batches) (ho : b.state = .Open)
    (hcl : closing b = true) {id : Nat} (hid : id ∈ b.transactions) :
    ∃ e ∈ s.entries, e.id = id ∧ e.state = .InBatch b.batch_nonce ∧
      e.amount.contract = b.token_contract ∧
      ({ e with state := .Unbatched } : TransferEntry) ∈
        (refund_batches s closing final).entries := by
  obtain ⟨e, he, h1, h2, h3⟩ := hs.2.2.1 b hb ho id hid
  refine ⟨e, he, h1, h2, h3, ?_⟩
  unfold refund_batches
  refine mem_set_state.mpr ⟨e, he, if_pos ?_⟩
  exact mem_closing_ids.mpr ⟨b, hb, ho, hcl, by rw [h1]; exact hid⟩

theorem filter_eq_length_one {l : List (List UInt8)} (hn : l.Nodup) {a : List UInt8}
    (ha : a ∈ l) : (l.filter fun k => decide (k = a)).length = 1 := by
  induction l with
  | nil => cases ha
  | cons x rest ih =>
    rw [List.nodup_cons] at hn
    by_cases hx : x = a
    · rw [List.filter_cons_of_pos (by simpa using hx)]
      have hnil : (rest.filter fun k => decide (k = a)) = [] := by
        rw [List.filter_eq_nil_iff]
        intro k hk hka
        have hka2 : k = a := by simpa using hka
        rw [hka2, ← hx] at hk
        exact hn.1 hk
      rw [hnil]
      rfl
    · rw [List.filter_cons_of_neg (by simpa using hx)]
      rcases List.mem_cons.mp ha with hax | har
      · exact absurd hax.symm hx
      · exact ih hn.2 har

/-- An Unbatched entry has exactly one row in the fee index. -/
theorem index_count_one {s : PoolState} (hc : s.Consistent) {e : TransferEntry}
    (he : e ∈ s.entries) (hst : e.state = .Unbatched) :
    (s.fee_index.filter fun k => decide (k = entry_key e)).length = 1 := by
  have hnodup : s.fee_index.Nodup := by
    refine hc.1.imp ?_
    intro a b hab heq
    rw [heq] at hab
    exact bytesCompare_self b hab
  exact filter_eq_length_one hnodup (hc.2.2.1 e he hst)

/-- The call `build_batch` succeeds when the contract has no Open batch and the
cursor is not empty. -/
theorem build_batch_of {s : PoolState} {c : ContractID} {n : Nat}
    (hopen : has_open_batch s c = false)
    (hsel : (iterate_unbatched_by_contract s c).take n ≠ []) (t blk : Nat) :
    ∃ b s1, build_batch s c n t blk = .ok (b, s1) ∧
      b.transactions = ((iterate_unbatched_by_contract s c).take n).map (fun e => e.id) ∧
      b.batch_nonce = (s.next_batch_nonce + 1) % 2 ^ 64 := by
  unfold build_batch
  rw [hopen]
  simp only [Bool.false_eq_true, if_false]
  rw [if_neg hsel]
  exact ⟨_, _, rfl, rfl, rfl⟩

theorem take_ne_nil {α : Type} {l : List α} {n : Nat} (hl : l ≠ []) (hn : 0 < n) :
    l.take n ≠ [] := by
  cases l with
  | nil => exact absurd rfl hl
  | cons a rest =>
    cases n with
    | zero => omega
    | succ n => simp

/-- After a batch that is Open is closed, a new batch can be built for its
contract. -/
theorem build_after_refund {s : PoolState} (hs : s.Sound) (closing : Batch → Bool)
    (final : BatchState) (hfinal : final ≠ .Open) {b : Batch} (hb : b ∈ s.batches)
    (ho : b.state = .Open) (hcl : closing b = true) (n t blk : Nat) (hn : 0 < n) :
    ∃ b2 s2, build_batch (refund_batches s closing final) b.token_contract n t blk =
      .ok (b2, s2) := by
  have hs1 := sound_refund_batches hs closing final hfinal
  obtain ⟨id, hid⟩ := List.exists_mem_of_ne_nil _ (hs.2.2.2.2.2.2.1 b hb ho)
  obtain ⟨e, he, -, -, hec, hmem⟩ := refund_entry hs closing final hb ho hcl hid
  have hin : ({ e with state := .Unbatched } : TransferEntry) ∈
      iterate_unbatched_by_contract (refund_batches s closing final) b.token_contract := by
    rw [mem_iterate_iff hs1.1]
    unfold unbatched_of
    rw [List.mem_filter]
    exact ⟨hmem, by simp [hec]⟩
  obtain ⟨b2, s2, h, -, -⟩ := build_batch_of (refund_no_open hs closing final hfinal hb ho hcl)
    (take_ne_nil (List.ne_nil_of_mem hin) hn) t blk
  exact ⟨b2, s2, h⟩

/-- The cursor of a contract depends only on the Unbatched entries of the
contract. -/
theorem iterate_eq_of_mem {s1 s2 : PoolState} (h1 : s1.Consistent) (h2 : s2.Consistent)
    (c : ContractID) (h : ∀ e, e ∈ unbatched_of s1 c ↔ e ∈ unbatched_of s2 c) :
    iterate_unbatched_by_contract s1 c = iterate_unbatched_by_contract s2 c := by
  have hn1 : (unbatched_of s1 c).Nodup := (entries_nodup h1).filter _
  have hn2 : (unbatched_of s2 c).Nodup := (entries_nodup h2).filter _
  have hperm : (iterate_unbatched_by_contract s1 c).Perm (iterate_unbatched_by_contract s2 c) :=
    ((iterate_perm h1 c).trans ((List.perm_ext_iff_of_nodup hn1 hn2).mpr h)).trans
      (iterate_perm h2 c).symm
  haveI : IsAntisymm TransferEntry fun a b =>
      b.fee.amount < a.fee.amount ∨ (a.fee.amount = b.fee.amount ∧ b.id < a.id) :=
    ⟨fun a b hab hba => by
      exfalso
      rcases hab with hab | ⟨hab1, hab2⟩ <;> rcases hba with hba | ⟨hba1, hba2⟩ <;> omega⟩
  exact List.eq_of_perm_of_sorted hperm (iterate_ordered h1 c) (iterate_ordered h2 c)

/-! ## Building again after a refund -/

theorem mem_unbatched_of {s : PoolState} {c : ContractID} {e : TransferEntry} :
    e ∈ unbatched_of s c ↔ e ∈ s.entries ∧ e.state = .Unbatched ∧ e.amount.contract = c := by
  unfold unbatched_of
  rw [List.mem_filter]
  simp

theorem unbatched_self {e : TransferEntry} (h : e.state = .Unbatched) :
    ({ e with state := .Unbatched } : TransferEntry) = e := by
  obtain ⟨id, sender, destination, amount, fee, state⟩ := e
  simp only at h
  rw [h]

/-- The Unbatched entries of a contract after its batch was built and closed
again are those from before. -/
theorem unbatched_after_refund {s0 s1 : PoolState} {c : ContractID} {n t blk : Nat} {b : Batch}
    (hs : s0.Sound) (hn : s0.next_batch_nonce + 1 < 2 ^ 64)
    (h : build_batch s0 c n t blk = .ok (b, s1)) (closing : Batch → Bool) (final : BatchState)
    (hcl : closing b = true) (e : TransferEntry) :
    e ∈ unbatched_of (refund_batches s1 closing final) c ↔ e ∈ unbatched_of s0 c := by
  have hs1 := sound_build_batch hs hn h
  obtain ⟨hopen, hne, hb, hent, hidx, hbat, hnb, hnt, hbank⟩ := build_batch_ok h
  generalize hselected : (iterate_unbatched_by_contract s0 c).take n = selected at *
  generalize hnonce : (s0.next_batch_nonce + 1) % 2 ^ 64 = nonce at *
  have hsel : ∀ e ∈ selected,
      e ∈ s0.entries ∧ e.state = .Unbatched ∧ e.amount.contract = c := by
    intro e he
    rw [← hselected] at he
    exact mem_selected hs.1 he
  have hidsel : ∀ e ∈ s0.entries, e.id ∈ selected.map (fun e => e.id) → e ∈ selected := by
    intro e he hid
    obtain ⟨e2, he2, hid2⟩ := List.mem_map.mp hid
    have : e2 = e := entry_id_inj hs.1 (hsel e2 he2).1 he hid2
    rw [← this]
    exact he2
  have hbo : b.state = .Open := by rw [hb]
  have hbc : b.token_contract = c := by rw [hb]
  have hbt : b.transactions = selected.map fun e => e.id := by rw [hb]
  have hbm : b ∈ s1.batches := by
    rw [hbat]
    exact List.mem_append_right _ (List.mem_singleton.mpr rfl)
  have hent2 : (refund_batches s1 closing final).entries =
      set_state s1.entries
        ((s1.batches.filter fun b => decide (b.state = .Open) && closing b).flatMap
          fun b => b.transactions) .Unbatched := rfl
  rw [mem_unbatched_of, mem_unbatched_of, hent2]
  generalize hI : ((s1.batches.filter fun b => decide (b.state = .Open) && closing b).flatMap
    fun b => b.transactions) = ids1
  constructor
  · rintro ⟨he1, hst1, hc1⟩
    obtain ⟨e', he', hf1⟩ := mem_set_state.mp he1
    have he'' := he'
    rw [hent] at he''
    obtain ⟨e0, he0, hf0⟩ := mem_set_state.mp he''
    by_cases h0 : e0.id ∈ selected.map (fun e => e.id)
    · obtain ⟨-, hst0, hc0⟩ := hsel e0 (hidsel e0 he0 h0)
      rw [if_pos h0] at hf0
      subst hf0
      by_cases h1 : e0.id ∈ ids1
      · rw [if_pos h1] at hf1
        have : e = e0 := by
          rw [← hf1]
          exact unbatched_self hst0
        rw [this]
        exact ⟨he0, hst0, hc0⟩
      · rw [if_neg h1] at hf1
        rw [← hf1] at hst1
        cases hst1
    · rw [if_neg h0] at hf0
      subst hf0
      by_cases h1 : e0.id ∈ ids1
      · exfalso
        rw [if_pos h1] at hf1
        rw [← hI] at h1
        obtain ⟨b2, hb2, ho2, hcl2, hid2, -, hc2⟩ := closing_entry_state hs1 he' h1
        have hce : e0.amount.contract = c := by
          rw [← hc1, ← hf1]
        have : b2 = b := open_batch_unique hs1 hb2 hbm ho2 hbo (by rw [← hc2, hce, hbc])
        rw [this, hbt] at hid2
        exact h0 hid2
      · rw [if_neg h1] at hf1
        subst hf1
        exact ⟨he0, hst1, hc1⟩
  · rintro ⟨he0, hst0, hc0⟩
    refine ⟨?_, hst0, hc0⟩
    by_cases h0 : e.id ∈ selected.map (fun e => e.id)
    · have he' : ({ e with state := .InBatch nonce } : TransferEntry) ∈ s1.entries := by
        rw [hent]
        exact mem_set_state.mpr ⟨e, he0, if_pos h0⟩
      have h1 : e.id ∈ ids1 := by
        rw [← hI]
        exact mem_closing_ids.mpr ⟨b, hbm, hbo, hcl, by rw [hbt]; exact h0⟩
      refine mem_set_state.mpr ⟨_, he', ?_⟩
      rw [if_pos h1]
      exact unbatched_self hst0
    · have he' : e ∈ s1.entries := by
        rw [hent]
        exact mem_set_state.mpr ⟨e, he0, if_neg h0⟩
      refine mem_set_state.mpr ⟨e, he', ?_⟩
      by_cases h1 : e.id ∈ ids1
      · rw [if_pos h1]
        exact unbatched_self hst0
      · rw [if_neg h1]

/-- Building the batch of a contract again after it was closed gives the same
ids in the same order, with the next nonce. -/
theorem rebuild_after_refund {s0 s1 : PoolState} {c : ContractID} {n t blk : Nat} {b : Batch}
    (hs : s0.Sound) (hn : s0.next_batch_nonce + 2 < 2 ^ 64)
    (h : build_batch s0 c n t blk = .ok (b, s1)) (closing : Batch → Bool) (final : BatchState)
    (hfinal : final ≠ .Open) (hcl : closing b = true) (t2 blk2 : Nat) :
    ∃ b2 s2, build_batch (refund_batches s1 closing final) c n t2 blk2 = .ok (b2, s2) ∧
      b2.transactions = b.transactions ∧ b2.batch_nonce = b.batch_nonce + 1 := by
  have hs1 := sound_build_batch hs (by omega) h
  have hs2 := sound_refund_batches hs1 closing final hfinal
  obtain ⟨hopen, hne, hb, hent, hidx, hbat, hnb, hnt, hbank⟩ := build_batch_ok h
  have hmod : (s0.next_batch_nonce + 1) % 2 ^ 64 = s0.next_batch_nonce + 1 :=
    Nat.mod_eq_of_lt (by omega)
  have hbo : b.state = .Open := by rw [hb]
  have hbc : b.token_contract = c := by rw [hb]
  have hbt : b.transactions =
      ((iterate_unbatched_by_contract s0 c).take n).map fun e => e.id := by rw [hb]
  have hbn : b.batch_nonce = s0.next_batch_nonce + 1 := by rw [hb, hmod]
  have hbm : b ∈ s1.batches := by
    rw [hbat]
    exact List.mem_append_right _ (List.mem_singleton.mpr rfl)
  have hiter : iterate_unbatched_by_contract (refund_batches s1 closing final) c =
      iterate_unbatched_by_contract s0 c :=
    iterate_eq_of_mem hs2.1 hs.1 c
      (unbatched_after_refund hs (by omega) h closing final hcl)
  have hno := refund_no_open hs1 closing final hfinal hbm hbo hcl
  rw [hbc] at hno
  have hnext : (refund_batches s1 closing final).next_batch_nonce = s1.next_batch_nonce := rfl
  obtain ⟨b2, s2, hbuild, ht2, hn2⟩ := build_batch_of hno (by rw [hiter]; exact hne) t2 blk2
  refine ⟨b2, s2, hbuild, ?_, ?_⟩
  · rw [ht2, hiter, hbt]
  · rw [hn2, hnext, hnb, hmod, hbn]
    exact Nat.mod_eq_of_lt (by omega)

/-! ## The claims about batches -/

theorem set_state_map_id (entries : List TransferEntry) (ids : List Nat) (state : EntryState) :
    (set_state entries ids state).map (fun e => e.id) = entries.map fun e => e.id := by
  unfold set_state
  rw [List.map_map]
  apply List.map_congr_left
  intro e _
  exact set_state_id e ids state

/-- Both ways of closing a batch, `cancel` of its nonce and `prune_expired` at a
height above its timeout, are a refund of batches that contains it. -/
theorem closed_by {s s1 : PoolState} {b : Batch}
    (h : cancel s b.batch_nonce = .ok s1 ∨
      ∃ height, b.timeout < height ∧ s1 = prune_expired s height) :
    ∃ (closing : Batch → Bool) (final : BatchState),
      final ≠ .Open ∧ closing b = true ∧ s1 = refund_batches s closing final := by
  rcases h with h | ⟨height, hlt, hs1⟩
  · exact ⟨fun x => x.batch_nonce == b.batch_nonce, .Cancelled, by decide, by simp,
      (cancel_ok h).2⟩
  · exact ⟨fun x => decide (x.timeout < height), .TimedOut, by decide, decide_eq_true hlt, hs1⟩

/-- The holding account covers `amount + fee` of every entry of the store. -/
theorem entry_total_le_locked {s : PoolState} (hs : s.Sound) {e : TransferEntry}
    (he : e ∈ s.entries) : e.amount.amount + e.fee.amount ≤ s.bank.locked e.amount.contract := by
  have h := sum_totals_primary_delete hs.1.2.2.2.1 he e.amount.contract
  rw [if_pos rfl, ← hs.2.2.2.2.2.2.2 e.amount.contract] at h
  omega

/-- A call of `cancel_transfer` by the sender of an Unbatched entry succeeds when
the holding account covers the entry. -/
theorem cancel_transfer_of {s : PoolState} {id : Nat} {sender : GoString} {e : TransferEntry}
    (hg : primary_get s.entries id = some e) (hsender : e.sender = sender)
    (hst : e.state = .Unbatched)
    (hle : e.amount.amount + e.fee.amount ≤ s.bank.locked e.amount.contract) :
    ∃ s1, cancel_transfer s id sender = .ok s1 := by
  unfold cancel_transfer
  rw [hg]
  dsimp only
  rw [if_neg (not_not.mpr hsender), if_neg (not_not.mpr hst)]
  unfold release
  rw [if_neg (by show ¬ s.bank.locked e.amount.contract < e.amount.amount + e.fee.amount; omega)]
  exact ⟨_, rfl⟩

/-! ### The scenarios S3, S4 and S5 -/

set_option maxRecDepth 100000 in
/-- Scenario S3: after the four requests of S1, `build_batch(A, 100, 9999999)`
gives a batch with the ids `[2, 3, 1, 4]` and the nonce 1. -/
theorem poolS3_batches :
    poolS3.batches.map (fun b => (b.batch_nonce, b.transactions, b.state)) =
      [(1, [2, 3, 1, 4], .Open)] := by
  decide

set_option maxRecDepth 100000 in
/-- Scenario S4: after `cancel` of the batch of S3, building again gives the same
ids with the nonce 2. -/
theorem poolS3_cancel_rebuild :
    (match cancel poolS3 1 with
      | .ok s1 =>
        (match build_batch s1 contractA 100 9999999 2 with
          | .ok (b, _) => some (b.batch_nonce, b.transactions)
          | .error _ => none)
      | .error _ => none) = some (2, [2, 3, 1, 4]) := by
  decide

set_option maxRecDepth 100000 in
/-- Scenario S5: `observe_execution` of the batch of S3 leaves no entry and no
fee-index row, and takes the 414 that the holding account held. -/
theorem poolS3_observe_execution :
    (match observe_execution poolS3 1 with
      | .ok s1 =>
        some (s1.bank.locked contractA, s1.entries.length, s1.fee_index.length,
          poolS3.bank.locked contractA)
      | .error _ => none) = some (0, 0, 0, 414) := by
  decide

/-- C21: in every state that the six operations reach from an empty store, each
contract has at most one Open batch; `build_batch` on the contract of an Open
batch fails with PendingBatchExists and the call changes nothing; that batch can
be cancelled, and after it a `build_batch` on the contract with room for at
least one element succeeds and its batch is the Open batch of the contract. -/
theorem at_most_one_open_batch (bank : Bank) (hbank : ∀ c, bank.locked c = 0)
    (ops : List PoolOp) (hops : ops.length + 1 < 2 ^ 64) :
    (∀ c, ((run_ops (PoolState.fresh bank) ops).batches.filter fun b =>
        decide (b.token_contract = c ∧ b.state = .Open)).length ≤ 1) ∧
    ∀ b ∈ (run_ops (PoolState.fresh bank) ops).batches, b.state = .Open →
      ∀ n t blk : Nat,
        build_batch (run_ops (PoolState.fresh bank) ops) b.token_contract n t blk =
          .error .PendingBatchExists ∧
        apply_op (run_ops (PoolState.fresh bank) ops) (.build_batch b.token_contract n t blk) =
          run_ops (PoolState.fresh bank) ops ∧
        ∃ s1, cancel (run_ops (PoolState.fresh bank) ops) b.batch_nonce = .ok s1 ∧
          (0 < n → ∃ b2 s2, build_batch s1 b.token_contract n t blk = .ok (b2, s2) ∧
            b2 ∈ s2.batches ∧ b2.state = .Open ∧ b2.token_contract = b.token_contract) := by
  obtain ⟨hs, -⟩ := sound_reachable bank hbank ops hops
  generalize run_ops (PoolState.fresh bank) ops = s at hs ⊢
  refine ⟨open_filter_length hs.2.2.2.2.2.1, ?_⟩
  intro b hb ho n t blk
  have hbuild : build_batch s b.token_contract n t blk = .error .PendingBatchExists := by
    unfold build_batch
    rw [has_open_batch_true hb rfl ho]
    rfl
  refine ⟨hbuild, apply_op_build_error hbuild, _, cancel_of_open hs hb ho, ?_⟩
  intro hn
  obtain ⟨b2, s2, h2⟩ := build_after_refund hs (fun x => x.batch_nonce == b.batch_nonce)
    .Cancelled (by decide) hb ho (by simp) n t blk hn
  obtain ⟨-, -, hb2, -, -, hbat, -⟩ := build_batch_ok h2
  refine ⟨b2, s2, h2, ?_, ?_, ?_⟩
  · rw [hbat]
    exact List.mem_append_right _ (List.mem_singleton.mpr rfl)
  · rw [hb2]
  · rw [hb2]

set_option maxRecDepth 100000 in
/-- The statement of C21 in the state of scenario S3, which has an Open batch. -/
theorem at_most_one_open_batch_witness :
    (∀ c, testBank.locked c = 0) ∧ opsS3.length + 1 < 2 ^ 64 ∧
    (∃ b ∈ (run_ops (PoolState.fresh testBank) opsS3).batches, b.state = .Open) ∧
    (∀ c, ((run_ops (PoolState.fresh testBank) opsS3).batches.filter fun b =>
        decide (b.token_contract = c ∧ b.state = .Open)).length ≤ 1) ∧
    ∀ b ∈ (run_ops (PoolState.fresh testBank) opsS3).batches, b.state = .Open →
      ∀ n t blk : Nat,
        build_batch (run_ops (PoolState.fresh testBank) opsS3) b.token_contract n t blk =
          .error .PendingBatchExists ∧
        apply_op (run_ops (PoolState.fresh testBank) opsS3)
            (.build_batch b.token_contract n t blk) =
          run_ops (PoolState.fresh testBank) opsS3 ∧
        ∃ s1, cancel (run_ops (PoolState.fresh testBank) opsS3) b.batch_nonce = .ok s1 ∧
          (0 < n → ∃ b2 s2, build_batch s1 b.token_contract n t blk = .ok (b2, s2) ∧
            b2 ∈ s2.batches ∧ b2.state = .Open ∧ b2.token_contract = b.token_contract) :=
  ⟨fun _ => rfl, by decide, by decide,
    at_most_one_open_batch testBank (fun _ => rfl) opsS3 (by decide)⟩

/-- C22: in every state that the six operations reach from an empty store, an
Open batch can be cancelled, and after `cancel` of the batch or `prune_expired`
at a height above its timeout no id was allocated, the store holds the same ids,
and every entry that the batch contained is Unbatched with its id and has
exactly one row in the fee index; and a batch that is built and then closed in
one of the two ways is built again with the same ids in the same order and the
next nonce. -/
theorem refund_complete (bank : Bank) (hbank : ∀ c, bank.locked c = 0) (ops : List PoolOp)
    (hops : ops.length + 2 < 2 ^ 64) :
    (∀ b ∈ (run_ops (PoolState.fresh bank) ops).batches, b.state = .Open →
      (∃ s1, cancel (run_ops (PoolState.fresh bank) ops) b.batch_nonce = .ok s1) ∧
      ∀ s1, (cancel (run_ops (PoolState.fresh bank) ops) b.batch_nonce = .ok s1 ∨
          ∃ height, b.timeout < height ∧
            s1 = prune_expired (run_ops (PoolState.fresh bank) ops) height) →
        s1.next_tx_id = (run_ops (PoolState.fresh bank) ops).next_tx_id ∧
        s1.entries.map (fun e => e.id) =
          (run_ops (PoolState.fresh bank) ops).entries.map (fun e => e.id) ∧
        ∀ id ∈ b.transactions, ∃ e ∈ (run_ops (PoolState.fresh bank) ops).entries,
          e.id = id ∧ e.state = .InBatch b.batch_nonce ∧
          ({ e with state := .Unbatched } : TransferEntry) ∈ s1.entries ∧
          (s1.fee_index.filter fun k => decide (k = entry_key e)).length = 1) ∧
    (∀ c n t blk b s1,
      build_batch (run_ops (PoolState.fresh bank) ops) c n t blk = .ok (b, s1) →
      ∀ s2, (cancel s1 b.batch_nonce = .ok s2 ∨
          ∃ height, b.timeout < height ∧ s2 = prune_expired s1 height) →
        ∀ t2 blk2, ∃ b2 s3, build_batch s2 c n t2 blk2 = .ok (b2, s3) ∧
          b2.transactions = b.transactions ∧ b2.batch_nonce = b.batch_nonce + 1) := by
  obtain ⟨hs, hnonce⟩ := sound_reachable bank hbank ops (by omega)
  generalize run_ops (PoolState.fresh bank) ops = s at hs hnonce ⊢
  constructor
  · intro b hb ho
    refine ⟨⟨_, cancel_of_open hs hb ho⟩, ?_⟩
    intro s1 h1
    obtain ⟨closing, final, hfinal, hcl, hs1⟩ := closed_by h1
    subst hs1
    refine ⟨rfl, set_state_map_id _ _ _, ?_⟩
    intro id hid
    obtain ⟨e, he, h1, h2, -, hmem⟩ := refund_entry hs closing final hb ho hcl hid
    exact ⟨e, he, h1, h2, hmem,
      index_count_one (e := { e with state := .Unbatched })
        (sound_refund_batches hs closing final hfinal).1 hmem rfl⟩
  · intro c n t blk b s1 hbuild s2 h2 t2 blk2
    obtain ⟨closing, final, hfinal, hcl, hs2⟩ := closed_by h2
    subst hs2
    exact rebuild_after_refund hs (by omega) hbuild closing final hfinal hcl t2 blk2

set_option maxRecDepth 100000 in
/-- The statement of C22 at concrete states: the Open batch of scenario S3 is
refunded as stated, and the batch that is built in the store of scenario S1 is
built again after it was closed. -/
theorem refund_complete_witness :
    (∀ c, testBank.locked c = 0) ∧ opsS3.length + 2 < 2 ^ 64 ∧ opsS1.length + 2 < 2 ^ 64 ∧
    (∃ b ∈ (run_ops (PoolState.fresh testBank) opsS3).batches, b.state = .Open ∧
      (∃ s1, cancel (run_ops (PoolState.fresh testBank) opsS3) b.batch_nonce = .ok s1) ∧
      ∀ s1, (cancel (run_ops (PoolState.fresh testBank) opsS3) b.batch_nonce = .ok s1 ∨
          ∃ height, b.timeout < height ∧
            s1 = prune_expired (run_ops (PoolState.fresh testBank) opsS3) height) →
        s1.next_tx_id = (run_ops (PoolState.fresh testBank) opsS3).next_tx_id ∧
        s1.entries.map (fun e => e.id) =
          (run_ops (PoolState.fresh testBank) opsS3).entries.map (fun e => e.id) ∧
        ∀ id ∈ b.transactions, ∃ e ∈ (run_ops (PoolState.fresh testBank) opsS3).entries,
          e.id = id ∧ e.state = .InBatch b.batch_nonce ∧
          ({ e with state := .Unbatched } : TransferEntry) ∈ s1.entries ∧
          (s1.fee_index.filter fun k => decide (k = entry_key e)).length = 1) ∧
    (∃ b s1, build_batch (run_ops (PoolState.fresh testBank) opsS1) contractA 100 9999999 1 =
        .ok (b, s1) ∧
      ∀ s2, (cancel s1 b.batch_nonce = .ok s2 ∨
          ∃ height, b.timeout < height ∧ s2 = prune_expired s1 height) →
        ∀ t2 blk2, ∃ b2 s3, build_batch s2 contractA 100 t2 blk2 = .ok (b2, s3) ∧
          b2.transactions = b.transactions ∧ b2.batch_nonce = b.batch_nonce + 1) := by
  refine ⟨fun _ => rfl, by decide, by decide, ?_, ?_⟩
  · have hopen : ∃ b ∈ (run_ops (PoolState.fresh testBank) opsS3).batches, b.state = .Open := by
      decide
    obtain ⟨b, hb, ho⟩ := hopen
    exact ⟨b, hb, ho, (refund_complete testBank (fun _ => rfl) opsS3 (by decide)).1 b hb ho⟩
  · obtain ⟨b, s1, h, -, -⟩ := build_batch_of
      (s := run_ops (PoolState.fresh testBank) opsS1) (c := contractA) (n := 100)
      (by decide) (by decide) 9999999 1
    exact ⟨b, s1, h,
      (refund_complete testBank (fun _ => rfl) opsS1 (by decide)).2 contractA 100 9999999 1 b s1 h⟩

/-- C23: for every state and every height, `prune_expired` applied twice gives
the state that applying it once gives. -/
theorem prune_expired_idempotent (s : PoolState) (height : Nat) :
    prune_expired (prune_expired s height) height = prune_expired s height :=
  refund_batches_of_none _ _ _ (refund_batches_closed s _ _ (by decide))

/-- C24: `cancel_transfer(id, sender)` fails with NotFound when no entry has the
id, with Unauthorized when the sender of the entry is not the caller, and with
AlreadyBatched when the caller is the sender and the entry is in a batch; a call
that fails leaves the state, with the store and the bank, as it was; a call that
succeeds removes the entry and its fee-index row, takes exactly `amount + fee`
from the holding account and gives exactly that to the sender, and changes no
other balance; and in a state that satisfies the invariants the call of the
sender of an Unbatched entry succeeds. -/
theorem cancel_transfer_spec (s : PoolState) (id : Nat) (sender : GoString) :
    (primary_get s.entries id = none → cancel_transfer s id sender = .error .NotFound) ∧
    (∀ e, primary_get s.entries id = some e → e.sender ≠ sender →
      cancel_transfer s id sender = .error .Unauthorized) ∧
    (∀ e n, primary_get s.entries id = some e → e.sender = sender → e.state = .InBatch n →
      cancel_transfer s id sender = .error .AlreadyBatched) ∧
    (∀ err, cancel_transfer s id sender = .error err →
      apply_op s (.cancel_transfer id sender) = s) ∧
    (∀ s1, cancel_transfer s id sender = .ok s1 →
      apply_op s (.cancel_transfer id sender) = s1 ∧
      ∃ e, primary_get s.entries id = some e ∧ e.sender = sender ∧ e.state = .Unbatched ∧
        primary_get s1.entries id = none ∧
        (∀ x, x ∈ s1.entries ↔ x ∈ s.entries ∧ x.id ≠ id) ∧
        (∀ k, k ∈ s1.fee_index ↔ k ∈ s.fee_index ∧ k ≠ entry_key e) ∧
        s1.batches = s.batches ∧
        e.amount.amount + e.fee.amount ≤ s.bank.locked e.amount.contract ∧
        (∀ c, s1.bank.locked c =
          if c = e.amount.contract then s.bank.locked c - (e.amount.amount + e.fee.amount)
          else s.bank.locked c) ∧
        (∀ a c, s1.bank.balance a c =
          if a = sender ∧ c = e.amount.contract then
            s.bank.balance a c + (e.amount.amount + e.fee.amount)
          else s.bank.balance a c)) ∧
    (s.Sound → ∀ e, primary_get s.entries id = some e → e.sender = sender →
      e.state = .Unbatched → ∃ s1, cancel_transfer s id sender = .ok s1) := by
  refine ⟨?_, ?_, ?_, ?_, ?_, ?_⟩
  · intro hg
    unfold cancel_transfer
    rw [hg]
  · intro e hg hsender
    unfold cancel_transfer
    rw [hg]
    dsimp only
    rw [if_pos hsender]
  · intro e n hg hsender hst
    unfold cancel_transfer
    rw [hg]
    dsimp only
    rw [if_neg (not_not.mpr hsender), if_pos (by rw [hst]; exact fun h => by cases h)]
  · intro err h
    exact apply_op_cancel_transfer_error h
  · intro s1 h
    refine ⟨apply_op_cancel_transfer_ok h, ?_⟩
    obtain ⟨e, hg, hsender, hst, hle, hent, hidx, hb, -, -, hl, hbal⟩ := cancel_transfer_ok h
    refine ⟨e, hg, hsender, hst, ?_, ?_, ?_, hb, hle, hl, hbal⟩
    · cases hg1 : primary_get s1.entries id with
      | none => rfl
      | some x =>
        exfalso
        obtain ⟨hx, hxid⟩ := primary_get_some hg1
        rw [hent] at hx
        exact (mem_primary_delete.mp hx).2 hxid
    · intro x
      rw [hent]
      exact mem_primary_delete
    · intro k
      rw [hidx, mem_index_delete, List.mem_singleton]
  · intro hs e hg hsender hst
    exact cancel_transfer_of hg hsender hst (entry_total_le_locked hs (primary_get_some hg).1)

set_option maxRecDepth 100000 in
/-- The statement of C24 at concrete calls: in the store of scenario S1 the id 7
is absent, the entry 1 is not of another caller, and its sender cancels it and
gets `100 + 2` back from the 414 that the holding account holds; in the store of
scenario S3 the entry 1 is in a batch. -/
theorem cancel_transfer_spec_witness :
    cancel_transfer (run_ops (PoolState.fresh testBank) opsS1) 7 testSender =
      .error .NotFound ∧
    cancel_transfer (run_ops (PoolState.fresh testBank) opsS1) 1 (ascii "cosmos1other") =
      .error .Unauthorized ∧
    cancel_transfer (run_ops (PoolState.fresh testBank) opsS3) 1 testSender =
      .error .AlreadyBatched ∧
    (∃ s1, cancel_transfer (run_ops (PoolState.fresh testBank) opsS1) 1 testSender = .ok s1 ∧
      (run_ops (PoolState.fresh testBank) opsS1).bank.locked contractA = 414 ∧
      s1.bank.locked contractA = 312 ∧
      s1.bank.balance testSender contractA =
        (run_ops (PoolState.fresh testBank) opsS1).bank.balance testSender contractA + 102 ∧
      s1.entries.map (fun e => e.id) = [2, 3, 4]) := by
  have h1 := cancel_transfer_spec (run_ops (PoolState.fresh testBank) opsS1) 7 testSender
  have h2 := cancel_transfer_spec (run_ops (PoolState.fresh testBank) opsS1) 1
    (ascii "cosmos1other")
  have h3 := cancel_transfer_spec (run_ops (PoolState.fresh testBank) opsS3) 1 testSender
  have h4 := cancel_transfer_spec (run_ops (PoolState.fresh testBank) opsS1) 1 testSender
  refine ⟨h1.1 (by decide), ?_, ?_, ?_⟩
  · exact h2.2.1 ⟨1, testSender, testReceiver, ⟨100, contractA⟩, ⟨2, contractA⟩, .Unbatched⟩
      (by decide) (by decide)
  · exact h3.2.2.1 ⟨1, testSender, testReceiver, ⟨100, contractA⟩, ⟨2, contractA⟩, .InBatch 1⟩
      1 (by decide) (by decide) rfl
  · obtain ⟨s1, hs1⟩ := h4.2.2.2.2.2
      (sound_reachable testBank (fun _ => rfl) opsS1 (by decide)).1
      ⟨1, testSender, testReceiver, ⟨100, contractA⟩, ⟨2, contractA⟩, .Unbatched⟩
      (by decide) (by decide) rfl
    have hcall : cancel_transfer (run_ops (PoolState.fresh testBank) opsS1) 1 testSender =
        .ok
          { run_ops (PoolState.fresh testBank) opsS1 with
            entries := primary_delete (run_ops (PoolState.fresh testBank) opsS1).entries 1
            fee_index := index_delete
              [entry_key ⟨1, testSender, testReceiver, ⟨100, contractA⟩, ⟨2, contractA⟩,
                .Unbatched⟩] (run_ops (PoolState.fresh testBank) opsS1).fee_index
            bank :=
              { balance := fun a c =>
                  if a = testSender ∧ c = contractA then
                    (run_ops (PoolState.fresh testBank) opsS1).bank.balance a c + 102
                  else (run_ops (PoolState.fresh testBank) opsS1).bank.balance a c
                locked := fun c =>
                  if c = contractA then
                    (run_ops (PoolState.fresh testBank) opsS1).bank.locked c - 102
                  else (run_ops (PoolState.fresh testBank) opsS1).bank.locked c } } := by
      rfl
    exact ⟨_, hcall, by decide, by decide, by decide, by decide⟩

/-- C25: in every state that `add_transfer`, `cancel_transfer`, `build_batch`,
`cancel`, `prune_expired` and `observe_execution` reach from an empty store with
an empty holding account, the amount of a token that the holding account holds is
the sum of `amount + fee` over the Unbatched entries of the token plus the sum of
`amount + fee` over its entries whose batch is Open. -/
theorem conservation (bank : Bank) (hbank : ∀ c, bank.locked c = 0) (ops : List PoolOp)
    (hops : ops.length + 1 < 2 ^ 64) (c : ContractID) :
    (run_ops (PoolState.fresh bank) ops).bank.locked c =
      specLocked (run_ops (PoolState.fresh bank) ops) c :=
  locked_eq_specLocked (sound_reachable bank hbank ops hops).1 c

set_option maxRecDepth 100000 in
/-- The statement of C25 in the state of scenario S3, where the holding account
holds 414 of the first token, all of it for entries in the Open batch. -/
theorem conservation_witness :
    (∀ c, testBank.locked c = 0) ∧ opsS3.length + 1 < 2 ^ 64 ∧
    (run_ops (PoolState.fresh testBank) opsS3).bank.locked contractA = 414 ∧
    (run_ops (PoolState.fresh testBank) opsS3).bank.locked contractA =
      specLocked (run_ops (PoolState.fresh testBank) opsS3) contractA :=
  ⟨fun _ => rfl, by decide, by decide,
    conservation testBank (fun _ => rfl) opsS3 (by decide) contractA⟩

/-! ## The order of addresses -/

theorem ethAddrLessThan_iff (a b : EthAddress) :
    EthAddrLessThan a b = true ↔ bytesCompare a.Address b.Address = -1 := by
  unfold EthAddrLessThan
  exact beq_iff_eq

theorem ethAddrLessThan_false_iff (a b : EthAddress) :
    EthAddrLessThan a b = false ↔ bytesCompare a.Address b.Address ≠ -1 := by
  rw [Ne, ← ethAddrLessThan_iff]
  cases EthAddrLessThan a b <;> simp

/-- C32: `EthAddrLessThan` is a strict total order on address strings: no address
is less than itself, the relation is transitive, and of two addresses exactly one
of `EthAddrLessThan(a, b)`, `a.Address = b.Address` and `EthAddrLessThan(b, a)`
holds. -/
theorem ethAddrLessThan_strict_total_order :
    (∀ a : EthAddress, EthAddrLessThan a a = false) ∧
    (∀ a b c : EthAddress, EthAddrLessThan a b = true → EthAddrLessThan b c = true →
      EthAddrLessThan a c = true) ∧
    (∀ a b : EthAddress,
      (EthAddrLessThan a b = true ∧ a.Address ≠ b.Address ∧ EthAddrLessThan b a = false) ∨
      (EthAddrLessThan a b = false ∧ a.Address = b.Address ∧ EthAddrLessThan b a = false) ∨
      (EthAddrLessThan a b = false ∧ a.Address ≠ b.Address ∧ EthAddrLessThan b a = true)) := by
  refine ⟨?_, ?_, ?_⟩
  · intro a
    rw [ethAddrLessThan_false_iff]
    exact bytesCompare_self a.Address
  · intro a b c hab hbc
    rw [ethAddrLessThan_iff] at hab hbc ⊢
    exact bytesCompare_trans _ _ _ hab hbc
  · intro a b
    have hswap := bytesCompare_swap a.Address b.Address
    have hzero := bytesCompare_eq_zero_iff a.Address b.Address
    rw [ethAddrLessThan_iff, ethAddrLessThan_iff, ethAddrLessThan_false_iff,
      ethAddrLessThan_false_iff]
    rcases bytesCompare_values a.Address b.Address with h | h | h
    · left
      refine ⟨h, ?_, ?_⟩
      · intro heq
        rw [hzero.mpr heq] at h
        cases h
      · rw [hswap, h]
        decide
    · right; left
      refine ⟨?_, hzero.mp h, ?_⟩
      · rw [h]
        decide
      · rw [hswap, h]
        decide
    · right; right
      refine ⟨?_, ?_, ?_⟩
      · rw [h]
        decide
      · intro heq
        rw [hzero.mpr heq] at h
        cases h
      · rw [hswap, h]

/-! ## Set and unwrap -/

/-- C33: for every `OptionalEthAddress` and every address `a` that is not nil,
`Unwrap` after `SetEthAddress(a)` returns `a` and no error; `Unwrap` after
`SetEthAddress(nil)` and `Unwrap` on `NilEthAddress()` return no address and the
error "nil value"; and `Unwrap` returns an error if and only if `IsNil` is
true. -/
theorem set_then_unwrap :
    (∀ (o : OptionalEthAddress) (a : EthAddress),
      (o.SetEthAddress (some a)).Unwrap = (some a, none)) ∧
    (∀ o : OptionalEthAddress, (o.SetEthAddress none).Unwrap = (none, some .nilValue)) ∧
    NilEthAddress.Unwrap = (none, some .nilValue) ∧
    (∀ o : OptionalEthAddress, o.Unwrap.2 ≠ none ↔ o.IsNil = true) := by
  refine ⟨fun _ _ => rfl, fun _ => rfl, rfl, ?_⟩
  intro o
  unfold OptionalEthAddress.Unwrap
  cases o.IsNil <;> simp

/-! ## The varint encoding is exact -/

theorem sovBatch_bounds (v : Nat) (hv : v < 2 ^ 64) : 1 ≤ sovBatch v ∧ sovBatch v ≤ 10 := by
  unfold sovBatch
  have h1 : Len64 (v ||| 1) ≤ 64 := by
    rw [len64_le_iff, or_one_eq]
    omega
  have h2 : ¬ Len64 (v ||| 1) ≤ 0 := by
    rw [len64_le_iff, or_one_eq]
    simp
  omega

/-- The bytes of a varint without their continuation bits are the digits in base
128, least significant first. -/
theorem specVarintAux_digits : ∀ (fuel v : Nat), v < fuel → 0 < v →
    (specVarintAux fuel v).map (fun b => b.toNat % 128) = Nat.digits 128 v := by
  intro fuel
  induction fuel with
  | zero => intro v h; omega
  | succ fuel ih =>
    intro v hv hpos
    unfold specVarintAux
    rw [Nat.digits_def' (by decide) hpos]
    by_cases h : v < 128
    · rw [if_pos h, Nat.div_eq_of_lt h, Nat.mod_eq_of_lt h]
      have hb : (UInt8.ofNat v).toNat = v := by
        rw [uint8_ofNat_toNat]
        omega
      simp [hb, Nat.mod_eq_of_lt h]
    · rw [if_neg h, List.map_cons, ih (v / 128) (by omega) (by omega)]
      have hb : (UInt8.ofNat (v % 128 + 128)).toNat = v % 128 + 128 := by
        rw [uint8_ofNat_toNat]
        omega
      rw [hb]
      congr 1
      omega

theorem specVarint_digits (v : Nat) :
    (specVarint v).map (fun b => b.toNat % 128) = if v = 0 then [0] else Nat.digits 128 v := by
  by_cases h : v = 0
  · subst h
    rfl
  · rw [if_neg h]
    exact specVarintAux_digits (v + 1) v (Nat.lt_succ_self v) (Nat.pos_of_ne_zero h)

/-- The function `encodeVarintBatch` at any offset of any buffer with room for the
varint. -/
theorem encodeVarintBatch_at (v : Nat) (dAtA : List UInt8) (offset : Nat)
    (h1 : sovBatch v ≤ offset) (h2 : offset ≤ dAtA.length) :
    encodeVarintBatch dAtA offset v =
      .ok (dAtA.take (offset - sovBatch v) ++ specVarint v ++ dAtA.drop offset,
        offset - sovBatch v) := by
  have h := writes_encodeVarintBatch v (dAtA.take offset) (dAtA.drop offset)
    (by rw [← sovBatch_eq, List.length_take]; omega)
  have hl : (dAtA.take offset).length = offset := by
    rw [List.length_take]
    omega
  rw [List.take_append_drop, hl, ← sovBatch_eq, List.take_take,
    Nat.min_eq_left (Nat.sub_le _ _)] at h
  exact h

/-- C34: the varint encoding is exact. For every unsigned 64-bit `v`,
`sovBatch(v)` is between 1 and 10 and is the number of digits of `v` in base 128
(1 for 0); `encodeVarintBatch` writes exactly `sovBatch(v)` bytes that end at the
offset it is given, the digits of `v` with their continuation bits, leaves the
rest of the buffer as it was and returns the offset of the first of them; and the
varint loop of `Unmarshal` reads these bytes back to `v` and stops after them. -/
theorem varint_exact (v : Nat) (hv : v < 2 ^ 64) :
    1 ≤ sovBatch v ∧ sovBatch v ≤ 10 ∧
    sovBatch v = (if v = 0 then 1 else (Nat.digits 128 v).length) ∧
    ∃ bytes : List UInt8, bytes.length = sovBatch v ∧
      (bytes.map fun b => b.toNat % 128) = (if v = 0 then [0] else Nat.digits 128 v) ∧
      (∀ (dAtA : List UInt8) (offset : Nat), sovBatch v ≤ offset → offset ≤ dAtA.length →
        encodeVarintBatch dAtA offset v =
          .ok (dAtA.take (offset - sovBatch v) ++ bytes ++ dAtA.drop offset,
            offset - sovBatch v)) ∧
      (∀ pre suf : List UInt8,
        readVarint (pre ++ bytes ++ suf) pre.length = .ok (v, pre.length + sovBatch v)) := by
  refine ⟨(sovBatch_bounds v hv).1, (sovBatch_bounds v hv).2, ?_, specVarint v,
    (sovBatch_eq v).symm, specVarint_digits v, ?_, ?_⟩
  · have h := congrArg List.length (specVarint_digits v)
    rw [List.length_map, ← sovBatch_eq] at h
    rw [h]
    split <;> rfl
  · intro dAtA offset h1 h2
    exact encodeVarintBatch_at v dAtA offset h1 h2
  · intro pre suf
    rw [sovBatch_eq]
    exact readVarint_specVarint v hv pre suf

/-- The statement of C34 at 300, whose varint is `ac 02`: written at the offset 3
of a buffer of four bytes and read back. -/
theorem varint_exact_witness :
    300 < 2 ^ 64 ∧ sovBatch 300 = 2 ∧
    encodeVarintBatch [0x11, 0x22, 0x33, 0x44] 3 300 = .ok ([0x11, 0xac, 0x02, 0x44], 1) ∧
    readVarint [0x11, 0xac, 0x02, 0x44] 1 = .ok (300, 3) ∧
    (1 ≤ sovBatch 300 ∧ sovBatch 300 ≤ 10 ∧
    sovBatch 300 = (if 300 = 0 then 1 else (Nat.digits 128 300).length) ∧
    ∃ bytes : List UInt8, bytes.length = sovBatch 300 ∧
      (bytes.map fun b => b.toNat % 128) = (if 300 = 0 then [0] else Nat.digits 128 300) ∧
      (∀ (dAtA : List UInt8) (offset : Nat), sovBatch 300 ≤ offset → offset ≤ dAtA.length →
        encodeVarintBatch dAtA offset 300 =
          .ok (dAtA.take (offset - sovBatch 300) ++ bytes ++ dAtA.drop offset,
            offset - sovBatch 300)) ∧
      (∀ pre suf : List UInt8,
        readVarint (pre ++ bytes ++ suf) pre.length =
          .ok (300, pre.length + sovBatch 300))) :=
  ⟨by decide, by decide, rfl, rfl, varint_exact 300 (by decide)⟩

/-! ## Decoding a slice that is continued

What the decoder returns on a slice it returns on every slice that starts with
it, as long as it returns a value: every byte it read and every bound it checked
is the same.
-/

theorem decodeVarint_append (suf : List UInt8) :
    ∀ (fuel : Nat) (b : List UInt8) (i shift x : Nat) (r : Nat × Nat),
    decodeVarint fuel b i shift x = .ok r →
    decodeVarint fuel (b ++ suf) i shift x = .ok r ∧ r.2 ≤ b.length := by
  intro fuel
  induction fuel with
  | zero =>
    intro b i shift x r h
    unfold decodeVarint at h
    cases h
  | succ fuel ih =>
    intro b i shift x r h
    unfold decodeVarint at h ⊢
    by_cases hs : shift ≥ 64
    · rw [if_pos hs] at h
      cases h
    · rw [if_neg hs] at h ⊢
      by_cases hi : i ≥ b.length
      · rw [if_pos hi] at h
        cases h
      · rw [if_neg hi] at h
        have hlt : i < b.length := by omega
        rw [if_neg (by rw [List.length_append]; omega), List.getElem?_append_left hlt]
        rw [List.getElem?_eq_getElem hlt] at h ⊢
        dsimp only at h ⊢
        by_cases hb : b[i].toNat < 0x80
        · rw [if_pos hb] at h ⊢
          cases h
          exact ⟨rfl, hlt⟩
        · rw [if_neg hb] at h ⊢
          exact ih _ _ _ _ _ h

theorem readVarint_append (suf b : List UInt8) (i : Nat) (r : Nat × Nat)
    (h : readVarint b i = .ok r) : readVarint (b ++ suf) i = .ok r ∧ r.2 ≤ b.length :=
  decodeVarint_append suf 11 b i 0 0 r h

theorem readLength_append (suf b : List UInt8) (i : Nat) (r : Nat × Nat)
    (h : readLength b i = .ok r) : readLength (b ++ suf) i = .ok r ∧ r.2 ≤ b.length := by
  unfold readLength at h ⊢
  cases hr : readVarint b i with
  | error f =>
    rw [hr] at h
    cases h
  | ok p =>
    obtain ⟨x, i1⟩ := p
    rw [hr] at h
    rw [(readVarint_append suf b i _ hr).1]
    dsimp only at h ⊢
    by_cases hneg : wrapInt64 x < 0
    · rw [if_pos hneg] at h
      cases h
    · rw [if_neg hneg] at h ⊢
      by_cases hpost : wrapInt64 (i1 + wrapInt64 x) < 0
      · rw [if_pos hpost] at h
        cases h
      · rw [if_neg hpost] at h ⊢
        by_cases hend : wrapInt64 (i1 + wrapInt64 x) > b.length
        · rw [if_pos hend] at h
          cases h
        · rw [if_neg hend] at h
          have hlen : (b ++ suf).length = b.length + suf.length := List.length_append _ _
          rw [if_neg (by omega)]
          cases h
          exact ⟨rfl, by dsimp only; omega⟩

theorem sliceOf_append (suf b : List UInt8) (lo hi : Nat) (bytes : List UInt8)
    (h : sliceOf b lo hi = .ok bytes) : sliceOf (b ++ suf) lo hi = .ok bytes := by
  unfold sliceOf at h ⊢
  by_cases hc : lo ≤ hi ∧ hi ≤ b.length
  · rw [if_pos hc] at h
    rw [if_pos ⟨hc.1, by rw [List.length_append]; omega⟩, List.take_append_of_le_length hc.2]
    exact h
  · rw [if_neg hc] at h
    cases h

theorem varintField_append {μ : Type} (suf : List UInt8) (wireType : Nat) (field : String)
    (b : List UInt8) (i : Nat) (set : Nat → μ) (r : μ × Nat)
    (h : varintField wireType field b i set = .ok r) :
    varintField wireType field (b ++ suf) i set = .ok r ∧ r.2 ≤ b.length := by
  unfold varintField at h ⊢
  by_cases hw : wireType ≠ 0
  · rw [if_pos hw] at h
    cases h
  · rw [if_neg hw] at h ⊢
    cases hr : readVarint b i with
    | error f =>
      rw [hr] at h
      cases h
    | ok p =>
      obtain ⟨v, i1⟩ := p
      rw [hr] at h
      obtain ⟨h1, h2⟩ := readVarint_append suf b i _ hr
      rw [h1]
      dsimp only at h ⊢
      cases h
      exact ⟨rfl, h2⟩

theorem bytesField_append {μ : Type} (suf : List UInt8) (wireType : Nat) (field : String)
    (b : List UInt8) (i : Nat) (decode : List UInt8 → Except Fault μ) (r : μ × Nat)
    (h : bytesField wireType field b i decode = .ok r) :
    bytesField wireType field (b ++ suf) i decode = .ok r ∧ r.2 ≤ b.length := by
  unfold bytesField at h ⊢
  by_cases hw : wireType ≠ 2
  · rw [if_pos hw] at h
    cases h
  · rw [if_neg hw] at h ⊢
    cases hr : readLength b i with
    | error f =>
      rw [hr] at h
      cases h
    | ok p =>
      obtain ⟨i1, postIndex⟩ := p
      rw [hr] at h
      obtain ⟨h1, h2⟩ := readLength_append suf b i _ hr
      rw [h1]
      dsimp only at h h2 ⊢
      cases hsl : sliceOf b i1 postIndex with
      | error f =>
        rw [hsl] at h
        cases h
      | ok bytes =>
        rw [hsl] at h
        rw [sliceOf_append suf b i1 postIndex bytes hsl]
        dsimp only at h ⊢
        cases hm : decode bytes with
        | error f =>
          rw [hm] at h
          cases h
        | ok a =>
          rw [hm] at h
          dsimp only at h ⊢
          cases h
          exact ⟨rfl, h2⟩

theorem skipVarint_append (suf : List UInt8) :
    ∀ (fuel : Nat) (b : List UInt8) (i shift : Nat) (r : Nat),
    skipVarint fuel b i shift = .ok r → skipVarint fuel (b ++ suf) i shift = .ok r := by
  intro fuel
  induction fuel with
  | zero =>
    intro b i shift r h
    unfold skipVarint at h
    cases h
  | succ fuel ih =>
    intro b i shift r h
    unfold skipVarint at h ⊢
    by_cases hs : shift ≥ 64
    · rw [if_pos hs] at h
      cases h
    · rw [if_neg hs] at h ⊢
      by_cases hi : i ≥ b.length
      · rw [if_pos hi] at h
        cases h
      · rw [if_neg hi] at h
        have hlt : i < b.length := by omega
        rw [if_neg (by rw [List.length_append]; omega), Nat.add_sub_cancel,
          List.getElem?_append_left hlt]
        rw [Nat.add_sub_cancel, List.getElem?_eq_getElem hlt] at h
        rw [List.getElem?_eq_getElem hlt]
        dsimp only at h ⊢
        by_cases hb : b[i].toNat < 0x80
        · rw [if_pos hb] at h ⊢
          exact h
        · rw [if_neg hb] at h ⊢
          exact ih _ _ _ _ h

theorem skipValue_append (suf b : List UInt8) (i depth wireType : Nat) (r : Int × Nat)
    (h : skipValue b i depth wireType = .ok r) :
    skipValue (b ++ suf) i depth wireType = .ok r := by
  unfold skipValue at h ⊢
  by_cases h0 : wireType = 0
  · rw [if_pos h0] at h ⊢
    cases hr : skipVarint 11 b i 0 with
    | error f =>
      rw [hr] at h
      cases h
    | ok j =>
      rw [hr] at h
      rw [skipVarint_append suf 11 b i 0 j hr]
      exact h
  · rw [if_neg h0] at h ⊢
    by_cases h1 : wireType = 1
    · rw [if_pos h1] at h ⊢
      exact h
    · rw [if_neg h1] at h ⊢
      by_cases h2 : wireType = 2
      · rw [if_pos h2] at h ⊢
        cases hr : readVarint b i with
        | error f =>
          rw [hr] at h
          cases h
        | ok p =>
          rw [hr] at h
          rw [(readVarint_append suf b i p hr).1]
          exact h
      · rw [if_neg h2] at h ⊢
        exact h

theorem skipBatchLoop_append (suf : List UInt8) :
    ∀ (fuel : Nat) (b : List UInt8) (i depth : Nat) (r : Int) (k : Nat),
    skipBatchLoop fuel b i depth = .ok r →
    skipBatchLoop (fuel + k) (b ++ suf) i depth = .ok r := by
  intro fuel
  induction fuel with
  | zero =>
    intro b i depth r k h
    unfold skipBatchLoop at h
    cases h
  | succ fuel ih =>
    intro b i depth r k h
    rw [show fuel + 1 + k = (fuel + k) + 1 by omega]
    unfold skipBatchLoop at h ⊢
    by_cases hi : i < b.length
    · rw [if_pos hi] at h
      rw [if_pos (by rw [List.length_append]; omega)]
      cases hr : readVarint b i with
      | error f =>
        rw [hr] at h
        cases h
      | ok p =>
        obtain ⟨wire, i1⟩ := p
        rw [hr] at h
        rw [(readVarint_append suf b i _ hr).1]
        dsimp only at h ⊢
        cases hk : skipValue b i1 depth (wire &&& 0x7) with
        | error f =>
          rw [hk] at h
          cases h
        | ok q =>
          obtain ⟨i2, depth1⟩ := q
          rw [hk] at h
          rw [skipValue_append suf b i1 depth _ _ hk]
          dsimp only at h ⊢
          by_cases hneg : i2 < 0
          · rw [if_pos hneg] at h
            cases h
          · rw [if_neg hneg] at h ⊢
            by_cases hd : depth1 = 0
            · rw [if_pos hd] at h ⊢
              exact h
            · rw [if_neg hd] at h ⊢
              exact ih _ _ _ _ k h
    · rw [if_neg hi] at h
      cases h

theorem skipBatch_append (suf b : List UInt8) (r : Int) (h : skipBatch b = .ok r) :
    skipBatch (b ++ suf) = .ok r := by
  unfold skipBatch at h ⊢
  rw [List.length_append, show b.length + suf.length + 1 = b.length + 1 + suf.length by omega]
  exact skipBatchLoop_append suf _ b 0 0 r suf.length h

theorem skipUnknown_append (suf b : List UInt8) (preIndex : Nat) (r : Nat)
    (h : skipUnknown b preIndex = .ok r) :
    skipUnknown (b ++ suf) preIndex = .ok r ∧ r ≤ b.length := by
  unfold skipUnknown at h ⊢
  have hlen : (b ++ suf).length = b.length + suf.length := List.length_append _ _
  by_cases hp : preIndex ≤ b.length
  · rw [sliceOf_eq b preIndex b.length hp (Nat.le_refl _)] at h
    rw [sliceOf_eq (b ++ suf) preIndex (b ++ suf).length (by omega) (Nat.le_refl _)]
    rw [List.take_length] at h ⊢
    rw [List.drop_append_of_le_length hp]
    dsimp only at h ⊢
    cases hr : skipBatch (b.drop preIndex) with
    | error f =>
      rw [hr] at h
      cases h
    | ok skippy =>
      rw [hr] at h
      rw [skipBatch_append suf _ skippy hr]
      dsimp only at h ⊢
      by_cases h1 : skippy < 0
      · rw [if_pos h1] at h
        cases h
      · rw [if_neg h1] at h ⊢
        by_cases h2 : wrapInt64 (preIndex + skippy) < 0
        · rw [if_pos h2] at h
          cases h
        · rw [if_neg h2] at h ⊢
          by_cases h3 : wrapInt64 (preIndex + skippy) > b.length
          · rw [if_pos h3] at h
            cases h
          · rw [if_neg h3] at h
            rw [if_neg (by omega)]
            cases h
            exact ⟨rfl, by omega⟩
  · unfold sliceOf at h
    rw [if_neg (by omega)] at h
    cases h

/-! ## The loops of `Unmarshal` on a slice that is continued -/

theorem skipField_append {μ : Type} (suf : List UInt8) (m : μ) (b : List UInt8)
    (preIndex : Nat) (r : μ × Nat)
    (h : (match skipUnknown b preIndex with
      | .error f => (.error f : Except Fault (μ × Nat))
      | .ok i => .ok (m, i)) = .ok r) :
    (match skipUnknown (b ++ suf) preIndex with
      | .error f => (.error f : Except Fault (μ × Nat))
      | .ok i => .ok (m, i)) = .ok r ∧ r.2 ≤ b.length := by
  cases hr : skipUnknown b preIndex with
  | error f =>
    rw [hr] at h
    cases h
  | ok i =>
    rw [hr] at h
    obtain ⟨h1, h2⟩ := skipUnknown_append suf b preIndex i hr
    rw [h1]
    dsimp only at h ⊢
    cases h
    exact ⟨rfl, h2⟩

theorem transfer_unmarshalField_append (dec : NestedDecoder) (suf : List UInt8)
    (m : OutgoingTransferTx) (b : List UInt8) (i : Nat) (r : OutgoingTransferTx × Nat)
    (h : OutgoingTransferTx.unmarshalField dec m b i = .ok r) :
    OutgoingTransferTx.unmarshalField dec m (b ++ suf) i = .ok r ∧ r.2 ≤ b.length := by
  unfold OutgoingTransferTx.unmarshalField at h ⊢
  cases hr : readVarint b i with
  | error f =>
    rw [hr] at h
    cases h
  | ok p =>
    obtain ⟨wire, i1⟩ := p
    rw [hr] at h
    rw [(readVarint_append suf b i _ hr).1]
    dsimp only at h ⊢
    split_ifs at h ⊢
    · exact varintField_append suf _ _ b i1 _ r h
    · exact bytesField_append suf _ _ b i1 _ r h
    · exact bytesField_append suf _ _ b i1 _ r h
    · exact bytesField_append suf _ _ b i1 _ r h
    · exact bytesField_append suf _ _ b i1 _ r h
    · exact skipField_append suf m b i r h

theorem batch_unmarshalField_append (dec : NestedDecoder) (suf : List UInt8)
    (m : OutgoingTxBatch) (b : List UInt8) (i : Nat) (r : OutgoingTxBatch × Nat)
    (h : OutgoingTxBatch.unmarshalField dec m b i = .ok r) :
    OutgoingTxBatch.unmarshalField dec m (b ++ suf) i = .ok r ∧ r.2 ≤ b.length := by
  unfold OutgoingTxBatch.unmarshalField at h ⊢
  cases hr : readVarint b i with
  | error f =>
    rw [hr] at h
    cases h
  | ok p =>
    obtain ⟨wire, i1⟩ := p
    rw [hr] at h
    rw [(readVarint_append suf b i _ hr).1]
    dsimp only at h ⊢
    split_ifs at h ⊢
    · exact varintField_append suf _ _ b i1 _ r h
    · exact varintField_append suf _ _ b i1 _ r h
    · exact bytesField_append suf _ _ b i1 _ r h
    · exact bytesField_append suf _ _ b i1 _ r h
    · exact varintField_append suf _ _ b i1 _ r h
    · exact skipField_append suf m b i r h

/-- The loop of `OutgoingTransferTx.Unmarshal` on a slice that is continued
comes to the end of the slice with the message that it returns on the slice, and
goes on from there. -/
theorem transfer_loop_append (dec : NestedDecoder) (suf : List UInt8) :
    ∀ (fuel : Nat) (m : OutgoingTransferTx) (b : List UInt8) (i : Nat)
      (r : OutgoingTransferTx),
    OutgoingTransferTx.unmarshalLoop dec fuel m b i = .ok r →
    ∀ (k : Nat) (r2 : OutgoingTransferTx),
    OutgoingTransferTx.unmarshalLoop dec (k + 1) r (b ++ suf) b.length = .ok r2 →
    OutgoingTransferTx.unmarshalLoop dec (fuel + k) m (b ++ suf) i = .ok r2 := by
  intro fuel
  induction fuel with
  | zero =>
    intro m b i r h
    unfold OutgoingTransferTx.unmarshalLoop at h
    cases h
  | succ fuel ih =>
    intro m b i r h k r2 h2
    unfold OutgoingTransferTx.unmarshalLoop at h
    by_cases hi : i < b.length
    · rw [if_pos hi] at h
      rw [show fuel + 1 + k = (fuel + k) + 1 by omega]
      unfold OutgoingTransferTx.unmarshalLoop
      rw [if_pos (by rw [List.length_append]; omega)]
      cases hf : OutgoingTransferTx.unmarshalField dec m b i with
      | error f =>
        rw [hf] at h
        cases h
      | ok p =>
        obtain ⟨m1, j⟩ := p
        rw [hf] at h
        rw [(transfer_unmarshalField_append dec suf m b i _ hf).1]
        dsimp only at h ⊢
        exact ih m1 b j r h k r2 h2
    · rw [if_neg hi] at h
      by_cases hgt : i > b.length
      · rw [if_pos hgt] at h
        cases h
      · rw [if_neg hgt] at h
        cases h
        have hib : i = b.length := by omega
        rw [hib, show fuel + 1 + k = k + 1 + fuel by omega]
        exact transfer_loop_add dec (k + 1) fuel m (b ++ suf) b.length r2 h2

/-- The loop of `OutgoingTxBatch.Unmarshal` on a slice that is continued comes
to the end of the slice with the message that it returns on the slice, and goes
on from there. -/
theorem batch_loop_append (dec : NestedDecoder) (suf : List UInt8) :
    ∀ (fuel : Nat) (m : OutgoingTxBatch) (b : List UInt8) (i : Nat) (r : OutgoingTxBatch),
    OutgoingTxBatch.unmarshalLoop dec fuel m b i = .ok r →
    ∀ (k : Nat) (r2 : OutgoingTxBatch),
    OutgoingTxBatch.unmarshalLoop dec (k + 1) r (b ++ suf) b.length = .ok r2 →
    OutgoingTxBatch.unmarshalLoop dec (fuel + k) m (b ++ suf) i = .ok r2 := by
  intro fuel
  induction fuel with
  | zero =>
    intro m b i r h
    unfold OutgoingTxBatch.unmarshalLoop at h
    cases h
  | succ fuel ih =>
    intro m b i r h k r2 h2
    unfold OutgoingTxBatch.unmarshalLoop at h
    by_cases hi : i < b.length
    · rw [if_pos hi] at h
      rw [show fuel + 1 + k = (fuel + k) + 1 by omega]
      unfold OutgoingTxBatch.unmarshalLoop
      rw [if_pos (by rw [List.length_append]; omega)]
      cases hf : OutgoingTxBatch.unmarshalField dec m b i with
      | error f =>
        rw [hf] at h
        cases h
      | ok p =>
        obtain ⟨m1, j⟩ := p
        rw [hf] at h
        rw [(batch_unmarshalField_append dec suf m b i _ hf).1]
        dsimp only at h ⊢
        exact ih m1 b j r h k r2 h2
    · rw [if_neg hi] at h
      by_cases hgt : i > b.length
      · rw [if_pos hgt] at h
        cases h
      · rw [if_neg hgt] at h
        cases h
        have hib : i = b.length := by omega
        rw [hib, show fuel + 1 + k = k + 1 + fuel by omega]
        exact batch_loop_add dec (k + 1) fuel m (b ++ suf) b.length r2 h2

/-! ## A field that the message does not know -/

theorem skipVarint_bytes : ∀ (bytes pre suf : List UInt8) (fuel shift : Nat),
    isVarintBytes bytes = true → shift + 7 * bytes.length ≤ 70 → bytes.length ≤ fuel →
    skipVarint fuel (pre ++ bytes ++ suf) pre.length shift = .ok (pre.length + bytes.length) := by
  intro bytes
  induction bytes with
  | nil =>
    intro pre suf fuel shift h
    cases h
  | cons c rest ih =>
    intro pre suf fuel shift h hs hf
    rw [List.length_cons] at hs hf
    obtain ⟨fuel, rfl⟩ : ∃ f, fuel = f + 1 := ⟨fuel - 1, by omega⟩
    unfold isVarintBytes at h
    unfold skipVarint
    rw [if_neg (by omega), if_neg (by simp), Nat.add_sub_cancel]
    have hget : (pre ++ c :: rest ++ suf)[pre.length]? = some c := by
      rw [List.append_assoc, List.getElem?_append_right (Nat.le_refl _)]
      simp
    rw [hget]
    dsimp only
    by_cases hc : c.toNat < 0x80
    · rw [if_pos hc] at h ⊢
      have hrest : rest = [] := List.isEmpty_iff.mp h
      rw [hrest]
      rfl
    · rw [if_neg hc] at h ⊢
      have happ : pre ++ c :: rest ++ suf = (pre ++ [c]) ++ rest ++ suf := by simp
      have hpl : pre.length + 1 = (pre ++ [c]).length := by simp
      rw [happ, hpl, ih (pre ++ [c]) suf fuel (shift + 7) h (by omega) (by omega)]
      congr 1
      simp
      omega

theorem isVarintBytes_ne_nil {bytes : List UInt8} (h : isVarintBytes bytes = true) :
    bytes ≠ [] := by
  intro hn
  rw [hn] at h
  cases h

/-- The `switch wireType` of `skipBatch` on a well-formed value moves the index
to the end of the value. -/
theorem skipValue_unknown (value : UnknownValue) (hv : value.wellFormed = true)
    (pre : List UInt8) (hl : pre.length + value.encode.length < 2 ^ 63) :
    skipValue (pre ++ value.encode) pre.length 0 value.wireType =
      .ok (((pre.length + value.encode.length : Nat) : Int), 0) := by
  cases value with
  | varint bytes =>
    have hv2 : isVarintBytes bytes = true ∧ bytes.length ≤ 10 := by
      simpa [UnknownValue.wellFormed] using hv
    have hwt : (UnknownValue.varint bytes).wireType = 0 := rfl
    have henc : (UnknownValue.varint bytes).encode = bytes := rfl
    rw [hwt, henc]
    have h := skipVarint_bytes bytes pre [] 11 0 hv2.1 (by omega) (by omega)
    rw [List.append_nil] at h
    unfold skipValue
    rw [if_pos rfl, h]
  | fixed64 bytes =>
    have hv2 : bytes.length = 8 := by simpa [UnknownValue.wellFormed] using hv
    have hwt : (UnknownValue.fixed64 bytes).wireType = 1 := rfl
    have henc : (UnknownValue.fixed64 bytes).encode = bytes := rfl
    rw [henc] at hl
    rw [hwt, henc]
    unfold skipValue
    rw [if_neg (by decide), if_pos rfl, wrapInt64_add_of_lt _ _ (by decide) (by omega)]
    congr 2
    omega
  | lengthDelimited payload =>
    have hwt : (UnknownValue.lengthDelimited payload).wireType = 2 := rfl
    have henc : (UnknownValue.lengthDelimited payload).encode =
        specVarint payload.length ++ payload := rfl
    rw [henc] at hl
    rw [hwt, henc]
    rw [List.length_append] at hl
    have hr := readVarint_at payload.length (by omega)
      (pre ++ (specVarint payload.length ++ payload)) pre payload
      (by rw [List.append_assoc])
    unfold skipValue
    rw [if_neg (by decide), if_neg (by decide), if_pos rfl, hr]
    dsimp only
    rw [wrapInt64_of_lt _ (by omega), if_neg (by omega),
      wrapInt64_add_of_lt _ _ (by omega) (by omega)]
    congr 2
    rw [List.length_append]
    omega
  | fixed32 bytes =>
    have hv2 : bytes.length = 4 := by simpa [UnknownValue.wellFormed] using hv
    have hwt : (UnknownValue.fixed32 bytes).wireType = 5 := rfl
    have henc : (UnknownValue.fixed32 bytes).encode = bytes := rfl
    rw [henc] at hl
    rw [hwt, henc]
    unfold skipValue
    rw [if_neg (by decide), if_neg (by decide), if_neg (by decide), if_neg (by decide),
      if_neg (by decide), if_pos rfl, wrapInt64_add_of_lt _ _ (by decide) (by omega)]
    congr 2
    omega

theorem wireType_lt (value : UnknownValue) : value.wireType < 8 := by
  cases value <;> simp [UnknownValue.wireType]

theorem wireType_ne_four (value : UnknownValue) : value.wireType ≠ 4 := by
  cases value <;> simp [UnknownValue.wireType]

theorem tag_wireType (fieldNum : Nat) (value : UnknownValue) :
    (fieldNum * 8 + value.wireType) &&& 0x7 = value.wireType := by
  have h := Nat.and_pow_two_sub_one_eq_mod (fieldNum * 8 + value.wireType) 3
  have hw := wireType_lt value
  rw [show (0x7 : Nat) = 2 ^ 3 - 1 from rfl, h]
  omega

theorem tag_fieldNum (fieldNum : Nat) (value : UnknownValue) (hmax : fieldNum < 2 ^ 31) :
    toInt32 ((fieldNum * 8 + value.wireType) >>> 3) = (fieldNum : Int) := by
  have hw := wireType_lt value
  have hs : (fieldNum * 8 + value.wireType) >>> 3 = fieldNum := by
    rw [Nat.shiftRight_eq_div_pow]
    omega
  rw [hs]
  unfold toInt32
  omega

theorem encode_ne_nil (value : UnknownValue) (hv : value.wellFormed = true) :
    value.encode ≠ [] := by
  cases value with
  | varint bytes =>
    have hv2 : isVarintBytes bytes = true ∧ bytes.length ≤ 10 := by
      simpa [UnknownValue.wellFormed] using hv
    exact isVarintBytes_ne_nil hv2.1
  | fixed64 bytes =>
    have hv2 : bytes.length = 8 := by simpa [UnknownValue.wellFormed] using hv
    intro hn
    have hn2 : bytes = [] := hn
    rw [hn2] at hv2
    cases hv2
  | lengthDelimited payload =>
    intro hn
    have hn2 : specVarint payload.length ++ payload = [] := hn
    exact specVarint_ne_nil _ (List.append_eq_nil.mp hn2).1
  | fixed32 bytes =>
    have hv2 : bytes.length = 4 := by simpa [UnknownValue.wellFormed] using hv
    intro hn
    have hn2 : bytes = [] := hn
    rw [hn2] at hv2
    cases hv2

/-- The function `skipBatch` on a well-formed field returns its length. -/
theorem skipBatch_unknownField (fieldNum : Nat) (value : UnknownValue)
    (hmax : fieldNum < 2 ^ 31) (hv : value.wellFormed = true)
    (hl : (specUnknownField fieldNum value).length < 2 ^ 63) :
    skipBatch (specUnknownField fieldNum value) =
      .ok (((specUnknownField fieldNum value).length : Nat) : Int) := by
  have hw := wireType_lt value
  have hlen : (specUnknownField fieldNum value).length =
      (specVarint (fieldNum * 8 + value.wireType)).length + value.encode.length := by
    unfold specUnknownField
    rw [List.length_append]
  have hread := readVarint_at (fieldNum * 8 + value.wireType) (by omega)
    (specUnknownField fieldNum value) [] value.encode (by unfold specUnknownField; rfl)
  rw [List.length_nil, Nat.zero_add] at hread
  have hpos : 0 < (specVarint (fieldNum * 8 + value.wireType)).length :=
    List.length_pos.mpr (specVarint_ne_nil _)
  unfold skipBatch
  unfold skipBatchLoop
  rw [if_pos (by omega), hread]
  dsimp only
  rw [tag_wireType]
  have hskip := skipValue_unknown value hv (specVarint (fieldNum * 8 + value.wireType))
    (by omega)
  have hfield : specUnknownField fieldNum value =
      specVarint (fieldNum * 8 + value.wireType) ++ value.encode := rfl
  rw [← hfield] at hskip
  rw [hskip]
  dsimp only
  rw [if_neg (by omega), if_pos rfl, hlen]

/-- The `default` case on a well-formed field at the end of the slice moves the
index to the end of the slice. -/
theorem skipUnknown_unknownField (b : List UInt8) (fieldNum : Nat) (value : UnknownValue)
    (hmax : fieldNum < 2 ^ 31) (hv : value.wellFormed = true)
    (hl : (b ++ specUnknownField fieldNum value).length < 2 ^ 63) :
    skipUnknown (b ++ specUnknownField fieldNum value) b.length =
      .ok (b ++ specUnknownField fieldNum value).length := by
  have hlen : (b ++ specUnknownField fieldNum value).length =
      b.length + (specUnknownField fieldNum value).length := List.length_append _ _
  unfold skipUnknown
  rw [sliceOf_eq _ _ _ (by omega) (Nat.le_refl _), List.take_length, List.drop_left]
  dsimp only
  rw [skipBatch_unknownField fieldNum value hmax hv (by omega)]
  dsimp only
  rw [wrapInt64_add_of_lt _ _ (by omega) (by omega), if_neg (by omega), if_neg (by omega),
    if_neg (by omega)]
  congr 1
  omega

theorem transfer_field_unknown (dec : NestedDecoder) (m : OutgoingTransferTx) (b : List UInt8)
    (fieldNum : Nat) (value : UnknownValue) (hnum : 5 < fieldNum) (hmax : fieldNum < 2 ^ 31)
    (hv : value.wellFormed = true)
    (hl : (b ++ specUnknownField fieldNum value).length < 2 ^ 63) :
    OutgoingTransferTx.unmarshalField dec m (b ++ specUnknownField fieldNum value) b.length =
      .ok (m, (b ++ specUnknownField fieldNum value).length) := by
  have hw := wireType_lt value
  have hread := readVarint_at (fieldNum * 8 + value.wireType) (by omega)
    (b ++ specUnknownField fieldNum value) b value.encode
    (by unfold specUnknownField; rw [List.append_assoc])
  unfold OutgoingTransferTx.unmarshalField
  rw [hread]
  dsimp only
  rw [tag_wireType, tag_fieldNum fieldNum value hmax,
    if_neg (wireType_ne_four value), if_neg (by omega), if_neg (by omega), if_neg (by omega),
    if_neg (by omega), if_neg (by omega), if_neg (by omega),
    skipUnknown_unknownField b fieldNum value hmax hv hl]

theorem batch_field_unknown (dec : NestedDecoder) (m : OutgoingTxBatch) (b : List UInt8)
    (fieldNum : Nat) (value : UnknownValue) (hnum : 5 < fieldNum) (hmax : fieldNum < 2 ^ 31)
    (hv : value.wellFormed = true)
    (hl : (b ++ specUnknownField fieldNum value).length < 2 ^ 63) :
    OutgoingTxBatch.unmarshalField dec m (b ++ specUnknownField fieldNum value) b.length =
      .ok (m, (b ++ specUnknownField fieldNum value).length) := by
  have hw := wireType_lt value
  have hread := readVarint_at (fieldNum * 8 + value.wireType) (by omega)
    (b ++ specUnknownField fieldNum value) b value.encode
    (by unfold specUnknownField; rw [List.append_assoc])
  unfold OutgoingTxBatch.unmarshalField
  rw [hread]
  dsimp only
  rw [tag_wireType, tag_fieldNum fieldNum value hmax,
    if_neg (wireType_ne_four value), if_neg (by omega), if_neg (by omega), if_neg (by omega),
    if_neg (by omega), if_neg (by omega), if_neg (by omega),
    skipUnknown_unknownField b fieldNum value hmax hv hl]

theorem specUnknownField_ne_nil (fieldNum : Nat) (value : UnknownValue) :
    specUnknownField fieldNum value ≠ [] := by
  intro hn
  exact specVarint_ne_nil _ (List.append_eq_nil.mp hn).1

/-- The method `OutgoingTransferTx.Unmarshal` on a slice that decodes, followed by
a well-formed field that the message does not know. -/
theorem transfer_unmarshal_unknown (dec : NestedDecoder) (b : List UInt8) (fieldNum : Nat)
    (value : UnknownValue) (hnum : 5 < fieldNum) (hmax : fieldNum < 2 ^ 31)
    (hv : value.wellFormed = true)
    (hl : (b ++ specUnknownField fieldNum value).length < 2 ^ 63)
    (m0 m : OutgoingTransferTx) (h : OutgoingTransferTx.Unmarshal dec m0 b = .ok m) :
    OutgoingTransferTx.Unmarshal dec m0 (b ++ specUnknownField fieldNum value) = .ok m := by
  unfold OutgoingTransferTx.Unmarshal at h ⊢
  have hend := transfer_loop_end dec m (b ++ specUnknownField fieldNum value)
  have hlast := transfer_loop_piece dec m m (specUnknownField fieldNum value)
    (b ++ specUnknownField fieldNum value) b [] (by rw [List.append_nil])
    (Or.inr ⟨specUnknownField_ne_nil fieldNum value, by
      rw [← List.length_append]
      exact transfer_field_unknown dec m b fieldNum value hnum hmax hv hl⟩) 1 m
    (by rw [← List.length_append]; exact hend)
  rw [Nat.add_comm] at hlast
  have hloop := transfer_loop_append dec (specUnknownField fieldNum value) (b.length + 1) m0 b 0
    m h (specUnknownField fieldNum value).length m hlast
  rw [List.length_append,
    show b.length + (specUnknownField fieldNum value).length + 1 =
      b.length + 1 + (specUnknownField fieldNum value).length by omega]
  exact hloop

/-- The method `OutgoingTxBatch.Unmarshal` on a slice that decodes, followed by a
well-formed field that the message does not know. -/
theorem batch_unmarshal_unknown (dec : NestedDecoder) (b : List UInt8) (fieldNum : Nat)
    (value : UnknownValue) (hnum : 5 < fieldNum) (hmax : fieldNum < 2 ^ 31)
    (hv : value.wellFormed = true)
    (hl : (b ++ specUnknownField fieldNum value).length < 2 ^ 63)
    (m0 m : OutgoingTxBatch) (h : OutgoingTxBatch.Unmarshal dec m0 b = .ok m) :
    OutgoingTxBatch.Unmarshal dec m0 (b ++ specUnknownField fieldNum value) = .ok m := by
  unfold OutgoingTxBatch.Unmarshal at h ⊢
  have hend := batch_loop_end dec m (b ++ specUnknownField fieldNum value)
  have hlast := batch_loop_piece dec m m (specUnknownField fieldNum value)
    (b ++ specUnknownField fieldNum value) b [] (by rw [List.append_nil])
    (Or.inr ⟨specUnknownField_ne_nil fieldNum value, by
      rw [← List.length_append]
      exact batch_field_unknown dec m b fieldNum value hnum hmax hv hl⟩) 1 m
    (by rw [← List.length_append]; exact hend)
  rw [Nat.add_comm] at hlast
  have hloop := batch_loop_append dec (specUnknownField fieldNum value) (b.length + 1) m0 b 0
    m h (specUnknownField fieldNum value).length m hlast
  rw [List.length_append,
    show b.length + (specUnknownField fieldNum value).length + 1 =
      b.length + 1 + (specUnknownField fieldNum value).length by omega]
  exact hloop

/-! ## Unknown fields -/

/-- C31: unknown fields are skipped without effect. If a byte slice decodes to a
message `m`, as an `OutgoingTransferTx` or as an `OutgoingTxBatch` and on any
receiver, then the slice followed by a well-formed field (a varint, eight bytes,
a length-delimited payload or four bytes, all of it in the slice) whose field
number is a positive `int32` and not one of the five of the message decodes to
the same `m`. A tag with the field number 0 is not a field: both methods refuse
it as an illegal tag. -/
theorem unknown_field_skipped (dec : NestedDecoder) (b : List UInt8) (fieldNum : Nat)
    (value : UnknownValue) (hpos : 0 < fieldNum) (hmax : fieldNum < 2 ^ 31)
    (hunknown : fieldNum ∉ [1, 2, 3, 4, 5]) (hvalue : value.wellFormed = true)
    (hlen : (b ++ specUnknownField fieldNum value).length < 2 ^ 63) :
    (∀ m0 m : OutgoingTransferTx, OutgoingTransferTx.Unmarshal dec m0 b = .ok m →
      OutgoingTransferTx.Unmarshal dec m0 (b ++ specUnknownField fieldNum value) = .ok m) ∧
    (∀ m0 m : OutgoingTxBatch, OutgoingTxBatch.Unmarshal dec m0 b = .ok m →
      OutgoingTxBatch.Unmarshal dec m0 (b ++ specUnknownField fieldNum value) = .ok m) ∧
    OutgoingTransferTx.Unmarshal dec .zero (specUnknownField 0 (.varint [0x00])) =
      .error (.err (.illegalTag "OutgoingTransferTx" 0 0)) ∧
    OutgoingTxBatch.Unmarshal dec .zero (specUnknownField 0 (.varint [0x00])) =
      .error (.err (.illegalTag "OutgoingTxBatch" 0 0)) := by
  have hnum : 5 < fieldNum := by
    simp only [List.mem_cons, List.mem_singleton, List.not_mem_nil, or_false, not_or]
      at hunknown
    omega
  exact ⟨fun m0 m h => transfer_unmarshal_unknown dec b fieldNum value hnum hmax hvalue hlen m0 m h,
    fun m0 m h => batch_unmarshal_unknown dec b fieldNum value hnum hmax hvalue hlen m0 m h,
    rfl, rfl⟩

/-- The statement of C31 at the slice `08 07`, which decodes to a transfer with
the id 7 and to a batch with the nonce 7, followed by the field 6 with the
payload `01 02 03`. -/
theorem unknown_field_skipped_witness :
    specUnknownField 6 (.lengthDelimited [1, 2, 3]) = [0x32, 0x03, 1, 2, 3] ∧
    OutgoingTransferTx.Unmarshal sampleDecoder .zero [0x08, 0x07] =
      .ok { OutgoingTransferTx.zero with Id := 7 } ∧
    OutgoingTransferTx.Unmarshal sampleDecoder .zero
        ([0x08, 0x07] ++ specUnknownField 6 (.lengthDelimited [1, 2, 3])) =
      .ok { OutgoingTransferTx.zero with Id := 7 } ∧
    OutgoingTxBatch.Unmarshal sampleDecoder .zero [0x08, 0x07] =
      .ok { OutgoingTxBatch.zero with BatchNonce := 7 } ∧
    OutgoingTxBatch.Unmarshal sampleDecoder .zero
        ([0x08, 0x07] ++ specUnknownField 6 (.lengthDelimited [1, 2, 3])) =
      .ok { OutgoingTxBatch.zero with BatchNonce := 7 } :=
  have h := unknown_field_skipped sampleDecoder [0x08, 0x07] 6 (.lengthDelimited [1, 2, 3])
    (by decide) (by decide) (by decide) rfl (by decide)
  ⟨by decide, rfl, h.1 _ _ rfl, rfl, h.2.1 _ _ rfl⟩

end Gravity
